import Mathlib

/-!
# Block-sampled compressed integer sequences of sdsl-lite

A shallow embedding of `bp_vector.hpp`, `optpfor_vector.hpp` and `ef_vector.hpp`
and the properties of their constructors and accessors.

Conventions of the embedding:

* a C++ array or vector is a `List Nat`; an unsigned machine integer is a `Nat`
  reduced modulo `2 ^ 32` or `2 ^ 64` where the source stores it in 32 or 64 bits;
* a read that the source performs outside an array has no defined value and is
  `none` (or `Built.undefined` during construction);
* the template parameter `t_dens` / `t_block_size` is the argument `dens` / `B`;
* the block codecs of FastPForLib and the list codecs of `eliasfano_list.hpp` and
  `bitvector_list.hpp` are not part of the sources and are parameters.
-/

namespace sdsl

/-! ## Machine words -/

/-- Number of values of a `uint32_t`. -/
def U32 : Nat := 2 ^ 32

/-- Number of values of a `uint64_t` (also `size_type`). -/
def U64 : Nat := 2 ^ 64

/-- The marker `optpfor_vector::BLOCK_FULL`. -/
def BLOCK_FULL : Nat := 0

/-! ## Outcome of a constructor -/

/-- What running a constructor gives: the built object, a thrown
`std::runtime_error`, a read outside an array (no defined behaviour), or a loop
that has not finished within the iterations granted to it. -/
inductive Built (α : Type) where
  | ok (v : α) : Built α
  | runtime_error (what : String) : Built α
  | undefined : Built α
  | out_of_fuel : Built α
  deriving Repr, DecidableEq

/-! ## The delta variants: `bp_vector` and `optpfor_vector` -/

/-- The block codec `comp_codec` (`FastPForLib::FastBinaryPacking` for
`bp_vector`, `FastPForLib::OPTPFor` for `optpfor_vector`); FastPForLib is not part
of the sources. `encodeBlock frame` is the list of 32-bit words appended to the
payload, `decodeBlock words` the content of the scratch array `tmp` after decoding
from the pointer `&m_z[data_start]`, `words` being the payload from there on. -/
structure BlockCodec where
  encodeBlock : List Nat → List Nat
  decodeBlock : List Nat → List Nat

/-- The data members shared by `bp_vector` and `optpfor_vector`. -/
structure DeltaVector where
  m_sample_vals_and_pointer : List Nat
  m_size : Nat
  m_z : List Nat
  deriving Repr, DecidableEq

/-- A default-constructed vector: `m_size = 0` and both buffers empty. -/
def DeltaVector.default : DeltaVector :=
  { m_sample_vals_and_pointer := [], m_size := 0, m_z := [] }

/-- Modelled from the spec: `FastPForLib::Delta::fastDelta` (deltautil.h is not part of
the sources); forward differences in place in 32-bit arithmetic, `delta[j] = v[j] - v[j-1]`
for `j > 0`, the first entry left as it is (the caller overwrites it with 0). -/
def fastDelta (tmp : List Nat) : List Nat :=
  (List.range tmp.length).map fun j =>
    if j = 0 then tmp.getD 0 0 else (tmp.getD j 0 + U32 - tmp.getD (j - 1) 0) % U32

/-- Modelled from the spec: `util::bit_compress` (util.hpp is not part of the sources)
narrows the bit width of an `int_vector` to the widest entry; every entry keeps its value. -/
def bit_compress (v : List Nat) : List Nat := v

/-- Modelled from the spec: `int_vector<0>::resize` (int_vector.hpp is not part of the
sources); the cells it adds are not initialised, cell `j` holds `junk j`. -/
def resize_uninit (junk : Nat → Nat) (len : Nat) : List Nat :=
  (List.range len).map junk

/-- The test `is_full` of `optpfor_vector.hpp` lines 252-258: every entry of `tmp`
equals its predecessor plus one, compared as `uint32_t`. -/
def is_full : List Nat → Bool
  | [] => true
  | [_] => true
  | a :: b :: rest => (b == (a + 1) % U32) && is_full (b :: rest)

/-- The local variables of the constructor while it encodes blocks. `z` holds the
words `m_z[0 .. z_size)`, so `z_size` is `z.length` and `out` is `&m_z[z_size]`; `z_size`
counts words of a buffer in memory and is stored in a 64-bit cell without reduction. -/
structure BuildState where
  table : List Nat
  sample_itr : Nat
  z : List Nat
  it : Nat
  left : Nat
  deriving Repr, DecidableEq

/-- One pass through the body of `for (auto it = c.begin(); left >= block_size; it+=block_size)`.
With `full_check` the body is that of `optpfor_vector.hpp` (lines 249-273), without it that of
`bp_vector.hpp` (lines 249-261). -/
def encode_step (cd : BlockCodec) (dens : Nat) (full_check : Bool) (c : List Nat)
    (st : BuildState) : BuildState :=
  let sample_val := c.getD st.it 0
  let tmp := ((c.drop st.it).take dens).map (· % U32)
  let table1 := st.table.set st.sample_itr (sample_val % U64)
  if full_check && is_full tmp then
    { table := table1.set (st.sample_itr + 1) BLOCK_FULL
      sample_itr := st.sample_itr + 2
      z := st.z
      it := st.it + dens
      left := st.left - dens }
  else
    { table := table1.set (st.sample_itr + 1) st.z.length
      sample_itr := st.sample_itr + 2
      z := st.z ++ cd.encodeBlock ((fastDelta tmp).set 0 0)
      it := st.it + dens
      left := st.left - dens }

/-- The loop over the complete blocks; `none` when it is still running after `fuel`
passes. -/
def encode_blocks (cd : BlockCodec) (dens : Nat) (full_check : Bool) (c : List Nat) :
    Nat → BuildState → Option BuildState
  | 0, st => if dens ≤ st.left then none else some st
  | fuel + 1, st =>
    if dens ≤ st.left then encode_blocks cd dens full_check c fuel (encode_step cd dens full_check c st)
    else some st

/-- The frame of the short last block: `tmp[i] = c[n-left+i]` for `i < left` and
`tmp[i] = c[n-1]` for `left <= i < sample_dens`. -/
def last_block_tmp (dens : Nat) (c : List Nat) (left : Nat) : List Nat :=
  (List.range dens).map fun i =>
    (if i < left then c.getD (c.length - left + i) 0 else c.getD (c.length - 1) 0) % U32

/-- The statement `if (left) { ... }` that encodes the short last block. -/
def encode_last (cd : BlockCodec) (dens : Nat) (c : List Nat) (st : BuildState) : BuildState :=
  if st.left ≠ 0 then
    let sample_val := c.getD (c.length - st.left) 0
    { table := (st.table.set st.sample_itr (sample_val % U64)).set (st.sample_itr + 1)
        st.z.length
      sample_itr := st.sample_itr + 2
      z := st.z ++ cd.encodeBlock ((fastDelta (last_block_tmp dens c st.left)).set 0 0)
      it := st.it
      left := st.left }
  else st

/-- The two writes `*(sample_itr++) = 0` that only the `int_vector_buffer` constructors
perform ("terminate samples to match enc_vector"). -/
def terminate_samples (terminate : Bool) (st : BuildState) : BuildState :=
  if terminate then
    { st with table := (st.table.set st.sample_itr 0).set (st.sample_itr + 1) 0
              sample_itr := st.sample_itr + 2 }
  else st

/-- The number of blocks of `n` elements, the variable `samples` of the constructors. -/
def num_blocks (dens n : Nat) : Nat :=
  n / dens + (if n % dens ≠ 0 then 1 else 0)

/-- The constructor shared by the two delta variants. `what` is the text of the exception,
`z0` the words of `m_z` in front of the first block, `full_check` selects the body of
`optpfor_vector`, `terminate` the `int_vector_buffer` constructor, `junk` is the content of
the cells of the sample table when `resize` returns. -/
def delta_build (what : String) (z0 : List Nat) (full_check terminate : Bool)
    (junk : Nat → Nat) (cd : BlockCodec) (dens : Nat) (c : List Nat) : Built DeltaVector :=
  if c.length = 0 then Built.ok DeltaVector.default
  else if c.any (fun x => decide (x > U32 - 1)) then Built.runtime_error what
  else
    let samples := num_blocks dens c.length
    let st0 : BuildState :=
      { table := resize_uninit junk (2 * samples + 2), sample_itr := 0, z := z0, it := 0,
        left := c.length }
    match encode_blocks cd dens full_check c c.length st0 with
    | none => Built.out_of_fuel
    | some st1 =>
      let st2 := terminate_samples terminate (encode_last cd dens c st1)
      Built.ok
        { m_sample_vals_and_pointer := bit_compress st2.table
          m_size := c.length
          m_z := st2.z }

/-- The loop `for (size_t j=1; j<=offset; j++) tmp[j] += tmp[j-1];` on `uint32_t`. -/
def accumulate : Nat → List Nat → List Nat
  | 0, tmp => tmp
  | j + 1, tmp =>
    let t := accumulate j tmp
    t.set (j + 1) ((t.getD (j + 1) 0 + t.getD j 0) % U32)

/-- The accessor `operator[]` shared by the two delta variants; `has_full` adds the test
`data_start == BLOCK_FULL` of `optpfor_vector`. The two `assert`s abort the call unless the
build defines `NDEBUG`; an aborted call and a read outside the sample table give `none`. -/
def delta_index (has_full : Bool) (NDEBUG : Bool) (cd : BlockCodec) (dens : Nat)
    (v : DeltaVector) (i : Nat) : Option Nat :=
  if !NDEBUG && (decide ((i + 1) % U64 = 0) || decide (¬ i < v.m_size)) then none
  else
    let block_id := i / dens
    let offset := i % dens
    match v.m_sample_vals_and_pointer[2 * block_id]?,
        v.m_sample_vals_and_pointer[2 * block_id + 1]? with
    | some sample, some data_start =>
      if offset = 0 || (has_full && data_start == BLOCK_FULL) then
        some ((sample + offset) % U32)
      else
        let tmp := cd.decodeBlock (v.m_z.drop data_start)
        let tmp := tmp.set 0 (sample % U32)
        (accumulate offset tmp)[offset]?
    | _, _ => none

namespace bp_vector

/-- The constructor `bp_vector(const Container& c)`. `pad` is the number of words skipped by
`while (FastPForLib::needPaddingTo128Bits(out))`, fixed by the address of `m_z`. -/
def build (pad : Nat) (junk : Nat → Nat) (cd : BlockCodec) (dens : Nat) (c : List Nat) :
    Built DeltaVector :=
  delta_build "bp_vector: only supports 32bit integers." (List.replicate pad 0) false false
    junk cd dens c

/-- The member `bp_vector::operator[]`. -/
def index (NDEBUG : Bool) (cd : BlockCodec) (dens : Nat) (v : DeltaVector) (i : Nat) :
    Option Nat :=
  delta_index false NDEBUG cd dens v i

end bp_vector

namespace optpfor_vector

/-- The constructor `optpfor_vector(const Container& c)`: the payload starts at `&m_z[1]`. -/
def build (junk : Nat → Nat) (cd : BlockCodec) (dens : Nat) (c : List Nat) :
    Built DeltaVector :=
  delta_build "optpfor_vector: only supports 32bit integers." [0] true false junk cd dens c

/-- The member `optpfor_vector::operator[]`. -/
def index (NDEBUG : Bool) (cd : BlockCodec) (dens : Nat) (v : DeltaVector) (i : Nat) :
    Option Nat :=
  delta_index true NDEBUG cd dens v i

end optpfor_vector

/-- The block codec used to run the model: a frame is stored as it is. -/
def plainCodec (dens : Nat) : BlockCodec :=
  { encodeBlock := fun frame => frame
    decodeBlock := fun words => words.take dens }

/-- The hypothesis on the block codec: decoding at the first word of an encoded frame of
`dens` 32-bit words gives the frame back, whatever follows it in the payload. -/
def CodecInverts (cd : BlockCodec) (dens : Nat) : Prop :=
  ∀ frame rest : List Nat, frame.length = dens → (∀ x ∈ frame, x < U32) →
    cd.decodeBlock (cd.encodeBlock frame ++ rest) = frame

/-- The values `tmp` holds for the complete block `b` before the deltas are taken. -/
def block_tmp (dens : Nat) (c : List Nat) (b : Nat) : List Nat :=
  ((c.drop (b * dens)).take dens).map (· % U32)

/-- Block `b` with values `vals` is stored in a sample table and payload: the sample is the
first value, and the pointer is either the full marker (the values being a run) or the
position of the encoded delta frame of `vals` in the payload. -/
def BlockStored (cd : BlockCodec) (has_full : Bool) (table z : List Nat) (b : Nat)
    (vals : List Nat) : Prop :=
  table[2 * b]? = some (vals.getD 0 0) ∧
  ∃ p, table[2 * b + 1]? = some p ∧
    ((has_full = true ∧ p = BLOCK_FULL ∧ is_full vals = true) ∨
     ((has_full = true → p ≠ BLOCK_FULL) ∧ p ≤ z.length ∧
        ∃ rest, z.drop p = cd.encodeBlock ((fastDelta vals).set 0 0) ++ rest))

/-- The words block `b` adds to the payload: none for a complete block detected as a full run
(with `full_check`), the encoded delta frame otherwise; the short last block is always
encoded. -/
def block_words (cd : BlockCodec) (fc : Bool) (dens : Nat) (c : List Nat) (b : Nat) : List Nat :=
  if b * dens + dens ≤ c.length then
    (if fc && is_full (block_tmp dens c b) then []
     else cd.encodeBlock ((fastDelta (block_tmp dens c b)).set 0 0))
  else cd.encodeBlock ((fastDelta (last_block_tmp dens c (c.length % dens))).set 0 0)

/-- The payload once the first `k` blocks are encoded, `z0` being the words in front of the
first block. -/
def payload_upto (cd : BlockCodec) (fc : Bool) (dens : Nat) (c : List Nat) (z0 : List Nat) :
    Nat → List Nat
  | 0 => z0
  | k + 1 => payload_upto cd fc dens c z0 k ++ block_words cd fc dens c k

/-- The block pointer the constructor records for block `b`: the full marker for a complete
block detected as a full run, the number of payload words written before the block
otherwise. -/
def block_pointer (cd : BlockCodec) (fc : Bool) (dens : Nat) (c : List Nat) (z0 : List Nat)
    (b : Nat) : Nat :=
  if b * dens + dens ≤ c.length ∧ (fc && is_full (block_tmp dens c b)) = true then BLOCK_FULL
  else (payload_upto cd fc dens c z0 b).length

/-- What the constructor has written once `k` blocks are encoded, for a sample table of `L`
cells whose cells held `junk` at first and a payload that started as `z0`. -/
structure TableInv (cd : BlockCodec) (fc : Bool) (dens : Nat) (c : List Nat) (L : Nat)
    (z0 : List Nat) (junk : Nat → Nat) (k : Nat) (st : BuildState) : Prop where
  sitr : st.sample_itr = 2 * k
  len : st.table.length = L
  zeq : st.z = payload_upto cd fc dens c z0 k
  smp : ∀ b, b < k → st.table[2 * b]? = some (c.getD (b * dens) 0)
  ptr : ∀ b, b < k → st.table[2 * b + 1]? = some (block_pointer cd fc dens c z0 b)
  junk_kept : ∀ j, 2 * k ≤ j → st.table[j]? = (resize_uninit junk L)[j]?

/-- The values `tmp` holds for block `b` before the deltas are taken: those of a complete
block, or those of the short last block padded with the final value. -/
def block_vals (dens : Nat) (c : List Nat) (b : Nat) : List Nat :=
  if b * dens + dens ≤ c.length then block_tmp dens c b
  else last_block_tmp dens c (c.length % dens)

/-- What a constructor of the delta variants leaves in the vector `v` built from `c`: the
element count, a sample table of one (sample, pointer) pair per block and a last pair that
holds zeros or was never written, and the payload of all blocks. -/
structure Layout (cd : BlockCodec) (fc term : Bool) (dens : Nat) (c : List Nat)
    (z0 : List Nat) (junk : Nat → Nat) (v : DeltaVector) : Prop where
  size_eq : v.m_size = c.length
  len : v.m_sample_vals_and_pointer.length = 2 * num_blocks dens c.length + 2
  zeq : v.m_z = payload_upto cd fc dens c z0 (num_blocks dens c.length)
  smp : ∀ b, b < num_blocks dens c.length →
    v.m_sample_vals_and_pointer[2 * b]? = some (c.getD (b * dens) 0)
  ptr : ∀ b, b < num_blocks dens c.length →
    v.m_sample_vals_and_pointer[2 * b + 1]? = some (block_pointer cd fc dens c z0 b)
  last : ∀ j, 2 * num_blocks dens c.length ≤ j → j < 2 * num_blocks dens c.length + 2 →
    v.m_sample_vals_and_pointer[j]? = some (if term = true then 0 else junk j)

/-- The member `size()` of the delta variants. -/
def DeltaVector.size (v : DeltaVector) : Nat := v.m_size

/-- The member `empty()` of the delta variants: `0 == m_size`. -/
def DeltaVector.empty (v : DeltaVector) : Bool := decide (0 = v.m_size)

/-! ## The hybrid variant: `ef_vector` -/

/-- Modelled from the spec: the bits `bit_ostream::put_int(x, len)` writes (bit_streams.hpp is
not part of the sources); the `len` low bits of `x`, least significant first. -/
def int_bits (x len : Nat) : List Bool :=
  (List.range len).map fun j => x.testBit j

/-- Modelled from the spec: `bit_ostream::put_int(x, len)` on a stream that holds the bits
`os`; a bit-granular write at the end of the stream. `os.tellp()` is `os.length`. -/
def put_int (os : List Bool) (x len : Nat) : List Bool :=
  os ++ int_bits x len

/-- The number a list of bits stands for, least significant bit first. -/
def bits_value : List Bool → Nat
  | [] => 0
  | b :: rest => (if b then 1 else 0) + 2 * bits_value rest

/-- Modelled from the spec: `bit_istream::seek(pos)` followed by `peek_int(len)`; the value of
the `len` bits at position `pos`, a read beyond the end of the bit vector having no defined
value. -/
def peek_int (bits : List Bool) (pos len : Nat) : Option Nat :=
  if pos + len ≤ bits.length then some (bits_value ((bits.drop pos).take len)) else none

/-- The list codecs `bitvector_list<true>`, `eliasfano_list<true,true>` and
`eliasfano_list<false,false>` (bitvector_list.hpp and eliasfano_list.hpp are not part of the
sources). `create` gives the bits appended to the stream, `materialize bits offset ...` the
values of the list read from bit `offset` of the bit vector. -/
structure ListCodecs where
  bv_estimate_size : Nat → Nat → Nat
  ef_estimate_size : Nat → Nat → Nat
  bv_create : List Nat → Nat → List Bool
  bv_materialize : List Bool → Nat → Nat → Nat → List Nat
  ef_create : List Nat → Nat → Nat → List Bool
  ef_materialize : List Bool → Nat → Nat → Nat → List Nat
  raw_create : List Nat → List Bool
  raw_materialize : List Bool → Nat → List Nat

/-- The enumeration `ef_vector::efv_blocktype`. -/
inductive efv_blocktype where
  | EF : efv_blocktype
  | BV : efv_blocktype
  | FULL : efv_blocktype
  deriving Repr, DecidableEq

/-- The member `ef_vector::determine_block_type(m, n)`. -/
def determine_block_type (lc : ListCodecs) (m n : Nat) : efv_blocktype :=
  if n = m then efv_blocktype.FULL
  else
    let ef_bits := lc.ef_estimate_size m n
    let bv_bits := lc.bv_estimate_size m n
    if bv_bits < ef_bits then efv_blocktype.BV else efv_blocktype.EF

/-- The test `std::is_sorted`: no element is smaller than its predecessor. -/
def is_sorted : List Nat → Bool
  | [] => true
  | [_] => true
  | a :: b :: rest => decide (a ≤ b) && is_sorted (b :: rest)

/-- The member `ef_vector::encode_block(os, data, cur_block, top, last)`: the stream after the
call and the returned offset. The operands of `&&` are evaluated from the left, so `top` and
`data[0]` are read only for sorted data; `none` when `top[cur_block]`, `data[0]` or
`top[cur_block+1]` is read outside the vector. -/
def encode_block (lc : ListCodecs) (os : List Bool) (data : List Nat) (cur_block : Nat)
    (top : List Nat) (last : Bool) : Option (List Bool × Nat) :=
  let offset := os.length
  if is_sorted data then
    match top[cur_block]?, data[0]? with
    | some t, some d0 =>
      if decide (t < d0) && !last then
        let block_value_offset := t
        let data1 := data.map fun x => (x + U64 - block_value_offset) % U64
        match top[cur_block + 1]? with
        | none => none
        | some t1 =>
          let block_universe := (t1 + U64 - block_value_offset) % U64
          match determine_block_type lc data.length block_universe with
          | efv_blocktype.BV =>
            some (put_int os 1 2 ++ lc.bv_create data1 block_universe, offset)
          | efv_blocktype.EF =>
            some (put_int os 2 2 ++ lc.ef_create data1 data.length block_universe, offset)
          | efv_blocktype.FULL => some (put_int os 3 2, offset)
      else some (put_int os 0 2 ++ lc.raw_create data, offset)
    | _, _ => none
  else some (put_int os 0 2 ++ lc.raw_create data, offset)

/-- The loop `while (std::distance(itr,end) > (int64_t) block_size)` of step (1) of the
constructor, `itr` being the position of the iterator: the signed distance `c.size() - itr`
exceeds `block_size` exactly when `itr + block_size < c.size()`. `none` when the loop is
still running after `fuel` passes. -/
def top_loop (B : Nat) (c : List Nat) : Nat → Nat → List Nat → Option (List Nat)
  | 0, itr, top => if itr + B < c.length then none else some top
  | fuel + 1, itr, top =>
    if itr + B < c.length then top_loop B c fuel (itr + B) (top ++ [c.getD itr 0 % U64])
    else some top

/-- Step (1) of the constructor, "construct top". -/
def construct_top (B : Nat) (c : List Nat) : Option (List Nat) :=
  match top_loop B c c.length (B - 1) [0] with
  | none => none
  | some top =>
    if c.length % B ≠ 0 then some (top ++ [c.getD (c.length - 1) 0 % U64]) else some top

/-- The local variables of step (2) of the constructor. `tmp` holds the cells
`tmp[0 .. block_items)` written since the last block was encoded; every cell of `tmp` is
written again before `encode_block` reads it. -/
structure EfState where
  os : List Bool
  tmp : List Nat
  m_block_data : List Nat
  cur_block : Nat
  deriving Repr, DecidableEq

/-- The loop `while (itr != end)` of step (2) over the elements that are left. -/
def fill_blocks (lc : ListCodecs) (B : Nat) (top : List Nat) :
    List Nat → EfState → Option EfState
  | [], st => some st
  | x :: rest, st =>
    let tmp := st.tmp ++ [x % U64]
    if tmp.length = B then
      match encode_block lc st.os tmp st.cur_block top false with
      | none => none
      | some (os, offset) =>
        fill_blocks lc B top rest
          { os := os, tmp := [], m_block_data := st.m_block_data.set (2 * st.cur_block) offset,
            cur_block := st.cur_block + 1 }
    else fill_blocks lc B top rest { st with tmp := tmp }

/-- The statement `if (block_items != 0) { ... }` that encodes the short last block. -/
def fill_last (lc : ListCodecs) (top : List Nat) (st : EfState) : Option EfState :=
  if st.tmp.length ≠ 0 then
    match encode_block lc st.os st.tmp st.cur_block top true with
    | none => none
    | some (os, offset) =>
      some { st with os := os, m_block_data := st.m_block_data.set (2 * st.cur_block) offset }
  else some st

/-- The loop `for (size_t i=0; i<top.size(); i++) m_block_data[2*i+1] = top[i];` of step (3),
run for `i < k`. -/
def encode_top (top : List Nat) : Nat → List Nat → List Nat
  | 0, table => table
  | k + 1, table => (encode_top top k table).set (2 * k + 1) (top.getD k 0)

/-- The data members of `ef_vector`; `m_lis` reads the bit vector `m_low_data`. -/
structure EfVector where
  m_size : Nat
  m_low_data : List Bool
  m_block_data : List Nat
  deriving Repr, DecidableEq

namespace ef_vector

/-- The constructor `ef_vector(const Container& c)` for block size `B`; `junk` is the content
of the cells of `m_block_data` when `resize` returns. -/
def build (junk : Nat → Nat) (lc : ListCodecs) (B : Nat) (c : List Nat) : Built EfVector :=
  match construct_top B c with
  | none => Built.out_of_fuel
  | some top =>
    let st0 : EfState :=
      { os := [], tmp := [], m_block_data := resize_uninit junk (2 * top.length),
        cur_block := 0 }
    match fill_blocks lc B top c st0 with
    | none => Built.undefined
    | some st1 =>
      match fill_last lc top st1 with
      | none => Built.undefined
      | some st2 =>
        Built.ok
          { m_size := c.length
            m_low_data := st2.os
            m_block_data := bit_compress (encode_top top top.length st2.m_block_data) }

/-- The member `ef_vector::operator[]`; `none` when a cell of `m_block_data`, a bit of
`m_low_data` or an element of the materialized list is read outside its container. -/
def index (lc : ListCodecs) (B : Nat) (v : EfVector) (i : Nat) : Option Nat :=
  let block_num := i / B
  let in_block_offset := i % B
  match v.m_block_data[2 * block_num]? with
  | none => none
  | some data_offset =>
    match peek_int v.m_low_data data_offset 2 with
    | none => none
    | some block_type =>
      if block_type = 1 then
        match v.m_block_data[2 * block_num + 1]?, v.m_block_data[2 * (block_num + 1) + 1]? with
        | some value_offset, some next =>
          let block_universe := (next + U64 - value_offset) % U64
          let list := lc.bv_materialize v.m_low_data (data_offset + 2) B block_universe
          (list[in_block_offset]?).map fun x => (value_offset + x) % U64
        | _, _ => none
      else if block_type = 2 then
        match v.m_block_data[2 * block_num + 1]?, v.m_block_data[2 * (block_num + 1) + 1]? with
        | some value_offset, some next =>
          let block_universe := (next + U64 - value_offset) % U64
          let list := lc.ef_materialize v.m_low_data (data_offset + 2) B block_universe
          (list[in_block_offset]?).map fun x => (value_offset + x) % U64
        | _, _ => none
      else if block_type = 3 then
        match v.m_block_data[2 * block_num + 1]? with
        | some value_offset => some ((value_offset + in_block_offset + 1) % U64)
        | none => none
      else
        let list := lc.raw_materialize v.m_low_data (data_offset + 2)
        list[in_block_offset]?

/-- The member `ef_vector::size()`. -/
def size (v : EfVector) : Nat := v.m_size

/-- The member `ef_vector::empty()`: `0 == m_size`. -/
def empty (v : EfVector) : Bool := decide (0 = v.m_size)

end ef_vector

/-- List codecs that store nothing, used to run the parts of the model that do not decode a
list. -/
def nullLists : ListCodecs :=
  { bv_estimate_size := fun _ _ => 0
    ef_estimate_size := fun _ _ => 0
    bv_create := fun _ _ => []
    bv_materialize := fun _ _ _ _ => []
    ef_create := fun _ _ _ => []
    ef_materialize := fun _ _ _ _ => []
    raw_create := fun _ => []
    raw_materialize := fun _ _ => [] }

/-! ## Further members of the delta variants -/

/-- The member `sample(i)` of the delta variants: the cell `i<<1` of the sample table,
returned as `uint32_t`. The product `i*get_sample_dens()` is a `size_type`; the two `assert`s
abort the call unless the build defines `NDEBUG`. -/
def delta_sample (NDEBUG : Bool) (dens : Nat) (v : DeltaVector) (i : Nat) : Option Nat :=
  if !NDEBUG && (decide ((i * dens % U64 + 1) % U64 = 0) || decide (¬ i * dens % U64 < v.m_size))
  then none
  else (v.m_sample_vals_and_pointer[2 * i]?).map (· % U32)

/-- The loop `for (size_t j=0; j<sample_dens; j++) { sum += tmp[j]; *(it++) = sum; }` with the
64-bit accumulator `sum`, over the entries of `tmp` that are left. -/
def running_sums : Nat → List Nat → List Nat
  | _, [] => []
  | sum, t :: rest => ((sum + t) % U64) :: running_sums ((sum + t) % U64) rest

/-- The member `get_inter_sampled_values(block_id, it)` of the delta variants, as the list of
the `sample_dens` values written through `it`; `has_full` adds the branch
`data_start == BLOCK_FULL` of `optpfor_vector`, which writes `0, 1, ..., sample_dens-1`. -/
def delta_get_inter_sampled_values (has_full : Bool) (cd : BlockCodec) (dens : Nat)
    (v : DeltaVector) (block_id : Nat) : Option (List Nat) :=
  match v.m_sample_vals_and_pointer[2 * block_id + 1]? with
  | none => none
  | some data_start =>
    if has_full && data_start == BLOCK_FULL then some (List.range dens)
    else
      let tmp := cd.decodeBlock (v.m_z.drop data_start)
      some (running_sums 0 (tmp.take dens))

namespace bp_vector

/-- The member `bp_vector::sample`. -/
def sample (NDEBUG : Bool) (dens : Nat) (v : DeltaVector) (i : Nat) : Option Nat :=
  delta_sample NDEBUG dens v i

/-- The member `bp_vector::get_inter_sampled_values`. -/
def get_inter_sampled_values (cd : BlockCodec) (dens : Nat) (v : DeltaVector) (block_id : Nat) :
    Option (List Nat) :=
  delta_get_inter_sampled_values false cd dens v block_id

end bp_vector

namespace optpfor_vector

/-- The member `optpfor_vector::sample`. -/
def sample (NDEBUG : Bool) (dens : Nat) (v : DeltaVector) (i : Nat) : Option Nat :=
  delta_sample NDEBUG dens v i

/-- The member `optpfor_vector::get_inter_sampled_values`. -/
def get_inter_sampled_values (cd : BlockCodec) (dens : Nat) (v : DeltaVector) (block_id : Nat) :
    Option (List Nat) :=
  delta_get_inter_sampled_values true cd dens v block_id

end optpfor_vector

namespace ef_vector

/-- The member `ef_vector::sample(i)`: the cell `2*i+1` of `m_block_data`. -/
def sample (v : EfVector) (i : Nat) : Option Nat :=
  v.m_block_data[2 * i + 1]?

end ef_vector

/-! ## The list `top` of `ef_vector` in closed form -/

/-- The values the loop of step (1) has pushed after `j` passes, behind the first entry 0:
the elements at the positions `block_size-1 + k*block_size` for `k < j`. -/
def top_pushed (B : Nat) (c : List Nat) (j : Nat) : List Nat :=
  0 :: (List.range j).map fun k => c.getD (B - 1 + k * B) 0 % U64

/-- The list `top` the constructor computes for an input of `n` elements: 0, the last
elements of the first `n/block_size - 1` blocks and, when `n` is not a multiple of
`block_size`, the final element. -/
def ef_top (B : Nat) (c : List Nat) : List Nat :=
  top_pushed B c (c.length / B - 1)
    ++ (if c.length % B ≠ 0 then [c.getD (c.length - 1) 0 % U64] else [])

/-! ## List codecs to run the model -/

/-- The hypothesis on the raw list codec `eliasfano_list<false,false>`: `materialize` at the
first bit of a created list returns the values given to `create`, whatever stands before and
after the list in the bit vector. -/
def RawInverts (lc : ListCodecs) : Prop :=
  ∀ (pre post : List Bool) (data : List Nat), data.length < U64 → (∀ x ∈ data, x < U64) →
    lc.raw_materialize (pre ++ lc.raw_create data ++ post) pre.length = data

/-- The values of a list as 64-bit words in a bit stream. -/
def words_bits : List Nat → List Bool
  | [] => []
  | x :: xs => int_bits x 64 ++ words_bits xs

/-- The 64-bit word at bit position `pos`. -/
def read_word (bits : List Bool) (pos : Nat) : Nat :=
  bits_value ((bits.drop pos).take 64)

/-- The `n` 64-bit words from bit position `pos` on. -/
def read_words_at (bits : List Bool) (pos n : Nat) : List Nat :=
  (List.range n).map fun i => read_word bits (pos + 64 * i)

/-- List codecs that store every value as a 64-bit word, the raw list behind its element
count; used to run the model on concrete inputs. -/
def plainLists : ListCodecs :=
  { bv_estimate_size := fun _ n => n
    ef_estimate_size := fun m _ => 64 * m
    bv_create := fun data _ => words_bits data
    bv_materialize := fun bits offset n _ => read_words_at bits offset n
    ef_create := fun data _ _ => words_bits data
    ef_materialize := fun bits offset n _ => read_words_at bits offset n
    raw_create := fun data => int_bits data.length 64 ++ words_bits data
    raw_materialize := fun bits offset => read_words_at bits (offset + 64) (read_word bits offset) }

/-! ## Serialization -/

/-- The stream primitives the containers are written with (io.hpp, int_vector.hpp and the
standard streams are not part of the sources). A stream is the list of its bytes. A write
gives the bytes appended to the stream (and, where the primitive returns one, the byte count
it returns); a read gives the value read and the rest of the stream. `write_raw` is
`out.write((const char*)m_z.data(), m_z.size()*sizeof(uint32_t))` and `read_raw n` is
`m_z.resize(n); in.read((char*)m_z.data(), n*sizeof(uint32_t))`. -/
structure StreamOps where
  write_member : Nat → List Nat × Nat
  read_member : List Nat → Nat × List Nat
  write_raw : List Nat → List Nat
  read_raw : Nat → List Nat → List Nat × List Nat
  int_vector_serialize : List Nat → List Nat × Nat
  int_vector_load : List Nat → List Nat × List Nat
  bit_vector_serialize : List Bool → List Nat × Nat
  bit_vector_load : List Nat → List Bool × List Nat

/-- The member `serialize(out)` of the delta variants (the same text in `bp_vector.hpp` and
`optpfor_vector.hpp`; the structure tree is left out): the stream after the call and the
returned `written_bytes`, a `size_type`. -/
def delta_serialize (ops : StreamOps) (v : DeltaVector) (out : List Nat) : List Nat × Nat :=
  let written_bytes := 0
  let w1 := ops.write_member v.m_size
  let out := out ++ w1.1
  let written_bytes := (written_bytes + w1.2) % U64
  let data_size := v.m_z.length
  let w2 := ops.write_member data_size
  let out := out ++ w2.1
  let written_bytes := (written_bytes + w2.2) % U64
  let out := out ++ ops.write_raw v.m_z
  let written_bytes := (written_bytes + v.m_z.length * 4 % U64) % U64
  let w3 := ops.int_vector_serialize v.m_sample_vals_and_pointer
  let out := out ++ w3.1
  let written_bytes := (written_bytes + w3.2) % U64
  (out, written_bytes)

/-- The member `load(in)` of the delta variants: the loaded members and the rest of the
stream. No read is checked. -/
def delta_load (ops : StreamOps) (inp : List Nat) : DeltaVector × List Nat :=
  let r1 := ops.read_member inp
  let m_size := r1.1
  let r2 := ops.read_member r1.2
  let data_size := r2.1
  let r3 := ops.read_raw data_size r2.2
  let r4 := ops.int_vector_load r3.2
  ({ m_sample_vals_and_pointer := r4.1, m_size := m_size, m_z := r3.1 }, r4.2)

namespace ef_vector

/-- The member `ef_vector::serialize(out)`. -/
def serialize (ops : StreamOps) (v : EfVector) (out : List Nat) : List Nat × Nat :=
  let written_bytes := 0
  let w1 := ops.write_member v.m_size
  let out := out ++ w1.1
  let written_bytes := (written_bytes + w1.2) % U64
  let w2 := ops.bit_vector_serialize v.m_low_data
  let out := out ++ w2.1
  let written_bytes := (written_bytes + w2.2) % U64
  let w3 := ops.int_vector_serialize v.m_block_data
  let out := out ++ w3.1
  let written_bytes := (written_bytes + w3.2) % U64
  (out, written_bytes)

/-- The member `ef_vector::load(in)`. -/
def load (ops : StreamOps) (inp : List Nat) : EfVector × List Nat :=
  let r1 := ops.read_member inp
  let r2 := ops.bit_vector_load r1.2
  let r3 := ops.int_vector_load r2.2
  ({ m_size := r1.1, m_low_data := r2.1, m_block_data := r3.1 }, r3.2)

end ef_vector

/-- The hypothesis on the stream primitives: every read returns the value its write was
given and leaves the bytes behind it, for values that fit the C++ type that is written. -/
structure StreamInverts (ops : StreamOps) : Prop where
  member : ∀ (x : Nat) (rest : List Nat), x < U64 →
    ops.read_member ((ops.write_member x).1 ++ rest) = (x, rest)
  raw : ∀ (ws rest : List Nat), (∀ w ∈ ws, w < U32) →
    ops.read_raw ws.length (ops.write_raw ws ++ rest) = (ws, rest)
  int_vector : ∀ (t rest : List Nat), t.length < U64 → (∀ x ∈ t, x < U64) →
    ops.int_vector_load ((ops.int_vector_serialize t).1 ++ rest) = (t, rest)
  bit_vector : ∀ (b : List Bool) (rest : List Nat), b.length < U64 →
    ops.bit_vector_load ((ops.bit_vector_serialize b).1 ++ rest) = (b, rest)

/-- The hypothesis on the byte counts of the stream primitives: a primitive returns the
number of bytes it has appended, a `size_type` has the same number of bytes for every value,
and the raw write of `n` 32-bit words appends `4*n` bytes. -/
structure StreamCounts (ops : StreamOps) : Prop where
  member : ∀ x, (ops.write_member x).2 = (ops.write_member x).1.length
  member_fixed : ∀ x y, (ops.write_member x).1.length = (ops.write_member y).1.length
  raw : ∀ ws, (ops.write_raw ws).length = 4 * ws.length
  int_vector : ∀ t, (ops.int_vector_serialize t).2 = (ops.int_vector_serialize t).1.length

/-- Every member of a vector of the delta variants fits its C++ type: `m_size` and the sizes
of the buffers are `size_type`, the payload words `uint32_t`, the cells of the sample table
at most 64 bits wide. -/
structure DeltaVector.Representable (v : DeltaVector) : Prop where
  size_lt : v.m_size < U64
  z_length : v.m_z.length < U64
  z_words : ∀ w ∈ v.m_z, w < U32
  table_length : v.m_sample_vals_and_pointer.length < U64
  table_cells : ∀ x ∈ v.m_sample_vals_and_pointer, x < U64

/-- Every member of an `ef_vector` fits its C++ type. -/
structure EfVector.Representable (v : EfVector) : Prop where
  size_lt : v.m_size < U64
  low_length : v.m_low_data.length < U64
  block_length : v.m_block_data.length < U64
  block_cells : ∀ x ∈ v.m_block_data, x < U64

/-! ## Stream primitives to run the model -/

/-- The `w` low bytes of `x`, least significant first. -/
def le_bytes : Nat → Nat → List Nat
  | 0, _ => []
  | w + 1, x => x % 256 :: le_bytes w (x / 256)

/-- The number a list of bytes stands for, least significant byte first. -/
def le_value : List Nat → Nat
  | [] => 0
  | b :: rest => b + 256 * le_value rest

/-- The values of a list as words of `w` bytes. -/
def words_bytes (w : Nat) : List Nat → List Nat
  | [] => []
  | x :: xs => le_bytes w x ++ words_bytes w xs

/-- Reads `n` words of `w` bytes. -/
def read_fixed (w : Nat) : Nat → List Nat → List Nat × List Nat
  | 0, s => ([], s)
  | n + 1, s =>
    let r := read_fixed w n (s.drop w)
    (le_value (s.take w) :: r.1, r.2)

/-- Stream primitives that write a `size_type` as 8 bytes, a payload word as 4 bytes, an
`int_vector` as its length and its cells of 8 bytes, and a bit vector as its length and one
byte per bit; used to run the model on concrete inputs. -/
def plainStream : StreamOps :=
  { write_member := fun x => (le_bytes 8 x, 8)
    read_member := fun s => (le_value (s.take 8), s.drop 8)
    write_raw := fun ws => words_bytes 4 ws
    read_raw := fun n s => read_fixed 4 n s
    int_vector_serialize := fun t => (le_bytes 8 t.length ++ words_bytes 8 t, 8 + 8 * t.length)
    int_vector_load := fun s => read_fixed 8 (le_value (s.take 8)) (s.drop 8)
    bit_vector_serialize := fun b =>
      (le_bytes 8 b.length ++ b.map (fun x => if x then 1 else 0), 8 + b.length)
    bit_vector_load := fun s =>
      ((((s.drop 8).take (le_value (s.take 8))).map fun x => decide (x = 1)),
        (s.drop 8).drop (le_value (s.take 8))) }

/-! ## `swap` -/

/-- The member `swap(v)` of the delta variants (the same text in `bp_vector.hpp` and
`optpfor_vector.hpp`). `mem` gives the object at every address, `this` and `v` are the
addresses of the two objects; the result is the memory after the call. -/
def delta_swap (mem : Nat → DeltaVector) (this v : Nat) : Nat → DeltaVector :=
  if this ≠ v then
    let a := mem this
    let b := mem v
    -- m_z.swap(v.m_z)
    let a1 := { a with m_z := b.m_z }
    let b1 := { b with m_z := a.m_z }
    -- m_sample_vals_and_pointer.swap(v.m_sample_vals_and_pointer)
    let a2 := { a1 with m_sample_vals_and_pointer := b1.m_sample_vals_and_pointer }
    let b2 := { b1 with m_sample_vals_and_pointer := a1.m_sample_vals_and_pointer }
    -- std::swap(m_size, v.m_size)
    let a3 := { a2 with m_size := b2.m_size }
    let b3 := { b2 with m_size := a2.m_size }
    Function.update (Function.update mem this a3) v b3
  else mem

namespace bp_vector

/-- The member `bp_vector::swap`. -/
def swap (mem : Nat → DeltaVector) (this v : Nat) : Nat → DeltaVector :=
  delta_swap mem this v

end bp_vector

namespace optpfor_vector

/-- The member `optpfor_vector::swap`. -/
def swap (mem : Nat → DeltaVector) (this v : Nat) : Nat → DeltaVector :=
  delta_swap mem this v

end optpfor_vector

namespace ef_vector

/-- The member `ef_vector::swap`; the stream `m_lis` is not exchanged and goes on reading the
`m_low_data` of its own object. -/
def swap (mem : Nat → EfVector) (this v : Nat) : Nat → EfVector :=
  if this ≠ v then
    let a := mem this
    let b := mem v
    -- std::swap(m_block_data, v.m_block_data)
    let a1 := { a with m_block_data := b.m_block_data }
    let b1 := { b with m_block_data := a.m_block_data }
    -- std::swap(m_size, v.m_size)
    let a2 := { a1 with m_size := b1.m_size }
    let b2 := { b1 with m_size := a1.m_size }
    -- std::swap(m_low_data, v.m_low_data)
    let a3 := { a2 with m_low_data := b2.m_low_data }
    let b3 := { b2 with m_low_data := a2.m_low_data }
    Function.update (Function.update mem this a3) v b3
  else mem

end ef_vector

/-! ## `byte_alphabet_strategy` -/

/-- What running code that contains `assert`s gives: its result, an `assert` that aborts the
program (in a build without `NDEBUG`), or a loop that is still running after the iterations
granted to it. -/
inductive Asserted (α : Type) where
  | ok (v : α) : Asserted α
  | assertion_failed (expr : String) : Asserted α
  | out_of_fuel : Asserted α
  deriving Repr, DecidableEq

/-- The data members of `byte_alphabet_strategy`. -/
structure ByteAlphabet where
  m_char2comp : List Nat
  m_comp2char : List Nat
  m_C : List Nat
  m_sigma : Nat
  deriving Repr, DecidableEq

/-- The statement `++m_C[x]` on the `int_vector<64>` `m_C`. -/
def count_symbol (C : List Nat) (x : Nat) : List Nat :=
  C.set x ((C.getD x 0 + 1) % U64)

/-- The loop `for (size_type i=0, r_sum=0, r = text_buf.load_next_block(); i < len;)` that
counts the symbols. The class `int_vector_file_buffer<8>` is not part of the sources: the
buffer is given by the bytes `text` of the file (`int_vector_size` is `text.length`) and the
number `cap` of elements a block holds; `load_next_block()` loads the next `cap` elements, or
those that are left, and returns their number, and `text_buf[j]` is element `j` of the block
loaded last. `off` is the number of elements of the blocks loaded before that one. `none`
when the loop is still running after `fuel` passes. -/
def count_loop (text : List Nat) (cap len : Nat) :
    Nat → Nat → Nat → Nat → Nat → List Nat → Option (List Nat)
  | 0, i, _, _, _, C => if i < len then none else some C
  | fuel + 1, i, r_sum, r, off, C =>
    if i < len then
      let block := (text.drop off).take r
      -- for (; i < r_sum+r; ++i) ++m_C[text_buf[i-r_sum]];
      let C1 := (List.range' i (r_sum + r - i)).foldl
        (fun C i => count_symbol C (block.getD (i - r_sum) 0 % 256)) C
      let i1 := max i (r_sum + r)
      -- r_sum += r; r = text_buf.load_next_block();
      count_loop text cap len fuel i1 (r_sum + r) (min cap (text.length - (off + r))) (off + r)
        C1
    else some C

/-- One pass of `for (int i=0; i<256; ++i) if (m_C[i]) { ... }`; `m_char2comp` and
`m_comp2char` are `int_vector<8>`, `m_sigma` is a `uint16_t`. -/
def compact_step (st : ByteAlphabet) (i : Nat) : ByteAlphabet :=
  if st.m_C.getD i 0 ≠ 0 then
    { m_char2comp := st.m_char2comp.set i (st.m_sigma % 256)
      m_comp2char := st.m_comp2char.set st.m_sigma (i % 256)
      m_C := st.m_C.set st.m_sigma (st.m_C.getD i 0)
      m_sigma := (st.m_sigma + 1) % 65536 }
  else st

/-- The loop `for (int i=(int)m_sigma; i > 0; --i) m_C[i] = m_C[i-1];`, entered with `i`. -/
def shift_up : Nat → List Nat → List Nat
  | 0, C => C
  | i + 1, C => shift_up i (C.set (i + 1) (C.getD i 0))

/-- The loop `for (int i=1; i <= (int)m_sigma; ++i) m_C[i] += m_C[i-1];`, run for
`i = 1 .. k`. -/
def prefix_sums : Nat → List Nat → List Nat
  | 0, C => C
  | k + 1, C =>
    let C1 := prefix_sums k C
    C1.set (k + 1) ((C1.getD (k + 1) 0 + C1.getD k 0) % U64)

namespace byte_alphabet_strategy

/-- The constructor `byte_alphabet_strategy(text_buf, len)`. An `assert` aborts the program
unless the build defines `NDEBUG`. -/
def build (NDEBUG : Bool) (text : List Nat) (cap len : Nat) : Asserted ByteAlphabet :=
  if len = 0 ∨ text.length = 0 then
    Asserted.ok { m_char2comp := [], m_comp2char := [], m_C := [], m_sigma := 0 }
  else if !NDEBUG && !decide (len ≤ text.length) then
    Asserted.assertion_failed "len <= text_buf.int_vector_size"
  else
    match count_loop text cap len len 0 0 (min cap text.length) 0 (List.replicate 257 0) with
    | none => Asserted.out_of_fuel
    | some C0 =>
      if !NDEBUG && !decide (1 = C0.getD 0 0) then Asserted.assertion_failed "1 == m_C[0]"
      else
        let st := (List.range 256).foldl compact_step
          { m_char2comp := List.replicate 256 0, m_comp2char := List.replicate 256 0,
            m_C := C0, m_sigma := 0 }
        let comp2char := st.m_comp2char.take st.m_sigma
        let C1 := st.m_C.take (st.m_sigma + 1)
        let C2 := shift_up st.m_sigma C1
        let C3 := C2.set 0 0
        let C4 := prefix_sums st.m_sigma C3
        if !NDEBUG && !decide (C4.getD st.m_sigma 0 = len) then
          Asserted.assertion_failed "C[sigma]==len"
        else
          Asserted.ok
            { m_char2comp := st.m_char2comp, m_comp2char := comp2char, m_C := C4,
              m_sigma := st.m_sigma }

end byte_alphabet_strategy

/-! ## `csa_bitcompressed`: rank and select on the BWT -/

/-- The members of `csa_bitcompressed` that `rank_bwt` and `select_bwt` read: the alphabet
(`char2comp` and `C` are references to its tables), the suffix array `m_sa`, whose length is
`size()`, and the values `m_psi[0 .. size())` of the wrapper `psi_of_sa_and_isa`
(suffix_array_helper.hpp is not part of the sources). -/
structure Csa where
  m_alphabet : ByteAlphabet
  m_sa : List Nat
  m_psi : List Nat
  deriving Repr, DecidableEq

namespace csa_bitcompressed

/-- The member `size()`. -/
def size (csa : Csa) : Nat := csa.m_sa.length

/-- The loop `while (lower_b+1 < upper_b)` of `rank_bwt`: the bounds when it is left.
`Built.undefined` when `m_psi` is read outside its values, `Built.out_of_fuel` when the
loop is still running after `fuel` passes. -/
def rank_bwt_loop (m_psi : List Nat) (i : Nat) : Nat → Nat → Nat → Built (Nat × Nat)
  | 0, lower_b, upper_b =>
    if (lower_b + 1) % U64 < upper_b then Built.out_of_fuel else Built.ok (lower_b, upper_b)
  | fuel + 1, lower_b, upper_b =>
    if (lower_b + 1) % U64 < upper_b then
      let mid := (lower_b + upper_b) % U64 / 2
      match m_psi[mid]? with
      | none => Built.undefined
      | some x =>
        if x ≥ i then rank_bwt_loop m_psi i fuel lower_b mid
        else rank_bwt_loop m_psi i fuel mid upper_b
    else Built.ok (lower_b, upper_b)

/-- The member `rank_bwt(i, c)`; the loop is granted `C[cc+1]` passes. -/
def rank_bwt (csa : Csa) (i c : Nat) : Built Nat :=
  match csa.m_alphabet.m_char2comp[c]? with
  | none => Built.undefined
  | some cc =>
    if cc = 0 ∧ c ≠ 0 then Built.ok 0
    else
      match csa.m_alphabet.m_C[cc]?, csa.m_alphabet.m_C[1 + cc]? with
      | some lo, some hi =>
        match rank_bwt_loop csa.m_psi i hi lo hi with
        | Built.ok (lower_b, _) =>
          if lower_b > lo then Built.ok ((lower_b + U64 - lo + 1) % U64)
          else
            match csa.m_psi[lower_b]? with
            | some x => Built.ok (if x < i then 1 else 0)
            | none => Built.undefined
        | Built.runtime_error w => Built.runtime_error w
        | Built.undefined => Built.undefined
        | Built.out_of_fuel => Built.out_of_fuel
      | _, _ => Built.undefined

/-- The member `select_bwt(i, c)`; `C[cc]+i-1` is computed on `size_type`. -/
def select_bwt (csa : Csa) (i c : Nat) : Built Nat :=
  match csa.m_alphabet.m_char2comp[c]? with
  | none => Built.undefined
  | some cc =>
    if cc = 0 ∧ c ≠ 0 then Built.ok (size csa)
    else
      match csa.m_alphabet.m_C[cc]?, csa.m_alphabet.m_C[1 + cc]? with
      | some lo, some hi =>
        if ((lo + i) % U64 + U64 - 1) % U64 < hi then
          match csa.m_psi[((lo + i) % U64 + U64 - 1) % U64]? with
          | some x => Built.ok x
          | none => Built.undefined
        else Built.ok (size csa)
      | _, _ => Built.undefined

end csa_bitcompressed

/-- The symbols below `i` with a non-zero count in `C0`, in increasing order. -/
def occurring (C0 : List Nat) (i : Nat) : List Nat :=
  (List.range i).filter fun b => decide (C0.getD b 0 ≠ 0)

/-- What the loop `for (int i=0; i<256; ++i) if (m_C[i]) { ... }` has written when it has
handled the symbols below `i`, `C0` being the counts it started with. -/
structure CompactInv (C0 : List Nat) (i : Nat) (st : ByteAlphabet) : Prop where
  sigma : st.m_sigma = (occurring C0 i).length
  c2c_len : st.m_char2comp.length = 256
  c2c : ∀ b, b < 256 → st.m_char2comp.getD b 0
    = if b < i ∧ C0.getD b 0 ≠ 0 then (occurring C0 b).length else 0
  comp_len : st.m_comp2char.length = 256
  comp : ∀ k, k < (occurring C0 i).length →
    st.m_comp2char.getD k 0 = (occurring C0 i).getD k 0
  C_len : st.m_C.length = 257
  C_low : ∀ k, k < (occurring C0 i).length →
    st.m_C.getD k 0 = C0.getD ((occurring C0 i).getD k 0) 0
  C_high : ∀ j, i ≤ j → st.m_C.getD j 0 = C0.getD j 0

/-- The bytes that occur in a text, in increasing order. -/
def text_symbols (text : List Nat) : List Nat :=
  (List.range 256).filter fun b => decide (b ∈ text)

/-! ## An index to run the model -/

/-- The alphabet of the text `2, 1, 2, 0`. -/
def alphabet_2120 : ByteAlphabet :=
  { m_char2comp := [0, 1, 2] ++ List.replicate 253 0, m_comp2char := [0, 1, 2],
    m_C := [0, 1, 2, 4], m_sigma := 3 }

/-- The index of the text `2, 1, 2, 0`: its suffixes in increasing order start at the
positions 3, 1, 2, 0, and `psi[i] = isa[(sa[i]+1) mod 4]` with `isa = 3, 1, 2, 0`. -/
def csa_2120 : Csa :=
  { m_alphabet := alphabet_2120, m_sa := [3, 1, 2, 0], m_psi := [3, 2, 0, 1] }

/-! ## The constructors from an `int_vector_buffer` -/

namespace bp_vector

/-- The constructor `bp_vector(int_vector_buffer<int_width>& c)`, `c` being the values the
buffer delivers: the text of the constructor from a container, followed by the two writes
that terminate the samples. -/
def build_from_buffer (pad : Nat) (junk : Nat → Nat) (cd : BlockCodec) (dens : Nat)
    (c : List Nat) : Built DeltaVector :=
  delta_build "bp_vector: only supports 32bit integers." (List.replicate pad 0) false true
    junk cd dens c

end bp_vector

namespace optpfor_vector

/-- The constructor `optpfor_vector(int_vector_buffer<int_width>& c)`. -/
def build_from_buffer (junk : Nat → Nat) (cd : BlockCodec) (dens : Nat) (c : List Nat) :
    Built DeltaVector :=
  delta_build "optpfor_vector: only supports 32bit integers." [0] true true junk cd dens c

end optpfor_vector

/-! ## `operator<<` for `uint128_t` -/

/-- The statement `os << std::hex << v` for an `unsigned long long` `v`, as the characters it
appends (the stream classes of the standard library are not part of the sources; the stream
has its default flags otherwise): the digits of `v` in base 16, lower case, without prefix
and without padding. -/
def put_hex (v : Nat) : List Char := Nat.toDigits 16 v

/-- The loop `for (int i=0; i < 16; ++i) { os << std::hex << ((X[j]>>60)&0xFULL);
X[j] <<= 4; }` on the 64-bit word `X`, run for `n` passes: the characters written. -/
def hex_word : Nat → Nat → List Char
  | 0, _ => []
  | n + 1, X => put_hex (X / 2 ^ 60 % 16) ++ hex_word n (X * 16 % U64)

/-- The function `operator<<(std::ostream& os, const uint128_t& x)`, as the characters it
appends to `os`; `X[0]` is `(uint64_t)(x >> 64)` and `X[1]` is `(uint64_t)x`. -/
def uint128_write (x : Nat) : List Char :=
  hex_word 16 (x / 2 ^ 64 % U64) ++ hex_word 16 (x % U64)

/-- The value of a hexadecimal digit. -/
def hex_digit_value (ch : Char) : Nat :=
  if '0' ≤ ch ∧ ch ≤ '9' then ch.toNat - 48
  else if 'a' ≤ ch ∧ ch ≤ 'f' then ch.toNat - 87
  else 0

/-- The number a string of hexadecimal digits stands for, most significant digit first. -/
def hex_value (s : List Char) : Nat :=
  s.foldl (fun acc ch => acc * 16 + hex_digit_value ch) 0

/-! ## The blocks of `ef_vector` in the bit stream -/

/-- The block `k` of an `ef_vector` as the constructor leaves it: the stream `os` holds, behind
a prefix `pre`, the bits `body` that `encode_block` appended when it was called for the values
`data` of the block on the stream `pre`, and the cell `2*k` of the table holds the position
`pre.length` that the call returned. -/
def EfBlockStored (lc : ListCodecs) (top : List Nat) (os : List Bool) (table : List Nat)
    (k : Nat) (data : List Nat) (last : Bool) : Prop :=
  ∃ pre body post, os = pre ++ body ++ post ∧ table[2 * k]? = some pre.length ∧
    encode_block lc pre data k top last = some (pre ++ body, pre.length)

/-! ## Lists and 32-bit arithmetic -/

theorem getD_set (l : List Nat) (n m a : Nat) :
    (l.set n a).getD m 0 = if n = m ∧ n < l.length then a else l.getD m 0 := by
  simp only [List.getD_eq_getElem?_getD, List.getElem?_set]
  by_cases h : n = m
  · subst h
    by_cases h2 : n < l.length
    · simp [h2]
    · simp [h2, List.getElem?_eq_none (Nat.le_of_not_lt h2)]
  · simp [h]

theorem getD_range_map (f : Nat → Nat) (n i : Nat) (h : i < n) :
    ((List.range n).map f).getD i 0 = f i := by
  simp [List.getD_eq_getElem?_getD, List.getElem?_map, List.getElem?_range h]

theorem getD_lt_of_forall (l : List Nat) (k i : Nat) (hk : 0 < k) (h : ∀ x ∈ l, x < k) :
    l.getD i 0 < k := by
  rw [List.getD_eq_getElem?_getD]
  by_cases hi : i < l.length
  · rw [List.getElem?_eq_getElem hi]
    exact h _ (List.getElem_mem hi)
  · rw [List.getElem?_eq_none (Nat.le_of_not_lt hi)]
    exact hk

theorem getElem?_eq_some_getD (l : List Nat) (i : Nat) (h : i < l.length) :
    l[i]? = some (l.getD i 0) := by
  rw [List.getD_eq_getElem?_getD, List.getElem?_eq_getElem h]
  rfl

theorem U32_pos : 0 < U32 := by decide

theorem U32_lt_U64 : U32 < U64 := by decide

theorem fastDelta_length (tmp : List Nat) : (fastDelta tmp).length = tmp.length := by
  simp [fastDelta]

theorem fastDelta_getD (tmp : List Nat) (j : Nat) (h : j < tmp.length) (hj : j ≠ 0) :
    (fastDelta tmp).getD j 0 = (tmp.getD j 0 + U32 - tmp.getD (j - 1) 0) % U32 := by
  unfold fastDelta
  rw [getD_range_map _ _ _ h]
  simp [hj]

theorem delta_add (a b : Nat) (ha : a < U32) (hb : b < U32) :
    ((a + U32 - b) % U32 + b) % U32 = a := by
  unfold U32 at *
  omega

/-! ## The accumulation loop -/

theorem accumulate_length (j : Nat) (tmp : List Nat) : (accumulate j tmp).length = tmp.length := by
  induction j with
  | zero => rfl
  | succ j ih => simp [accumulate, ih]

/-- After `j` passes of the accumulation loop over the delta frame of `vals` whose first
entry is the sample, the entries up to `j` are the values and the others still deltas. -/
theorem accumulate_spec (vals : List Nat) (hv : ∀ x ∈ vals, x < U32) (j : Nat)
    (hj : j < vals.length) :
    (∀ i, i ≤ j → (accumulate j ((fastDelta vals).set 0 (vals.getD 0 0))).getD i 0
        = vals.getD i 0) ∧
    (∀ i, j < i → (accumulate j ((fastDelta vals).set 0 (vals.getD 0 0))).getD i 0
        = (fastDelta vals).getD i 0) := by
  induction j with
  | zero =>
    constructor
    · intro i hi
      have : i = 0 := by omega
      subst this
      simp only [accumulate]
      rw [getD_set]
      simp [fastDelta_length, hj]
    · intro i hi
      simp only [accumulate]
      rw [getD_set]
      have : ¬ (0 = i ∧ 0 < (fastDelta vals).length) := by omega
      simp [this]
  | succ j ih =>
    obtain ⟨ih1, ih2⟩ := ih (by omega)
    have hlen : (accumulate j ((fastDelta vals).set 0 (vals.getD 0 0))).length = vals.length := by
      rw [accumulate_length, List.length_set, fastDelta_length]
    constructor
    · intro i hi
      simp only [accumulate]
      rw [getD_set]
      by_cases h : j + 1 = i
      · subst h
        rw [if_pos ⟨rfl, by omega⟩, ih2 (j + 1) (by omega), ih1 j (le_refl _),
          fastDelta_getD vals (j + 1) hj (by omega)]
        exact delta_add _ _ (getD_lt_of_forall _ _ _ U32_pos hv) (getD_lt_of_forall _ _ _ U32_pos hv)
      · rw [if_neg (fun hh => h hh.1)]
        exact ih1 i (by omega)
    · intro i hi
      simp only [accumulate]
      rw [getD_set]
      rw [if_neg (fun hh => by omega)]
      exact ih2 i (by omega)

/-- A run in 32-bit arithmetic: every entry is the first one plus its position. -/
theorem is_full_getD (vals : List Nat) (hv : ∀ x ∈ vals, x < U32) (h : is_full vals = true)
    (i : Nat) (hi : i < vals.length) : vals.getD i 0 = (vals.getD 0 0 + i) % U32 := by
  induction vals generalizing i with
  | nil => simp at hi
  | cons a rest ih =>
    have ha : a < U32 := hv a (List.mem_cons_self _ _)
    cases i with
    | zero => simp [Nat.mod_eq_of_lt ha]
    | succ i =>
      cases rest with
      | nil => simp at hi
      | cons b rest2 =>
        simp only [is_full, Bool.and_eq_true, beq_iff_eq] at h
        have hrec := ih (fun x hx => hv x (List.mem_cons_of_mem _ hx)) h.2 i (by simpa using hi)
        simp only [List.getD_cons_succ, List.getD_cons_zero] at hrec ⊢
        rw [hrec, h.1]
        unfold U32
        omega

theorem fastDelta_lt (vals : List Nat) (hv : ∀ x ∈ vals, x < U32) :
    ∀ x ∈ (fastDelta vals).set 0 0, x < U32 := by
  intro x hx
  rcases List.mem_or_eq_of_mem_set hx with h | h
  · unfold fastDelta at h
    rw [List.mem_map] at h
    obtain ⟨j, _, rfl⟩ := h
    by_cases hj : j = 0
    · simp only [hj, if_true]
      exact getD_lt_of_forall _ _ _ U32_pos hv
    · simp only [hj, if_false]
      exact Nat.mod_lt _ U32_pos
  · rw [h]
    exact U32_pos

/-! ## The accessor on a stored block -/

/-- Reading index `i` of block `b` returns the value `vals[i % dens]` of a stored block. -/
theorem delta_index_of_stored (fc NDEBUG : Bool) (cd : BlockCodec) (dens : Nat)
    (v : DeltaVector) (b : Nat) (vals : List Nat) (i : Nat)
    (hcd : CodecInverts cd dens) (hdens : 0 < dens) (hlen : vals.length = dens)
    (hv : ∀ x ∈ vals, x < U32)
    (hst : BlockStored cd fc v.m_sample_vals_and_pointer v.m_z b vals)
    (hb : i / dens = b)
    (hassert : NDEBUG = true ∨ (i < v.m_size ∧ (i + 1) % U64 ≠ 0)) :
    delta_index fc NDEBUG cd dens v i = some (vals.getD (i % dens) 0) := by
  obtain ⟨hs, p, hp, hcase⟩ := hst
  have hoff : i % dens < vals.length := by rw [hlen]; exact Nat.mod_lt _ hdens
  have h0 : vals.getD 0 0 < U32 := getD_lt_of_forall _ _ _ U32_pos hv
  unfold delta_index
  have hguard : (!NDEBUG && (decide ((i + 1) % U64 = 0) || decide (¬ i < v.m_size))) = false := by
    rcases hassert with h | ⟨h1, h2⟩
    · simp [h]
    · simp [h1, h2]
  rw [hguard]
  simp only [Bool.false_eq_true, if_false, hb, hs, hp]
  by_cases hz : i % dens = 0
  · have h00 := Nat.mod_eq_of_lt h0
    rw [List.getD_eq_getElem?_getD] at h00
    simp [hz, h00]
  · rcases hcase with ⟨hf, hpf, hfull⟩ | ⟨hne, hple, rest, hdrop⟩
    · have := is_full_getD vals hv hfull (i % dens) hoff
      rw [List.getD_eq_getElem?_getD, List.getD_eq_getElem?_getD] at this
      simp [hf, hpf, this]
    · have hcond : (decide (i % dens = 0) || (fc && (p == BLOCK_FULL))) = false := by
        cases fc with
        | false => simp [hz]
        | true => simp [hz, hne rfl]
      simp only [hcond, Bool.false_eq_true, if_false]
      rw [hdrop, hcd _ rest (by rw [List.length_set, fastDelta_length, hlen])
        (fastDelta_lt vals hv), List.set_set, Nat.mod_eq_of_lt h0]
      have hacc := (accumulate_spec vals hv (i % dens) hoff).1 (i % dens) (le_refl _)
      rw [← hacc, getElem?_eq_some_getD]
      rw [accumulate_length, List.length_set, fastDelta_length]
      exact hoff

/-! ## The invariant of the construction loop -/

theorem set_set_fst (table : List Nat) (s x y : Nat) (h : s + 1 < table.length) :
    ((table.set s x).set (s + 1) y)[s]? = some x := by
  rw [List.getElem?_set_ne (by omega), List.getElem?_set]
  simp
  omega

theorem set_set_snd (table : List Nat) (s x y : Nat) (h : s + 1 < table.length) :
    ((table.set s x).set (s + 1) y)[s + 1]? = some y := by
  rw [List.getElem?_set]
  simp
  omega

theorem set_set_other (table : List Nat) (s x y j : Nat) (h1 : j ≠ s) (h2 : j ≠ s + 1) :
    ((table.set s x).set (s + 1) y)[j]? = table[j]? := by
  rw [List.getElem?_set_ne (by omega), List.getElem?_set_ne (by omega)]

theorem block_tmp_getD (dens : Nat) (c : List Nat) (hc : ∀ x ∈ c, x < U32) (b j : Nat)
    (hj : j < dens) (h : b * dens + j < c.length) :
    (block_tmp dens c b).getD j 0 = c.getD (b * dens + j) 0 := by
  unfold block_tmp
  rw [List.getD_eq_getElem?_getD, List.getElem?_map, List.getElem?_take, if_pos hj,
    List.getElem?_drop, List.getElem?_eq_getElem h, List.getD_eq_getElem?_getD,
    List.getElem?_eq_getElem h]
  simp only [Option.map_some', Option.getD_some]
  exact Nat.mod_eq_of_lt (hc _ (List.getElem_mem h))

theorem block_tmp_length (dens : Nat) (c : List Nat) (b : Nat) (h : b * dens + dens ≤ c.length) :
    (block_tmp dens c b).length = dens := by
  unfold block_tmp
  rw [List.length_map, List.length_take, List.length_drop]
  omega

theorem block_tmp_lt (dens : Nat) (c : List Nat) (b : Nat) :
    ∀ x ∈ block_tmp dens c b, x < U32 := by
  intro x hx
  unfold block_tmp at hx
  rw [List.mem_map] at hx
  obtain ⟨y, _, rfl⟩ := hx
  exact Nat.mod_lt _ U32_pos

theorem sample_mod (c : List Nat) (hc : ∀ x ∈ c, x < U32) (j : Nat) :
    c.getD j 0 % U64 = c.getD j 0 :=
  Nat.mod_eq_of_lt (lt_trans (getD_lt_of_forall c U32 j U32_pos hc) U32_lt_U64)

theorem block_words_complete (cd : BlockCodec) (fc : Bool) (dens : Nat) (c : List Nat) (k : Nat)
    (hk : k * dens + dens ≤ c.length) :
    block_words cd fc dens c k
      = if (fc && is_full (block_tmp dens c k)) = true then []
        else cd.encodeBlock ((fastDelta (block_tmp dens c k)).set 0 0) := by
  unfold block_words
  rw [if_pos hk]

theorem block_pointer_complete (cd : BlockCodec) (fc : Bool) (dens : Nat) (c z0 : List Nat)
    (k : Nat) (hk : k * dens + dens ≤ c.length) :
    block_pointer cd fc dens c z0 k
      = if (fc && is_full (block_tmp dens c k)) = true then BLOCK_FULL
        else (payload_upto cd fc dens c z0 k).length := by
  unfold block_pointer
  by_cases h : (fc && is_full (block_tmp dens c k)) = true
  · rw [if_pos ⟨hk, h⟩, if_pos h]
  · rw [if_neg (fun hh => h hh.2), if_neg h]

/-- One pass of the block loop keeps the invariant. -/
theorem encode_step_inv (cd : BlockCodec) (fc : Bool) (dens : Nat) (c : List Nat) (L : Nat)
    (z0 : List Nat) (junk : Nat → Nat) (k : Nat) (st : BuildState) (hc : ∀ x ∈ c, x < U32)
    (hinv : TableInv cd fc dens c L z0 junk k st) (hit : st.it = k * dens)
    (hrem : st.left + k * dens = c.length) (hleft : dens ≤ st.left) (hL : 2 * k + 1 < L) :
    TableInv cd fc dens c L z0 junk (k + 1) (encode_step cd dens fc c st) ∧
      (encode_step cd dens fc c st).it = (k + 1) * dens ∧
      (encode_step cd dens fc c st).left + (k + 1) * dens = c.length := by
  have hk : k * dens + dens ≤ c.length := by omega
  have htmp : ((c.drop (k * dens)).take dens).map (· % U32) = block_tmp dens c k := rfl
  have hlen1 : 2 * k + 1 < st.table.length := by rw [hinv.len]; exact hL
  have hsucc : (k + 1) * dens = k * dens + dens := by rw [Nat.add_mul, Nat.one_mul]
  unfold encode_step
  simp only [hit, htmp, sample_mod c hc, hinv.sitr]
  by_cases hfull : (fc && is_full (block_tmp dens c k)) = true
  · simp only [hfull, if_true]
    refine ⟨⟨by show 2 * k + 2 = 2 * (k + 1); omega,
      by simp only [List.length_set]; exact hinv.len, ?_, ?_, ?_, ?_⟩,
      by show k * dens + dens = (k + 1) * dens; rw [hsucc],
      by show st.left - dens + (k + 1) * dens = c.length; rw [hsucc]; omega⟩
    · simp only [payload_upto]
      rw [block_words_complete cd fc dens c k hk, if_pos hfull, List.append_nil]
      exact hinv.zeq
    · intro b hb
      by_cases hbk : b = k
      · subst hbk
        exact set_set_fst _ _ _ _ hlen1
      · rw [set_set_other _ _ _ _ _ (by omega) (by omega)]
        exact hinv.smp b (by omega)
    · intro b hb
      by_cases hbk : b = k
      · subst hbk
        rw [block_pointer_complete cd fc dens c z0 b hk, if_pos hfull]
        exact set_set_snd _ _ _ _ hlen1
      · rw [set_set_other _ _ _ _ _ (by omega) (by omega)]
        exact hinv.ptr b (by omega)
    · intro j hj
      rw [set_set_other _ _ _ _ _ (by omega) (by omega)]
      exact hinv.junk_kept j (by omega)
  · simp only [hfull, Bool.false_eq_true, if_false]
    refine ⟨⟨by show 2 * k + 2 = 2 * (k + 1); omega,
      by simp only [List.length_set]; exact hinv.len, ?_, ?_, ?_, ?_⟩,
      by show k * dens + dens = (k + 1) * dens; rw [hsucc],
      by show st.left - dens + (k + 1) * dens = c.length; rw [hsucc]; omega⟩
    · simp only [payload_upto]
      rw [block_words_complete cd fc dens c k hk, if_neg hfull, hinv.zeq]
    · intro b hb
      by_cases hbk : b = k
      · subst hbk
        exact set_set_fst _ _ _ _ hlen1
      · rw [set_set_other _ _ _ _ _ (by omega) (by omega)]
        exact hinv.smp b (by omega)
    · intro b hb
      by_cases hbk : b = k
      · subst hbk
        rw [block_pointer_complete cd fc dens c z0 b hk, if_neg hfull, ← hinv.zeq]
        exact set_set_snd _ _ _ _ hlen1
      · rw [set_set_other _ _ _ _ _ (by omega) (by omega)]
        exact hinv.ptr b (by omega)
    · intro j hj
      rw [set_set_other _ _ _ _ _ (by omega) (by omega)]
      exact hinv.junk_kept j (by omega)

/-- The block loop finishes within `fuel` passes when `fuel` is at least the number of
elements left, and its final state satisfies the invariant with fewer than `dens` elements
left. -/
theorem encode_blocks_inv (cd : BlockCodec) (fc : Bool) (dens : Nat) (c : List Nat) (L : Nat)
    (z0 : List Nat) (junk : Nat → Nat) (hc : ∀ x ∈ c, x < U32) (hdens : 0 < dens)
    (hL : 2 * (c.length / dens) ≤ L) (fuel : Nat) :
    ∀ (k : Nat) (st : BuildState), TableInv cd fc dens c L z0 junk k st → st.it = k * dens →
      st.left + k * dens = c.length → st.left ≤ fuel →
      ∃ k2 st2, encode_blocks cd dens fc c fuel st = some st2 ∧
        TableInv cd fc dens c L z0 junk k2 st2 ∧ st2.left + k2 * dens = c.length ∧
        st2.left < dens := by
  induction fuel with
  | zero =>
    intro k st hinv _ hrem hfuel
    refine ⟨k, st, ?_, hinv, hrem, by omega⟩
    simp only [encode_blocks]
    rw [if_neg (by omega)]
  | succ fuel ih =>
    intro k st hinv hit hrem hfuel
    by_cases hleft : dens ≤ st.left
    · have hk : (k + 1) * dens ≤ c.length := by
        rw [Nat.add_mul, Nat.one_mul]
        omega
      have hk2 : k + 1 ≤ c.length / dens := (Nat.le_div_iff_mul_le hdens).mpr hk
      obtain ⟨hstep, hit2, hrem2⟩ :=
        encode_step_inv cd fc dens c L z0 junk k st hc hinv hit hrem hleft (by omega)
      have hfuel2 : (encode_step cd dens fc c st).left ≤ fuel := by
        rw [Nat.add_mul, Nat.one_mul] at hrem2
        omega
      obtain ⟨k2, st2, h1, h2, h3, h4⟩ := ih (k + 1) _ hstep hit2 hrem2 hfuel2
      refine ⟨k2, st2, ?_, h2, h3, h4⟩
      simp only [encode_blocks]
      rw [if_pos hleft]
      exact h1
    · refine ⟨k, st, ?_, hinv, hrem, by omega⟩
      simp only [encode_blocks]
      rw [if_neg hleft]

theorem last_block_tmp_length (dens : Nat) (c : List Nat) (left : Nat) :
    (last_block_tmp dens c left).length = dens := by
  simp [last_block_tmp]

theorem last_block_tmp_lt (dens : Nat) (c : List Nat) (left : Nat) :
    ∀ x ∈ last_block_tmp dens c left, x < U32 := by
  intro x hx
  unfold last_block_tmp at hx
  rw [List.mem_map] at hx
  obtain ⟨y, _, rfl⟩ := hx
  exact Nat.mod_lt _ U32_pos

theorem last_block_tmp_getD (dens : Nat) (c : List Nat) (hc : ∀ x ∈ c, x < U32) (left j : Nat)
    (hj : j < dens) :
    (last_block_tmp dens c left).getD j 0
      = if j < left then c.getD (c.length - left + j) 0 else c.getD (c.length - 1) 0 := by
  unfold last_block_tmp
  rw [getD_range_map _ _ _ hj]
  apply Nat.mod_eq_of_lt
  split
  · exact getD_lt_of_forall _ _ _ U32_pos hc
  · exact getD_lt_of_forall _ _ _ U32_pos hc

theorem block_vals_length (dens : Nat) (c : List Nat) (b : Nat) :
    (block_vals dens c b).length = dens := by
  unfold block_vals
  split
  · exact block_tmp_length dens c b (by assumption)
  · exact last_block_tmp_length dens c _

theorem block_vals_lt (dens : Nat) (c : List Nat) (b : Nat) :
    ∀ x ∈ block_vals dens c b, x < U32 := by
  unfold block_vals
  split
  · exact block_tmp_lt dens c b
  · exact last_block_tmp_lt dens c _

/-- The exit of the block loop: `k` complete blocks were encoded and `left` elements remain. -/
theorem exit_counts (dens n k left : Nat) (h : left + k * dens = n) (hl : left < dens) :
    k = n / dens ∧ left = n % dens := by
  subst h
  constructor
  · rw [Nat.add_mul_div_right _ _ (by omega), Nat.div_eq_of_lt hl, Nat.zero_add]
  · rw [Nat.add_mul_mod_self_right, Nat.mod_eq_of_lt hl]

/-- Entry `j` of the values of block `b` is the input element `b * dens + j` when there is
one, and the final input element otherwise. -/
theorem block_vals_getD (dens : Nat) (c : List Nat) (hc : ∀ x ∈ c, x < U32) (b j : Nat)
    (hj : j < dens) (hb : b * dens < c.length) :
    (block_vals dens c b).getD j 0
      = if b * dens + j < c.length then c.getD (b * dens + j) 0 else c.getD (c.length - 1) 0 := by
  unfold block_vals
  by_cases hfull : b * dens + dens ≤ c.length
  · rw [if_pos hfull, if_pos (by omega)]
    exact block_tmp_getD dens c hc b j hj (by omega)
  · rw [if_neg hfull, last_block_tmp_getD dens c hc _ j hj]
    have hdm := Nat.div_add_mod c.length dens
    have hb2 : b = c.length / dens := by
      have h1 : b ≤ c.length / dens := (Nat.le_div_iff_mul_le (by omega)).mpr (by omega)
      have h2 : c.length / dens < b + 1 := by
        rw [Nat.div_lt_iff_lt_mul (by omega), Nat.add_mul, Nat.one_mul]
        omega
      omega
    have hbase : c.length - c.length % dens = b * dens := by
      rw [hb2, Nat.mul_comm]
      omega
    rw [hbase]
    have : (j < c.length % dens) ↔ (b * dens + j < c.length) := by
      rw [hb2, Nat.mul_comm]
      omega
    simp only [this]


theorem num_blocks_spec (dens n : Nat) (hdens : 0 < dens) (b : Nat) :
    b < num_blocks dens n ↔ b * dens < n := by
  have hdm := Nat.div_add_mod n dens
  have hr := Nat.mod_lt n hdens
  have hq : dens * (n / dens) = n / dens * dens := Nat.mul_comm _ _
  unfold num_blocks
  constructor
  · intro h
    by_cases h0 : n % dens = 0
    · simp only [h0, ne_eq, not_true_eq_false, if_false, Nat.add_zero] at h
      have : (b + 1) * dens ≤ n / dens * dens := Nat.mul_le_mul_right _ h
      rw [Nat.add_mul, Nat.one_mul] at this
      omega
    · simp only [ne_eq, h0, not_false_eq_true, if_true] at h
      have : b * dens ≤ n / dens * dens := Nat.mul_le_mul_right _ (by omega)
      omega
  · intro h
    by_contra hcon
    by_cases h0 : n % dens = 0
    · simp only [h0, ne_eq, not_true_eq_false, if_false, Nat.add_zero] at hcon
      have : n / dens * dens ≤ b * dens := Nat.mul_le_mul_right _ (by omega)
      omega
    · simp only [ne_eq, h0, not_false_eq_true, if_true] at hcon
      have : (n / dens + 1) * dens ≤ b * dens := Nat.mul_le_mul_right _ (by omega)
      rw [Nat.add_mul, Nat.one_mul] at this
      omega

/-- The statement for the short last block extends the invariant to all blocks. -/
theorem encode_last_inv (cd : BlockCodec) (fc : Bool) (dens : Nat) (c : List Nat) (L : Nat)
    (z0 : List Nat) (junk : Nat → Nat) (k : Nat) (st : BuildState) (hc : ∀ x ∈ c, x < U32)
    (hinv : TableInv cd fc dens c L z0 junk k st) (hrem : st.left + k * dens = c.length)
    (hleft : st.left < dens) (hL : 2 * num_blocks dens c.length ≤ L) :
    TableInv cd fc dens c L z0 junk (num_blocks dens c.length) (encode_last cd dens c st) := by
  obtain ⟨hk, hmod⟩ := exit_counts dens c.length k st.left hrem hleft
  unfold encode_last
  by_cases h0 : st.left = 0
  · have hnb : num_blocks dens c.length = k := by
      unfold num_blocks
      rw [← hmod, ← hk]
      simp [h0]
    rw [hnb]
    simp only [h0, ne_eq, not_true_eq_false, if_false]
    exact hinv
  · have hnb : num_blocks dens c.length = k + 1 := by
      unfold num_blocks
      rw [← hmod, ← hk]
      simp [h0]
    rw [hnb] at hL ⊢
    simp only [ne_eq, h0, not_false_eq_true, if_true]
    have hlen1 : st.sample_itr + 1 < st.table.length := by
      rw [hinv.len, hinv.sitr]
      omega
    have hnc : ¬ k * dens + dens ≤ c.length := by omega
    have hbase : c.length - st.left = k * dens := by omega
    refine ⟨by show st.sample_itr + 2 = 2 * (k + 1); rw [hinv.sitr]; omega,
      by simp only [List.length_set]; exact hinv.len, ?_, ?_, ?_, ?_⟩
    · simp only [payload_upto]
      unfold block_words
      rw [if_neg hnc, ← hmod, hinv.zeq]
    · intro b hb
      by_cases hbk : b = k
      · subst hbk
        rw [sample_mod c hc, hbase]
        have e : 2 * b = st.sample_itr := hinv.sitr.symm
        rw [e]
        exact set_set_fst _ _ _ _ hlen1
      · rw [set_set_other _ _ _ _ _ (by rw [hinv.sitr]; omega) (by rw [hinv.sitr]; omega)]
        exact hinv.smp b (by omega)
    · intro b hb
      by_cases hbk : b = k
      · subst hbk
        have hp : block_pointer cd fc dens c z0 b = st.z.length := by
          unfold block_pointer
          rw [if_neg (fun hh => hnc hh.1), hinv.zeq]
        have e : 2 * b = st.sample_itr := hinv.sitr.symm
        rw [hp, e]
        exact set_set_snd _ _ _ _ hlen1
      · rw [set_set_other _ _ _ _ _ (by rw [hinv.sitr]; omega) (by rw [hinv.sitr]; omega)]
        exact hinv.ptr b (by omega)
    · intro j hj
      rw [set_set_other _ _ _ _ _ (by rw [hinv.sitr]; omega) (by rw [hinv.sitr]; omega)]
      exact hinv.junk_kept j (by omega)

theorem any_gt_false (c : List Nat) (hc : ∀ x ∈ c, x < U32) :
    c.any (fun x => decide (x > U32 - 1)) = false := by
  rw [Bool.eq_false_iff]
  intro h
  rw [List.any_eq_true] at h
  obtain ⟨x, hx, hgt⟩ := h
  have := hc x hx
  simp only [decide_eq_true_eq] at hgt
  omega

theorem resize_uninit_length (junk : Nat → Nat) (len : Nat) :
    (resize_uninit junk len).length = len := by
  simp [resize_uninit]

theorem resize_uninit_getElem? (junk : Nat → Nat) (len j : Nat) (h : j < len) :
    (resize_uninit junk len)[j]? = some (junk j) := by
  simp [resize_uninit, List.getElem?_map, List.getElem?_range h]

/-- The layout of the vector a constructor of the delta variants returns. -/
theorem delta_build_layout (what : String) (z0 : List Nat) (fc term : Bool) (junk : Nat → Nat)
    (cd : BlockCodec) (dens : Nat) (c : List Nat) (hne : c ≠ []) (hc : ∀ x ∈ c, x < U32)
    (hdens : 0 < dens) :
    ∃ v, delta_build what z0 fc term junk cd dens c = Built.ok v ∧
      Layout cd fc term dens c z0 junk v := by
  have hlen : c.length ≠ 0 := by
    intro h
    exact hne (List.length_eq_zero.mp h)
  unfold delta_build
  rw [if_neg hlen, any_gt_false c hc]
  simp only [Bool.false_eq_true, if_false]
  set nb := num_blocks dens c.length with hnb
  have hq : c.length / dens ≤ nb := by rw [hnb]; unfold num_blocks; omega
  have hinv0 : TableInv cd fc dens c (2 * nb + 2) z0 junk 0
      { table := resize_uninit junk (2 * nb + 2), sample_itr := 0, z := z0, it := 0,
        left := c.length } :=
    ⟨rfl, resize_uninit_length _ _, rfl, fun b hb => absurd hb (by omega),
      fun b hb => absurd hb (by omega), fun j _ => rfl⟩
  obtain ⟨k2, st2, hrun, hinv2, hrem2, hleft2⟩ :=
    encode_blocks_inv cd fc dens c (2 * nb + 2) z0 junk hc hdens (by omega) c.length 0 _ hinv0
      (by simp) (by simp) (le_refl _)
  rw [hrun]
  have hfin := encode_last_inv cd fc dens c (2 * nb + 2) z0 junk k2 st2 hc hinv2 hrem2 hleft2
    (by omega)
  refine ⟨_, rfl, ?_⟩
  simp only [bit_compress]
  unfold terminate_samples
  cases term with
  | false =>
    simp only [Bool.false_eq_true, if_false]
    refine ⟨rfl, hfin.len, hfin.zeq, hfin.smp, hfin.ptr, ?_⟩
    intro j hj1 hj2
    rw [hfin.junk_kept j hj1]
    exact resize_uninit_getElem? junk _ j hj2
  | true =>
    simp only [if_true]
    have hlen2 : (encode_last cd dens c st2).sample_itr + 1
        < (encode_last cd dens c st2).table.length := by
      rw [hfin.len, hfin.sitr]
      omega
    refine ⟨rfl, by simp only [List.length_set]; exact hfin.len, hfin.zeq, ?_, ?_, ?_⟩
    · intro b hb
      rw [set_set_other _ _ _ _ _ (by rw [hfin.sitr]; omega) (by rw [hfin.sitr]; omega)]
      exact hfin.smp b hb
    · intro b hb
      rw [set_set_other _ _ _ _ _ (by rw [hfin.sitr]; omega) (by rw [hfin.sitr]; omega)]
      exact hfin.ptr b hb
    · intro j hj1 hj2
      by_cases hj : j = 2 * nb
      · rw [hj, ← hfin.sitr]
        exact set_set_fst _ _ _ _ hlen2
      · have hj3 : j = (encode_last cd dens c st2).sample_itr + 1 := by
          rw [hfin.sitr]
          omega
        rw [hj3]
        exact set_set_snd _ _ _ _ hlen2

/-! ## From the layout to the stored blocks -/

theorem payload_upto_length_le (cd : BlockCodec) (fc : Bool) (dens : Nat) (c z0 : List Nat)
    (b k : Nat) (h : b ≤ k) :
    (payload_upto cd fc dens c z0 b).length ≤ (payload_upto cd fc dens c z0 k).length := by
  induction k with
  | zero =>
    have : b = 0 := by omega
    rw [this]
  | succ k ih =>
    by_cases hb : b = k + 1
    · rw [hb]
    · have := ih (by omega)
      simp only [payload_upto, List.length_append]
      omega

theorem payload_upto_split (cd : BlockCodec) (fc : Bool) (dens : Nat) (c z0 : List Nat)
    (b k : Nat) (h : b < k) :
    ∃ rest, payload_upto cd fc dens c z0 k
      = payload_upto cd fc dens c z0 b ++ (block_words cd fc dens c b ++ rest) := by
  induction k with
  | zero => omega
  | succ k ih =>
    by_cases hb : b = k
    · subst hb
      exact ⟨[], by simp [payload_upto]⟩
    · obtain ⟨rest, hrest⟩ := ih (by omega)
      refine ⟨rest ++ block_words cd fc dens c k, ?_⟩
      simp only [payload_upto]
      rw [hrest, List.append_assoc, List.append_assoc]

/-- Every block of the input is stored in a vector that has the layout of the constructor. -/
theorem stored_of_layout (cd : BlockCodec) (fc term : Bool) (dens : Nat) (c z0 : List Nat)
    (junk : Nat → Nat) (v : DeltaVector) (hc : ∀ x ∈ c, x < U32) (hdens : 0 < dens)
    (hz0 : fc = true → 1 ≤ z0.length) (hlay : Layout cd fc term dens c z0 junk v) (b : Nat)
    (hb : b * dens < c.length) :
    BlockStored cd fc v.m_sample_vals_and_pointer v.m_z b (block_vals dens c b) := by
  have hbn : b < num_blocks dens c.length := (num_blocks_spec dens _ hdens b).mpr hb
  refine ⟨?_, block_pointer cd fc dens c z0 b, hlay.ptr b hbn, ?_⟩
  · rw [hlay.smp b hbn, block_vals_getD dens c hc b 0 hdens hb, if_pos (by omega), Nat.add_zero]
  · by_cases hfull : b * dens + dens ≤ c.length ∧ (fc && is_full (block_tmp dens c b)) = true
    · left
      have h2 := hfull.2
      simp only [Bool.and_eq_true] at h2
      refine ⟨h2.1, ?_, ?_⟩
      · unfold block_pointer
        rw [if_pos hfull]
      · unfold block_vals
        rw [if_pos hfull.1]
        exact h2.2
    · right
      have hp : block_pointer cd fc dens c z0 b = (payload_upto cd fc dens c z0 b).length := by
        unfold block_pointer
        rw [if_neg hfull]
      have hwords : block_words cd fc dens c b
          = cd.encodeBlock ((fastDelta (block_vals dens c b)).set 0 0) := by
        unfold block_words block_vals
        by_cases hcomp : b * dens + dens ≤ c.length
        · rw [if_pos hcomp, if_pos hcomp, if_neg (fun hh => hfull ⟨hcomp, hh⟩)]
        · rw [if_neg hcomp, if_neg hcomp]
      rw [hp, hlay.zeq]
      refine ⟨?_, payload_upto_length_le cd fc dens c z0 b _ (le_of_lt hbn), ?_⟩
      · intro h
        have h1 := hz0 h
        have h2 := payload_upto_length_le cd fc dens c z0 0 b (Nat.zero_le _)
        simp only [payload_upto] at h2
        unfold BLOCK_FULL
        omega
      · obtain ⟨rest, hrest⟩ := payload_upto_split cd fc dens c z0 b _ hbn
        refine ⟨rest, ?_⟩
        rw [hrest, List.drop_left, hwords]

/-- Every index that falls into a block of the input is answered by the accessor with the
element at that index, or with the final element when the index lies in the padding of the
short last block. -/
theorem delta_index_build (what : String) (z0 : List Nat) (fc term : Bool) (junk : Nat → Nat)
    (cd : BlockCodec) (dens : Nat) (c : List Nat) (hne : c ≠ []) (hc : ∀ x ∈ c, x < U32)
    (hdens : 0 < dens) (hz0 : fc = true → 1 ≤ z0.length) (hcd : CodecInverts cd dens) :
    ∃ v, delta_build what z0 fc term junk cd dens c = Built.ok v ∧ v.m_size = c.length ∧
      ∀ (NDEBUG : Bool) (i : Nat), i / dens * dens < c.length →
        (NDEBUG = true ∨ (i < c.length ∧ (i + 1) % U64 ≠ 0)) →
        delta_index fc NDEBUG cd dens v i
          = some (if i < c.length then c.getD i 0 else c.getD (c.length - 1) 0) := by
  obtain ⟨v, hv, hlay⟩ := delta_build_layout what z0 fc term junk cd dens c hne hc hdens
  refine ⟨v, hv, hlay.size_eq, ?_⟩
  intro NDEBUG i hblock hassert
  have hst := stored_of_layout cd fc term dens c z0 junk v hc hdens hz0 hlay (i / dens) hblock
  have h := delta_index_of_stored fc NDEBUG cd dens v (i / dens) (block_vals dens c (i / dens)) i
    hcd hdens (block_vals_length dens c _) (block_vals_lt dens c _) hst rfl
    (by rw [hlay.size_eq]; exact hassert)
  rw [h, block_vals_getD dens c hc (i / dens) (i % dens) (Nat.mod_lt _ hdens) hblock]
  have : i / dens * dens + i % dens = i := by
    rw [Nat.mul_comm]
    exact Nat.div_add_mod i dens
  rw [this]



theorem div_mul_lt_of_lt (i n dens : Nat) (h : i < n) : i / dens * dens < n :=
  lt_of_le_of_lt (Nat.div_mul_le_self i dens) h

theorem succ_mod_ne_zero (i n : Nat) (h : i < n) (hn : n < U64) : (i + 1) % U64 ≠ 0 := by
  unfold U64 at *
  omega

theorem plainCodec_inverts (dens : Nat) : CodecInverts (plainCodec dens) dens := by
  intro frame rest hlen _
  simp only [plainCodec]
  exact List.take_left' hlen

/-! ## Round trip of the delta variants -/

/-- C1: for every non-empty sequence `c` of values `<= 2^32-1`, in any order, `bp_vector(c)`
is constructed and `bp_vector(c)[i] == c[i]` for every `i < c.size()`, provided `decodeBlock`
returns the frame of `dens` words that was given to `encodeBlock`. -/
theorem bp_vector_round_trip (pad : Nat) (junk : Nat → Nat) (cd : BlockCodec) (dens : Nat)
    (NDEBUG : Bool) (c : List Nat) (hdens : 0 < dens) (hcd : CodecInverts cd dens)
    (hne : c ≠ []) (hc : ∀ x ∈ c, x ≤ 2 ^ 32 - 1) (hsize : c.length < U64) :
    ∃ v, bp_vector.build pad junk cd dens c = Built.ok v ∧
      ∀ i, i < c.length → bp_vector.index NDEBUG cd dens v i = (c)[i]? := by
  have hc2 : ∀ x ∈ c, x < U32 := fun x hx => by
    have := hc x hx
    unfold U32
    omega
  obtain ⟨v, hv, _, hidx⟩ := delta_index_build "bp_vector: only supports 32bit integers."
    (List.replicate pad 0) false false junk cd dens c hne hc2 hdens (by simp) hcd
  refine ⟨v, hv, ?_⟩
  intro i hi
  unfold bp_vector.index
  rw [hidx NDEBUG i (div_mul_lt_of_lt i _ dens hi) (Or.inr ⟨hi, succ_mod_ne_zero i _ hi hsize⟩),
    if_pos hi, getElem?_eq_some_getD c i hi]

/-- C1 at a concrete input: two complete blocks and a short one of a non-monotone sequence
with `dens = 4`, stored with the plain codec. -/
theorem bp_vector_round_trip_witness :
    CodecInverts (plainCodec 4) 4 ∧
    ∃ v, bp_vector.build 0 (fun _ => 0) (plainCodec 4) 4
        [5, 3, 4294967295, 1, 7, 2, 0, 40, 9, 8] = Built.ok v ∧
      ∀ i, i < 10 → bp_vector.index false (plainCodec 4) 4 v i
        = [5, 3, 4294967295, 1, 7, 2, 0, 40, 9, 8][i]? :=
  ⟨plainCodec_inverts 4,
    bp_vector_round_trip 0 (fun _ => 0) (plainCodec 4) 4 false
      [5, 3, 4294967295, 1, 7, 2, 0, 40, 9, 8] (by decide) (plainCodec_inverts 4) (by decide)
      (by decide) (by decide)⟩

/-- C2: for every non-empty sequence `c` of values `<= 2^32-1`, `optpfor_vector(c)` is
constructed and `optpfor_vector(c)[i] == c[i]` for every `i < c.size()`, in blocks stored with
the full marker and in the short last block alike, provided `decodeBlock` returns the frame
that was given to `encodeBlock`. -/
theorem optpfor_vector_round_trip (junk : Nat → Nat) (cd : BlockCodec) (dens : Nat)
    (NDEBUG : Bool) (c : List Nat) (hdens : 0 < dens) (hcd : CodecInverts cd dens)
    (hne : c ≠ []) (hc : ∀ x ∈ c, x ≤ 2 ^ 32 - 1) (hsize : c.length < U64) :
    ∃ v, optpfor_vector.build junk cd dens c = Built.ok v ∧
      ∀ i, i < c.length → optpfor_vector.index NDEBUG cd dens v i = (c)[i]? := by
  have hc2 : ∀ x ∈ c, x < U32 := fun x hx => by
    have := hc x hx
    unfold U32
    omega
  obtain ⟨v, hv, _, hidx⟩ := delta_index_build "optpfor_vector: only supports 32bit integers."
    [0] true false junk cd dens c hne hc2 hdens (by simp) hcd
  refine ⟨v, hv, ?_⟩
  intro i hi
  unfold optpfor_vector.index
  rw [hidx NDEBUG i (div_mul_lt_of_lt i _ dens hi) (Or.inr ⟨hi, succ_mod_ne_zero i _ hi hsize⟩),
    if_pos hi, getElem?_eq_some_getD c i hi]

/-- C2 at a concrete input with `dens = 32`: a complete block that is a run wrapping around
`2^32` (stored with the full marker) followed by a short block. -/
theorem optpfor_vector_round_trip_witness :
    CodecInverts (plainCodec 32) 32 ∧
    ∃ v, optpfor_vector.build (fun _ => 0) (plainCodec 32) 32
        ((List.range 32).map (fun j => (4294967290 + j) % 2 ^ 32) ++ [3, 1, 2]) = Built.ok v ∧
      ∀ i, i < ((List.range 32).map (fun j => (4294967290 + j) % 2 ^ 32) ++ [3, 1, 2]).length →
        optpfor_vector.index false (plainCodec 32) 32 v i
          = ((List.range 32).map (fun j => (4294967290 + j) % 2 ^ 32) ++ [3, 1, 2])[i]? :=
  ⟨plainCodec_inverts 32,
    optpfor_vector_round_trip (fun _ => 0) (plainCodec 32) 32 false
      ((List.range 32).map (fun j => (4294967290 + j) % 2 ^ 32) ++ [3, 1, 2]) (by decide)
      (plainCodec_inverts 32) (by decide) (by decide) (by decide)⟩

/-! ## Bit streams -/

theorem int_bits_length (x len : Nat) : (int_bits x len).length = len := by
  simp [int_bits]

theorem put_int_length (os : List Bool) (x len : Nat) :
    (put_int os x len).length = os.length + len := by
  simp [put_int, int_bits_length]

theorem bits_value_tag (t : Nat) (ht : t < 4) : bits_value (int_bits t 2) = t := by
  interval_cases t <;> decide

/-- The two bits written by `put_int(t, 2)` are read back by `peek_int(2)` at the offset the
stream had before the write, whatever is written after them. -/
theorem peek_tag (os rest : List Bool) (t : Nat) (ht : t < 4) :
    peek_int (put_int os t 2 ++ rest) os.length 2 = some t := by
  unfold peek_int
  rw [if_pos (by rw [List.length_append, put_int_length]; omega)]
  unfold put_int
  rw [List.append_assoc, List.drop_left, List.take_left' (int_bits_length t 2),
    bits_value_tag t ht]

/-! ## The accessor of `ef_vector` on a block tagged FULL -/

/-- On a block whose tag is 3 the accessor returns `value_offset + in_block_offset + 1`. -/
theorem ef_index_full (lc : ListCodecs) (B : Nat) (v : EfVector) (i data_offset value_offset : Nat)
    (h1 : v.m_block_data[2 * (i / B)]? = some data_offset)
    (h2 : peek_int v.m_low_data data_offset 2 = some 3)
    (h3 : v.m_block_data[2 * (i / B) + 1]? = some value_offset) :
    ef_vector.index lc B v i = some ((value_offset + i % B + 1) % U64) := by
  unfold ef_vector.index
  simp only [h1, h2, h3]
  rfl

/-! ## The block loop of `ef_vector` -/

/-- The elements of a short tail are collected in `tmp` and nothing is encoded. -/
theorem fill_blocks_tail (lc : ListCodecs) (B : Nat) (top : List Nat) (tail : List Nat) :
    ∀ st : EfState, st.tmp.length + tail.length < B →
      fill_blocks lc B top tail st = some { st with tmp := st.tmp ++ tail.map (· % U64) } := by
  induction tail with
  | nil =>
    intro st _
    simp [fill_blocks]
  | cons x xs ih =>
    intro st h
    simp only [List.length_cons] at h
    have hlen : (st.tmp ++ [x % U64]).length ≠ B := by
      simp only [List.length_append, List.length_singleton]
      omega
    simp only [fill_blocks]
    rw [if_neg hlen, ih { st with tmp := st.tmp ++ [x % U64] }
      (by simp only [List.length_append, List.length_singleton]; omega)]
    simp

/-- The elements that complete a block are collected in `tmp`, the block is encoded with
`last = false`, its offset is recorded and the loop goes on with an empty `tmp`. -/
theorem fill_blocks_chunk (lc : ListCodecs) (B : Nat) (top : List Nat) (chunk rest : List Nat) :
    ∀ st : EfState, st.tmp.length + chunk.length = B → chunk ≠ [] →
      fill_blocks lc B top (chunk ++ rest) st =
        match encode_block lc st.os (st.tmp ++ chunk.map (· % U64)) st.cur_block top false with
        | none => none
        | some (os, offset) =>
          fill_blocks lc B top rest
            { os := os, tmp := [],
              m_block_data := st.m_block_data.set (2 * st.cur_block) offset,
              cur_block := st.cur_block + 1 } := by
  induction chunk with
  | nil =>
    intro st _ hne
    exact absurd rfl hne
  | cons x xs ih =>
    intro st h _
    simp only [List.length_cons] at h
    by_cases hxs : xs = []
    · subst hxs
      have hlen : (st.tmp ++ [x % U64]).length = B := by
        simp only [List.length_append, List.length_singleton]
        simpa using h
      rw [List.cons_append, List.nil_append, fill_blocks]
      rw [if_pos hlen]
      rfl
    · have hpos : 0 < xs.length := List.length_pos.mpr hxs
      have hlen : (st.tmp ++ [x % U64]).length ≠ B := by
        simp only [List.length_append, List.length_singleton]
        omega
      rw [List.cons_append, fill_blocks]
      rw [if_neg hlen, ih { st with tmp := st.tmp ++ [x % U64] }
        (by simp only [List.length_append, List.length_singleton]; omega) hxs]
      simp only [List.map_cons, List.append_assoc, List.singleton_append]

/-- The block step of `fill_blocks_chunk` for a block that `encode_block` encodes. -/
theorem fill_blocks_block (lc : ListCodecs) (B : Nat) (top : List Nat) (chunk rest : List Nat)
    (st : EfState) (os : List Bool) (offset : Nat) (hlen : st.tmp.length + chunk.length = B)
    (hne : chunk ≠ [])
    (he : encode_block lc st.os (st.tmp ++ chunk.map (· % U64)) st.cur_block top false
      = some (os, offset)) :
    fill_blocks lc B top (chunk ++ rest) st =
      fill_blocks lc B top rest
        { os := os, tmp := [], m_block_data := st.m_block_data.set (2 * st.cur_block) offset,
          cur_block := st.cur_block + 1 } := by
  rw [fill_blocks_chunk lc B top chunk rest st hlen hne, he]

/-- The short last block: `encode_block` is called with `last = true`. -/
theorem fill_last_block (lc : ListCodecs) (top : List Nat) (st : EfState) (os : List Bool)
    (offset : Nat) (hne : st.tmp ≠ [])
    (he : encode_block lc st.os st.tmp st.cur_block top true = some (os, offset)) :
    fill_last lc top st
      = some { st with os := os, m_block_data := st.m_block_data.set (2 * st.cur_block) offset } := by
  unfold fill_last
  rw [if_pos (by simpa using hne), he]

/-- The constructor of `ef_vector` in terms of its three steps. -/
theorem ef_build_steps (junk : Nat → Nat) (lc : ListCodecs) (B : Nat) (c top : List Nat)
    (st1 st2 : EfState) (h1 : construct_top B c = some top)
    (h2 : fill_blocks lc B top c
      { os := [], tmp := [], m_block_data := resize_uninit junk (2 * top.length),
        cur_block := 0 } = some st1)
    (h3 : fill_last lc top st1 = some st2) :
    ef_vector.build junk lc B c = Built.ok
      { m_size := c.length, m_low_data := st2.os,
        m_block_data := encode_top top top.length st2.m_block_data } := by
  unfold ef_vector.build
  rw [h1]
  dsimp only
  rw [h2]
  dsimp only
  rw [h3]
  rfl

/-! ## Construction failure and empty input -/

/-- The constructor of the delta variants ends in an exception exactly for a non-empty input
with a value above `2^32-1`; the exception is the one built from `what`. -/
theorem delta_build_throws_iff (what : String) (z0 : List Nat) (fc term : Bool)
    (junk : Nat → Nat) (cd : BlockCodec) (dens : Nat) (c : List Nat) (w : String) :
    delta_build what z0 fc term junk cd dens c = Built.runtime_error w ↔
      (w = what ∧ c ≠ [] ∧ ∃ x ∈ c, x > 2 ^ 32 - 1) := by
  unfold delta_build
  by_cases h0 : c.length = 0
  · rw [if_pos h0]
    have : c = [] := List.length_eq_zero.mp h0
    simp [this]
  · rw [if_neg h0]
    have hne : c ≠ [] := fun h => h0 (by rw [h]; rfl)
    by_cases hany : c.any (fun x => decide (x > U32 - 1)) = true
    · rw [if_pos hany]
      rw [List.any_eq_true] at hany
      obtain ⟨x, hx, hgt⟩ := hany
      simp only [decide_eq_true_eq] at hgt
      constructor
      · intro h
        injection h with h
        exact ⟨h.symm, hne, x, hx, hgt⟩
      · rintro ⟨h, -, -⟩
        rw [h]
    · rw [if_neg hany]
      constructor
      · intro h
        dsimp only at h
        split at h <;> cases h
      · rintro ⟨-, -, x, hx, hgt⟩
        exact absurd (List.any_eq_true.mpr ⟨x, hx, by simpa [U32] using hgt⟩) hany

/-- C5: construction of `bp_vector` or `optpfor_vector` from `c` throws the
`std::runtime_error` if and only if `c` is non-empty and holds a value greater than `2^32-1`,
and then returns no container; in every other case it returns a container. The check comes
before the sample table and the payload are touched: the outcome `runtime_error` carries no
state. -/
theorem delta_build_fails_iff (pad : Nat) (junk : Nat → Nat) (cd : BlockCodec) (dens : Nat)
    (c : List Nat) (hdens : 0 < dens) :
    (bp_vector.build pad junk cd dens c
        = Built.runtime_error "bp_vector: only supports 32bit integers." ↔
      (c ≠ [] ∧ ∃ x ∈ c, x > 2 ^ 32 - 1)) ∧
    (optpfor_vector.build junk cd dens c
        = Built.runtime_error "optpfor_vector: only supports 32bit integers." ↔
      (c ≠ [] ∧ ∃ x ∈ c, x > 2 ^ 32 - 1)) ∧
    (¬ (c ≠ [] ∧ ∃ x ∈ c, x > 2 ^ 32 - 1) →
      (∃ v, bp_vector.build pad junk cd dens c = Built.ok v) ∧
      (∃ v, optpfor_vector.build junk cd dens c = Built.ok v)) := by
  refine ⟨?_, ?_, ?_⟩
  · unfold bp_vector.build
    rw [delta_build_throws_iff]
    simp
  · unfold optpfor_vector.build
    rw [delta_build_throws_iff]
    simp
  · intro h
    by_cases hne : c = []
    · subst hne
      exact ⟨⟨_, rfl⟩, ⟨_, rfl⟩⟩
    · have hc : ∀ x ∈ c, x < U32 := by
        intro x hx
        by_contra hcon
        exact h ⟨hne, x, hx, by unfold U32 at hcon; omega⟩
      obtain ⟨v1, h1, _⟩ := delta_build_layout "bp_vector: only supports 32bit integers."
        (List.replicate pad 0) false false junk cd dens c hne hc hdens
      obtain ⟨v2, h2, _⟩ := delta_build_layout "optpfor_vector: only supports 32bit integers."
        [0] true false junk cd dens c hne hc hdens
      exact ⟨⟨v1, h1⟩, ⟨v2, h2⟩⟩

/-- C5 at a concrete input: the second value is `2^32`, and both constructors throw. -/
theorem delta_build_fails_iff_witness :
    bp_vector.build 0 (fun _ => 0) (plainCodec 128) 128 [1, 4294967296]
        = Built.runtime_error "bp_vector: only supports 32bit integers." ∧
    optpfor_vector.build (fun _ => 0) (plainCodec 128) 128 [1, 4294967296]
        = Built.runtime_error "optpfor_vector: only supports 32bit integers." :=
  ⟨(delta_build_fails_iff 0 (fun _ => 0) (plainCodec 128) 128 [1, 4294967296]
      (by decide)).1.mpr ⟨by decide, 4294967296, by decide, by decide⟩,
    (delta_build_fails_iff 0 (fun _ => 0) (plainCodec 128) 128 [1, 4294967296]
      (by decide)).2.1.mpr ⟨by decide, 4294967296, by decide, by decide⟩⟩

theorem ef_build_nil (junk : Nat → Nat) (lc : ListCodecs) (B : Nat) :
    ef_vector.build junk lc B []
      = Built.ok { m_size := 0, m_low_data := [], m_block_data := [junk 0, 0] } := by
  have htop : construct_top B [] = some [0] := by
    unfold construct_top
    simp [top_loop]
  exact ef_build_steps junk lc B [] [0] _ _ htop rfl rfl

/-- C7: building `bp_vector`, `optpfor_vector` or `ef_vector` from an empty sequence raises
no error and returns a container with `size() == 0`, `empty() == true` and a payload buffer
of length 0 (`m_z` for the delta variants, `m_low_data` for `ef_vector`). -/
theorem build_empty (pad : Nat) (junk : Nat → Nat) (cd : BlockCodec) (lc : ListCodecs)
    (dens B : Nat) :
    (∃ v, bp_vector.build pad junk cd dens [] = Built.ok v ∧
      v.size = 0 ∧ v.empty = true ∧ v.m_z.length = 0) ∧
    (∃ v, optpfor_vector.build junk cd dens [] = Built.ok v ∧
      v.size = 0 ∧ v.empty = true ∧ v.m_z.length = 0) ∧
    (∃ v, ef_vector.build junk lc B [] = Built.ok v ∧
      ef_vector.size v = 0 ∧ ef_vector.empty v = true ∧ v.m_low_data.length = 0) :=
  ⟨⟨DeltaVector.default, rfl, rfl, rfl, rfl⟩, ⟨DeltaVector.default, rfl, rfl, rfl, rfl⟩,
    ⟨_, ef_build_nil junk lc B, rfl, rfl, rfl⟩⟩

/-! ## The FULL tag of `ef_vector` -/

/-- C9: a complete block `k` (`last = false`) for which `top[k+1]` is recorded, whose values
are sorted, whose first value exceeds `top[k]` and whose element count equals the universe
`top[k+1] - top[k]`, is written with tag 3: `encode_block` appends the two bits of the tag
and nothing else, returns the offset the stream had, and the tag read back there is 3. -/
theorem encode_block_full (lc : ListCodecs) (os : List Bool) (data : List Nat) (k : Nat)
    (top : List Nat) (t0 t1 d0 : Nat) (h0 : top[k]? = some t0) (h1 : top[k + 1]? = some t1)
    (hd : data[0]? = some d0) (hsorted : is_sorted data = true) (hfirst : t0 < d0)
    (hcount : data.length = (t1 + U64 - t0) % U64) :
    encode_block lc os data k top false = some (os ++ [true, true], os.length) ∧
      peek_int (os ++ [true, true]) os.length 2 = some 3 := by
  constructor
  · unfold encode_block
    simp only [hsorted, if_true, h0, hd, h1]
    have hlt : (decide (t0 < d0) && !false) = true := by simp [hfirst]
    rw [if_pos hlt]
    have hty : determine_block_type lc data.length ((t1 + U64 - t0) % U64)
        = efv_blocktype.FULL := by
      unfold determine_block_type
      rw [if_pos hcount.symm]
    simp only [hty]
    rfl
  · have := peek_tag os [] 3 (by omega)
    simpa [put_int, int_bits] using this

/-- C9 at a concrete input: the block `1, 2` below the boundary `top[1] = 2` with
`top[0] = 0`. -/
theorem encode_block_full_witness :
    encode_block nullLists [] [1, 2] 0 [0, 2] false = some ([] ++ [true, true], ([] : List Bool).length) ∧
      peek_int ([] ++ [true, true]) ([] : List Bool).length 2 = some 3 :=
  encode_block_full nullLists [] [1, 2] 0 [0, 2] 0 2 1 rfl rfl rfl rfl (by decide) rfl

/-- The constructor of `ef_vector` on the permutation `0, 1, 2, 4, 3` with block size 2:
`top` is `0, 1, 3`, block 0 is stored raw, block 1 with tag 3 and the short block 2 raw. -/
theorem ef_build_01243 (junk : Nat → Nat) (lc : ListCodecs) :
    ef_vector.build junk lc 2 [0, 1, 2, 4, 3] = Built.ok
      { m_size := 5
        m_low_data := put_int (put_int (put_int [] 0 2 ++ lc.raw_create [0, 1]) 3 2) 0 2
          ++ lc.raw_create [3]
        m_block_data := [0, 0, (put_int [] 0 2 ++ lc.raw_create [0, 1]).length, 1,
          (put_int (put_int [] 0 2 ++ lc.raw_create [0, 1]) 3 2).length, 3] } := by
  have he0 : ∀ os : List Bool, encode_block lc os [0, 1] 0 [0, 1, 3] false
      = some (put_int os 0 2 ++ lc.raw_create [0, 1], os.length) := fun _ => rfl
  have he1 : ∀ os : List Bool, encode_block lc os [2, 4] 1 [0, 1, 3] false
      = some (put_int os 3 2, os.length) := fun _ => rfl
  have he2 : ∀ os : List Bool, encode_block lc os [3] 2 [0, 1, 3] true
      = some (put_int os 0 2 ++ lc.raw_create [3], os.length) := fun _ => rfl
  have s1 := fill_blocks_block lc 2 [0, 1, 3] [0, 1] [2, 4, 3]
    ⟨[], [], resize_uninit junk 6, 0⟩ (put_int [] 0 2 ++ lc.raw_create [0, 1]) 0 rfl
    (List.cons_ne_nil 0 [1]) (he0 _)
  have s2 := fill_blocks_block lc 2 [0, 1, 3] [2, 4] [3]
    ⟨put_int [] 0 2 ++ lc.raw_create [0, 1], [], (resize_uninit junk 6).set 0 0, 1⟩
    (put_int (put_int [] 0 2 ++ lc.raw_create [0, 1]) 3 2)
    (put_int [] 0 2 ++ lc.raw_create [0, 1]).length rfl (List.cons_ne_nil 2 [4]) (he1 _)
  have s3 := fill_blocks_tail lc 2 [0, 1, 3] [3]
    ⟨put_int (put_int [] 0 2 ++ lc.raw_create [0, 1]) 3 2, [],
      ((resize_uninit junk 6).set 0 0).set 2 (put_int [] 0 2 ++ lc.raw_create [0, 1]).length, 2⟩
    (show (0 : Nat) + 1 < 2 by decide)
  have s4 := fill_last_block lc [0, 1, 3]
    ⟨put_int (put_int [] 0 2 ++ lc.raw_create [0, 1]) 3 2, [3],
      ((resize_uninit junk 6).set 0 0).set 2 (put_int [] 0 2 ++ lc.raw_create [0, 1]).length, 2⟩
    (put_int (put_int (put_int [] 0 2 ++ lc.raw_create [0, 1]) 3 2) 0 2 ++ lc.raw_create [3])
    (put_int (put_int [] 0 2 ++ lc.raw_create [0, 1]) 3 2).length (List.cons_ne_nil 3 []) (he2 _)
  exact ef_build_steps junk lc 2 [0, 1, 2, 4, 3] [0, 1, 3] _ _ rfl (s1.trans (s2.trans s3)) s4

/-- The tag of block 1 of the container built from `0, 1, 2, 4, 3` is 3. -/
theorem ef_tag_01243 (lc : ListCodecs) :
    peek_int (put_int (put_int (put_int [] 0 2 ++ lc.raw_create [0, 1]) 3 2) 0 2
      ++ lc.raw_create [3]) (put_int [] 0 2 ++ lc.raw_create [0, 1]).length 2 = some 3 := by
  rw [put_int, List.append_assoc]
  exact peek_tag _ _ 3 (by omega)

/-- C3 (the code breaks the claim): for the permutation `0, 1, 2, 4, 3` and block size 2 the
constructor returns a container, whatever the list codecs are, and `operator[](3)` returns 3
although the element is 4. Block 1 holds `2, 4`; its universe is taken from `top[2] = 3`,
the final element, and `top[1] = 1`, so it equals the element count and the block is tagged
FULL. -/
theorem ef_vector_round_trip_fails (junk : Nat → Nat) (lc : ListCodecs) :
    ∃ v, ef_vector.build junk lc 2 [0, 1, 2, 4, 3] = Built.ok v ∧
      ef_vector.index lc 2 v 3 = some 3 ∧ [0, 1, 2, 4, 3][3]? = some 4 :=
  ⟨_, ef_build_01243 junk lc,
    ef_index_full lc 2 _ 3 (put_int [] 0 2 ++ lc.raw_create [0, 1]).length 1 rfl
      (ef_tag_01243 lc) rfl, rfl⟩

/-- C10 (the code breaks the claim): for the input `2, 2, 2` and block size 2 the
constructor tags block 0 as FULL (tag 3 at the recorded offset 0) with `top[0] = 0`, whatever
the list codecs are, although its values `2, 2` are not the consecutive integers `1, 2`; the
FULL decode returns 1 at index 0, where the element is 2. -/
theorem ef_vector_full_unsound (junk : Nat → Nat) (lc : ListCodecs) :
    ∃ v, ef_vector.build junk lc 2 [2, 2, 2] = Built.ok v ∧
      v.m_block_data[0]? = some 0 ∧ peek_int v.m_low_data 0 2 = some 3 ∧
      v.m_block_data[1]? = some 0 ∧
      ef_vector.index lc 2 v 0 = some 1 ∧ [2, 2, 2][0]? = some 2 := by
  have he0 : ∀ os : List Bool, encode_block lc os [2, 2] 0 [0, 2] false
      = some (put_int os 3 2, os.length) := fun _ => rfl
  have he1 : ∀ os : List Bool, encode_block lc os [2] 1 [0, 2] true
      = some (put_int os 0 2 ++ lc.raw_create [2], os.length) := fun _ => rfl
  have s1 := fill_blocks_block lc 2 [0, 2] [2, 2] [2]
    ⟨[], [], resize_uninit junk 4, 0⟩ (put_int [] 3 2) 0 rfl (List.cons_ne_nil 2 [2]) (he0 _)
  have s2 := fill_blocks_tail lc 2 [0, 2] [2]
    ⟨put_int [] 3 2, [], (resize_uninit junk 4).set 0 0, 1⟩ (show (0 : Nat) + 1 < 2 by decide)
  have s3 := fill_last_block lc [0, 2]
    ⟨put_int [] 3 2, [2], (resize_uninit junk 4).set 0 0, 1⟩
    (put_int (put_int [] 3 2) 0 2 ++ lc.raw_create [2]) (put_int [] 3 2).length
    (List.cons_ne_nil 2 []) (he1 _)
  have hb := ef_build_steps junk lc 2 [2, 2, 2] [0, 2] _ _ rfl (s1.trans s2) s3
  have hpeek : peek_int (put_int (put_int [] 3 2) 0 2 ++ lc.raw_create [2]) 0 2 = some 3 := by
    rw [put_int, List.append_assoc]
    exact peek_tag [] _ 3 (by omega)
  refine ⟨_, hb, rfl, hpeek, rfl, ?_, rfl⟩
  exact ef_index_full lc 2 _ 0 0 0 rfl hpeek rfl

/-! ## The full-run marker of `optpfor_vector` -/

/-- The test `is_full` holds exactly when every entry is its predecessor plus one in 32-bit
arithmetic. -/
theorem is_full_iff (vals : List Nat) :
    is_full vals = true ↔
      ∀ j, 0 < j → j < vals.length → vals.getD j 0 = (vals.getD (j - 1) 0 + 1) % U32 := by
  induction vals with
  | nil => simp [is_full]
  | cons a rest ih =>
    cases rest with
    | nil =>
      simp only [is_full, List.length_singleton, true_iff]
      intro j h1 h2
      omega
    | cons b rest2 =>
      simp only [is_full, Bool.and_eq_true, beq_iff_eq, ih]
      constructor
      · rintro ⟨hb, hrest⟩ j h1 h2
        cases j with
        | zero => omega
        | succ j =>
          cases j with
          | zero => simpa using hb
          | succ j =>
            have := hrest (j + 1) (by omega) (by simpa using h2)
            simpa using this
      · intro h
        refine ⟨by simpa using h 1 (by omega) (by simp), ?_⟩
        intro j h1 h2
        have := h (j + 1) (by omega) (by simpa using h2)
        cases j with
        | zero => omega
        | succ j => simpa using this

/-- A codec that gives every frame back never encodes a frame into zero words. -/
theorem encodeBlock_ne_nil (cd : BlockCodec) (dens : Nat) (hcd : CodecInverts cd dens)
    (hdens : 0 < dens) (frame : List Nat) (hlen : frame.length = dens)
    (hlt : ∀ x ∈ frame, x < U32) : cd.encodeBlock frame ≠ [] := by
  intro hnil
  let g := frame.set 0 ((frame.getD 0 0 + 1) % U32)
  have hglen : g.length = dens := by rw [List.length_set]; exact hlen
  have hglt : ∀ x ∈ g, x < U32 := by
    intro x hx
    rcases List.mem_or_eq_of_mem_set hx with h | h
    · exact hlt x h
    · rw [h]
      exact Nat.mod_lt _ U32_pos
  have h1 := hcd g [] hglen hglt
  have h2 := hcd frame (cd.encodeBlock g) hlen hlt
  rw [hnil, List.nil_append] at h2
  rw [List.append_nil, h2] at h1
  have h3 : frame.getD 0 0 = g.getD 0 0 := by rw [← h1]
  have h4 : g.getD 0 0 = (frame.getD 0 0 + 1) % U32 := by
    show (frame.set 0 ((frame.getD 0 0 + 1) % U32)).getD 0 0 = _
    rw [getD_set, if_pos ⟨rfl, by omega⟩]
  have h5 := getD_lt_of_forall frame U32 0 U32_pos hlt
  rw [h4] at h3
  unfold U32 at h3 h5
  omega

/-- C8: in `optpfor_vector(c)` a complete block `k` gets the pointer `BLOCK_FULL` exactly
when every value of the block is its predecessor plus one in 32-bit arithmetic, and exactly
then it adds no words to the payload: `m_z` is the reserved word followed by the words
`block_words` of all blocks in order, which are none for such a block and the encoded frame
otherwise. The short last block is never marked full. -/
theorem optpfor_full_run (junk : Nat → Nat) (cd : BlockCodec) (dens : Nat) (c : List Nat)
    (hdens : 0 < dens) (hcd : CodecInverts cd dens) (hne : c ≠ [])
    (hc : ∀ x ∈ c, x ≤ 2 ^ 32 - 1) :
    ∃ v, optpfor_vector.build junk cd dens c = Built.ok v ∧
      v.m_z = payload_upto cd true dens c [0] (num_blocks dens c.length) ∧
      (∀ k, k * dens + dens ≤ c.length →
        ((v.m_sample_vals_and_pointer[2 * k + 1]? = some BLOCK_FULL ↔
            ∀ j, 0 < j → j < dens →
              c.getD (k * dens + j) 0 = (c.getD (k * dens + j - 1) 0 + 1) % 2 ^ 32) ∧
         (block_words cd true dens c k = [] ↔
            ∀ j, 0 < j → j < dens →
              c.getD (k * dens + j) 0 = (c.getD (k * dens + j - 1) 0 + 1) % 2 ^ 32))) ∧
      (c.length % dens ≠ 0 →
        ∃ p, v.m_sample_vals_and_pointer[2 * (c.length / dens) + 1]? = some p ∧
          p ≠ BLOCK_FULL) := by
  have hc2 : ∀ x ∈ c, x < U32 := fun x hx => by
    have := hc x hx
    unfold U32
    omega
  obtain ⟨v, hv, hlay⟩ := delta_build_layout "optpfor_vector: only supports 32bit integers."
    [0] true false junk cd dens c hne hc2 hdens
  have hz0 : ∀ b, 1 ≤ (payload_upto cd true dens c [0] b).length := by
    intro b
    have := payload_upto_length_le cd true dens c [0] 0 b (Nat.zero_le _)
    simpa [payload_upto] using this
  refine ⟨v, hv, hlay.zeq, ?_, ?_⟩
  · intro k hk
    have hkn : k < num_blocks dens c.length := (num_blocks_spec dens _ hdens k).mpr (by omega)
    have hrun : is_full (block_tmp dens c k) = true ↔
        ∀ j, 0 < j → j < dens →
          c.getD (k * dens + j) 0 = (c.getD (k * dens + j - 1) 0 + 1) % 2 ^ 32 := by
      rw [is_full_iff, block_tmp_length dens c k hk]
      constructor
      · intro h j h1 h2
        have := h j h1 h2
        rw [block_tmp_getD dens c hc2 k j h2 (by omega),
          block_tmp_getD dens c hc2 k (j - 1) (by omega) (by omega)] at this
        rw [this]
        have e : k * dens + (j - 1) = k * dens + j - 1 := by omega
        rw [e]
        rfl
      · intro h j h1 h2
        rw [block_tmp_getD dens c hc2 k j h2 (by omega),
          block_tmp_getD dens c hc2 k (j - 1) (by omega) (by omega), h j h1 h2]
        have e : k * dens + (j - 1) = k * dens + j - 1 := by omega
        rw [e]
        rfl
    constructor
    · rw [hlay.ptr k hkn, block_pointer_complete cd true dens c [0] k hk, ← hrun]
      by_cases hfull : is_full (block_tmp dens c k) = true
      · simp [hfull]
      · have hpos := hz0 k
        have hf : is_full (block_tmp dens c k) = false := by simpa using hfull
        simp only [hf, Bool.and_false, Bool.false_eq_true, if_false, Option.some.injEq,
          BLOCK_FULL, iff_false]
        omega
    · rw [block_words_complete cd true dens c k hk, ← hrun]
      by_cases hfull : is_full (block_tmp dens c k) = true
      · simp [hfull]
      · have hf : is_full (block_tmp dens c k) = false := by simpa using hfull
        simp only [hf, Bool.and_false, Bool.false_eq_true, if_false, iff_false]
        exact encodeBlock_ne_nil cd dens hcd hdens _
          (by rw [List.length_set, fastDelta_length, block_tmp_length dens c k hk])
          (fastDelta_lt _ (block_tmp_lt dens c k))
  · intro hrem
    have hdm := Nat.div_add_mod c.length dens
    have hq : dens * (c.length / dens) = c.length / dens * dens := Nat.mul_comm _ _
    have hkn : c.length / dens < num_blocks dens c.length := by
      unfold num_blocks
      rw [if_pos hrem]
      omega
    have hmod := Nat.mod_lt c.length hdens
    refine ⟨_, hlay.ptr _ hkn, ?_⟩
    unfold block_pointer
    rw [if_neg (fun hh => by have := hh.1; omega)]
    have := hz0 (c.length / dens)
    unfold BLOCK_FULL
    omega

theorem run_5_132_le : ∀ x ∈ (List.range 128).map (· + 5), x ≤ 2 ^ 32 - 1 := by
  intro x hx
  rw [List.mem_map] at hx
  obtain ⟨j, hj, rfl⟩ := hx
  rw [List.mem_range] at hj
  omega

set_option maxRecDepth 20000 in
/-- C8 at the input `5, 6, ..., 132` with `dens = 128`: one block, marked full, no payload
word besides the reserved one, and `container[3] == 8`. -/
theorem optpfor_full_run_witness :
    CodecInverts (plainCodec 128) 128 ∧
    ∃ v, optpfor_vector.build (fun _ => 0) (plainCodec 128) 128
        ((List.range 128).map (· + 5)) = Built.ok v ∧
      num_blocks 128 ((List.range 128).map (· + 5)).length = 1 ∧
      v.m_sample_vals_and_pointer[1]? = some BLOCK_FULL ∧
      v.m_z = [0] ∧
      optpfor_vector.index false (plainCodec 128) 128 v 3 = some 8 := by
  refine ⟨plainCodec_inverts 128, ?_⟩
  obtain ⟨v, hv, hz, hblocks, _⟩ := optpfor_full_run (fun _ => 0) (plainCodec 128) 128
    ((List.range 128).map (· + 5)) (by decide) (plainCodec_inverts 128)
    (List.ne_nil_of_length_pos (by simp)) run_5_132_le
  have hb : optpfor_vector.build (fun _ => 0) (plainCodec 128) 128
      ((List.range 128).map (· + 5)) = Built.ok ⟨[5, 0, 0, 0], 128, [0]⟩ := by decide
  have hrun : ∀ j, 0 < j → j < 128 →
      ((List.range 128).map (· + 5)).getD (0 * 128 + j) 0
        = (((List.range 128).map (· + 5)).getD (0 * 128 + j - 1) 0 + 1) % 2 ^ 32 := by
    intro j h1 h2
    rw [Nat.zero_mul, Nat.zero_add, getD_range_map _ _ _ h2, getD_range_map _ _ _ (by omega)]
    omega
  rw [hb] at hv
  injection hv with hv
  subst hv
  exact ⟨_, hb, by simp [num_blocks], ((hblocks 0 (by decide)).1).mpr hrun, hz.trans (by decide),
    by decide⟩

/-! ## Indices beyond `size()` -/

/-- C6, as the code has it: `operator[]` carries no range check that reports an error. For
the delta variants the only guard is `assert(i < m_size)`: without `NDEBUG` the call is
aborted for every `i >= size()`, with `NDEBUG` the access does not look at `m_size` at all,
and an index `i >= size()` that falls into the short last block returns the final element
with which that block was padded. `ef_vector::operator[]` never looks at `m_size`. -/
theorem index_unchecked (pad : Nat) (junk : Nat → Nat) (cd : BlockCodec) (lc : ListCodecs)
    (dens B : Nat) (c : List Nat) (hdens : 0 < dens) (hcd : CodecInverts cd dens)
    (hne : c ≠ []) (hc : ∀ x ∈ c, x ≤ 2 ^ 32 - 1) :
    (∀ (has_full : Bool) (v : DeltaVector) (i : Nat), v.m_size ≤ i →
      delta_index has_full false cd dens v i = none) ∧
    (∀ (has_full : Bool) (v : DeltaVector) (s i : Nat),
      delta_index has_full true cd dens { v with m_size := s } i
        = delta_index has_full true cd dens v i) ∧
    (∀ (v : EfVector) (s i : Nat),
      ef_vector.index lc B { v with m_size := s } i = ef_vector.index lc B v i) ∧
    (∃ v, bp_vector.build pad junk cd dens c = Built.ok v ∧
      ∀ i, v.size ≤ i → i / dens * dens < c.length →
        bp_vector.index true cd dens v i = some (c.getD (c.length - 1) 0)) ∧
    (∃ v, optpfor_vector.build junk cd dens c = Built.ok v ∧
      ∀ i, v.size ≤ i → i / dens * dens < c.length →
        optpfor_vector.index true cd dens v i = some (c.getD (c.length - 1) 0)) := by
  have hc2 : ∀ x ∈ c, x < U32 := fun x hx => by
    have := hc x hx
    unfold U32
    omega
  refine ⟨?_, ?_, ?_, ?_, ?_⟩
  · intro has_full v i hi
    unfold delta_index
    have : ¬ i < v.m_size := by omega
    simp [this]
  · intro has_full v s i
    rfl
  · intro v s i
    rfl
  · obtain ⟨v, hv, hsize, hidx⟩ := delta_index_build "bp_vector: only supports 32bit integers."
      (List.replicate pad 0) false false junk cd dens c hne hc2 hdens (by simp) hcd
    refine ⟨v, hv, ?_⟩
    intro i hi hblock
    have hi2 : ¬ i < c.length := by
      unfold DeltaVector.size at hi
      omega
    unfold bp_vector.index
    rw [hidx true i hblock (Or.inl rfl), if_neg hi2]
  · obtain ⟨v, hv, hsize, hidx⟩ :=
      delta_index_build "optpfor_vector: only supports 32bit integers."
        [0] true false junk cd dens c hne hc2 hdens (by simp) hcd
    refine ⟨v, hv, ?_⟩
    intro i hi hblock
    have hi2 : ¬ i < c.length := by
      unfold DeltaVector.size at hi
      omega
    unfold optpfor_vector.index
    rw [hidx true i hblock (Or.inl rfl), if_neg hi2]

/-- C6 at a concrete input: the vectors built from the single element 7 with `dens = 128`
answer index 1 with 7 in an `NDEBUG` build. -/
theorem index_unchecked_witness :
    CodecInverts (plainCodec 128) 128 ∧
    (∃ v, bp_vector.build 0 (fun _ => 0) (plainCodec 128) 128 [7] = Built.ok v ∧
      ∀ i, v.size ≤ i → i / 128 * 128 < [7].length →
        bp_vector.index true (plainCodec 128) 128 v i = some ([7].getD ([7].length - 1) 0)) :=
  ⟨plainCodec_inverts 128,
    (index_unchecked 0 (fun _ => 0) (plainCodec 128) nullLists 128 2 [7] (by decide)
      (plainCodec_inverts 128) (by decide) (by decide)).2.2.2.1⟩

set_option maxRecDepth 20000 in
/-- C6 refuted at a concrete input: `bp_vector` built from the single element 7 with
`dens = 128` has `size() == 1`, and in an `NDEBUG` build `operator[](1)` returns the value 7
and reports no error. -/
theorem index_beyond_size_returns :
    ∃ v, bp_vector.build 0 (fun _ => 0) (plainCodec 128) 128 [7] = Built.ok v ∧
      v.size = 1 ∧ v.size ≤ 1 ∧ bp_vector.index true (plainCodec 128) 128 v 1 = some 7 :=
  ⟨_, rfl, rfl, by decide, by decide⟩

/-! ## The cost model of `ef_vector` -/

/-- C11: `determine_block_type(count, universe)` returns FULL if and only if
`universe == count`, and then without consulting a size estimate (the result is the same for
all list codecs); otherwise it returns BV if and only if the bitvector estimate is strictly
smaller than the Elias-Fano estimate, and EF in every other case, so a tie selects EF. -/
theorem determine_block_type_spec (lc : ListCodecs) (count univ : Nat) :
    (determine_block_type lc count univ = efv_blocktype.FULL ↔ univ = count) ∧
    (∀ lc2 : ListCodecs, univ = count →
      determine_block_type lc2 count univ = determine_block_type lc count univ) ∧
    (determine_block_type lc count univ = efv_blocktype.BV ↔
      univ ≠ count ∧ lc.bv_estimate_size count univ < lc.ef_estimate_size count univ) ∧
    (determine_block_type lc count univ = efv_blocktype.EF ↔
      univ ≠ count ∧
        ¬ lc.bv_estimate_size count univ < lc.ef_estimate_size count univ) ∧
    (univ ≠ count →
      lc.bv_estimate_size count univ = lc.ef_estimate_size count univ →
      determine_block_type lc count univ = efv_blocktype.EF) := by
  unfold determine_block_type
  by_cases h : univ = count
  · simp [h]
  · by_cases h2 : lc.bv_estimate_size count univ < lc.ef_estimate_size count univ
    · simp only [h, h2, if_false, if_true, ne_eq, not_false_eq_true, true_and, and_true,
        reduceCtorEq, iff_false, not_true_eq_false, false_implies, implies_true, and_false,
        true_implies]
      omega
    · simp only [h, h2, if_false, ne_eq, not_false_eq_true, true_and, and_true, and_false,
        reduceCtorEq, iff_false, not_true_eq_false, iff_true, false_implies, implies_true]

/-! ## Samples and block starts of the delta variants -/

/-- At an index with offset 0 the accessor returns the sample of the block, read from the
sample table; the payload is not consulted. -/
theorem delta_index_offset_zero (has_full NDEBUG : Bool) (cd : BlockCodec) (dens : Nat)
    (v : DeltaVector) (i s p : Nat) (hoff : i % dens = 0)
    (hs : v.m_sample_vals_and_pointer[2 * (i / dens)]? = some s)
    (hp : v.m_sample_vals_and_pointer[2 * (i / dens) + 1]? = some p)
    (hassert : NDEBUG = true ∨ (i < v.m_size ∧ (i + 1) % U64 ≠ 0)) :
    delta_index has_full NDEBUG cd dens v i = some (s % U32) := by
  unfold delta_index
  have hguard : (!NDEBUG && (decide ((i + 1) % U64 = 0) || decide (¬ i < v.m_size))) = false := by
    rcases hassert with h | ⟨h1, h2⟩
    · simp [h]
    · simp [h1, h2]
  rw [hguard]
  simp [hs, hp, hoff]

/-- The sample of block `k` and the element at the start of block `k`, for a vector with the
layout of the constructor. -/
theorem layout_block_start (cd : BlockCodec) (fc term NDEBUG : Bool) (dens : Nat)
    (c z0 : List Nat) (junk : Nat → Nat) (v : DeltaVector) (hc : ∀ x ∈ c, x < U32)
    (hdens : 0 < dens) (hsize : c.length < U64) (hlay : Layout cd fc term dens c z0 junk v)
    (k : Nat) (hk : k * dens < c.length) :
    delta_sample NDEBUG dens v k = (c)[k * dens]? ∧
    ∀ z, delta_index fc NDEBUG cd dens { v with m_z := z } (k * dens) = (c)[k * dens]? := by
  have hkn : k < num_blocks dens c.length := (num_blocks_spec dens _ hdens k).mpr hk
  have hval : c.getD (k * dens) 0 % U32 = c.getD (k * dens) 0 :=
    Nat.mod_eq_of_lt (getD_lt_of_forall c U32 _ U32_pos hc)
  have hU : k * dens < U64 := lt_trans hk hsize
  constructor
  · unfold delta_sample
    have hguard : (!NDEBUG && (decide ((k * dens % U64 + 1) % U64 = 0)
        || decide (¬ k * dens % U64 < v.m_size))) = false := by
      rw [Nat.mod_eq_of_lt hU, hlay.size_eq]
      have h1 : (k * dens + 1) % U64 ≠ 0 := succ_mod_ne_zero _ _ hk hsize
      simp [h1, hk]
    rw [hguard, hlay.smp k hkn]
    simp only [Bool.false_eq_true, if_false, Option.map_some', hval]
    exact (getElem?_eq_some_getD c _ hk).symm
  · intro z
    have hdiv : k * dens / dens = k := Nat.mul_div_cancel k hdens
    have hmod : k * dens % dens = 0 := Nat.mul_mod_left k dens
    rw [delta_index_offset_zero fc NDEBUG cd dens { v with m_z := z } (k * dens)
      (c.getD (k * dens) 0) (block_pointer cd fc dens c z0 k) hmod
      (by rw [hdiv]; exact hlay.smp k hkn) (by rw [hdiv]; exact hlay.ptr k hkn)
      (Or.inr ⟨by show k * dens < v.m_size; rw [hlay.size_eq]; exact hk,
        succ_mod_ne_zero _ _ hk hsize⟩), hval]
    exact (getElem?_eq_some_getD c _ hk).symm

/-- C13: for `bp_vector` and `optpfor_vector` built from `c` and every block `k` with
`k*dens < c.size()` (that is `k < ceil(n/dens)`), `sample(k) == c[k*dens] == operator[](k*dens)`,
and `operator[]` gives this answer for every content `z` of the payload `m_z`: an index with
offset 0 is answered from the sample table alone. No property of the block codec is
used. -/
theorem sample_eq_block_start (pad : Nat) (junk : Nat → Nat) (cd : BlockCodec) (dens : Nat)
    (NDEBUG : Bool) (c : List Nat) (hdens : 0 < dens) (hne : c ≠ [])
    (hc : ∀ x ∈ c, x ≤ 2 ^ 32 - 1) (hsize : c.length < U64) :
    (∃ v, bp_vector.build pad junk cd dens c = Built.ok v ∧
      ∀ k, k * dens < c.length →
        bp_vector.sample NDEBUG dens v k = (c)[k * dens]? ∧
        bp_vector.index NDEBUG cd dens v (k * dens) = (c)[k * dens]? ∧
        ∀ z, bp_vector.index NDEBUG cd dens { v with m_z := z } (k * dens) = (c)[k * dens]?) ∧
    (∃ v, optpfor_vector.build junk cd dens c = Built.ok v ∧
      ∀ k, k * dens < c.length →
        optpfor_vector.sample NDEBUG dens v k = (c)[k * dens]? ∧
        optpfor_vector.index NDEBUG cd dens v (k * dens) = (c)[k * dens]? ∧
        ∀ z, optpfor_vector.index NDEBUG cd dens { v with m_z := z } (k * dens)
          = (c)[k * dens]?) := by
  have hc2 : ∀ x ∈ c, x < U32 := fun x hx => by
    have := hc x hx
    unfold U32
    omega
  obtain ⟨v1, hv1, hlay1⟩ := delta_build_layout "bp_vector: only supports 32bit integers."
    (List.replicate pad 0) false false junk cd dens c hne hc2 hdens
  obtain ⟨v2, hv2, hlay2⟩ := delta_build_layout "optpfor_vector: only supports 32bit integers."
    [0] true false junk cd dens c hne hc2 hdens
  refine ⟨⟨v1, hv1, ?_⟩, ⟨v2, hv2, ?_⟩⟩
  · intro k hk
    obtain ⟨h1, h2⟩ := layout_block_start cd false false NDEBUG dens c _ junk v1 hc2 hdens hsize
      hlay1 k hk
    exact ⟨h1, h2 v1.m_z, h2⟩
  · intro k hk
    obtain ⟨h1, h2⟩ := layout_block_start cd true false NDEBUG dens c _ junk v2 hc2 hdens hsize
      hlay2 k hk
    exact ⟨h1, h2 v2.m_z, h2⟩

/-- C13 at a concrete input with `dens = 4`: three blocks of a non-monotone sequence. -/
theorem sample_eq_block_start_witness :
    ∃ v, bp_vector.build 0 (fun _ => 0) (plainCodec 4) 4
        [5, 3, 4294967295, 1, 7, 2, 0, 40, 9, 8] = Built.ok v ∧
      ∀ k, k * 4 < [5, 3, 4294967295, 1, 7, 2, 0, 40, 9, 8].length →
        bp_vector.sample false 4 v k = [5, 3, 4294967295, 1, 7, 2, 0, 40, 9, 8][k * 4]? ∧
        bp_vector.index false (plainCodec 4) 4 v (k * 4)
          = [5, 3, 4294967295, 1, 7, 2, 0, 40, 9, 8][k * 4]? ∧
        ∀ z, bp_vector.index false (plainCodec 4) 4 { v with m_z := z } (k * 4)
          = [5, 3, 4294967295, 1, 7, 2, 0, 40, 9, 8][k * 4]? :=
  (sample_eq_block_start 0 (fun _ => 0) (plainCodec 4) 4 false
    [5, 3, 4294967295, 1, 7, 2, 0, 40, 9, 8] (by decide) (by decide) (by decide)
    (by decide)).1

/-! ## Bulk decoding of a block -/

theorem running_sums_length (l : List Nat) : ∀ acc, (running_sums acc l).length = l.length := by
  induction l with
  | nil => intro acc; rfl
  | cons t rest ih => intro acc; simp [running_sums, ih]

/-- Entry `j` of the running sums is the start value plus the first `j+1` entries, modulo
`2^32` (the accumulator has 64 bits). -/
theorem running_sums_getD (l : List Nat) :
    ∀ acc j, j < l.length →
      (running_sums acc l).getD j 0 % U32 = (acc + (l.take (j + 1)).sum) % U32 := by
  induction l with
  | nil => intro acc j hj; simp at hj
  | cons t rest ih =>
    intro acc j hj
    cases j with
    | zero =>
      simp only [running_sums, List.getD_cons_zero, Nat.zero_add, List.take_succ_cons,
        List.take_zero, List.sum_cons, List.sum_nil, Nat.add_zero]
      unfold U32 U64
      omega
    | succ j =>
      have hj2 : j < rest.length := by simpa using hj
      simp only [running_sums, List.getD_cons_succ, List.take_succ_cons, List.sum_cons]
      rw [ih _ j hj2]
      unfold U32 U64
      omega

/-- The sample plus the sum of the first `j+1` entries of the delta frame is the value at
position `j`, modulo `2^32`. -/
theorem frame_sum (vals : List Nat) (hv : ∀ x ∈ vals, x < U32) (j : Nat) (hj : j < vals.length) :
    (vals.getD 0 0 + (((fastDelta vals).set 0 0).take (j + 1)).sum) % U32 = vals.getD j 0 := by
  have hlen : ((fastDelta vals).set 0 0).length = vals.length := by
    rw [List.length_set, fastDelta_length]
  induction j with
  | zero =>
    have hb : 0 < ((fastDelta vals).set 0 0).length := by rw [hlen]; exact hj
    rw [List.sum_take_succ _ 0 hb]
    have h0 : ((fastDelta vals).set 0 0)[0] = 0 := by
      simp
    rw [h0]
    simp only [List.take_zero, List.sum_nil, Nat.add_zero]
    exact Nat.mod_eq_of_lt (getD_lt_of_forall _ _ _ U32_pos hv)
  | succ j ih =>
    have ih2 := ih (by omega)
    have hb : j + 1 < ((fastDelta vals).set 0 0).length := by rw [hlen]; exact hj
    rw [List.sum_take_succ _ (j + 1) hb]
    have hf : ((fastDelta vals).set 0 0)[j + 1]
        = (vals.getD (j + 1) 0 + U32 - vals.getD j 0) % U32 := by
      have h1 := getD_set (fastDelta vals) 0 (j + 1) 0
      rw [if_neg (fun hh => by omega), fastDelta_getD vals (j + 1) hj (by omega)] at h1
      rw [List.getD_eq_getElem _ _ hb] at h1
      simpa using h1
    rw [hf]
    have h1 := getD_lt_of_forall vals U32 (j + 1) U32_pos hv
    have h2 := getD_lt_of_forall vals U32 j U32_pos hv
    unfold U32 at *
    omega

/-- Bulk decoding of a stored block writes `dens` values, the first of them 0, each of them
the value of the block at its position minus the sample, modulo `2^32`. -/
theorem get_inter_of_stored (fc : Bool) (cd : BlockCodec) (dens : Nat) (v : DeltaVector)
    (b : Nat) (vals : List Nat) (hcd : CodecInverts cd dens) (hdens : 0 < dens)
    (hlen : vals.length = dens) (hv : ∀ x ∈ vals, x < U32)
    (hst : BlockStored cd fc v.m_sample_vals_and_pointer v.m_z b vals) :
    ∃ out, delta_get_inter_sampled_values fc cd dens v b = some out ∧ out.length = dens ∧
      out.getD 0 0 = 0 ∧
      ∀ j, j < dens → (vals.getD 0 0 + out.getD j 0) % U32 = vals.getD j 0 := by
  obtain ⟨_, p, hp, hcase⟩ := hst
  unfold delta_get_inter_sampled_values
  rw [hp]
  rcases hcase with ⟨hf, hpf, hfull⟩ | ⟨hne, _, rest, hdrop⟩
  · refine ⟨List.range dens, by simp [hf, hpf], List.length_range dens, ?_, ?_⟩
    · have := getD_range_map id dens 0 hdens
      simpa using this
    · intro j hj
      have h1 : (List.range dens).getD j 0 = j := by
        have := getD_range_map id dens j hj
        simpa using this
      rw [h1]
      exact (is_full_getD vals hv hfull j (by omega)).symm
  · have hcond : (fc && (p == BLOCK_FULL)) = false := by
      cases fc with
      | false => rfl
      | true => simp [hne rfl]
    have hflen : ((fastDelta vals).set 0 0).length = dens := by
      rw [List.length_set, fastDelta_length, hlen]
    have hframe : cd.decodeBlock (List.drop p v.m_z) = (fastDelta vals).set 0 0 := by
      rw [hdrop]
      exact hcd _ rest hflen (fastDelta_lt vals hv)
    refine ⟨running_sums 0 ((fastDelta vals).set 0 0), ?_, ?_, ?_, ?_⟩
    · simp only [hcond, Bool.false_eq_true, if_false, hframe]
      rw [List.take_of_length_le (by omega)]
    · rw [running_sums_length, hflen]
    · have h0 := running_sums_getD ((fastDelta vals).set 0 0) 0 0 (by omega)
      have hlt : (running_sums 0 ((fastDelta vals).set 0 0)).getD 0 0 = 0 := by
        have hb : 0 < ((fastDelta vals).set 0 0).length := by omega
        have e : (fastDelta vals).set 0 0 = 0 :: ((fastDelta vals).set 0 0).tail := by
          cases hfd : (fastDelta vals).set 0 0 with
          | nil => rw [hfd] at hb; simp at hb
          | cons a r =>
            have : ((fastDelta vals).set 0 0)[0] = 0 := by simp
            simp only [hfd, List.getElem_cons_zero] at this
            simp [this]
        rw [e]
        simp [running_sums]
      exact hlt
    · intro j hj
      have h1 := running_sums_getD ((fastDelta vals).set 0 0) 0 j (by omega)
      rw [Nat.zero_add] at h1
      have h2 := frame_sum vals hv j (by omega)
      rw [Nat.add_mod, h1, ← Nat.add_mod]
      exact h2

/-- C14, as the code has it: for `bp_vector` and `optpfor_vector` built from `c` and every
block `b`, `get_inter_sampled_values(b, out)` writes `dens` accumulators that are relative to
the sample: `out[0] = 0`, and `(c[b*dens] + out[j]) mod 2^32` equals the element at index
`b*dens + j` for every `j < dens` with `b*dens + j < size()`. -/
theorem get_inter_sampled_values_relative (pad : Nat) (junk : Nat → Nat) (cd : BlockCodec)
    (dens : Nat) (c : List Nat) (hdens : 0 < dens) (hcd : CodecInverts cd dens) (hne : c ≠ [])
    (hc : ∀ x ∈ c, x ≤ 2 ^ 32 - 1) :
    (∃ v, bp_vector.build pad junk cd dens c = Built.ok v ∧
      ∀ b, b * dens < c.length →
        ∃ out, bp_vector.get_inter_sampled_values cd dens v b = some out ∧
          out.length = dens ∧ out.getD 0 0 = 0 ∧
          ∀ j, j < dens → b * dens + j < c.length →
            (c.getD (b * dens) 0 + out.getD j 0) % 2 ^ 32 = c.getD (b * dens + j) 0) ∧
    (∃ v, optpfor_vector.build junk cd dens c = Built.ok v ∧
      ∀ b, b * dens < c.length →
        ∃ out, optpfor_vector.get_inter_sampled_values cd dens v b = some out ∧
          out.length = dens ∧ out.getD 0 0 = 0 ∧
          ∀ j, j < dens → b * dens + j < c.length →
            (c.getD (b * dens) 0 + out.getD j 0) % 2 ^ 32 = c.getD (b * dens + j) 0) := by
  have hc2 : ∀ x ∈ c, x < U32 := fun x hx => by
    have := hc x hx
    unfold U32
    omega
  have key : ∀ (what : String) (z0 : List Nat) (fc : Bool), (fc = true → 1 ≤ z0.length) →
      ∃ v, delta_build what z0 fc false junk cd dens c = Built.ok v ∧
        ∀ b, b * dens < c.length →
          ∃ out, delta_get_inter_sampled_values fc cd dens v b = some out ∧
            out.length = dens ∧ out.getD 0 0 = 0 ∧
            ∀ j, j < dens → b * dens + j < c.length →
              (c.getD (b * dens) 0 + out.getD j 0) % 2 ^ 32 = c.getD (b * dens + j) 0 := by
    intro what z0 fc hz0
    obtain ⟨v, hv, hlay⟩ := delta_build_layout what z0 fc false junk cd dens c hne hc2 hdens
    refine ⟨v, hv, ?_⟩
    intro b hb
    have hst := stored_of_layout cd fc false dens c z0 junk v hc2 hdens hz0 hlay b hb
    obtain ⟨out, h1, h2, h3, h4⟩ := get_inter_of_stored fc cd dens v b (block_vals dens c b)
      hcd hdens (block_vals_length dens c b) (block_vals_lt dens c b) hst
    refine ⟨out, h1, h2, h3, ?_⟩
    intro j hj hjn
    have := h4 j hj
    rw [block_vals_getD dens c hc2 b 0 hdens hb, if_pos (by omega),
      block_vals_getD dens c hc2 b j hj hb, if_pos hjn, Nat.add_zero] at this
    exact this
  exact ⟨key _ _ false (by simp), key _ _ true (by simp)⟩

/-- C14 (amended) at a concrete input with `dens = 4`. -/
theorem get_inter_sampled_values_relative_witness :
    CodecInverts (plainCodec 4) 4 ∧
    ∃ v, bp_vector.build 0 (fun _ => 0) (plainCodec 4) 4 [5, 3, 9, 1, 7, 2] = Built.ok v ∧
      ∀ b, b * 4 < [5, 3, 9, 1, 7, 2].length →
        ∃ out, bp_vector.get_inter_sampled_values (plainCodec 4) 4 v b = some out ∧
          out.length = 4 ∧ out.getD 0 0 = 0 ∧
          ∀ j, j < 4 → b * 4 + j < [5, 3, 9, 1, 7, 2].length →
            ([5, 3, 9, 1, 7, 2].getD (b * 4) 0 + out.getD j 0) % 2 ^ 32
              = [5, 3, 9, 1, 7, 2].getD (b * 4 + j) 0 :=
  ⟨plainCodec_inverts 4,
    (get_inter_sampled_values_relative 0 (fun _ => 0) (plainCodec 4) 4 [5, 3, 9, 1, 7, 2]
      (by decide) (plainCodec_inverts 4) (by decide) (by decide)).1⟩

set_option maxRecDepth 20000 in
/-- C14 refuted at a concrete input: for `bp_vector` built from `5, 6, 7` with `dens = 128`,
`get_inter_sampled_values(0, out)` writes `0, 1, 2, 2, ..., 2`, so `out[0]` is 0 and not the
element `c[0] = 5`, and `out[1]` is 1 and not `c[1] = 6`. -/
theorem get_inter_sampled_values_not_elements :
    ∃ v out, bp_vector.build 0 (fun _ => 0) (plainCodec 128) 128 [5, 6, 7] = Built.ok v ∧
      bp_vector.get_inter_sampled_values (plainCodec 128) 128 v 0 = some out ∧
      out[0]? = some 0 ∧ [5, 6, 7][0]? = some 5 ∧ out[1]? = some 1 ∧ [5, 6, 7][1]? = some 6 :=
  ⟨_, _, rfl, rfl, by decide, rfl, by decide, rfl⟩

/-! ## The element count -/

/-- A container returned by the constructor of `ef_vector` holds the element count of the
input. -/
theorem ef_build_size (junk : Nat → Nat) (lc : ListCodecs) (B : Nat) (c : List Nat)
    (v : EfVector) (h : ef_vector.build junk lc B c = Built.ok v) : v.m_size = c.length := by
  unfold ef_vector.build at h
  split at h
  · cases h
  · dsimp only at h
    split at h
    · cases h
    · split at h
      · cases h
      · injection h with h
        rw [← h]

/-! ## The list `top` of `ef_vector` -/

theorem top_pushed_succ (B : Nat) (c : List Nat) (j : Nat) :
    top_pushed B c (j + 1) = top_pushed B c j ++ [c.getD (B - 1 + j * B) 0 % U64] := by
  unfold top_pushed
  rw [List.range_succ, List.map_append]
  rfl

theorem top_pushed_length (B : Nat) (c : List Nat) (j : Nat) :
    (top_pushed B c j).length = j + 1 := by
  simp [top_pushed]

/-- The loop of step (1) goes on exactly while fewer than `n/block_size - 1` values are
pushed. -/
theorem top_loop_continues (B : Nat) (c : List Nat) (hB : 0 < B) (j : Nat) :
    B - 1 + j * B + B < c.length ↔ j < c.length / B - 1 := by
  have h1 : B - 1 + j * B + B < c.length ↔ (j + 2) * B ≤ c.length := by
    have : (j + 2) * B = j * B + B + B := by ring
    rw [this]
    omega
  rw [h1, ← Nat.le_div_iff_mul_le hB]
  omega

/-- The loop of step (1) ends within `fuel` passes when `fuel` covers the values still to be
pushed, and leaves the values of `n/block_size - 1` passes. -/
theorem top_loop_spec (B : Nat) (c : List Nat) (hB : 0 < B) (fuel : Nat) :
    ∀ j, j ≤ c.length / B - 1 → c.length / B - 1 ≤ j + fuel →
      top_loop B c fuel (B - 1 + j * B) (top_pushed B c j)
        = some (top_pushed B c (c.length / B - 1)) := by
  induction fuel with
  | zero =>
    intro j h1 h2
    have hj : j = c.length / B - 1 := by omega
    have hstop : ¬ (B - 1 + j * B + B < c.length) := by
      rw [top_loop_continues B c hB j]
      omega
    simp only [top_loop]
    rw [if_neg hstop, hj]
  | succ fuel ih =>
    intro j h1 h2
    by_cases hgo : B - 1 + j * B + B < c.length
    · have hj := (top_loop_continues B c hB j).mp hgo
      simp only [top_loop]
      rw [if_pos hgo, ← top_pushed_succ]
      have e : B - 1 + j * B + B = B - 1 + (j + 1) * B := by ring
      rw [e]
      exact ih (j + 1) (by omega) (by omega)
    · have hj : ¬ j < c.length / B - 1 := fun h => hgo ((top_loop_continues B c hB j).mpr h)
      have hj2 : j = c.length / B - 1 := by omega
      simp only [top_loop]
      rw [if_neg hgo, hj2]

/-- Step (1) of the constructor computes the list `ef_top`. -/
theorem construct_top_eq (B : Nat) (c : List Nat) (hB : 0 < B) :
    construct_top B c = some (ef_top B c) := by
  have hq : c.length / B - 1 ≤ 0 + c.length := by
    have := Nat.div_le_self c.length B
    omega
  have h := top_loop_spec B c hB c.length 0 (Nat.zero_le _) hq
  rw [Nat.zero_mul, Nat.add_zero] at h
  unfold construct_top
  have e : top_pushed B c 0 = [0] := rfl
  rw [e] at h
  rw [h]
  unfold ef_top
  by_cases hr : c.length % B ≠ 0
  · rw [if_pos hr]
    dsimp only
    rw [if_pos hr]
  · rw [if_neg hr, List.append_nil]
    dsimp only
    rw [if_neg hr]

/-- The number of entries of `top`: one for every complete block (one if there is none) and
one more when a short last block follows. -/
theorem ef_top_length (B : Nat) (c : List Nat) :
    (ef_top B c).length = c.length / B - 1 + 1 + (if c.length % B ≠ 0 then 1 else 0) := by
  unfold ef_top
  rw [List.length_append, top_pushed_length]
  split <;> simp

/-! ## When the constructor of `ef_vector` is defined -/

/-- The offset `encode_block` returns is the position the stream had. -/
theorem encode_block_offset (lc : ListCodecs) (os : List Bool) (data : List Nat) (k : Nat)
    (top : List Nat) (last : Bool) (r : List Bool × Nat)
    (h : encode_block lc os data k top last = some r) : r.2 = os.length := by
  unfold encode_block at h
  dsimp only at h
  split at h
  · split at h
    · split at h
      · split at h
        · cases h
        · split at h <;> (injection h with h; rw [← h])
      · injection h with h
        rw [← h]
    · cases h
  · injection h with h
    rw [← h]

/-- The call `encode_block` reads inside `top` and `data` when `top[cur_block]` exists, the
data are not empty and, for a block that is not the last one, `top[cur_block+1]` exists. -/
theorem encode_block_defined (lc : ListCodecs) (os : List Bool) (data : List Nat) (k : Nat)
    (top : List Nat) (last : Bool) (hk : k < top.length) (hdata : data ≠ [])
    (hnext : last = false → k + 1 < top.length) :
    ∃ r, encode_block lc os data k top last = some r := by
  obtain ⟨d0, rest, rfl⟩ := List.exists_cons_of_ne_nil hdata
  unfold encode_block
  dsimp only
  by_cases hs : is_sorted (d0 :: rest) = true
  · rw [if_pos hs, List.getElem?_eq_getElem hk]
    simp only [List.getElem?_cons_zero]
    by_cases hlt : (decide (top[k] < d0) && !last) = true
    · rw [if_pos hlt]
      have hl : last = false := by
        cases last with
        | false => rfl
        | true => simp at hlt
      rw [List.getElem?_eq_getElem (hnext hl)]
      dsimp only
      split <;> exact ⟨_, rfl⟩
    · rw [if_neg hlt]
      exact ⟨_, rfl⟩
  · rw [if_neg hs]
    exact ⟨_, rfl⟩

/-- The block loop is defined on `m` complete blocks followed by a short tail when `top` has
an entry behind each of these blocks; it encodes the `m` blocks and leaves the tail in
`tmp`. -/
theorem fill_blocks_defined (lc : ListCodecs) (B : Nat) (top : List Nat) (hB : 0 < B) (m : Nat) :
    ∀ (rest : List Nat) (st : EfState), st.tmp = [] → m * B ≤ rest.length →
      rest.length < m * B + B → st.cur_block + m < top.length →
      ∃ st2, fill_blocks lc B top rest st = some st2 ∧ st2.cur_block = st.cur_block + m ∧
        st2.tmp = (rest.drop (m * B)).map (· % U64) ∧
        st2.m_block_data.length = st.m_block_data.length := by
  induction m with
  | zero =>
    intro rest st htmp _ h2 _
    rw [Nat.zero_mul, Nat.zero_add] at h2
    refine ⟨_, fill_blocks_tail lc B top rest st (by rw [htmp]; simpa using h2), rfl, ?_, rfl⟩
    simp [htmp]
  | succ m ih =>
    intro rest st htmp h1 h2 h3
    have hsucc : (m + 1) * B = m * B + B := by rw [Nat.add_mul, Nat.one_mul]
    rw [hsucc] at h1 h2
    have hsplit : rest = rest.take B ++ rest.drop B := (List.take_append_drop B rest).symm
    have htake : (rest.take B).length = B := by
      rw [List.length_take]
      omega
    have hne : rest.take B ≠ [] := by
      intro h
      rw [h] at htake
      simp at htake
      omega
    obtain ⟨r, hr⟩ := encode_block_defined lc st.os (st.tmp ++ (rest.take B).map (· % U64))
      st.cur_block top false (by omega) (by rw [htmp]; simpa using hne) (fun _ => by omega)
    have hstep := fill_blocks_block lc B top (rest.take B) (rest.drop B) st r.1 r.2
      (by rw [htmp, htake]; simp) hne hr
    rw [← hsplit] at hstep
    obtain ⟨st2, hst2, hc2, ht2, hl2⟩ := ih (rest.drop B)
      { os := r.1, tmp := [], m_block_data := st.m_block_data.set (2 * st.cur_block) r.2,
        cur_block := st.cur_block + 1 } rfl
      (by rw [List.length_drop]; omega) (by rw [List.length_drop]; omega)
      (by show st.cur_block + 1 + m < top.length; omega)
    refine ⟨st2, by rw [hstep]; exact hst2, by rw [hc2]; show st.cur_block + 1 + m = _; omega,
      ?_, by rw [hl2]; simp⟩
    rw [ht2, List.drop_drop, hsucc]
    congr 2
    omega

/-- The constructor of `ef_vector` returns a container for every input whose length is not
a multiple of the block size. -/
theorem ef_build_defined (junk : Nat → Nat) (lc : ListCodecs) (B : Nat) (c : List Nat)
    (hB : 0 < B) (hrem : c.length % B ≠ 0) :
    ∃ v, ef_vector.build junk lc B c = Built.ok v := by
  have hdm := Nat.div_add_mod c.length B
  have hq : B * (c.length / B) = c.length / B * B := Nat.mul_comm _ _
  have hmod := Nat.mod_lt c.length hB
  have htl : c.length / B + 1 ≤ (ef_top B c).length := by
    rw [ef_top_length, if_pos hrem]
    omega
  obtain ⟨st1, h1, hc1, ht1, _⟩ := fill_blocks_defined lc B (ef_top B c) hB (c.length / B) c
    { os := [], tmp := [], m_block_data := resize_uninit junk (2 * (ef_top B c).length),
      cur_block := 0 } rfl (by omega) (by omega) (by show 0 + c.length / B < _; omega)
  have hne : st1.tmp ≠ [] := by
    rw [ht1]
    intro h
    have := congrArg List.length h
    rw [List.length_map, List.length_drop] at this
    simp at this
    omega
  obtain ⟨r, hr⟩ := encode_block_defined lc st1.os st1.tmp st1.cur_block (ef_top B c) true
    (by rw [hc1]; show 0 + c.length / B < _; omega) hne (fun h => by cases h)
  exact ⟨_, ef_build_steps junk lc B c (ef_top B c) st1 _ (construct_top_eq B c hB) h1
    (fill_last_block lc (ef_top B c) st1 r.1 r.2 hne hr)⟩

/-- C20: for each of the three containers built from a sequence of `n > 0` elements (for the
delta variants all values `<= 2^32-1`), `size() == n` and `empty() == false`. The delta
constructors return such a container; the constructor of `ef_vector` returns one whenever
`n` is not a multiple of the block size, and every container it returns is such a container.
`operator[]`, `sample` and `get_inter_sampled_values` are functions of the container that
return a value and no container, so the count fixed at construction stays. -/
theorem size_after_build (pad : Nat) (junk : Nat → Nat) (cd : BlockCodec) (lc : ListCodecs)
    (dens B : Nat) (c : List Nat) (hdens : 0 < dens) (hB : 0 < B) (hne : c ≠ [])
    (hc : ∀ x ∈ c, x ≤ 2 ^ 32 - 1) :
    (∃ v, bp_vector.build pad junk cd dens c = Built.ok v ∧
      v.size = c.length ∧ v.empty = false) ∧
    (∃ v, optpfor_vector.build junk cd dens c = Built.ok v ∧
      v.size = c.length ∧ v.empty = false) ∧
    (∀ v, ef_vector.build junk lc B c = Built.ok v →
      ef_vector.size v = c.length ∧ ef_vector.empty v = false) ∧
    (c.length % B ≠ 0 → ∃ v, ef_vector.build junk lc B c = Built.ok v ∧
      ef_vector.size v = c.length ∧ ef_vector.empty v = false) := by
  have hc2 : ∀ x ∈ c, x < U32 := fun x hx => by
    have := hc x hx
    unfold U32
    omega
  have hpos : 0 < c.length := List.length_pos.mpr hne
  obtain ⟨v1, hv1, hlay1⟩ := delta_build_layout "bp_vector: only supports 32bit integers."
    (List.replicate pad 0) false false junk cd dens c hne hc2 hdens
  obtain ⟨v2, hv2, hlay2⟩ := delta_build_layout "optpfor_vector: only supports 32bit integers."
    [0] true false junk cd dens c hne hc2 hdens
  have hef : ∀ v, ef_vector.build junk lc B c = Built.ok v →
      ef_vector.size v = c.length ∧ ef_vector.empty v = false := by
    intro v hv
    have := ef_build_size junk lc B c v hv
    refine ⟨this, ?_⟩
    unfold ef_vector.empty
    rw [this]
    simp
    omega
  refine ⟨⟨v1, hv1, hlay1.size_eq, ?_⟩, ⟨v2, hv2, hlay2.size_eq, ?_⟩, hef, ?_⟩
  · unfold DeltaVector.empty
    rw [hlay1.size_eq]
    simp
    omega
  · unfold DeltaVector.empty
    rw [hlay2.size_eq]
    simp
    omega
  · intro hrem
    obtain ⟨v, hv⟩ := ef_build_defined junk lc B c hB hrem
    exact ⟨v, hv, hef v hv⟩

/-- C20 at a concrete input: three elements, with `dens = 128` and block size 2. -/
theorem size_after_build_witness :
    (∃ v, bp_vector.build 0 (fun _ => 0) (plainCodec 128) 128 [2, 2, 2] = Built.ok v ∧
      v.size = [2, 2, 2].length ∧ v.empty = false) ∧
    (∃ v, optpfor_vector.build (fun _ => 0) (plainCodec 128) 128 [2, 2, 2] = Built.ok v ∧
      v.size = [2, 2, 2].length ∧ v.empty = false) ∧
    (∀ v, ef_vector.build (fun _ => 0) nullLists 2 [2, 2, 2] = Built.ok v →
      ef_vector.size v = [2, 2, 2].length ∧ ef_vector.empty v = false) ∧
    ([2, 2, 2].length % 2 ≠ 0 → ∃ v, ef_vector.build (fun _ => 0) nullLists 2 [2, 2, 2]
        = Built.ok v ∧
      ef_vector.size v = [2, 2, 2].length ∧ ef_vector.empty v = false) :=
  size_after_build 0 (fun _ => 0) (plainCodec 128) nullLists 128 2 [2, 2, 2] (by decide)
    (by decide) (by decide) (by decide)

/-! ## The boundaries in `top` -/

/-- The constructor of `ef_vector` has no defined result when the block loop reads outside
`top`. -/
theorem ef_build_undefined (junk : Nat → Nat) (lc : ListCodecs) (B : Nat) (c top : List Nat)
    (h1 : construct_top B c = some top)
    (h2 : fill_blocks lc B top c
      { os := [], tmp := [], m_block_data := resize_uninit junk (2 * top.length),
        cur_block := 0 } = none) :
    ef_vector.build junk lc B c = Built.undefined := by
  unfold ef_vector.build
  rw [h1]
  dsimp only
  rw [h2]

/-- C15 (the code breaks the claim): the loop that fills `top` stops one block early. For
`0, 1, 2, 4, 3` and block size 2 it gives `top = 0, 1, 3`, so `sample(2)` is the final
element 3 and not `c[2*2-1] = 4`, the last value of block 1, which is not recorded.
For `1, 2` and block size 2 it gives `top = 0`: the entry `top[1] = c[1]` is missing, and the
constructor then reads `top[1]` outside the vector. -/
theorem top_stops_one_block_early (junk : Nat → Nat) (lc : ListCodecs) :
    construct_top 2 [0, 1, 2, 4, 3] = some [0, 1, 3] ∧
    (∃ v, ef_vector.build junk lc 2 [0, 1, 2, 4, 3] = Built.ok v ∧
      ef_vector.sample v 2 = some 3 ∧ ef_vector.sample v 3 = none ∧
      [0, 1, 2, 4, 3][2 * 2 - 1]? = some 4) ∧
    construct_top 2 [1, 2] = some [0] ∧
    ef_vector.build junk lc 2 [1, 2] = Built.undefined := by
  refine ⟨rfl, ⟨_, ef_build_01243 junk lc, rfl, rfl, rfl⟩, rfl, ?_⟩
  refine ef_build_undefined junk lc 2 [1, 2] [0] rfl ?_
  have h := fill_blocks_chunk lc 2 [0] [1, 2] []
    ⟨[], [], resize_uninit junk (2 * [0].length), 0⟩ rfl (List.cons_ne_nil 1 [2])
  have he : encode_block lc [] ([] ++ List.map (· % U64) [1, 2]) 0 [0] false = none := rfl
  rw [he] at h
  exact h

/-- C16 (the code breaks the claim): in `0, 1, 2, 4, 3` with block size 2 every block is
sorted ascending, block 1 holds `2, 4` and is encoded with the non-zero tag 3, and
`top[2]`, read through `sample(2)`, is 3, smaller than the maximum 4 of that block. -/
theorem universe_below_block_maximum (junk : Nat → Nat) (lc : ListCodecs) :
    is_sorted [0, 1] = true ∧ is_sorted [2, 4] = true ∧ is_sorted [3] = true ∧
    ∃ v offset, ef_vector.build junk lc 2 [0, 1, 2, 4, 3] = Built.ok v ∧
      v.m_block_data[2 * 1]? = some offset ∧ peek_int v.m_low_data offset 2 = some 3 ∧
      ef_vector.sample v 1 = some 1 ∧ ef_vector.sample v 2 = some 3 ∧ 3 < 4 :=
  ⟨rfl, rfl, rfl, _, _, ef_build_01243 junk lc, rfl, ef_tag_01243 lc, rfl, rfl, by decide⟩

/-! ## The plain list codecs -/

theorem int_bits_succ (x len : Nat) :
    int_bits x (len + 1) = decide (x % 2 = 1) :: int_bits (x / 2) len := by
  unfold int_bits
  rw [List.range_succ_eq_map, List.map_cons, List.map_map, Nat.testBit_zero]
  congr 1
  apply List.map_congr_left
  intro j _
  exact Nat.testBit_succ x j

/-- The bits written for `x` stand for `x` modulo `2 ^ len`. -/
theorem bits_value_int_bits (len : Nat) : ∀ x, bits_value (int_bits x len) = x % 2 ^ len := by
  induction len with
  | zero =>
    intro x
    simp [int_bits, bits_value, Nat.mod_one]
  | succ len ih =>
    intro x
    rw [int_bits_succ, bits_value, ih, pow_succ', Nat.mod_mul]
    by_cases h : x % 2 = 1
    · simp [h]
    · have : x % 2 = 0 := by omega
      simp [this]

theorem read_word_eq (pre post : List Bool) (x : Nat) (hx : x < U64) :
    read_word (pre ++ int_bits x 64 ++ post) pre.length = x := by
  unfold read_word
  rw [List.append_assoc, List.drop_left, List.take_left' (int_bits_length x 64),
    bits_value_int_bits]
  exact Nat.mod_eq_of_lt hx

theorem words_bits_length (data : List Nat) : (words_bits data).length = 64 * data.length := by
  induction data with
  | nil => rfl
  | cons x xs ih =>
    simp only [words_bits, List.length_append, int_bits_length, ih, List.length_cons]
    omega

/-- Word `i` of a list written as 64-bit words is read back at its position. -/
theorem read_word_words (data : List Nat) :
    ∀ (pre post : List Bool) (i : Nat), (∀ x ∈ data, x < U64) → i < data.length →
      read_word (pre ++ words_bits data ++ post) (pre.length + 64 * i) = data.getD i 0 := by
  induction data with
  | nil => intro pre post i _ hi; simp at hi
  | cons x xs ih =>
    intro pre post i hx hi
    cases i with
    | zero =>
      have := read_word_eq pre (words_bits xs ++ post) x (hx x (List.mem_cons_self _ _))
      simpa [words_bits, List.append_assoc] using this
    | succ i =>
      have h := ih (pre ++ int_bits x 64) post i (fun y hy => hx y (List.mem_cons_of_mem _ hy))
        (by simpa using hi)
      rw [List.length_append, int_bits_length] at h
      have e1 : pre ++ words_bits (x :: xs) ++ post
          = pre ++ int_bits x 64 ++ words_bits xs ++ post := by
        simp [words_bits, List.append_assoc]
      have e2 : pre.length + 64 * (i + 1) = pre.length + 64 + 64 * i := by ring
      rw [e1, e2, h]
      rfl

theorem read_words_at_eq (pre post : List Bool) (data : List Nat) (hx : ∀ x ∈ data, x < U64) :
    read_words_at (pre ++ words_bits data ++ post) pre.length data.length = data := by
  apply List.ext_getElem?
  intro i
  unfold read_words_at
  rw [List.getElem?_map]
  by_cases hi : i < data.length
  · rw [List.getElem?_range hi, Option.map_some', read_word_words data pre post i hx hi]
    exact (getElem?_eq_some_getD data i hi).symm
  · rw [List.getElem?_eq_none (by simpa using hi), List.getElem?_eq_none (by omega)]
    rfl

theorem plainLists_raw : RawInverts plainLists := by
  intro pre post data hlen hx
  show read_words_at (pre ++ (int_bits data.length 64 ++ words_bits data) ++ post)
    (pre.length + 64)
    (read_word (pre ++ (int_bits data.length 64 ++ words_bits data) ++ post) pre.length) = data
  have e : pre ++ (int_bits data.length 64 ++ words_bits data) ++ post
      = pre ++ int_bits data.length 64 ++ (words_bits data ++ post) := by
    simp [List.append_assoc]
  have e2 : pre ++ (int_bits data.length 64 ++ words_bits data) ++ post
      = (pre ++ int_bits data.length 64) ++ words_bits data ++ post := by
    simp [List.append_assoc]
  have h1 : read_word (pre ++ (int_bits data.length 64 ++ words_bits data) ++ post) pre.length
      = data.length := by
    rw [e]
    exact read_word_eq pre _ data.length hlen
  rw [h1, e2]
  have := read_words_at_eq (pre ++ int_bits data.length 64) post data hx
  rw [List.length_append, int_bits_length] at this
  exact this

/-! ## The raw fallback of `ef_vector` -/

/-- On a block whose tag is 0 the accessor returns the element of the raw list. -/
theorem ef_index_raw (lc : ListCodecs) (B : Nat) (v : EfVector) (i data_offset : Nat)
    (h1 : v.m_block_data[2 * (i / B)]? = some data_offset)
    (h2 : peek_int v.m_low_data data_offset 2 = some 0) :
    ef_vector.index lc B v i = (lc.raw_materialize v.m_low_data (data_offset + 2))[i % B]? := by
  unfold ef_vector.index
  simp only [h1, h2]
  rfl

/-- The container built from `0, 100, 3, 250, 7` with a block size of at least 5: one block,
stored raw at offset 0. -/
theorem ef_build_scenario (junk : Nat → Nat) (lc : ListCodecs) (B : Nat) (hB : 5 ≤ B) :
    ∃ v, ef_vector.build junk lc B [0, 100, 3, 250, 7] = Built.ok v ∧
      v.m_low_data = put_int [] 0 2 ++ lc.raw_create [0, 100, 3, 250, 7] ∧
      v.m_block_data[0]? = some 0 := by
  by_cases h5 : B = 5
  · subst h5
    have he : encode_block lc [] ([] ++ List.map (· % U64) [0, 100, 3, 250, 7]) 0 [0] false
        = some (put_int [] 0 2 ++ lc.raw_create [0, 100, 3, 250, 7], 0) := rfl
    have s1 := fill_blocks_block lc 5 [0] [0, 100, 3, 250, 7] []
      ⟨[], [], resize_uninit junk 2, 0⟩ _ _ rfl (List.cons_ne_nil _ _) he
    exact ⟨_, ef_build_steps junk lc 5 [0, 100, 3, 250, 7] [0] _ _ rfl s1 rfl, rfl, rfl⟩
  · have hlt : 5 < B := by omega
    have htop : construct_top B [0, 100, 3, 250, 7] = some [0, 7] := by
      rw [construct_top_eq B _ (by omega)]
      unfold ef_top
      have h1 : [0, 100, 3, 250, 7].length / B = 0 := Nat.div_eq_of_lt hlt
      have h2 : [0, 100, 3, 250, 7].length % B = 5 := Nat.mod_eq_of_lt hlt
      rw [h1, h2]
      rfl
    have s1 := fill_blocks_tail lc B [0, 7] [0, 100, 3, 250, 7]
      ⟨[], [], resize_uninit junk 4, 0⟩ (by show 0 + 5 < B; omega)
    have he : encode_block lc [] ([] ++ List.map (· % U64) [0, 100, 3, 250, 7]) 0 [0, 7] true
        = some (put_int [] 0 2 ++ lc.raw_create [0, 100, 3, 250, 7], 0) := rfl
    have s2 := fill_last_block lc [0, 7]
      ⟨[], [] ++ List.map (· % U64) [0, 100, 3, 250, 7], resize_uninit junk 4, 0⟩ _ _
      (List.cons_ne_nil _ _) he
    exact ⟨_, ef_build_steps junk lc B [0, 100, 3, 250, 7] [0, 7] _ _ htop s1 s2, rfl, rfl⟩

/-- C12: `encode_block` writes tag 0 followed by the raw list of the block's values as they
are (no `top[k]` subtracted) when the block is not sorted in non-decreasing order, or
`top[k]` is not strictly smaller than the block's first value, or the block is the short
last block; in every other case what it writes starts with one of the tags 1, 2, 3. The
tag is read back at the returned offset. The input `0, 100, 3, 250, 7` with a block size of
at least 5 is stored with tag 0 and `container[2] == 3`, the raw list codec returning the
values it was given. -/
theorem raw_fallback (lc : ListCodecs) (os : List Bool) (data : List Nat) (k : Nat)
    (top : List Nat) (last : Bool) (t0 d0 : Nat) (junk : Nat → Nat) (B : Nat)
    (h0 : top[k]? = some t0) (hd : data[0]? = some d0) (hB : 5 ≤ B) (hraw : RawInverts lc) :
    ((is_sorted data = false ∨ ¬ t0 < d0 ∨ last = true) →
      encode_block lc os data k top last
          = some (put_int os 0 2 ++ lc.raw_create data, os.length) ∧
        peek_int (put_int os 0 2 ++ lc.raw_create data) os.length 2 = some 0) ∧
    (¬ (is_sorted data = false ∨ ¬ t0 < d0 ∨ last = true) →
      ∀ r, encode_block lc os data k top last = some r →
        ∃ tag body, (tag = 1 ∨ tag = 2 ∨ tag = 3) ∧ r = (put_int os tag 2 ++ body, os.length) ∧
          peek_int r.1 os.length 2 = some tag) ∧
    (∃ v, ef_vector.build junk lc B [0, 100, 3, 250, 7] = Built.ok v ∧
      v.m_block_data[0]? = some 0 ∧ peek_int v.m_low_data 0 2 = some 0 ∧
      ef_vector.index lc B v 2 = some 3) := by
  refine ⟨?_, ?_, ?_⟩
  · intro hcond
    refine ⟨?_, peek_tag os _ 0 (by omega)⟩
    unfold encode_block
    dsimp only
    by_cases hs : is_sorted data = true
    · rw [if_pos hs, h0, hd]
      dsimp only
      have hlt : ¬ (decide (t0 < d0) && !last) = true := by
        rcases hcond with h | h | h
        · rw [hs] at h
          cases h
        · simp [h]
        · simp [h]
      rw [if_neg hlt]
    · rw [if_neg hs]
  · intro hcond r hr
    have hs : is_sorted data = true := by
      by_contra h
      exact hcond (Or.inl (by simpa using h))
    have hlt : t0 < d0 := by
      by_contra h
      exact hcond (Or.inr (Or.inl h))
    have hl : last = false := by
      cases last with
      | false => rfl
      | true => exact absurd (Or.inr (Or.inr rfl)) hcond
    unfold encode_block at hr
    dsimp only at hr
    rw [if_pos hs, h0, hd] at hr
    dsimp only at hr
    rw [if_pos (by simp [hlt, hl])] at hr
    split at hr
    · cases hr
    · split at hr
      · injection hr with hr
        exact ⟨1, _, Or.inl rfl, hr.symm, by rw [← hr]; exact peek_tag os _ 1 (by omega)⟩
      · injection hr with hr
        exact ⟨2, _, Or.inr (Or.inl rfl), hr.symm,
          by rw [← hr]; exact peek_tag os _ 2 (by omega)⟩
      · injection hr with hr
        refine ⟨3, [], Or.inr (Or.inr rfl), by rw [← hr, List.append_nil], ?_⟩
        rw [← hr]
        have := peek_tag os [] 3 (by omega)
        rwa [List.append_nil] at this
  · obtain ⟨v, hv, hlow, hcell⟩ := ef_build_scenario junk lc B hB
    have hpeek : peek_int v.m_low_data 0 2 = some 0 := by
      rw [hlow]
      exact peek_tag [] _ 0 (by omega)
    refine ⟨v, hv, hcell, hpeek, ?_⟩
    have hdiv : 2 / B = 0 := Nat.div_eq_of_lt (by omega)
    have hmod : 2 % B = 2 := Nat.mod_eq_of_lt (by omega)
    rw [ef_index_raw lc B v 2 0 (by rw [hdiv]; exact hcell) hpeek, hmod, hlow]
    have hm := hraw (put_int [] 0 2) [] [0, 100, 3, 250, 7] (by decide) (by decide)
    rw [List.append_nil] at hm
    have e : (put_int [] 0 2).length = 0 + 2 := rfl
    rw [e] at hm
    rw [hm]
    rfl

/-- C12 at a concrete input: the block `1, 5, 2` is not sorted, and the scenario of the claim
with block size 128 and the plain list codecs. -/
theorem raw_fallback_witness :
    RawInverts plainLists ∧
    encode_block plainLists [] [1, 5, 2] 0 [0, 9] false
      = some (put_int [] 0 2 ++ plainLists.raw_create [1, 5, 2], ([] : List Bool).length) ∧
    ∃ v, ef_vector.build (fun _ => 0) plainLists 128 [0, 100, 3, 250, 7] = Built.ok v ∧
      v.m_block_data[0]? = some 0 ∧ peek_int v.m_low_data 0 2 = some 0 ∧
      ef_vector.index plainLists 128 v 2 = some 3 :=
  ⟨plainLists_raw,
    ((raw_fallback plainLists [] [1, 5, 2] 0 [0, 9] false 0 1 (fun _ => 0) 128 rfl rfl
      (by decide) plainLists_raw).1 (Or.inl rfl)).1,
    (raw_fallback plainLists [] [1, 5, 2] 0 [0, 9] false 0 1 (fun _ => 0) 128 rfl rfl
      (by decide) plainLists_raw).2.2⟩

/-! ## The plain stream primitives -/

theorem le_bytes_length (w : Nat) : ∀ x, (le_bytes w x).length = w := by
  induction w with
  | zero => intro x; rfl
  | succ w ih => intro x; simp [le_bytes, ih]

theorem le_value_le_bytes (w : Nat) : ∀ x, le_value (le_bytes w x) = x % 256 ^ w := by
  induction w with
  | zero =>
    intro x
    simp [le_bytes, le_value, Nat.mod_one]
  | succ w ih =>
    intro x
    rw [le_bytes, le_value, ih, pow_succ', Nat.mod_mul]

theorem read_le_bytes (w x : Nat) (rest : List Nat) (hx : x < 256 ^ w) :
    le_value ((le_bytes w x ++ rest).take w) = x ∧ (le_bytes w x ++ rest).drop w = rest := by
  constructor
  · rw [List.take_left' (le_bytes_length w x), le_value_le_bytes]
    exact Nat.mod_eq_of_lt hx
  · rw [List.drop_left' (le_bytes_length w x)]

theorem read_fixed_words (w : Nat) (ws : List Nat) :
    ∀ rest, (∀ x ∈ ws, x < 256 ^ w) →
      read_fixed w ws.length (words_bytes w ws ++ rest) = (ws, rest) := by
  induction ws with
  | nil => intro rest _; rfl
  | cons x xs ih =>
    intro rest hx
    obtain ⟨h1, h2⟩ := read_le_bytes w x (words_bytes w xs ++ rest)
      (hx x (List.mem_cons_self _ _))
    simp only [words_bytes, List.length_cons, read_fixed, List.append_assoc]
    rw [h1, h2, ih rest (fun y hy => hx y (List.mem_cons_of_mem _ hy))]

theorem words_bytes_length (w : Nat) (ws : List Nat) :
    (words_bytes w ws).length = w * ws.length := by
  induction ws with
  | nil => rfl
  | cons x xs ih =>
    simp only [words_bytes, List.length_append, le_bytes_length, ih, List.length_cons]
    ring

theorem bit_bytes_inverse (b : List Bool) :
    List.map ((fun x => decide (x = 1)) ∘ fun x : Bool => if x then (1 : Nat) else 0) b = b := by
  induction b with
  | nil => rfl
  | cons x xs ih =>
    rw [List.map_cons, ih]
    cases x <;> rfl

theorem plainStream_inverts : StreamInverts plainStream := by
  have h64 : U64 = 256 ^ 8 := by decide
  have h32 : U32 = 256 ^ 4 := by decide
  refine ⟨?_, ?_, ?_, ?_⟩
  · intro x rest hx
    obtain ⟨h1, h2⟩ := read_le_bytes 8 x rest (by rw [← h64]; exact hx)
    simp only [plainStream]
    rw [h1, h2]
  · intro ws rest hw
    simp only [plainStream]
    exact read_fixed_words 4 ws rest (fun x hx => by rw [← h32]; exact hw x hx)
  · intro t rest hlen hx
    obtain ⟨h1, h2⟩ := read_le_bytes 8 t.length (words_bytes 8 t ++ rest)
      (by rw [← h64]; exact hlen)
    simp only [plainStream]
    rw [List.append_assoc, h1, h2]
    exact read_fixed_words 8 t rest (fun x hx2 => by rw [← h64]; exact hx x hx2)
  · intro b rest hlen
    obtain ⟨h1, h2⟩ := read_le_bytes 8 b.length
      (b.map (fun x => if x then 1 else 0) ++ rest) (by rw [← h64]; exact hlen)
    simp only [plainStream]
    rw [List.append_assoc, h1, h2]
    have hl : (b.map (fun x => if x then (1 : Nat) else 0)).length = b.length := by simp
    rw [List.take_left' hl, List.drop_left' hl, List.map_map]
    rw [bit_bytes_inverse]

theorem plainStream_counts : StreamCounts plainStream := by
  refine ⟨?_, ?_, ?_, ?_⟩
  · intro x
    exact (le_bytes_length 8 x).symm
  · intro x y
    show (le_bytes 8 x).length = (le_bytes 8 y).length
    rw [le_bytes_length, le_bytes_length]
  · intro ws
    exact words_bytes_length 4 ws
  · intro t
    show 8 + 8 * t.length = (le_bytes 8 t.length ++ words_bytes 8 t).length
    rw [List.length_append, le_bytes_length, words_bytes_length]

/-! ## Serialize and load -/

theorem delta_serialize_bytes (ops : StreamOps) (v : DeltaVector) (out : List Nat) :
    (delta_serialize ops v out).1
      = out ++ (ops.write_member v.m_size).1 ++ (ops.write_member v.m_z.length).1
        ++ ops.write_raw v.m_z ++ (ops.int_vector_serialize v.m_sample_vals_and_pointer).1 :=
  rfl

theorem ef_serialize_bytes (ops : StreamOps) (v : EfVector) (out : List Nat) :
    (ef_vector.serialize ops v out).1
      = out ++ (ops.write_member v.m_size).1 ++ (ops.bit_vector_serialize v.m_low_data).1
        ++ (ops.int_vector_serialize v.m_block_data).1 :=
  rfl

/-- Loading the four fields of a vector of the delta variants, written one after the other,
gives the vector back and leaves the bytes behind them. -/
theorem delta_load_fields (ops : StreamOps) (hops : StreamInverts ops) (x : DeltaVector)
    (hx : x.Representable) (rest : List Nat) :
    delta_load ops ((ops.write_member x.m_size).1 ++ ((ops.write_member x.m_z.length).1
      ++ (ops.write_raw x.m_z ++ ((ops.int_vector_serialize x.m_sample_vals_and_pointer).1
        ++ rest)))) = (x, rest) := by
  unfold delta_load
  dsimp only
  rw [hops.member _ _ hx.size_lt]
  dsimp only
  rw [hops.member _ _ hx.z_length]
  dsimp only
  rw [hops.raw _ _ hx.z_words]
  dsimp only
  rw [hops.int_vector _ _ hx.table_length hx.table_cells]

/-- Loading the three fields of an `ef_vector` gives the vector back. -/
theorem ef_load_fields (ops : StreamOps) (hops : StreamInverts ops) (x : EfVector)
    (hx : x.Representable) (rest : List Nat) :
    ef_vector.load ops ((ops.write_member x.m_size).1 ++ ((ops.bit_vector_serialize x.m_low_data).1
      ++ ((ops.int_vector_serialize x.m_block_data).1 ++ rest))) = (x, rest) := by
  unfold ef_vector.load
  dsimp only
  rw [hops.member _ _ hx.size_lt]
  dsimp only
  rw [hops.bit_vector _ _ hx.low_length]
  dsimp only
  rw [hops.int_vector _ _ hx.block_length hx.block_cells]

theorem block_words_lt (cd : BlockCodec) (fc : Bool) (dens : Nat) (c : List Nat) (b : Nat)
    (hcw : ∀ f, (∀ a ∈ f, a < U32) → ∀ w ∈ cd.encodeBlock f, w < U32) :
    ∀ w ∈ block_words cd fc dens c b, w < U32 := by
  intro w hw
  unfold block_words at hw
  split at hw
  · split at hw
    · simp at hw
    · exact hcw _ (fastDelta_lt _ (block_tmp_lt dens c b)) w hw
  · exact hcw _ (fastDelta_lt _ (last_block_tmp_lt dens c _)) w hw

theorem payload_upto_lt (cd : BlockCodec) (fc : Bool) (dens : Nat) (c z0 : List Nat)
    (hz0 : ∀ w ∈ z0, w < U32) (hcw : ∀ f, (∀ a ∈ f, a < U32) → ∀ w ∈ cd.encodeBlock f, w < U32) (k : Nat) :
    ∀ w ∈ payload_upto cd fc dens c z0 k, w < U32 := by
  induction k with
  | zero => exact hz0
  | succ k ih =>
    intro w hw
    simp only [payload_upto, List.mem_append] at hw
    rcases hw with h | h
    · exact ih w h
    · exact block_words_lt cd fc dens c k hcw w h

/-- A vector with the layout of the constructor fits the C++ types of its members when the
codec writes 32-bit words, the cells left unwritten hold 64-bit values and the sizes are
`size_type` values. -/
theorem layout_representable (cd : BlockCodec) (fc term : Bool) (dens : Nat) (c z0 : List Nat)
    (junk : Nat → Nat) (v : DeltaVector) (hlay : Layout cd fc term dens c z0 junk v)
    (hc : ∀ x ∈ c, x < U32) (hz0 : ∀ w ∈ z0, w < U32)
    (hcw : ∀ f, (∀ a ∈ f, a < U32) → ∀ w ∈ cd.encodeBlock f, w < U32) (hjunk : ∀ j, junk j < U64)
    (hsize : c.length < U64) (hzlen : v.m_z.length < U64)
    (htlen : v.m_sample_vals_and_pointer.length < U64) : v.Representable := by
  refine ⟨by rw [hlay.size_eq]; exact hsize, hzlen, ?_, htlen, ?_⟩
  · rw [hlay.zeq]
    exact payload_upto_lt cd fc dens c z0 hz0 hcw _
  · intro x hx
    rw [List.mem_iff_getElem?] at hx
    obtain ⟨j, hj⟩ := hx
    have hjlen : j < v.m_sample_vals_and_pointer.length := by
      by_contra hcon
      rw [List.getElem?_eq_none (by omega)] at hj
      cases hj
    rw [hlay.len] at hjlen
    by_cases hlast : 2 * num_blocks dens c.length ≤ j
    · rw [hlay.last j hlast hjlen] at hj
      injection hj with hj
      rw [← hj]
      split
      · decide
      · exact hjunk j
    · by_cases heven : j % 2 = 0
      · have hb : j = 2 * (j / 2) := by omega
        rw [hb, hlay.smp (j / 2) (by omega)] at hj
        injection hj with hj
        rw [← hj]
        exact lt_trans (getD_lt_of_forall c U32 _ U32_pos hc) U32_lt_U64
      · have hb : j = 2 * (j / 2) + 1 := by omega
        rw [hb, hlay.ptr (j / 2) (by omega)] at hj
        injection hj with hj
        rw [← hj]
        unfold block_pointer
        split
        · decide
        · have := payload_upto_length_le cd fc dens c z0 (j / 2) (num_blocks dens c.length)
            (by omega)
          rw [← hlay.zeq] at this
          omega

/-- A vector returned by a constructor of the delta variants fits the C++ types of its
members. -/
theorem built_representable (what : String) (z0 : List Nat) (fc : Bool) (junk : Nat → Nat)
    (cd : BlockCodec) (dens : Nat) (c : List Nat) (v : DeltaVector) (hdens : 0 < dens)
    (hc : ∀ x ∈ c, x ≤ 2 ^ 32 - 1) (hz0 : ∀ w ∈ z0, w < U32)
    (hcw : ∀ f, (∀ a ∈ f, a < U32) → ∀ w ∈ cd.encodeBlock f, w < U32) (hjunk : ∀ j, junk j < U64)
    (hsize : c.length < U64) (hv : delta_build what z0 fc false junk cd dens c = Built.ok v)
    (hzlen : v.m_z.length < U64) (htlen : v.m_sample_vals_and_pointer.length < U64) :
    v.Representable := by
  have hc2 : ∀ x ∈ c, x < U32 := fun x hx => by
    have := hc x hx
    unfold U32
    omega
  by_cases hne : c = []
  · subst hne
    have : v = DeltaVector.default := by
      have h : delta_build what z0 fc false junk cd dens [] = Built.ok DeltaVector.default := rfl
      rw [h] at hv
      injection hv with hv
      exact hv.symm
    subst this
    exact ⟨by decide, by decide, by simp [DeltaVector.default], by decide,
      by simp [DeltaVector.default]⟩
  · obtain ⟨v2, hv2, hlay⟩ := delta_build_layout what z0 fc false junk cd dens c hne hc2 hdens
    rw [hv] at hv2
    injection hv2 with hv2
    subst hv2
    exact layout_representable cd fc false dens c z0 junk v hlay hc2 hz0 hcw hjunk hsize hzlen
      htlen

/-- C4: for every container `x` of `bp_vector`, `optpfor_vector` or `ef_vector` whose members
fit their C++ types, loading the bytes written by `x.serialize` into a fresh container `y`
gives `x` back: `y.size() == x.size()` and `y[i] == x[i]` for every `i`, the stream
primitives reading back what they wrote. Every container built by `bp_vector` or
`optpfor_vector` is such a container when the codec writes 32-bit words and the sizes are
`size_type` values. -/
theorem serialize_load_round_trip (ops : StreamOps) (hops : StreamInverts ops) :
    (∀ x : DeltaVector, x.Representable →
      (delta_load ops (delta_serialize ops x []).1).1 = x ∧
      (delta_load ops (delta_serialize ops x []).1).1.size = x.size ∧
      ∀ (NDEBUG : Bool) (cd : BlockCodec) (dens i : Nat),
        bp_vector.index NDEBUG cd dens (delta_load ops (delta_serialize ops x []).1).1 i
          = bp_vector.index NDEBUG cd dens x i ∧
        optpfor_vector.index NDEBUG cd dens (delta_load ops (delta_serialize ops x []).1).1 i
          = optpfor_vector.index NDEBUG cd dens x i) ∧
    (∀ x : EfVector, x.Representable →
      (ef_vector.load ops (ef_vector.serialize ops x []).1).1 = x ∧
      ef_vector.size (ef_vector.load ops (ef_vector.serialize ops x []).1).1 = ef_vector.size x ∧
      ∀ (lc : ListCodecs) (B i : Nat),
        ef_vector.index lc B (ef_vector.load ops (ef_vector.serialize ops x []).1).1 i
          = ef_vector.index lc B x i) ∧
    (∀ (pad : Nat) (junk : Nat → Nat) (cd : BlockCodec) (dens : Nat) (c : List Nat)
      (x : DeltaVector), 0 < dens → (∀ a ∈ c, a ≤ 2 ^ 32 - 1) →
      (∀ f, (∀ a ∈ f, a < U32) → ∀ w ∈ cd.encodeBlock f, w < U32) → (∀ j, junk j < U64) →
      c.length < U64 →
      (bp_vector.build pad junk cd dens c = Built.ok x ∨
        optpfor_vector.build junk cd dens c = Built.ok x) →
      x.m_z.length < U64 → x.m_sample_vals_and_pointer.length < U64 → x.Representable) := by
  refine ⟨?_, ?_, ?_⟩
  · intro x hx
    have h : (delta_load ops (delta_serialize ops x []).1).1 = x := by
      have := delta_load_fields ops hops x hx []
      rw [List.append_nil] at this
      rw [delta_serialize_bytes]
      simp only [List.nil_append, List.append_assoc]
      rw [this]
    rw [h]
    exact ⟨rfl, rfl, fun _ _ _ _ => ⟨rfl, rfl⟩⟩
  · intro x hx
    have h : (ef_vector.load ops (ef_vector.serialize ops x []).1).1 = x := by
      have := ef_load_fields ops hops x hx []
      rw [List.append_nil] at this
      rw [ef_serialize_bytes]
      simp only [List.nil_append, List.append_assoc]
      rw [this]
    rw [h]
    exact ⟨rfl, rfl, fun _ _ _ => rfl⟩
  · intro pad junk cd dens c x hdens hc hcw hjunk hsize hbuilt hzlen htlen
    rcases hbuilt with h | h
    · exact built_representable _ (List.replicate pad 0) false junk cd dens c x hdens hc
        (fun w hw => by rw [List.eq_of_mem_replicate hw]; exact U32_pos) hcw hjunk hsize h hzlen
        htlen
    · exact built_representable _ [0] true junk cd dens c x hdens hc
        (fun w hw => by simp at hw; rw [hw]; exact U32_pos) hcw hjunk hsize h hzlen htlen

set_option maxRecDepth 20000 in
/-- C4 at a concrete input: the plain stream primitives read back what they wrote, and the
`bp_vector` built from `5, 3, 9` with `dens = 128` is loaded back from its bytes. -/
theorem serialize_load_round_trip_witness :
    StreamInverts plainStream ∧
    ∃ x, bp_vector.build 0 (fun _ => 0) (plainCodec 128) 128 [5, 3, 9] = Built.ok x ∧
      x.Representable ∧
      (delta_load plainStream (delta_serialize plainStream x []).1).1 = x := by
  have hb : ∃ x, bp_vector.build 0 (fun _ => 0) (plainCodec 128) 128 [5, 3, 9] = Built.ok x :=
    ⟨_, rfl⟩
  obtain ⟨x, hx⟩ := hb
  have hrep : x.Representable :=
    (serialize_load_round_trip plainStream plainStream_inverts).2.2 0 (fun _ => 0)
      (plainCodec 128) 128 [5, 3, 9] x (by decide) (by decide) (fun f hf w hw => hf w hw)
      (fun _ => U32_pos.trans U32_lt_U64) (by decide) (Or.inl hx)
      (by
        have h2 : bp_vector.build 0 (fun _ => 0) (plainCodec 128) 128 [5, 3, 9]
            = Built.ok ⟨[5, 0, 0, 0], 3, (plainCodec 128).encodeBlock
              ((fastDelta (last_block_tmp 128 [5, 3, 9] 3)).set 0 0)⟩ := rfl
        rw [h2] at hx
        injection hx with hx
        rw [← hx]
        decide)
      (by
        have h2 : bp_vector.build 0 (fun _ => 0) (plainCodec 128) 128 [5, 3, 9]
            = Built.ok ⟨[5, 0, 0, 0], 3, (plainCodec 128).encodeBlock
              ((fastDelta (last_block_tmp 128 [5, 3, 9] 3)).set 0 0)⟩ := rfl
        rw [h2] at hx
        injection hx with hx
        rw [← hx]
        decide)
  exact ⟨plainStream_inverts, x, hx, hrep,
    ((serialize_load_round_trip plainStream plainStream_inverts).1 x hrep).1⟩

/-- C17, as the code has it: `load` checks nothing and reports nothing. It reads `m_size`,
the payload length, the payload and the sample table (for `ef_vector`: `m_size`, the bit
vector and the block data) in this order from whatever bytes the stream yields and
overwrites the members as it goes: the `m_size` of the container is the first value read,
and for a stream that holds a written size field followed by any bytes at all, also too few,
it is the size that was written. -/
theorem load_unchecked (ops : StreamOps) (hops : StreamInverts ops) (inp bytes : List Nat)
    (n : Nat) (hn : n < U64) :
    (delta_load ops inp).1.m_size = (ops.read_member inp).1 ∧
    (ef_vector.load ops inp).1.m_size = (ops.read_member inp).1 ∧
    (delta_load ops ((ops.write_member n).1 ++ bytes)).1.m_size = n ∧
    (ef_vector.load ops ((ops.write_member n).1 ++ bytes)).1.m_size = n := by
  refine ⟨rfl, rfl, ?_, ?_⟩
  · show (ops.read_member ((ops.write_member n).1 ++ bytes)).1 = n
    rw [hops.member n bytes hn]
  · show (ops.read_member ((ops.write_member n).1 ++ bytes)).1 = n
    rw [hops.member n bytes hn]

/-- C17 (amended) at a concrete input: a stream that ends behind the size field 3. -/
theorem load_unchecked_witness :
    StreamInverts plainStream ∧
    (delta_load plainStream ((plainStream.write_member 3).1 ++ [])).1.m_size = 3 :=
  ⟨plainStream_inverts,
    (load_unchecked plainStream plainStream_inverts [] [] 3 (by decide)).2.2.1⟩

set_option maxRecDepth 20000 in
/-- C17 refuted at a concrete input: the bytes of the `bp_vector` built from `5, 3, 9` with
`dens = 128` are 568 with the plain stream primitives; cut off after 20 bytes, in the middle
of the payload, they are loaded into a fresh container without any error, and the container
is left with `m_size = 3` instead of the 0 it had, and with a payload that is not the one
that was written. -/
theorem load_truncated_changes_container :
    ∃ x, bp_vector.build 0 (fun _ => 0) (plainCodec 128) 128 [5, 3, 9] = Built.ok x ∧
      (delta_serialize plainStream x []).1.length = 568 ∧
      DeltaVector.default.m_size = 0 ∧
      (delta_load plainStream ((delta_serialize plainStream x []).1.take 20)).1.m_size = 3 ∧
      (delta_load plainStream ((delta_serialize plainStream x []).1.take 20)).1 ≠ x ∧
      (delta_load plainStream ((delta_serialize plainStream x []).1.take 20)).1
        ≠ DeltaVector.default :=
  ⟨_, rfl, by decide, rfl, by decide, by decide, by decide⟩

/-- C18: `serialize` of `bp_vector` and `optpfor_vector` appends to the stream, in this
order, the element count `m_size`, the number `m_z.size()` of payload words (both written as
a `size_type`, of the same width for every value), the `4*m_z.size()` raw payload bytes and
the serialized sample table; `load` reads these four fields in the same order and gets the
members back. -/
theorem serialize_layout (ops : StreamOps) (hops : StreamInverts ops) (hcnt : StreamCounts ops)
    (v : DeltaVector) (hv : v.Representable) (out rest : List Nat) :
    (delta_serialize ops v out).1
      = out ++ (ops.write_member v.m_size).1 ++ (ops.write_member v.m_z.length).1
        ++ ops.write_raw v.m_z ++ (ops.int_vector_serialize v.m_sample_vals_and_pointer).1 ∧
    (ops.write_member v.m_size).1.length = (ops.write_member v.m_z.length).1.length ∧
    (ops.write_raw v.m_z).length = 4 * v.m_z.length ∧
    ops.read_member ((ops.write_member v.m_size).1 ++ ((ops.write_member v.m_z.length).1
      ++ (ops.write_raw v.m_z ++ ((ops.int_vector_serialize v.m_sample_vals_and_pointer).1
        ++ rest))))
      = (v.m_size, (ops.write_member v.m_z.length).1
          ++ (ops.write_raw v.m_z ++ ((ops.int_vector_serialize v.m_sample_vals_and_pointer).1
            ++ rest))) ∧
    ops.read_member ((ops.write_member v.m_z.length).1
      ++ (ops.write_raw v.m_z ++ ((ops.int_vector_serialize v.m_sample_vals_and_pointer).1
        ++ rest)))
      = (v.m_z.length, ops.write_raw v.m_z
          ++ ((ops.int_vector_serialize v.m_sample_vals_and_pointer).1 ++ rest)) ∧
    ops.read_raw v.m_z.length (ops.write_raw v.m_z
      ++ ((ops.int_vector_serialize v.m_sample_vals_and_pointer).1 ++ rest))
      = (v.m_z, (ops.int_vector_serialize v.m_sample_vals_and_pointer).1 ++ rest) ∧
    ops.int_vector_load ((ops.int_vector_serialize v.m_sample_vals_and_pointer).1 ++ rest)
      = (v.m_sample_vals_and_pointer, rest) ∧
    delta_load ops ((ops.write_member v.m_size).1 ++ ((ops.write_member v.m_z.length).1
      ++ (ops.write_raw v.m_z ++ ((ops.int_vector_serialize v.m_sample_vals_and_pointer).1
        ++ rest)))) = (v, rest) :=
  ⟨rfl, hcnt.member_fixed _ _, hcnt.raw _, hops.member _ _ hv.size_lt,
    hops.member _ _ hv.z_length, hops.raw _ _ hv.z_words,
    hops.int_vector _ _ hv.table_length hv.table_cells, delta_load_fields ops hops v hv rest⟩

/-- C18 at a concrete input: a vector of two payload words and a sample table of four
cells, with the plain stream primitives: 8 + 8 + 8 + 40 bytes. -/
theorem serialize_layout_witness :
    StreamInverts plainStream ∧ StreamCounts plainStream ∧
    (DeltaVector.mk [5, 0, 0, 0] 3 [7, 9]).Representable ∧
    (delta_serialize plainStream (DeltaVector.mk [5, 0, 0, 0] 3 [7, 9]) []).1
      = [] ++ (plainStream.write_member 3).1 ++ (plainStream.write_member [7, 9].length).1
        ++ plainStream.write_raw [7, 9] ++ (plainStream.int_vector_serialize [5, 0, 0, 0]).1 :=
  ⟨plainStream_inverts, plainStream_counts,
    ⟨by decide, by decide, by decide, by decide, by decide⟩,
    (serialize_layout plainStream plainStream_inverts plainStream_counts
      (DeltaVector.mk [5, 0, 0, 0] 3 [7, 9])
      ⟨by decide, by decide, by decide, by decide, by decide⟩ [] []).1⟩

/-- C19: `serialize` of `bp_vector` and `optpfor_vector` returns the bytes of the size field
plus the bytes of the payload-length field plus `4*m_z.size()` plus the byte count returned by
the sample table's own `serialize`, and this is exactly the number of bytes it appended to
the stream, each primitive returning the number of bytes it wrote and the total being a
`size_type`. -/
theorem serialize_returns_written_bytes (ops : StreamOps) (hcnt : StreamCounts ops)
    (v : DeltaVector) (out : List Nat)
    (htotal : (ops.write_member v.m_size).2 + (ops.write_member v.m_z.length).2
      + 4 * v.m_z.length + (ops.int_vector_serialize v.m_sample_vals_and_pointer).2 < U64) :
    (delta_serialize ops v out).2
      = (ops.write_member v.m_size).2 + (ops.write_member v.m_z.length).2
        + 4 * v.m_z.length + (ops.int_vector_serialize v.m_sample_vals_and_pointer).2 ∧
    (delta_serialize ops v out).2 + out.length = (delta_serialize ops v out).1.length := by
  have hret : (delta_serialize ops v out).2
      = (ops.write_member v.m_size).2 + (ops.write_member v.m_z.length).2
        + 4 * v.m_z.length + (ops.int_vector_serialize v.m_sample_vals_and_pointer).2 := by
    show ((((0 + (ops.write_member v.m_size).2) % U64 + (ops.write_member v.m_z.length).2) % U64
      + v.m_z.length * 4 % U64) % U64
      + (ops.int_vector_serialize v.m_sample_vals_and_pointer).2) % U64 = _
    unfold U64 at *
    omega
  refine ⟨hret, ?_⟩
  rw [hret, delta_serialize_bytes]
  simp only [List.length_append]
  rw [hcnt.member, hcnt.member, hcnt.int_vector, hcnt.raw]
  omega

/-- C19 at a concrete input: 64 bytes are appended and 64 is returned. -/
theorem serialize_returns_written_bytes_witness :
    StreamCounts plainStream ∧
    (delta_serialize plainStream (DeltaVector.mk [5, 0, 0, 0] 3 [7, 9]) [1, 2]).2 = 64 ∧
    (delta_serialize plainStream (DeltaVector.mk [5, 0, 0, 0] 3 [7, 9]) [1, 2]).2
        + [1, 2].length
      = (delta_serialize plainStream (DeltaVector.mk [5, 0, 0, 0] 3 [7, 9]) [1, 2]).1.length :=
  ⟨plainStream_counts,
    (serialize_returns_written_bytes plainStream plainStream_counts
      (DeltaVector.mk [5, 0, 0, 0] 3 [7, 9]) [1, 2] (by decide)).1.trans (by decide),
    (serialize_returns_written_bytes plainStream plainStream_counts
      (DeltaVector.mk [5, 0, 0, 0] 3 [7, 9]) [1, 2] (by decide)).2⟩

/-! ## `swap` -/

theorem delta_swap_ne (mem : Nat → DeltaVector) (a b : Nat) (h : a ≠ b) :
    delta_swap mem a b = Function.update (Function.update mem a (mem b)) b (mem a) := by
  unfold delta_swap
  rw [if_pos h]

theorem ef_swap_ne (mem : Nat → EfVector) (a b : Nat) (h : a ≠ b) :
    ef_vector.swap mem a b = Function.update (Function.update mem a (mem b)) b (mem a) := by
  unfold ef_vector.swap
  rw [if_pos h]

/-- What `swap` does to a memory of objects of any type once it is known to store, for two
different addresses, each object at the address of the other. -/
theorem exchange_spec {α : Type} (sw : (Nat → α) → Nat → Nat → Nat → α)
    (hne : ∀ mem a b, a ≠ b →
      sw mem a b = Function.update (Function.update mem a (mem b)) b (mem a))
    (heq : ∀ mem a, sw mem a a = mem) (mem : Nat → α) (a b : Nat) :
    sw mem a b a = mem b ∧ sw mem a b b = mem a ∧
    (∀ p, p ≠ a → p ≠ b → sw mem a b p = mem p) ∧
    sw (sw mem a b) a b = mem := by
  by_cases h : a = b
  · subst h
    rw [heq]
    exact ⟨rfl, rfl, fun _ _ _ => rfl, heq mem a⟩
  · have h1 : sw mem a b a = mem b := by
      rw [hne mem a b h, Function.update_noteq h, Function.update_same]
    have h2 : sw mem a b b = mem a := by
      rw [hne mem a b h, Function.update_same]
    have h3 : ∀ p, p ≠ a → p ≠ b → sw mem a b p = mem p := by
      intro p hpa hpb
      rw [hne mem a b h, Function.update_noteq hpb, Function.update_noteq hpa]
    refine ⟨h1, h2, h3, ?_⟩
    funext p
    rw [hne (sw mem a b) a b h, h1, h2]
    by_cases hpb : p = b
    · subst hpb
      rw [Function.update_same]
    · rw [Function.update_noteq hpb]
      by_cases hpa : p = a
      · subst hpa
        rw [Function.update_same]
      · rw [Function.update_noteq hpa]
        exact h3 p hpa hpb

/-- C21: `swap` replaces the whole content. For the objects at the addresses `a` and `b` of a
memory of `bp_vector`s, of `optpfor_vector`s or of `ef_vector`s, after `a.swap(b)` the object
at `a` is the one `b` held before and the other way round, so `size()` and every `operator[]`
of `a` give what those of `b` gave before and vice versa; no other object changes, a second
`a.swap(b)` restores the memory, and `a.swap(a)` changes nothing. -/
theorem swap_exchanges (md : Nat → DeltaVector) (me : Nat → EfVector) (a b : Nat) :
    (bp_vector.swap md a b a = md b ∧ bp_vector.swap md a b b = md a ∧
      (∀ p, p ≠ a → p ≠ b → bp_vector.swap md a b p = md p) ∧
      bp_vector.swap (bp_vector.swap md a b) a b = md ∧ bp_vector.swap md a a = md ∧
      (bp_vector.swap md a b a).size = (md b).size ∧
      (bp_vector.swap md a b b).size = (md a).size ∧
      ∀ (NDEBUG : Bool) (cd : BlockCodec) (dens i : Nat),
        bp_vector.index NDEBUG cd dens (bp_vector.swap md a b a) i
          = bp_vector.index NDEBUG cd dens (md b) i ∧
        bp_vector.index NDEBUG cd dens (bp_vector.swap md a b b) i
          = bp_vector.index NDEBUG cd dens (md a) i) ∧
    (optpfor_vector.swap md a b a = md b ∧ optpfor_vector.swap md a b b = md a ∧
      (∀ p, p ≠ a → p ≠ b → optpfor_vector.swap md a b p = md p) ∧
      optpfor_vector.swap (optpfor_vector.swap md a b) a b = md ∧
      optpfor_vector.swap md a a = md ∧
      (optpfor_vector.swap md a b a).size = (md b).size ∧
      (optpfor_vector.swap md a b b).size = (md a).size ∧
      ∀ (NDEBUG : Bool) (cd : BlockCodec) (dens i : Nat),
        optpfor_vector.index NDEBUG cd dens (optpfor_vector.swap md a b a) i
          = optpfor_vector.index NDEBUG cd dens (md b) i ∧
        optpfor_vector.index NDEBUG cd dens (optpfor_vector.swap md a b b) i
          = optpfor_vector.index NDEBUG cd dens (md a) i) ∧
    (ef_vector.swap me a b a = me b ∧ ef_vector.swap me a b b = me a ∧
      (∀ p, p ≠ a → p ≠ b → ef_vector.swap me a b p = me p) ∧
      ef_vector.swap (ef_vector.swap me a b) a b = me ∧ ef_vector.swap me a a = me ∧
      ef_vector.size (ef_vector.swap me a b a) = ef_vector.size (me b) ∧
      ef_vector.size (ef_vector.swap me a b b) = ef_vector.size (me a) ∧
      ∀ (lc : ListCodecs) (B i : Nat),
        ef_vector.index lc B (ef_vector.swap me a b a) i = ef_vector.index lc B (me b) i ∧
        ef_vector.index lc B (ef_vector.swap me a b b) i = ef_vector.index lc B (me a) i) := by
  have hd := exchange_spec delta_swap delta_swap_ne
    (fun mem a => by unfold delta_swap; rw [if_neg (not_not.mpr rfl)]) md a b
  have hdd : delta_swap md a a = md := by unfold delta_swap; rw [if_neg (not_not.mpr rfl)]
  have he := exchange_spec ef_vector.swap ef_swap_ne
    (fun mem a => by unfold ef_vector.swap; rw [if_neg (not_not.mpr rfl)]) me a b
  have hee : ef_vector.swap me a a = me := by
    unfold ef_vector.swap; rw [if_neg (not_not.mpr rfl)]
  refine ⟨?_, ?_, ?_⟩
  · unfold bp_vector.swap
    rw [hd.1, hd.2.1]
    exact ⟨rfl, rfl, hd.2.2.1, hd.2.2.2, hdd, rfl, rfl, fun _ _ _ _ => ⟨rfl, rfl⟩⟩
  · unfold optpfor_vector.swap
    rw [hd.1, hd.2.1]
    exact ⟨rfl, rfl, hd.2.2.1, hd.2.2.2, hdd, rfl, rfl, fun _ _ _ _ => ⟨rfl, rfl⟩⟩
  · rw [he.1, he.2.1]
    exact ⟨rfl, rfl, he.2.2.1, he.2.2.2, hee, rfl, rfl, fun _ _ _ => ⟨rfl, rfl⟩⟩

/-! ## The sample table and the block pointers of the delta variants -/

theorem num_blocks_eq_ceil (dens n : Nat) (hdens : 0 < dens) :
    num_blocks dens n = (n + dens - 1) / dens := by
  unfold num_blocks
  have hdm := Nat.div_add_mod n dens
  have hlt := Nat.mod_lt n hdens
  generalize n / dens = q at hdm ⊢
  generalize n % dens = r at hdm hlt ⊢
  symm
  by_cases hr : r = 0
  · rw [if_neg (not_not.mpr hr), Nat.add_zero]
    apply Nat.div_eq_of_lt_le
    · rw [Nat.mul_comm]; omega
    · rw [Nat.succ_mul, Nat.mul_comm]; omega
  · rw [if_pos hr]
    apply Nat.div_eq_of_lt_le
    · rw [Nat.add_mul, Nat.mul_comm]; omega
    · rw [Nat.succ_mul, Nat.add_mul, Nat.mul_comm]; omega

/-- The sample table a constructor of the delta variants leaves, with the number of blocks
written as `ceil(n/dens)`. -/
theorem layout_table (cd : BlockCodec) (fc term : Bool) (dens : Nat) (c z0 : List Nat)
    (junk : Nat → Nat) (v : DeltaVector) (hdens : 0 < dens)
    (h : Layout cd fc term dens c z0 junk v) :
    v.m_sample_vals_and_pointer.length = 2 * ((c.length + dens - 1) / dens + 1) ∧
    (∀ b, b < (c.length + dens - 1) / dens →
      v.m_sample_vals_and_pointer[2 * b]? = some (c.getD (b * dens) 0) ∧
      v.m_sample_vals_and_pointer[2 * b + 1]? = some (block_pointer cd fc dens c z0 b)) ∧
    v.m_sample_vals_and_pointer[2 * ((c.length + dens - 1) / dens)]?
      = some (if term = true then 0 else junk (2 * ((c.length + dens - 1) / dens))) ∧
    v.m_sample_vals_and_pointer[2 * ((c.length + dens - 1) / dens) + 1]?
      = some (if term = true then 0 else junk (2 * ((c.length + dens - 1) / dens) + 1)) := by
  rw [← num_blocks_eq_ceil dens c.length hdens]
  refine ⟨?_, fun b hb => ⟨h.smp b hb, h.ptr b hb⟩, ?_, ?_⟩
  · rw [h.len]; omega
  · exact h.last _ (Nat.le_refl _) (by omega)
  · exact h.last _ (by omega) (by omega)

/-- C22: for a `bp_vector` or `optpfor_vector` built from a non-empty sequence of `n` elements
(all `<= 2^32-1`), the sample table holds exactly `2*(ceil(n/dens) + 1)` entries: for every
block `b` the pair of the sample value `c[b*dens]` and the block pointer, followed by one
more pair. The constructor from a container never writes that last pair (it holds what
`resize` left there); the constructor from an `int_vector_buffer` writes 0, 0 into it. -/
theorem sample_table_length (pad : Nat) (junk : Nat → Nat) (cd : BlockCodec) (dens : Nat)
    (c : List Nat) (hdens : 0 < dens) (hne : c ≠ []) (hc : ∀ x ∈ c, x ≤ 2 ^ 32 - 1) :
    (∃ v, bp_vector.build pad junk cd dens c = Built.ok v ∧
      v.m_sample_vals_and_pointer.length = 2 * ((c.length + dens - 1) / dens + 1) ∧
      (∀ b, b < (c.length + dens - 1) / dens →
        v.m_sample_vals_and_pointer[2 * b]? = some (c.getD (b * dens) 0) ∧
        v.m_sample_vals_and_pointer[2 * b + 1]?
          = some (block_pointer cd false dens c (List.replicate pad 0) b)) ∧
      v.m_sample_vals_and_pointer[2 * ((c.length + dens - 1) / dens)]?
        = some (junk (2 * ((c.length + dens - 1) / dens))) ∧
      v.m_sample_vals_and_pointer[2 * ((c.length + dens - 1) / dens) + 1]?
        = some (junk (2 * ((c.length + dens - 1) / dens) + 1))) ∧
    (∃ v, optpfor_vector.build junk cd dens c = Built.ok v ∧
      v.m_sample_vals_and_pointer.length = 2 * ((c.length + dens - 1) / dens + 1) ∧
      (∀ b, b < (c.length + dens - 1) / dens →
        v.m_sample_vals_and_pointer[2 * b]? = some (c.getD (b * dens) 0) ∧
        v.m_sample_vals_and_pointer[2 * b + 1]? = some (block_pointer cd true dens c [0] b)) ∧
      v.m_sample_vals_and_pointer[2 * ((c.length + dens - 1) / dens)]?
        = some (junk (2 * ((c.length + dens - 1) / dens))) ∧
      v.m_sample_vals_and_pointer[2 * ((c.length + dens - 1) / dens) + 1]?
        = some (junk (2 * ((c.length + dens - 1) / dens) + 1))) ∧
    (∀ (what : String) (z0 : List Nat) (fc : Bool),
      ∃ v, delta_build what z0 fc true junk cd dens c = Built.ok v ∧
        v.m_sample_vals_and_pointer.length = 2 * ((c.length + dens - 1) / dens + 1) ∧
        (∀ b, b < (c.length + dens - 1) / dens →
          v.m_sample_vals_and_pointer[2 * b]? = some (c.getD (b * dens) 0) ∧
          v.m_sample_vals_and_pointer[2 * b + 1]? = some (block_pointer cd fc dens c z0 b)) ∧
        v.m_sample_vals_and_pointer[2 * ((c.length + dens - 1) / dens)]? = some 0 ∧
        v.m_sample_vals_and_pointer[2 * ((c.length + dens - 1) / dens) + 1]? = some 0) := by
  have hc2 : ∀ x ∈ c, x < U32 := fun x hx => by
    have := hc x hx
    unfold U32
    omega
  refine ⟨?_, ?_, ?_⟩
  · obtain ⟨v, hv, hlay⟩ := delta_build_layout "bp_vector: only supports 32bit integers."
      (List.replicate pad 0) false false junk cd dens c hne hc2 hdens
    exact ⟨v, hv, layout_table cd false false dens c _ junk v hdens hlay⟩
  · obtain ⟨v, hv, hlay⟩ := delta_build_layout "optpfor_vector: only supports 32bit integers."
      [0] true false junk cd dens c hne hc2 hdens
    exact ⟨v, hv, layout_table cd true false dens c _ junk v hdens hlay⟩
  · intro what z0 fc
    obtain ⟨v, hv, hlay⟩ := delta_build_layout what z0 fc true junk cd dens c hne hc2 hdens
    exact ⟨v, hv, layout_table cd fc true dens c _ junk v hdens hlay⟩

/-- C22 at a concrete input: 3 elements with `dens = 2` give 2 blocks and a table of 6
entries. -/
theorem sample_table_length_witness :
    (∃ v, bp_vector.build 0 (fun _ => 0) (plainCodec 2) 2 [5, 3, 9] = Built.ok v ∧
      v.m_sample_vals_and_pointer.length = 6) ∧
    (∃ v, optpfor_vector.build (fun _ => 0) (plainCodec 2) 2 [5, 3, 9] = Built.ok v ∧
      v.m_sample_vals_and_pointer.length = 6) :=
  ⟨(sample_table_length 0 (fun _ => 0) (plainCodec 2) 2 [5, 3, 9] (by decide) (by decide)
      (by decide)).1.imp fun _ h => ⟨h.1, h.2.1⟩,
    (sample_table_length 0 (fun _ => 0) (plainCodec 2) 2 [5, 3, 9] (by decide) (by decide)
      (by decide)).2.1.imp fun _ h => ⟨h.1, h.2.1⟩⟩

theorem block_words_eq (cd : BlockCodec) (fc : Bool) (dens : Nat) (c : List Nat) (b : Nat) :
    block_words cd fc dens c b
      = if b * dens + dens ≤ c.length ∧ (fc && is_full (block_tmp dens c b)) = true then []
        else cd.encodeBlock ((fastDelta (block_vals dens c b)).set 0 0) := by
  unfold block_words block_vals
  by_cases h : b * dens + dens ≤ c.length
  · rw [if_pos h, if_pos h]
    by_cases hf : (fc && is_full (block_tmp dens c b)) = true
    · rw [if_pos hf, if_pos ⟨h, hf⟩]
    · rw [if_neg hf, if_neg (fun hh => hf hh.2)]
  · rw [if_neg h, if_neg h, if_neg (fun hh => h hh.1)]

theorem payload_upto_length (cd : BlockCodec) (fc : Bool) (dens : Nat) (c z0 : List Nat)
    (k : Nat) :
    (payload_upto cd fc dens c z0 k).length
      = z0.length + ((List.range k).map fun j => (block_words cd fc dens c j).length).sum := by
  induction k with
  | zero => simp [payload_upto]
  | succ k ih =>
    rw [payload_upto, List.length_append, ih, List.range_succ, List.map_append, List.sum_append]
    simp only [List.map_cons, List.map_nil, List.sum_cons, List.sum_nil]
    omega

theorem payload_upto_prefix (cd : BlockCodec) (fc : Bool) (dens : Nat) (c z0 : List Nat)
    (b k : Nat) (h : b ≤ k) :
    (payload_upto cd fc dens c z0 k).take (payload_upto cd fc dens c z0 b).length
      = payload_upto cd fc dens c z0 b := by
  rcases Nat.eq_or_lt_of_le h with h | h
  · rw [h, List.take_length]
  · obtain ⟨rest, hrest⟩ := payload_upto_split cd fc dens c z0 b k h
    rw [hrest, List.take_left']
    rfl

/-- C23: for every `bp_vector` built from a non-empty sequence (all values `<= 2^32-1`), the
block pointer recorded for block `k` is the value `z_size` has before block `k` is encoded:
the number of words of `m_z` in front of the block, which are the `pad` words skipped for
the alignment and the words `encodeBlock` has written for the blocks `0 .. k-1`, and which
form a prefix of the final `m_z`. The pointers of the blocks `0, 1, ..., ceil(n/dens)-1` are
non-decreasing in block order. -/
theorem bp_pointers_non_decreasing (pad : Nat) (junk : Nat → Nat) (cd : BlockCodec)
    (dens : Nat) (c : List Nat) (hdens : 0 < dens) (hne : c ≠ [])
    (hc : ∀ x ∈ c, x ≤ 2 ^ 32 - 1) :
    ∃ v, bp_vector.build pad junk cd dens c = Built.ok v ∧
      (∀ k, k < (c.length + dens - 1) / dens →
        v.m_sample_vals_and_pointer[2 * k + 1]?
          = some (payload_upto cd false dens c (List.replicate pad 0) k).length ∧
        (payload_upto cd false dens c (List.replicate pad 0) k).length
          = pad + ((List.range k).map fun j =>
              (cd.encodeBlock ((fastDelta (block_vals dens c j)).set 0 0)).length).sum ∧
        v.m_z.take (payload_upto cd false dens c (List.replicate pad 0) k).length
          = payload_upto cd false dens c (List.replicate pad 0) k) ∧
      (∀ k k2 p p2, k ≤ k2 → k2 < (c.length + dens - 1) / dens →
        v.m_sample_vals_and_pointer[2 * k + 1]? = some p →
        v.m_sample_vals_and_pointer[2 * k2 + 1]? = some p2 → p ≤ p2) := by
  have hc2 : ∀ x ∈ c, x < U32 := fun x hx => by
    have := hc x hx
    unfold U32
    omega
  obtain ⟨v, hv, hlay⟩ := delta_build_layout "bp_vector: only supports 32bit integers."
    (List.replicate pad 0) false false junk cd dens c hne hc2 hdens
  have hptr : ∀ k, block_pointer cd false dens c (List.replicate pad 0) k
      = (payload_upto cd false dens c (List.replicate pad 0) k).length := by
    intro k
    unfold block_pointer
    rw [if_neg]
    intro hh
    exact Bool.false_ne_true (by simpa using hh.2)
  have hcell : ∀ k, k < (c.length + dens - 1) / dens →
      v.m_sample_vals_and_pointer[2 * k + 1]?
        = some (payload_upto cd false dens c (List.replicate pad 0) k).length := by
    intro k hk
    rw [← num_blocks_eq_ceil dens c.length hdens] at hk
    rw [hlay.ptr k hk, hptr]
  refine ⟨v, hv, fun k hk => ⟨hcell k hk, ?_, ?_⟩, ?_⟩
  · rw [payload_upto_length, List.length_replicate]
    have hw : (fun j => (block_words cd false dens c j).length)
        = fun j => (cd.encodeBlock ((fastDelta (block_vals dens c j)).set 0 0)).length := by
      funext j
      rw [block_words_eq, if_neg]
      intro hh
      exact Bool.false_ne_true (by simpa using hh.2)
    rw [hw]
  · rw [hlay.zeq]
    rw [← num_blocks_eq_ceil dens c.length hdens] at hk
    exact payload_upto_prefix cd false dens c _ k _ (Nat.le_of_lt hk)
  · intro k k2 p p2 hkk hk2 hp hp2
    rw [hcell k (Nat.lt_of_le_of_lt hkk hk2)] at hp
    rw [hcell k2 hk2] at hp2
    injection hp with hp
    injection hp2 with hp2
    rw [← hp, ← hp2]
    exact payload_upto_length_le cd false dens c _ k k2 hkk

/-- C23 at a concrete input: the blocks `[5, 3]` and `[9, 9]` (the second one padded) get the
pointers 0 and 2. -/
theorem bp_pointers_non_decreasing_witness :
    ∃ v, bp_vector.build 0 (fun _ => 0) (plainCodec 2) 2 [5, 3, 9] = Built.ok v ∧
      v.m_sample_vals_and_pointer[1]? = some 0 ∧ v.m_sample_vals_and_pointer[3]? = some 2 :=
  (bp_pointers_non_decreasing 0 (fun _ => 0) (plainCodec 2) 2 [5, 3, 9] (by decide)
    (by decide) (by decide)).imp fun _ h =>
      ⟨h.1, (h.2.1 0 (by decide)).1.trans (by decide),
        (h.2.1 1 (by decide)).1.trans (by decide)⟩

/-- C24, as stated, fails: in `optpfor_vector<32>` built from the 64 values
`5, 3, 3, ..., 3, 7, 8, ..., 38` block 0 (`5, 3, 3, ...`) is encoded behind the reserved word
and gets the pointer 1, block 1 (`7, 8, ..., 38`) is a run and gets the marker
`BLOCK_FULL = 0`; the pointers 1, 0 are not non-decreasing. -/
theorem optpfor_pointers_decrease :
    32 % 32 = 0 ∧
    optpfor_vector.build (fun _ => 0) (plainCodec 32) 32
        ([5, 3] ++ List.replicate 30 3 ++ (List.range 32).map (· + 7))
      = Built.ok ⟨[5, 1, 7, 0, 0, 0], 64, [0, 0, 4294967294] ++ List.replicate 30 0⟩ ∧
    ¬ ∀ k k2 p p2 : Nat, k ≤ k2 →
      k2 < (([5, 3] ++ List.replicate 30 3 ++ (List.range 32).map (· + 7)).length + 32 - 1) / 32 →
      ([5, 1, 7, 0, 0, 0] : List Nat)[2 * k + 1]? = some p →
      ([5, 1, 7, 0, 0, 0] : List Nat)[2 * k2 + 1]? = some p2 → p ≤ p2 :=
  ⟨rfl, by decide,
    fun h => absurd (h 0 1 1 0 (by decide) (by decide) rfl rfl) (by decide)⟩

/-- C24, amended: in every `optpfor_vector` built from a non-empty sequence (all values
`<= 2^32-1`) the pointer of a block is either the marker `BLOCK_FULL = 0`, for a complete
block that is a run, or the number of words of `m_z` in front of the block, which is at
least 1; the pointers that are not the marker are non-decreasing in block order. -/
theorem optpfor_pointers_non_decreasing (junk : Nat → Nat) (cd : BlockCodec) (dens : Nat)
    (c : List Nat) (hdens : 0 < dens) (hne : c ≠ []) (hc : ∀ x ∈ c, x ≤ 2 ^ 32 - 1) :
    ∃ v, optpfor_vector.build junk cd dens c = Built.ok v ∧
      (∀ k, k < (c.length + dens - 1) / dens →
        ∃ p, v.m_sample_vals_and_pointer[2 * k + 1]? = some p ∧
          ((p = BLOCK_FULL ∧ k * dens + dens ≤ c.length ∧
              is_full (block_tmp dens c k) = true) ∨
           (p ≠ BLOCK_FULL ∧ p = (payload_upto cd true dens c [0] k).length ∧
              v.m_z.take p = payload_upto cd true dens c [0] k ∧
              ¬ (k * dens + dens ≤ c.length ∧ is_full (block_tmp dens c k) = true)))) ∧
      (∀ k k2 p p2, k ≤ k2 → k2 < (c.length + dens - 1) / dens →
        v.m_sample_vals_and_pointer[2 * k + 1]? = some p →
        v.m_sample_vals_and_pointer[2 * k2 + 1]? = some p2 →
        p ≠ BLOCK_FULL → p2 ≠ BLOCK_FULL → p ≤ p2) := by
  have hc2 : ∀ x ∈ c, x < U32 := fun x hx => by
    have := hc x hx
    unfold U32
    omega
  obtain ⟨v, hv, hlay⟩ := delta_build_layout "optpfor_vector: only supports 32bit integers."
    [0] true false junk cd dens c hne hc2 hdens
  have hz0 : ∀ b, 1 ≤ (payload_upto cd true dens c [0] b).length := by
    intro b
    have := payload_upto_length_le cd true dens c [0] 0 b (Nat.zero_le _)
    simpa [payload_upto] using this
  have hcases : ∀ k, k < (c.length + dens - 1) / dens →
      v.m_sample_vals_and_pointer[2 * k + 1]? = some (block_pointer cd true dens c [0] k) ∧
      ((block_pointer cd true dens c [0] k = BLOCK_FULL ∧ k * dens + dens ≤ c.length ∧
          is_full (block_tmp dens c k) = true) ∨
       (block_pointer cd true dens c [0] k ≠ BLOCK_FULL ∧
          block_pointer cd true dens c [0] k = (payload_upto cd true dens c [0] k).length ∧
          ¬ (k * dens + dens ≤ c.length ∧ is_full (block_tmp dens c k) = true))) := by
    intro k hk
    rw [← num_blocks_eq_ceil dens c.length hdens] at hk
    refine ⟨hlay.ptr k hk, ?_⟩
    unfold block_pointer
    by_cases hf : k * dens + dens ≤ c.length ∧ is_full (block_tmp dens c k) = true
    · left
      rw [if_pos ⟨hf.1, by rw [hf.2]; rfl⟩]
      exact ⟨rfl, hf⟩
    · right
      rw [if_neg (fun hh => hf ⟨hh.1, by simpa using hh.2⟩)]
      refine ⟨?_, rfl, hf⟩
      have := hz0 k
      unfold BLOCK_FULL
      omega
  refine ⟨v, hv, ?_, ?_⟩
  · intro k hk
    obtain ⟨hcell, hor⟩ := hcases k hk
    refine ⟨_, hcell, ?_⟩
    rcases hor with h | h
    · exact Or.inl h
    · refine Or.inr ⟨h.1, h.2.1, ?_, h.2.2⟩
      rw [h.2.1, hlay.zeq]
      rw [← num_blocks_eq_ceil dens c.length hdens] at hk
      exact payload_upto_prefix cd true dens c _ k _ (Nat.le_of_lt hk)
  · intro k k2 p p2 hkk hk2 hp hp2 hpf hp2f
    obtain ⟨hcell, hor⟩ := hcases k (Nat.lt_of_le_of_lt hkk hk2)
    obtain ⟨hcell2, hor2⟩ := hcases k2 hk2
    rw [hcell] at hp
    rw [hcell2] at hp2
    injection hp with hp
    injection hp2 with hp2
    rcases hor with h | h
    · exact absurd (hp ▸ h.1) hpf
    · rcases hor2 with h2 | h2
      · exact absurd (hp2 ▸ h2.1) hp2f
      · rw [← hp, ← hp2, h.2.1, h2.2.1]
        exact payload_upto_length_le cd true dens c _ k k2 hkk

/-- C24, amended, at a concrete input of `optpfor_vector<32>`: of the three blocks
`5, 3, 3, ..., 3`, `7, 8, ..., 38` and `2, 0, 0, ..., 0` the first and the last are encoded,
with the pointers 1 and 33; the block between them is a run and has the marker 0. -/
theorem optpfor_pointers_non_decreasing_witness :
    ∃ v, optpfor_vector.build (fun _ => 0) (plainCodec 32) 32
        ([5, 3] ++ List.replicate 30 3 ++ (List.range 32).map (· + 7) ++ [2, 0]
          ++ List.replicate 30 0) = Built.ok v ∧
      v.m_sample_vals_and_pointer[2 * 0 + 1]? = some 1 ∧
      v.m_sample_vals_and_pointer[2 * 1 + 1]? = some BLOCK_FULL ∧
      v.m_sample_vals_and_pointer[2 * 2 + 1]? = some 33 ∧ (1 : Nat) ≤ 33 := by
  obtain ⟨v, hv, _, hmono⟩ := optpfor_pointers_non_decreasing (fun _ => 0) (plainCodec 32) 32
    ([5, 3] ++ List.replicate 30 3 ++ (List.range 32).map (· + 7) ++ [2, 0]
      ++ List.replicate 30 0) (by decide) (by decide) (by decide)
  have h2 : optpfor_vector.build (fun _ => 0) (plainCodec 32) 32
      ([5, 3] ++ List.replicate 30 3 ++ (List.range 32).map (· + 7) ++ [2, 0]
        ++ List.replicate 30 0)
      = Built.ok ⟨[5, 1, 7, 0, 2, 33, 0, 0], 96,
          [0, 0, 4294967294] ++ List.replicate 30 0 ++ [0, 4294967294]
            ++ List.replicate 30 0⟩ := by decide
  rw [h2] at hv
  injection hv with hv
  subst hv
  exact ⟨_, h2, rfl, rfl, rfl,
    hmono 0 2 1 33 (by decide) (by decide) rfl rfl (by decide) (by decide)⟩

/-! ## The delta frame -/

/-- The frame `tmp` of block `b` after `fastDelta` and `tmp[0] = 0`. -/
theorem delta_frame_spec (dens : Nat) (c : List Nat) (hc : ∀ x ∈ c, x < U32) (b : Nat)
    (hb : b * dens < c.length) :
    ((fastDelta (block_vals dens c b)).set 0 0).length = dens ∧
    (0 < dens → ((fastDelta (block_vals dens c b)).set 0 0).getD 0 0 = 0) ∧
    (∀ j, j < dens → (block_vals dens c b).getD j 0
      = if b * dens + j < c.length then c.getD (b * dens + j) 0 else c.getD (c.length - 1) 0) ∧
    (∀ j, 0 < j → j < dens → ((fastDelta (block_vals dens c b)).set 0 0).getD j 0
      = ((block_vals dens c b).getD j 0 + 2 ^ 32 - (block_vals dens c b).getD (j - 1) 0)
          % 2 ^ 32) ∧
    (∀ j, j < dens → c.length ≤ b * dens + j →
      ((fastDelta (block_vals dens c b)).set 0 0).getD j 0 = 0) := by
  have hlen : (fastDelta (block_vals dens c b)).length = dens := by
    rw [fastDelta_length, block_vals_length]
  have hj : ∀ j, 0 < j → j < dens → ((fastDelta (block_vals dens c b)).set 0 0).getD j 0
      = ((block_vals dens c b).getD j 0 + 2 ^ 32 - (block_vals dens c b).getD (j - 1) 0)
          % 2 ^ 32 := by
    intro j hj0 hjd
    rw [getD_set, if_neg (fun hh => by omega)]
    have := fastDelta_getD (block_vals dens c b) j (by rw [block_vals_length]; exact hjd)
      (by omega)
    unfold U32 at this
    exact this
  refine ⟨?_, ?_, fun j hjd => block_vals_getD dens c hc b j hjd hb, hj, ?_⟩
  · rw [List.length_set, hlen]
  · intro hd
    rw [getD_set, if_pos ⟨rfl, by rw [hlen]; exact hd⟩]
  · intro j hjd hpad
    have hj0 : 0 < j := by omega
    rw [hj j hj0 hjd, block_vals_getD dens c hc b j hjd hb,
      block_vals_getD dens c hc b (j - 1) (by omega) hb, if_neg (by omega)]
    by_cases hprev : b * dens + (j - 1) < c.length
    · rw [if_pos hprev]
      have e : b * dens + (j - 1) = c.length - 1 := by omega
      rw [e]
      omega
    · rw [if_neg hprev]
      omega

/-- C25: the frame handed to `encodeBlock`. The payload `m_z` of a `bp_vector` or
`optpfor_vector` built from a non-empty sequence (all values `<= 2^32-1`) is made of the
words in front of the first block and, block after block, the words `encodeBlock` returns
for the frame of the block, for every block of `bp_vector` and every block of
`optpfor_vector` whose pointer is not the full marker. The frame of block `b` has `dens`
entries, entry 0 is 0 and entry `j > 0` is `(v[j] - v[j-1]) mod 2^32`, where `v[j]` is
`c[b*dens+j]` inside the input and the final input value behind it; every such padded
position carries the delta 0. -/
theorem delta_frame_handed_over (pad : Nat) (junk : Nat → Nat) (cd : BlockCodec) (dens : Nat)
    (c : List Nat) (hdens : 0 < dens) (hne : c ≠ []) (hc : ∀ x ∈ c, x ≤ 2 ^ 32 - 1) :
    (∃ v, bp_vector.build pad junk cd dens c = Built.ok v ∧
      v.m_z = payload_upto cd false dens c (List.replicate pad 0)
        ((c.length + dens - 1) / dens) ∧
      ∀ b, b * dens < c.length →
        block_words cd false dens c b
          = cd.encodeBlock ((fastDelta (block_vals dens c b)).set 0 0)) ∧
    (∃ v, optpfor_vector.build junk cd dens c = Built.ok v ∧
      v.m_z = payload_upto cd true dens c [0] ((c.length + dens - 1) / dens) ∧
      ∀ b p, b * dens < c.length → v.m_sample_vals_and_pointer[2 * b + 1]? = some p →
        p ≠ BLOCK_FULL →
        block_words cd true dens c b
          = cd.encodeBlock ((fastDelta (block_vals dens c b)).set 0 0)) ∧
    (∀ b, b * dens < c.length →
      ((fastDelta (block_vals dens c b)).set 0 0).length = dens ∧
      ((fastDelta (block_vals dens c b)).set 0 0).getD 0 0 = 0 ∧
      (∀ j, j < dens → (block_vals dens c b).getD j 0
        = if b * dens + j < c.length then c.getD (b * dens + j) 0
          else c.getD (c.length - 1) 0) ∧
      (∀ j, 0 < j → j < dens → ((fastDelta (block_vals dens c b)).set 0 0).getD j 0
        = ((block_vals dens c b).getD j 0 + 2 ^ 32 - (block_vals dens c b).getD (j - 1) 0)
            % 2 ^ 32) ∧
      (∀ j, j < dens → c.length ≤ b * dens + j →
        ((fastDelta (block_vals dens c b)).set 0 0).getD j 0 = 0)) := by
  have hc2 : ∀ x ∈ c, x < U32 := fun x hx => by
    have := hc x hx
    unfold U32
    omega
  refine ⟨?_, ?_, ?_⟩
  · obtain ⟨v, hv, hlay⟩ := delta_build_layout "bp_vector: only supports 32bit integers."
      (List.replicate pad 0) false false junk cd dens c hne hc2 hdens
    refine ⟨v, hv, ?_, ?_⟩
    · rw [hlay.zeq, num_blocks_eq_ceil dens c.length hdens]
    · intro b _
      rw [block_words_eq, if_neg]
      intro hh
      exact Bool.false_ne_true (by simpa using hh.2)
  · obtain ⟨v, hv, hlay⟩ := delta_build_layout "optpfor_vector: only supports 32bit integers."
      [0] true false junk cd dens c hne hc2 hdens
    refine ⟨v, hv, ?_, ?_⟩
    · rw [hlay.zeq, num_blocks_eq_ceil dens c.length hdens]
    · intro b p hb hp hpf
      rw [hlay.ptr b ((num_blocks_spec dens _ hdens b).mpr hb)] at hp
      injection hp with hp
      rw [block_words_eq, if_neg]
      intro hh
      apply hpf
      rw [← hp]
      unfold block_pointer
      rw [if_pos hh]
  · intro b hb
    obtain ⟨h1, h2, h3, h4, h5⟩ := delta_frame_spec dens c hc2 b hb
    exact ⟨h1, h2 hdens, h3, h4, h5⟩

/-- C25 at a concrete input: `dens = 4` and the input `5, 3, 9, 4, 7, 8`; the frame of the
short block 1, padded to `7, 8, 8, 8`, is `0, 1, 0, 0`. -/
theorem delta_frame_handed_over_witness :
    (fastDelta (block_vals 4 [5, 3, 9, 4, 7, 8] 1)).set 0 0 = [0, 1, 0, 0] ∧
    ((fastDelta (block_vals 4 [5, 3, 9, 4, 7, 8] 1)).set 0 0).length = 4 ∧
    ((fastDelta (block_vals 4 [5, 3, 9, 4, 7, 8] 1)).set 0 0).getD 2 0 = 0 :=
  ⟨by decide,
    ((delta_frame_handed_over 0 (fun _ => 0) (plainCodec 4) 4 [5, 3, 9, 4, 7, 8] (by decide)
      (by decide) (by decide)).2.2 1 (by decide)).1,
    ((delta_frame_handed_over 0 (fun _ => 0) (plainCodec 4) 4 [5, 3, 9, 4, 7, 8] (by decide)
      (by decide) (by decide)).2.2 1 (by decide)).2.2.2.2 2 (by decide) (by decide)⟩

/-! ## `rank_bwt` and `select_bwt` -/

/-- The number of positions of `[lo, hi)` that satisfy `p`, when `p` holds below `t` and
fails from `t` on. -/
theorem countP_threshold (p : Nat → Bool) (lo t hi : Nat) (h1 : lo ≤ t) (h2 : t ≤ hi)
    (hp : ∀ j, lo ≤ j → j < t → p j = true) (hn : ∀ j, t ≤ j → j < hi → p j = false) :
    List.countP p (List.range' lo (hi - lo)) = t - lo := by
  have hsplit : List.range' lo (hi - lo) = List.range' lo (t - lo) ++ List.range' t (hi - t) := by
    have := List.range'_append lo (t - lo) (hi - t) 1
    rw [Nat.one_mul, Nat.add_sub_cancel' h1] at this
    rw [this]
    congr 1
    omega
  rw [hsplit, List.countP_append]
  have ha : List.countP p (List.range' lo (t - lo)) = (List.range' lo (t - lo)).length := by
    rw [List.countP_eq_length]
    intro j hj
    rw [List.mem_range'_1] at hj
    exact hp j hj.1 (by omega)
  have hb : List.countP p (List.range' t (hi - t)) = 0 := by
    rw [List.countP_eq_zero]
    intro j hj
    rw [List.mem_range'_1] at hj
    rw [hn j hj.1 (by omega)]
    exact Bool.false_ne_true
  rw [ha, hb, List.length_range']
  rfl

/-- The binary search of `rank_bwt` ends within `upper - lower` passes with neighbouring
bounds, every value below the lower bound being smaller than `i` and every value from the
upper bound on at least `i`. -/
theorem rank_bwt_loop_spec (m_psi : List Nat) (i lo hi : Nat) (hhi : hi ≤ m_psi.length)
    (hlen : m_psi.length < 2 ^ 63)
    (hmono : ∀ j k, lo ≤ j → j < k → k < hi → m_psi.getD j 0 < m_psi.getD k 0) :
    ∀ fuel lower upper, upper - lower ≤ fuel + 1 → lo ≤ lower → lower < upper → upper ≤ hi →
      (∀ j, lo ≤ j → j < lower → m_psi.getD j 0 < i) →
      (lo < lower → m_psi.getD lower 0 < i) →
      (∀ j, upper ≤ j → j < hi → i ≤ m_psi.getD j 0) →
      ∃ l, csa_bitcompressed.rank_bwt_loop m_psi i fuel lower upper = Built.ok (l, l + 1) ∧
        lo ≤ l ∧ l < hi ∧ (∀ j, lo ≤ j → j < l → m_psi.getD j 0 < i) ∧
        (lo < l → m_psi.getD l 0 < i) ∧ (∀ j, l + 1 ≤ j → j < hi → i ≤ m_psi.getD j 0) := by
  intro fuel
  induction fuel with
  | zero =>
    intro lower upper hf h1 h2 h3 hA hB hC
    have hu : upper = lower + 1 := by omega
    subst hu
    refine ⟨lower, ?_, h1, by omega, hA, hB, hC⟩
    unfold csa_bitcompressed.rank_bwt_loop
    rw [if_neg]
    unfold U64
    omega
  | succ fuel ih =>
    intro lower upper hf h1 h2 h3 hA hB hC
    unfold csa_bitcompressed.rank_bwt_loop
    by_cases hc : (lower + 1) % U64 < upper
    · rw [if_pos hc]
      have hc2 : lower + 1 < upper := by
        unfold U64 at hc
        omega
      have hmid : (lower + upper) % U64 / 2 = (lower + upper) / 2 := by
        unfold U64
        omega
      simp only [hmid]
      have hm1 : lower < (lower + upper) / 2 := by omega
      have hm2 : (lower + upper) / 2 < upper := by omega
      rw [getElem?_eq_some_getD m_psi _ (by omega)]
      simp only []
      by_cases hx : m_psi.getD ((lower + upper) / 2) 0 ≥ i
      · rw [if_pos hx]
        apply ih lower ((lower + upper) / 2) (by omega) h1 hm1 (by omega) hA hB
        intro j hj1 hj2
        rcases Nat.eq_or_lt_of_le hj1 with e | e
        · rw [← e]; exact hx
        · exact Nat.le_trans hx (Nat.le_of_lt (hmono _ j (by omega) e hj2))
      · rw [if_neg hx]
        apply ih ((lower + upper) / 2) upper (by omega) (by omega) hm2 h3 ?_ ?_ hC
        · intro j hj1 hj2
          exact Nat.lt_trans (hmono j _ hj1 hj2 (by omega)) (by omega)
        · intro _
          omega
    · rw [if_neg hc]
      have hu : upper = lower + 1 := by
        unfold U64 at hc
        omega
      subst hu
      exact ⟨lower, rfl, h1, by omega, hA, hB, hC⟩

/-- The result of `rank_bwt` for a symbol whose interval `[lo, hi)` of `C` is not empty and
on which `m_psi` is strictly increasing. -/
theorem rank_bwt_search (csa : Csa) (i c cc lo hi : Nat)
    (hcc : csa.m_alphabet.m_char2comp[c]? = some cc) (hocc : ¬ (cc = 0 ∧ c ≠ 0))
    (hlo : csa.m_alphabet.m_C[cc]? = some lo) (hhi : csa.m_alphabet.m_C[1 + cc]? = some hi)
    (hne : lo < hi) (hsz : hi ≤ csa.m_psi.length) (hlen : csa.m_psi.length < 2 ^ 63)
    (hmono : ∀ j k, lo ≤ j → j < k → k < hi → csa.m_psi.getD j 0 < csa.m_psi.getD k 0) :
    csa_bitcompressed.rank_bwt csa i c
      = Built.ok (List.countP (fun j => decide (csa.m_psi.getD j 0 < i))
          (List.range' lo (hi - lo))) := by
  obtain ⟨l, hl, h1, h2, hA, hB, hC⟩ := rank_bwt_loop_spec csa.m_psi i lo hi hsz hlen hmono hi
    lo hi (by omega) (Nat.le_refl _) hne (Nat.le_refl _) (fun j a b => by omega)
    (fun a => by omega) (fun j a b => by omega)
  unfold csa_bitcompressed.rank_bwt
  rw [hcc]
  simp only []
  rw [if_neg hocc, hlo, hhi]
  simp only []
  rw [hl]
  simp only []
  by_cases hgt : l > lo
  · rw [if_pos hgt]
    have hcount := countP_threshold (fun j => decide (csa.m_psi.getD j 0 < i)) lo (l + 1) hi
      (by omega) (by omega)
      (fun j a b => by
        rcases Nat.eq_or_lt_of_le (Nat.le_of_lt_succ b) with e | e
        · rw [e]; exact decide_eq_true (hB hgt)
        · exact decide_eq_true (hA j a e))
      (fun j a b => decide_eq_false (by have := hC j a b; omega))
    rw [hcount]
    congr 1
    unfold U64
    omega
  · rw [if_neg hgt]
    have hl0 : l = lo := by omega
    subst hl0
    rw [getElem?_eq_some_getD csa.m_psi l (by omega)]
    simp only []
    by_cases hx : csa.m_psi.getD l 0 < i
    · rw [if_pos hx]
      have hcount := countP_threshold (fun j => decide (csa.m_psi.getD j 0 < i)) l (l + 1) hi
        (by omega) (by omega)
        (fun j a b => by
          have e : j = l := by omega
          rw [e]; exact decide_eq_true hx)
        (fun j a b => decide_eq_false (by have := hC j a b; omega))
      rw [hcount]
      congr 1
      omega
    · rw [if_neg hx]
      have hcount := countP_threshold (fun j => decide (csa.m_psi.getD j 0 < i)) l l hi
        (by omega) (by omega) (fun j a b => by omega)
        (fun j a b => by
          rcases Nat.eq_or_lt_of_le a with e | e
          · rw [← e]; exact decide_eq_false hx
          · exact decide_eq_false (by have := hC j e b; omega))
      rw [hcount]
      congr 1
      omega

/-! ## The alphabet: counting the symbols -/

theorem count_symbol_length (C : List Nat) (x : Nat) : (count_symbol C x).length = C.length := by
  unfold count_symbol
  rw [List.length_set]

theorem count_symbols_length (block C : List Nat) :
    (block.foldl count_symbol C).length = C.length := by
  induction block generalizing C with
  | nil => rfl
  | cons x t ih => rw [List.foldl_cons, ih, count_symbol_length]

/-- Counting the symbols of `block` adds to cell `b` the number of times `b` occurs. -/
theorem count_symbols_getD (block C : List Nat) (b : Nat) (hb : b < C.length)
    (hC : C.getD b 0 < U64) :
    (block.foldl count_symbol C).getD b 0 = (C.getD b 0 + block.count b) % U64 := by
  induction block generalizing C with
  | nil =>
    rw [List.foldl_nil, List.count_nil, Nat.add_zero, Nat.mod_eq_of_lt hC]
  | cons x t ih =>
    have hC1 : (count_symbol C x).getD b 0 < U64 := by
      unfold count_symbol
      rw [getD_set]
      split
      · exact Nat.mod_lt _ (by decide)
      · exact hC
    rw [List.foldl_cons, ih (count_symbol C x) (by rw [count_symbol_length]; exact hb) hC1,
      List.count_cons]
    unfold count_symbol
    rw [getD_set]
    by_cases hx : x = b
    · subst hx
      rw [if_pos ⟨rfl, hb⟩]
      simp only [beq_self_eq_true, if_true]
      unfold U64
      omega
    · rw [if_neg (fun hh => hx hh.1)]
      have : (x == b) = false := by simpa using hx
      rw [this]
      simp

theorem map_getD_range (l : List Nat) :
    (List.range l.length).map (fun k => l.getD k 0) = l := by
  apply List.ext_getElem
  · rw [List.length_map, List.length_range]
  · intro n h1 h2
    rw [List.getElem_map, List.getElem_range, List.getD_eq_getElem?_getD,
      List.getElem?_eq_getElem h2]
    rfl

/-- The inner loop over the indices `off .. off + block.length - 1` visits the elements of the
block in order. -/
theorem fold_block_indices (block : List Nat) (off : Nat) (f : List Nat → Nat → List Nat)
    (C : List Nat) :
    (List.range' off block.length).foldl (fun C i => f C (block.getD (i - off) 0)) C
      = block.foldl f C := by
  have h1 : List.range' off block.length = (List.range block.length).map (off + ·) :=
    List.range'_eq_map_range off block.length
  have h2 : block.foldl f C
      = ((List.range block.length).map (fun k => block.getD k 0)).foldl f C := by
    rw [map_getD_range]
  rw [h1, h2, List.foldl_map, List.foldl_map]
  simp only [Nat.add_sub_cancel_left]

theorem fold_bytes (l : List Nat) (h : ∀ x ∈ l, x < 256) (C : List Nat) :
    l.foldl (fun C x => count_symbol C (x % 256)) C = l.foldl count_symbol C := by
  induction l generalizing C with
  | nil => rfl
  | cons x t ih =>
    rw [List.foldl_cons, List.foldl_cons, Nat.mod_eq_of_lt (h x (List.mem_cons_self x t))]
    exact ih (fun y hy => h y (List.mem_cons_of_mem x hy)) _

/-- The counting loop over a file of bytes, entered at a block boundary `off` with the counts
of the first `off` symbols: it ends at a block boundary `off2 >= len` with the counts of the
first `off2` symbols. -/
theorem count_loop_spec (text : List Nat) (cap len : Nat) (hcap : 0 < cap)
    (hlen : len ≤ text.length) (hb : ∀ x ∈ text, x < 256) (hn : text.length < U64) :
    ∀ fuel off C, off ≤ text.length → len ≤ off + fuel → C.length = 257 →
      (∀ b, b < 257 → C.getD b 0 = (text.take off).count b) →
      ∃ off2 C2,
        count_loop text cap len fuel off off (min cap (text.length - off)) off C = some C2 ∧
        len ≤ off2 ∧ off2 ≤ text.length ∧ off ≤ off2 ∧ C2.length = 257 ∧
        ∀ b, b < 257 → C2.getD b 0 = (text.take off2).count b := by
  intro fuel
  induction fuel with
  | zero =>
    intro off C ho hf hC hcnt
    refine ⟨off, C, ?_, by omega, ho, Nat.le_refl _, hC, hcnt⟩
    unfold count_loop
    rw [if_neg (by omega)]
  | succ fuel ih =>
    intro off C ho hf hC hcnt
    unfold count_loop
    by_cases hi : off < len
    · rw [if_pos hi]
      have hr : off + min cap (text.length - off) ≤ text.length := by omega
      have hr1 : 1 ≤ min cap (text.length - off) := by omega
      have hbl : ((text.drop off).take (min cap (text.length - off))).length
          = min cap (text.length - off) := by
        rw [List.length_take, List.length_drop]
        omega
      have hbb : ∀ x ∈ (text.drop off).take (min cap (text.length - off)), x < 256 :=
        fun x hx => hb x (List.mem_of_mem_drop (List.mem_of_mem_take hx))
      have hfold : (List.range' off (off + min cap (text.length - off) - off)).foldl
          (fun C i => count_symbol C
            (((text.drop off).take (min cap (text.length - off))).getD (i - off) 0 % 256)) C
          = ((text.drop off).take (min cap (text.length - off))).foldl count_symbol C := by
        rw [Nat.add_sub_cancel_left]
        have := fold_block_indices ((text.drop off).take (min cap (text.length - off))) off
          (fun C x => count_symbol C (x % 256)) C
        rw [hbl] at this
        rw [this, fold_bytes _ hbb]
      simp only [hfold]
      rw [Nat.max_eq_right (Nat.le_add_right _ _)]
      have htake : text.take (off + min cap (text.length - off))
          = text.take off ++ (text.drop off).take (min cap (text.length - off)) :=
        List.take_add text off _
      obtain ⟨off2, C2, h1, h2, h3, h4, h5, h6⟩ := ih (off + min cap (text.length - off))
        (((text.drop off).take (min cap (text.length - off))).foldl count_symbol C) hr
        (by omega) (by rw [count_symbols_length]; exact hC)
        (fun b hb257 => by
          have hlt : (text.take off).count b
              + ((text.drop off).take (min cap (text.length - off))).count b < U64 := by
            have h7 : (text.take (off + min cap (text.length - off))).count b
                ≤ (text.take (off + min cap (text.length - off))).length := List.count_le_length _ _
            rw [htake, List.count_append] at h7
            rw [← htake, List.length_take] at h7
            omega
          rw [count_symbols_getD _ C b (by omega) (by rw [hcnt b hb257]; omega), hcnt b hb257,
            htake, List.count_append, Nat.mod_eq_of_lt hlt])
      exact ⟨off2, C2, h1, h2, h3, by omega, h5, h6⟩
    · rw [if_neg hi]
      exact ⟨off, C, rfl, by omega, ho, Nat.le_refl _, hC, hcnt⟩

/-! ## The alphabet: the tables -/

theorem occurring_succ (C0 : List Nat) (i : Nat) :
    occurring C0 (i + 1) = occurring C0 i ++ (if C0.getD i 0 ≠ 0 then [i] else []) := by
  unfold occurring
  rw [List.range_succ, List.filter_append]
  congr 1
  by_cases h : C0.getD i 0 ≠ 0
  · rw [if_pos h, List.filter_cons_of_pos (by simpa using h), List.filter_nil]
  · rw [if_neg h, List.filter_cons_of_neg (by simpa using h), List.filter_nil]

theorem occurring_length_le (C0 : List Nat) (i : Nat) : (occurring C0 i).length ≤ i := by
  unfold occurring
  have := List.length_filter_le (fun b => decide (C0.getD b 0 ≠ 0)) (List.range i)
  rw [List.length_range] at this
  exact this

theorem getD_append_last (l : List Nat) (a : Nat) : (l ++ [a]).getD l.length 0 = a := by
  rw [List.getD_append_right _ _ _ _ (Nat.le_refl _), Nat.sub_self]
  rfl

theorem compact_inv_step (C0 : List Nat) (i : Nat) (st : ByteAlphabet) (hi : i < 256)
    (h : CompactInv C0 i st) : CompactInv C0 (i + 1) (compact_step st i) := by
  have hle := occurring_length_le C0 i
  have hCi : st.m_C.getD i 0 = C0.getD i 0 := h.C_high i (Nat.le_refl _)
  unfold compact_step
  rw [hCi]
  by_cases hc : C0.getD i 0 ≠ 0
  · rw [if_pos hc]
    have hocc : occurring C0 (i + 1) = occurring C0 i ++ [i] := by
      rw [occurring_succ, if_pos hc]
    have hlen : (occurring C0 (i + 1)).length = (occurring C0 i).length + 1 := by
      rw [hocc, List.length_append]
      rfl
    have hs : st.m_sigma = (occurring C0 i).length := h.sigma
    constructor
    · show (st.m_sigma + 1) % 65536 = _
      rw [hlen, hs]
      omega
    · show (st.m_char2comp.set i (st.m_sigma % 256)).length = 256
      rw [List.length_set, h.c2c_len]
    · intro b hb
      show (st.m_char2comp.set i (st.m_sigma % 256)).getD b 0 = _
      rw [getD_set]
      by_cases hbi : i = b
      · subst hbi
        rw [if_pos ⟨rfl, by rw [h.c2c_len]; exact hi⟩, if_pos ⟨by omega, hc⟩, hs]
        omega
      · rw [if_neg (fun hh => hbi hh.1), h.c2c b hb]
        by_cases hb2 : b < i ∧ C0.getD b 0 ≠ 0
        · rw [if_pos hb2, if_pos ⟨by omega, hb2.2⟩]
        · rw [if_neg hb2, if_neg (fun hh => hb2 ⟨by omega, hh.2⟩)]
    · show (st.m_comp2char.set st.m_sigma (i % 256)).length = 256
      rw [List.length_set, h.comp_len]
    · intro k hk
      show (st.m_comp2char.set st.m_sigma (i % 256)).getD k 0 = _
      rw [getD_set, hocc]
      by_cases hks : st.m_sigma = k
      · rw [if_pos ⟨hks, by rw [h.comp_len]; omega⟩, ← hks, hs, getD_append_last]
        omega
      · rw [if_neg (fun hh => hks hh.1), List.getD_append _ _ _ _ (by omega)]
        exact h.comp k (by omega)
    · show (st.m_C.set st.m_sigma (C0.getD i 0)).length = 257
      rw [List.length_set, h.C_len]
    · intro k hk
      show (st.m_C.set st.m_sigma (C0.getD i 0)).getD k 0 = _
      rw [getD_set, hocc]
      by_cases hks : st.m_sigma = k
      · rw [if_pos ⟨hks, by rw [h.C_len]; omega⟩, ← hks, hs, getD_append_last]
      · rw [if_neg (fun hh => hks hh.1), List.getD_append _ _ _ _ (by omega)]
        exact h.C_low k (by omega)
    · intro j hj
      show (st.m_C.set st.m_sigma (C0.getD i 0)).getD j 0 = _
      rw [getD_set, if_neg (fun hh => by omega)]
      exact h.C_high j (by omega)
  · rw [if_neg hc]
    have hocc : occurring C0 (i + 1) = occurring C0 i := by
      rw [occurring_succ, if_neg hc, List.append_nil]
    constructor
    · rw [hocc]; exact h.sigma
    · exact h.c2c_len
    · intro b hb
      rw [h.c2c b hb]
      by_cases hb2 : b < i ∧ C0.getD b 0 ≠ 0
      · rw [if_pos hb2, if_pos ⟨by omega, hb2.2⟩]
      · rw [if_neg hb2, if_neg]
        intro hh
        by_cases hbi : b = i
        · rw [hbi] at hh
          exact hc hh.2
        · exact hb2 ⟨by omega, hh.2⟩
    · exact h.comp_len
    · rw [hocc]; exact h.comp
    · exact h.C_len
    · rw [hocc]; exact h.C_low
    · intro j hj
      exact h.C_high j (by omega)

theorem getD_replicate_zero (n b : Nat) : (List.replicate n 0).getD b 0 = 0 := by
  rw [List.getD_eq_getElem?_getD, List.getElem?_replicate]
  split <;> rfl

theorem compact_inv (C0 : List Nat) (hC0 : C0.length = 257) (i : Nat) (hi : i ≤ 256) :
    CompactInv C0 i ((List.range i).foldl compact_step
      { m_char2comp := List.replicate 256 0, m_comp2char := List.replicate 256 0,
        m_C := C0, m_sigma := 0 }) := by
  induction i with
  | zero =>
    constructor
    · rfl
    · exact List.length_replicate 256 0
    · intro b hb
      rw [if_neg (fun hh => by omega)]
      exact getD_replicate_zero 256 b
    · exact List.length_replicate 256 0
    · intro k hk
      exact absurd hk (Nat.not_lt_zero _)
    · exact hC0
    · intro k hk
      exact absurd hk (Nat.not_lt_zero _)
    · intro j _
      rfl
  | succ i ih =>
    rw [List.range_succ, List.foldl_append]
    exact compact_inv_step C0 i _ (by omega) (ih (by omega))

theorem shift_up_spec (i : Nat) : ∀ C : List Nat, i < C.length →
    (shift_up i C).length = C.length ∧ (shift_up i C).getD 0 0 = C.getD 0 0 ∧
    (∀ k, k < i → (shift_up i C).getD (k + 1) 0 = C.getD k 0) ∧
    (∀ j, i < j → (shift_up i C).getD j 0 = C.getD j 0) := by
  induction i with
  | zero =>
    intro C _
    exact ⟨rfl, rfl, fun k hk => absurd hk (Nat.not_lt_zero _), fun _ _ => rfl⟩
  | succ i ih =>
    intro C hC
    obtain ⟨h1, h2, h3, h4⟩ := ih (C.set (i + 1) (C.getD i 0))
      (by rw [List.length_set]; omega)
    show (shift_up i (C.set (i + 1) (C.getD i 0))).length = C.length ∧
      (shift_up i (C.set (i + 1) (C.getD i 0))).getD 0 0 = C.getD 0 0 ∧
      (∀ k, k < i + 1 → (shift_up i (C.set (i + 1) (C.getD i 0))).getD (k + 1) 0
        = C.getD k 0) ∧
      (∀ j, i + 1 < j → (shift_up i (C.set (i + 1) (C.getD i 0))).getD j 0 = C.getD j 0)
    refine ⟨?_, ?_, ?_, ?_⟩
    · rw [h1, List.length_set]
    · rw [h2, getD_set, if_neg (fun hh => by omega)]
    · intro k hk
      by_cases hki : k < i
      · rw [h3 k hki, getD_set, if_neg (fun hh => by omega)]
      · have e : k = i := by omega
        subst e
        rw [h4 (k + 1) (by omega), getD_set, if_pos ⟨rfl, hC⟩]
    · intro j hj
      rw [h4 j (by omega), getD_set, if_neg (fun hh => by omega)]

theorem prefix_sums_spec (k : Nat) : ∀ C : List Nat, k < C.length →
    (prefix_sums k C).length = C.length ∧ (prefix_sums k C).getD 0 0 = C.getD 0 0 ∧
    (∀ j, j < k → (prefix_sums k C).getD (j + 1) 0
      = (C.getD (j + 1) 0 + (prefix_sums k C).getD j 0) % U64) ∧
    (∀ j, k < j → (prefix_sums k C).getD j 0 = C.getD j 0) := by
  induction k with
  | zero =>
    intro C _
    exact ⟨rfl, rfl, fun k hk => absurd hk (Nat.not_lt_zero _), fun _ _ => rfl⟩
  | succ k ih =>
    intro C hC
    obtain ⟨h1, h2, h3, h4⟩ := ih C (by omega)
    show ((prefix_sums k C).set (k + 1)
        (((prefix_sums k C).getD (k + 1) 0 + (prefix_sums k C).getD k 0) % U64)).length
        = C.length ∧
      ((prefix_sums k C).set (k + 1)
        (((prefix_sums k C).getD (k + 1) 0 + (prefix_sums k C).getD k 0) % U64)).getD 0 0
        = C.getD 0 0 ∧
      (∀ j, j < k + 1 → ((prefix_sums k C).set (k + 1)
        (((prefix_sums k C).getD (k + 1) 0 + (prefix_sums k C).getD k 0) % U64)).getD (j + 1) 0
        = (C.getD (j + 1) 0 + ((prefix_sums k C).set (k + 1)
          (((prefix_sums k C).getD (k + 1) 0 + (prefix_sums k C).getD k 0) % U64)).getD j 0)
            % U64) ∧
      (∀ j, k + 1 < j → ((prefix_sums k C).set (k + 1)
        (((prefix_sums k C).getD (k + 1) 0 + (prefix_sums k C).getD k 0) % U64)).getD j 0
        = C.getD j 0)
    refine ⟨?_, ?_, ?_, ?_⟩
    · rw [List.length_set, h1]
    · rw [getD_set, if_neg (fun hh => by omega), h2]
    · intro j hj
      have e2 : ((prefix_sums k C).set (k + 1)
          (((prefix_sums k C).getD (k + 1) 0 + (prefix_sums k C).getD k 0) % U64)).getD j 0
          = (prefix_sums k C).getD j 0 := by
        rw [getD_set, if_neg (fun hh => by omega)]
      rw [e2, getD_set]
      by_cases hjk : j < k
      · rw [if_neg (fun hh => by omega), h3 j hjk]
      · have e : j = k := by omega
        subst e
        rw [if_pos ⟨rfl, by rw [h1]; exact hC⟩, h4 (j + 1) (by omega)]
    · intro j hj
      rw [getD_set, if_neg (fun hh => by omega), h4 j (by omega)]

theorem getD_take_lt (l : List Nat) (n k : Nat) (h : k < n) :
    (l.take n).getD k 0 = l.getD k 0 := by
  rw [List.getD_eq_getElem?_getD, List.getD_eq_getElem?_getD, List.getElem?_take_of_lt h]

theorem ext_getD (l1 l2 : List Nat) (hlen : l1.length = l2.length)
    (h : ∀ k, k < l1.length → l1.getD k 0 = l2.getD k 0) : l1 = l2 := by
  apply List.ext_getElem hlen
  intro n h1 h2
  have := h n h1
  rw [List.getD_eq_getElem?_getD, List.getD_eq_getElem?_getD, List.getElem?_eq_getElem h1,
    List.getElem?_eq_getElem h2] at this
  exact this

theorem sum_map_indicator (x m : Nat) :
    ((List.range m).map fun b => if x = b then 1 else 0).sum = if x < m then 1 else 0 := by
  induction m with
  | zero => rfl
  | succ m ih =>
    rw [List.range_succ, List.map_append, List.sum_append, ih]
    simp only [List.map_cons, List.map_nil, List.sum_cons, List.sum_nil]
    by_cases h1 : x < m
    · rw [if_pos h1, if_neg (by omega), if_pos (by omega)]
      omega
    · rw [if_neg h1]
      by_cases h2 : x = m
      · rw [if_pos h2, if_pos (by omega)]
        omega
      · rw [if_neg h2, if_neg (by omega)]
        omega

/-- The counts of all symbols below `m` add up to the length of a text over these symbols. -/
theorem sum_count_range (m : Nat) (text : List Nat) (h : ∀ x ∈ text, x < m) :
    ((List.range m).map fun b => text.count b).sum = text.length := by
  induction text with
  | nil =>
    simp
  | cons x t ih =>
    have e : (fun b => (x :: t).count b)
        = fun b => t.count b + (if x = b then 1 else 0) := by
      funext b
      rw [List.count_cons]
      by_cases hx : x = b
      · simp [hx]
      · simp [hx]
    rw [e, List.sum_map_add, ih (fun y hy => h y (List.mem_cons_of_mem x hy)),
      sum_map_indicator, if_pos (h x (List.mem_cons_self x t))]
    rfl

theorem sum_map_filter_ne_zero (f : Nat → Nat) (l : List Nat) :
    ((l.filter fun b => decide (f b ≠ 0)).map f).sum = (l.map f).sum := by
  induction l with
  | nil => rfl
  | cons a t ih =>
    by_cases h : f a ≠ 0
    · rw [List.filter_cons_of_pos (by simpa using h), List.map_cons, List.sum_cons, ih,
        List.map_cons, List.sum_cons]
    · rw [List.filter_cons_of_neg (by simpa using h), ih, List.map_cons, List.sum_cons]
      have : f a = 0 := by omega
      omega

theorem sum_range_mono (f : Nat → Nat) (k s : Nat) (h : k ≤ s) :
    ((List.range k).map f).sum ≤ ((List.range s).map f).sum := by
  induction s with
  | zero =>
    have : k = 0 := by omega
    rw [this]
  | succ s ih =>
    rcases Nat.eq_or_lt_of_le h with e | e
    · rw [e]
    · have := ih (by omega)
      rw [List.range_succ, List.map_append, List.sum_append]
      omega

/-- The table `C` after `resize`, the shift by one cell, `m_C[0] = 0` and the prefix sums,
for a table that holds the counts `f 0, ..., f (s-1)` in its first `s` cells. -/
theorem final_C_spec (mC : List Nat) (s : Nat) (f : Nat → Nat) (hlen : s < mC.length)
    (hlow : ∀ k, k < s → mC.getD k 0 = f k) (hsum : ((List.range s).map f).sum < U64) :
    (prefix_sums s ((shift_up s (mC.take (s + 1))).set 0 0)).length = s + 1 ∧
    ∀ k, k ≤ s → (prefix_sums s ((shift_up s (mC.take (s + 1))).set 0 0)).getD k 0
      = ((List.range k).map f).sum := by
  have h1 : (mC.take (s + 1)).length = s + 1 := by
    rw [List.length_take]
    omega
  obtain ⟨s1, _, s3, _⟩ := shift_up_spec s (mC.take (s + 1)) (by omega)
  have h3 : ((shift_up s (mC.take (s + 1))).set 0 0).length = s + 1 := by
    rw [List.length_set, s1, h1]
  obtain ⟨p1, p2, p3, _⟩ := prefix_sums_spec s ((shift_up s (mC.take (s + 1))).set 0 0)
    (by omega)
  refine ⟨by rw [p1, h3], ?_⟩
  intro k
  induction k with
  | zero =>
    intro _
    rw [p2, getD_set, if_pos ⟨rfl, by rw [s1, h1]; omega⟩]
    rfl
  | succ k ih =>
    intro hk
    have hmono := sum_range_mono f (k + 1) s hk
    rw [p3 k (by omega), ih (by omega), getD_set, if_neg (fun hh => by omega), s3 k (by omega),
      getD_take_lt mC (s + 1) k (by omega), hlow k (by omega)]
    rw [List.range_succ, List.map_append, List.sum_append] at hmono ⊢
    simp only [List.map_cons, List.map_nil, List.sum_cons, List.sum_nil] at hmono ⊢
    rw [Nat.mod_eq_of_lt (by omega)]
    omega

theorem occurring_eq_text_symbols (C0 text : List Nat)
    (hcnt : ∀ b, b < 257 → C0.getD b 0 = text.count b) :
    occurring C0 256 = text_symbols text ∧
    occurring C0 256 = (List.range 256).filter fun b => decide (text.count b ≠ 0) := by
  unfold occurring text_symbols
  constructor
  · apply List.filter_congr
    intro b hb
    rw [List.mem_range] at hb
    rw [hcnt b (by omega)]
    by_cases hm : b ∈ text
    · have : text.count b ≠ 0 := fun h => (List.count_eq_zero.mp h) hm
      simp [hm, this]
    · have : text.count b = 0 := List.count_eq_zero.mpr hm
      simp [hm, this]
  · apply List.filter_congr
    intro b hb
    rw [List.mem_range] at hb
    rw [hcnt b (by omega)]

theorem text_symbols_lt (text : List Nat) (k : Nat) (hk : k < (text_symbols text).length) :
    (text_symbols text).getD k 0 < 256 := by
  have hmem : (text_symbols text).getD k 0 ∈ text_symbols text := by
    rw [List.getD_eq_getElem?_getD, List.getElem?_eq_getElem hk]
    exact List.getElem_mem _
  unfold text_symbols at hmem
  rw [List.mem_filter, List.mem_range] at hmem
  exact hmem.1

/-- The counts of the occurring bytes add up to the length of the text. -/
theorem sum_count_symbols (text : List Nat) (hb : ∀ x ∈ text, x < 256)
    (hocc : text_symbols text = (List.range 256).filter fun b => decide (text.count b ≠ 0)) :
    ((List.range (text_symbols text).length).map
      fun j => text.count ((text_symbols text).getD j 0)).sum = text.length := by
  have h1 : ((List.range (text_symbols text).length).map
      fun j => text.count ((text_symbols text).getD j 0))
      = (text_symbols text).map fun b => text.count b := by
    have := map_getD_range (text_symbols text)
    conv_rhs => rw [← this]
    rw [List.map_map]
    rfl
  rw [h1, hocc, sum_map_filter_ne_zero (fun b => text.count b), sum_count_range 256 text hb]

theorem occurring_eq_filter (C0 text : List Nat)
    (hcnt : ∀ b, b < 257 → C0.getD b 0 = text.count b) (i : Nat) (hi : i ≤ 257) :
    occurring C0 i = (List.range i).filter fun b => decide (b ∈ text) := by
  unfold occurring
  apply List.filter_congr
  intro b hb
  rw [List.mem_range] at hb
  rw [hcnt b (by omega)]
  by_cases hm : b ∈ text
  · have : text.count b ≠ 0 := fun h => (List.count_eq_zero.mp h) hm
    simp [hm, this]
  · have : text.count b = 0 := List.count_eq_zero.mpr hm
    simp [hm, this]

/-- The tables `byte_alphabet_strategy(text_buf, len)` builds when `len` is the length of the
text: `sigma` is the number of occurring bytes, `comp2char` lists them in increasing order,
`char2comp[b]` is the number of occurring bytes below an occurring byte `b` and 0 for every
other byte, and `C[k]` is the number of symbols of the text that are one of the `k` smallest
occurring bytes. -/
theorem alphabet_build_spec (NDEBUG : Bool) (text : List Nat) (cap : Nat) (hcap : 0 < cap)
    (hne : text ≠ []) (hb : ∀ x ∈ text, x < 256) (hn : text.length < U64)
    (h0 : NDEBUG = true ∨ text.count 0 = 1) :
    ∃ al, byte_alphabet_strategy.build NDEBUG text cap text.length = Asserted.ok al ∧
      al.m_sigma = (text_symbols text).length ∧
      al.m_comp2char = text_symbols text ∧
      al.m_char2comp.length = 256 ∧
      (∀ b, b < 256 → al.m_char2comp.getD b 0
        = if b ∈ text then ((List.range b).filter fun a => decide (a ∈ text)).length else 0) ∧
      al.m_C.length = (text_symbols text).length + 1 ∧
      ∀ k, k ≤ (text_symbols text).length → al.m_C.getD k 0
        = ((List.range k).map fun j => text.count ((text_symbols text).getD j 0)).sum := by
  have hpos : 0 < text.length := List.length_pos.mpr hne
  obtain ⟨off2, C0, hloop, hl1, hl2, _, hC0len, hC0⟩ := count_loop_spec text cap text.length
    hcap (Nat.le_refl _) hb hn text.length 0 (List.replicate 257 0) (Nat.zero_le _) (by omega)
    (List.length_replicate _ _) (fun b _ => by rw [getD_replicate_zero]; rfl)
  have hoff : off2 = text.length := by omega
  rw [hoff, List.take_length] at hC0
  rw [Nat.sub_zero] at hloop
  have hinv := compact_inv C0 hC0len 256 (Nat.le_refl _)
  obtain ⟨hocc1, hocc2⟩ := occurring_eq_text_symbols C0 text hC0
  have hsle := occurring_length_le C0 256
  rw [hocc1] at hsle
  unfold byte_alphabet_strategy.build
  rw [if_neg (fun h => by rcases h with h | h <;> omega), if_neg (by simp), hloop]
  dsimp only
  rw [if_neg (by
    rcases h0 with h0 | h0
    · rw [h0]; simp
    · rw [hC0 0 (by omega), h0]; simp)]
  generalize (List.range 256).foldl compact_step
    { m_char2comp := List.replicate 256 0, m_comp2char := List.replicate 256 0,
      m_C := C0, m_sigma := 0 } = st at hinv ⊢
  have hs : st.m_sigma = (text_symbols text).length := by rw [hinv.sigma, hocc1]
  have hlow : ∀ k, k < st.m_sigma →
      st.m_C.getD k 0 = text.count ((text_symbols text).getD k 0) := by
    intro k hk
    rw [hinv.C_low k (by rw [← hinv.sigma]; exact hk), hocc1]
    exact hC0 _ (Nat.lt_trans (text_symbols_lt text k (by omega)) (by omega))
  have htot := sum_count_symbols text hb (hocc1.symm.trans hocc2)
  obtain ⟨hf1, hf2⟩ := final_C_spec st.m_C st.m_sigma
    (fun j => text.count ((text_symbols text).getD j 0)) (by rw [hinv.C_len]; omega) hlow
    (by rw [hs, htot]; exact hn)
  rw [if_neg (by rw [hf2 st.m_sigma (Nat.le_refl _), hs, htot]; simp)]
  refine ⟨_, rfl, hs, ?_, hinv.c2c_len, ?_, by rw [← hs]; exact hf1, ?_⟩
  · show st.m_comp2char.take st.m_sigma = text_symbols text
    apply ext_getD
    · rw [List.length_take, hinv.comp_len]
      omega
    · intro k hk
      rw [List.length_take, hinv.comp_len] at hk
      rw [getD_take_lt _ _ _ (by omega), hinv.comp k (by rw [← hinv.sigma]; omega), hocc1]
  · intro b hb256
    show st.m_char2comp.getD b 0 = _
    rw [hinv.c2c b hb256, hC0 b (by omega), occurring_eq_filter C0 text hC0 b (by omega)]
    by_cases hm : b ∈ text
    · rw [if_pos hm, if_pos ⟨hb256, fun h => (List.count_eq_zero.mp h) hm⟩]
    · rw [if_neg hm, if_neg (fun hh => hh.2 (List.count_eq_zero.mpr hm))]
  · intro k hk
    rw [← hs] at hk
    exact hf2 k hk

/-- The place of an occurring byte `c` in the list of the occurring bytes: it stands behind
the occurring bytes smaller than `c`. -/
theorem text_symbols_rank (text : List Nat) (c : Nat) (hc : c < 256) (hm : c ∈ text) :
    ((List.range c).filter fun a => decide (a ∈ text)).length < (text_symbols text).length ∧
    (text_symbols text).getD ((List.range c).filter fun a => decide (a ∈ text)).length 0 = c := by
  have hsplit : List.range 256 = List.range c ++ c :: List.range' (c + 1) (255 - c) := by
    have h1 := List.range'_append 0 c (256 - c) 1
    rw [Nat.one_mul, Nat.zero_add] at h1
    have e : 256 - c + c = 256 := by omega
    rw [e] at h1
    have e2 : 256 - c = (255 - c) + 1 := by omega
    rw [e2, List.range'_succ] at h1
    rw [List.range_eq_range', List.range_eq_range', ← h1]
  have hts : text_symbols text
      = ((List.range c).filter fun a => decide (a ∈ text))
        ++ c :: ((List.range' (c + 1) (255 - c)).filter fun a => decide (a ∈ text)) := by
    unfold text_symbols
    rw [hsplit, List.filter_append, List.filter_cons_of_pos (by simpa using hm)]
  constructor
  · rw [hts, List.length_append, List.length_cons]
    omega
  · rw [hts, List.getD_append_right _ _ _ _ (Nat.le_refl _), Nat.sub_self]
    rfl

theorem symbols_below_pos (text : List Nat) (c : Nat) (hc : c ≠ 0) (h0 : 0 ∈ text) :
    ((List.range c).filter fun a => decide (a ∈ text)).length ≠ 0 := by
  have hmem : 0 ∈ (List.range c).filter fun a => decide (a ∈ text) := by
    rw [List.mem_filter, List.mem_range]
    exact ⟨by omega, by simpa using h0⟩
  have := List.length_pos_of_mem hmem
  omega

theorem mem_of_count_eq_one (text : List Nat) (a : Nat) (h : text.count a = 1) : a ∈ text := by
  by_contra hn
  rw [List.count_eq_zero.mpr hn] at h
  omega

theorem text_symbols_eq_count (text : List Nat) :
    text_symbols text = (List.range 256).filter fun b => decide (text.count b ≠ 0) := by
  unfold text_symbols
  apply List.filter_congr
  intro b _
  by_cases hm : b ∈ text
  · have : text.count b ≠ 0 := fun h => (List.count_eq_zero.mp h) hm
    simp [hm, this]
  · have : text.count b = 0 := List.count_eq_zero.mpr hm
    simp [hm, this]

/-- The cells of the alphabet that `rank_bwt` and `select_bwt` read for a byte `c`: for a byte
that does not occur `char2comp[c]` is 0; for a byte that occurs the test `cc==0 and c!=0`
fails and the interval `[C[cc], C[cc+1])` has as many positions as `c` has occurrences. -/
theorem alphabet_cells (NDEBUG : Bool) (text : List Nat) (cap : Nat) (al : ByteAlphabet)
    (hcap : 0 < cap) (hb : ∀ x ∈ text, x < 256) (hn : text.length < U64)
    (h0 : text.count 0 = 1)
    (hal : byte_alphabet_strategy.build NDEBUG text cap text.length = Asserted.ok al)
    (c : Nat) (hc : c < 256) :
    (c ∉ text → al.m_char2comp[c]? = some 0 ∧ c ≠ 0) ∧
    (c ∈ text → ∃ cc lo hi, al.m_char2comp[c]? = some cc ∧ ¬ (cc = 0 ∧ c ≠ 0) ∧
      al.m_C[cc]? = some lo ∧ al.m_C[1 + cc]? = some hi ∧ hi = lo + text.count c ∧ lo < hi ∧
      hi ≤ text.length) := by
  have h0m := mem_of_count_eq_one text 0 h0
  have hne : text ≠ [] := List.ne_nil_of_mem h0m
  obtain ⟨al2, hal2, hs, hcomp, hc2l, hc2, hCl, hC⟩ :=
    alphabet_build_spec NDEBUG text cap hcap hne hb hn (Or.inr h0)
  rw [hal] at hal2
  injection hal2 with hal2
  subst hal2
  constructor
  · intro hm
    refine ⟨?_, fun h => hm (h ▸ h0m)⟩
    rw [getElem?_eq_some_getD _ _ (by rw [hc2l]; exact hc), hc2 c hc, if_neg hm]
  · intro hm
    obtain ⟨hr1, hr2⟩ := text_symbols_rank text c hc hm
    have hcell := hc2 c hc
    rw [if_pos hm] at hcell
    have hlo := hC ((List.range c).filter fun a => decide (a ∈ text)).length (by omega)
    have hhi0 := hC (((List.range c).filter fun a => decide (a ∈ text)).length + 1) (by omega)
    have hhi := hhi0
    rw [List.range_succ, List.map_append, List.sum_append] at hhi
    simp only [List.map_cons, List.map_nil, List.sum_cons, List.sum_nil] at hhi
    rw [hr2, ← hlo, Nat.add_zero] at hhi
    have hcnt : 0 < text.count c := List.count_pos_iff.mpr hm
    have hmono := sum_range_mono (fun j => text.count ((text_symbols text).getD j 0))
      (((List.range c).filter fun a => decide (a ∈ text)).length + 1)
      (text_symbols text).length (by omega)
    have hsum := sum_count_symbols text hb (text_symbols_eq_count text)
    refine ⟨((List.range c).filter fun a => decide (a ∈ text)).length,
      al.m_C.getD ((List.range c).filter fun a => decide (a ∈ text)).length 0,
      al.m_C.getD (((List.range c).filter fun a => decide (a ∈ text)).length + 1) 0,
      ?_, ?_, ?_, ?_, hhi, by omega, ?_⟩
    · rw [getElem?_eq_some_getD _ _ (by rw [hc2l]; exact hc), hcell]
    · intro hh
      exact symbols_below_pos text c hh.2 h0m hh.1
    · exact getElem?_eq_some_getD _ _ (by rw [hCl]; omega)
    · rw [Nat.add_comm 1]
      exact getElem?_eq_some_getD _ _ (by rw [hCl]; omega)
    · rw [hhi0]
      omega

/-- Counting the positions `j` of `[lo, hi)` with `psi j < i` is counting the positions
`k < i` that are a value of `psi` on `[lo, hi)`, `psi` being strictly increasing there. -/
theorem count_positions_eq (psi : Nat → Nat) (p : Nat → Bool) (lo hi i : Nat)
    (hmono : ∀ j k, lo ≤ j → j < k → k < hi → psi j < psi k)
    (hbwt : ∀ k, k < i → (p k = true ↔ ∃ j, lo ≤ j ∧ j < hi ∧ psi j = k)) :
    List.countP (fun j => decide (psi j < i)) (List.range' lo (hi - lo))
      = List.countP p (List.range i) := by
  rw [List.countP_eq_length_filter, List.countP_eq_length_filter]
  have n1 : ((List.range' lo (hi - lo)).filter fun j => decide (psi j < i)).Nodup :=
    (List.nodup_range' lo (hi - lo)).filter _
  have n2 : ((List.range i).filter p).Nodup := (List.nodup_range i).filter _
  rw [← List.toFinset_card_of_nodup n1, ← List.toFinset_card_of_nodup n2]
  have hinj : Set.InjOn psi
      (((List.range' lo (hi - lo)).filter fun j => decide (psi j < i)).toFinset : Set Nat) := by
    intro a ha b hb hab
    simp only [List.coe_toFinset, Set.mem_setOf_eq, List.mem_filter, List.mem_range'_1] at ha hb
    rcases Nat.lt_trichotomy a b with h | h | h
    · have := hmono a b ha.1.1 h (by omega)
      omega
    · exact h
    · have := hmono b a hb.1.1 h (by omega)
      omega
  rw [← Finset.card_image_of_injOn hinj]
  congr 1
  ext k
  simp only [Finset.mem_image, List.mem_toFinset, List.mem_filter, List.mem_range'_1,
    List.mem_range, decide_eq_true_eq]
  constructor
  · rintro ⟨j, ⟨⟨h1, h2⟩, h3⟩, rfl⟩
    exact ⟨h3, (hbwt _ h3).mpr ⟨j, h1, by omega, rfl⟩⟩
  · rintro ⟨h1, h2⟩
    obtain ⟨j, h3, h4, h5⟩ := (hbwt k h1).mp h2
    exact ⟨j, ⟨⟨h3, by omega⟩, by omega⟩, h5⟩

/-- C26: `rank_bwt(i, c)` on an index whose alphabet is the one `byte_alphabet_strategy`
builds from a text of bytes with one null byte. If `c` does not occur in the text the
result is 0. If `c` occurs, `cc = char2comp[c]` passes the test of the code and
`[C[cc], C[cc+1])` is an interval of as many positions as `c` has occurrences; and whenever
the interval of `cc` is not empty and `m_psi` is strictly increasing on it, the binary
search ends within the passes granted and the result is the number of positions `j` of the
interval with `psi[j] < i`; for a sequence `bwt` in which the positions of `c` are the values
of `psi` on the interval, that is the number of occurrences of `c` in `bwt[0..i-1]`. -/
theorem rank_bwt_counts (NDEBUG : Bool) (text : List Nat) (cap : Nat) (csa : Csa) (i c : Nat)
    (hcap : 0 < cap) (hb : ∀ x ∈ text, x < 256) (hn : text.length < 2 ^ 63)
    (h0 : text.count 0 = 1)
    (hal : byte_alphabet_strategy.build NDEBUG text cap text.length
      = Asserted.ok csa.m_alphabet)
    (hc : c < 256) :
    (c ∉ text → csa_bitcompressed.rank_bwt csa i c = Built.ok 0) ∧
    (c ∈ text → ∃ cc lo hi, csa.m_alphabet.m_char2comp[c]? = some cc ∧
      csa.m_alphabet.m_C[cc]? = some lo ∧ csa.m_alphabet.m_C[1 + cc]? = some hi ∧
      hi = lo + text.count c ∧ lo < hi ∧
      (csa.m_psi.length = text.length →
        (∀ j k, lo ≤ j → j < k → k < hi → csa.m_psi.getD j 0 < csa.m_psi.getD k 0) →
        csa_bitcompressed.rank_bwt csa i c
          = Built.ok (List.countP (fun j => decide (csa.m_psi.getD j 0 < i))
              (List.range' lo (hi - lo))))) ∧
    (∀ cc lo hi, csa.m_alphabet.m_char2comp[c]? = some cc → ¬ (cc = 0 ∧ c ≠ 0) →
      csa.m_alphabet.m_C[cc]? = some lo → csa.m_alphabet.m_C[1 + cc]? = some hi →
      lo < hi → hi ≤ csa.m_psi.length → csa.m_psi.length < 2 ^ 63 →
      (∀ j k, lo ≤ j → j < k → k < hi → csa.m_psi.getD j 0 < csa.m_psi.getD k 0) →
      csa_bitcompressed.rank_bwt csa i c
        = Built.ok (List.countP (fun j => decide (csa.m_psi.getD j 0 < i))
            (List.range' lo (hi - lo)))) ∧
    (∀ (bwt : List Nat) (lo hi : Nat),
      (∀ j k, lo ≤ j → j < k → k < hi → csa.m_psi.getD j 0 < csa.m_psi.getD k 0) →
      (∀ k, k < i →
        (bwt.getD k 0 = c ↔ ∃ j, lo ≤ j ∧ j < hi ∧ csa.m_psi.getD j 0 = k)) →
      List.countP (fun j => decide (csa.m_psi.getD j 0 < i)) (List.range' lo (hi - lo))
        = List.countP (fun k => decide (bwt.getD k 0 = c)) (List.range i)) := by
  have hn64 : text.length < U64 := by
    unfold U64
    omega
  obtain ⟨hout, hin⟩ := alphabet_cells NDEBUG text cap csa.m_alphabet hcap hb hn64 h0 hal c hc
  refine ⟨?_, ?_, ?_, ?_⟩
  rotate_left 3
  · intro bwt lo hi hmono hbwt
    exact count_positions_eq (fun j => csa.m_psi.getD j 0)
      (fun k => decide (bwt.getD k 0 = c)) lo hi i hmono
      (fun k hk => by rw [decide_eq_true_eq]; exact hbwt k hk)
  · intro hm
    obtain ⟨h1, h2⟩ := hout hm
    unfold csa_bitcompressed.rank_bwt
    rw [h1]
    dsimp only
    rw [if_pos ⟨rfl, h2⟩]
  · intro hm
    obtain ⟨cc, lo, hi, h1, h2, h3, h4, h5, h6, h7⟩ := hin hm
    refine ⟨cc, lo, hi, h1, h3, h4, h5, h6, ?_⟩
    intro hpsi hmono
    exact rank_bwt_search csa i c cc lo hi h1 h2 h3 h4 h6 (by omega) (by omega) hmono
  · intro cc lo hi h1 h2 h3 h4 h5 h6 h7 hmono
    exact rank_bwt_search csa i c cc lo hi h1 h2 h3 h4 h5 h6 h7 hmono

set_option maxRecDepth 20000 in
/-- C26 at a concrete input, the index of the text `2, 1, 2, 0` (BWT `2, 2, 1, 0`): the byte
7 does not occur, and two of the first three symbols of the BWT are the byte 2. -/
theorem rank_bwt_counts_witness :
    csa_bitcompressed.rank_bwt csa_2120 3 7 = Built.ok 0 ∧
    csa_bitcompressed.rank_bwt csa_2120 3 2 = Built.ok 2 :=
  ⟨(rank_bwt_counts false [2, 1, 2, 0] 2 csa_2120 3 7 (by decide) (by decide) (by decide)
      (by decide) (by decide!) (by decide)).1 (by decide),
    ((rank_bwt_counts false [2, 1, 2, 0] 2 csa_2120 3 2 (by decide) (by decide) (by decide)
      (by decide) (by decide!) (by decide)).2.2.1 2 2 4 rfl (by decide) rfl rfl (by decide)
      (by decide) (by decide)
      (fun j k h1 h2 h3 => by
        have hj : j = 2 := by omega
        have hk : k = 3 := by omega
        subst hj
        subst hk
        decide)).trans (by decide)⟩

/-- The result of `select_bwt(i, c)` while `C[cc]+i-1` does not wrap around: `size()` for a
byte that fails the test of occurrence and for `i` beyond the interval of `cc`, and
`psi[C[cc]+i-1]` for `1 <= i <= C[cc+1] - C[cc]`. -/
theorem select_bwt_in_range (csa : Csa) (i c cc lo hi : Nat)
    (hcc : csa.m_alphabet.m_char2comp[c]? = some cc)
    (hlo : csa.m_alphabet.m_C[cc]? = some lo) (hhi : csa.m_alphabet.m_C[1 + cc]? = some hi)
    (hle : lo ≤ hi) (hsz : hi ≤ csa.m_psi.length) (h64 : hi < U64) :
    ((cc = 0 ∧ c ≠ 0) → csa_bitcompressed.select_bwt csa i c
      = Built.ok (csa_bitcompressed.size csa)) ∧
    (¬ (cc = 0 ∧ c ≠ 0) → 1 ≤ i → i ≤ hi - lo →
      csa_bitcompressed.select_bwt csa i c = Built.ok (csa.m_psi.getD (lo + i - 1) 0)) ∧
    (¬ (cc = 0 ∧ c ≠ 0) → hi - lo < i → lo + i ≤ U64 →
      csa_bitcompressed.select_bwt csa i c = Built.ok (csa_bitcompressed.size csa)) := by
  refine ⟨?_, ?_, ?_⟩
  · intro h
    unfold csa_bitcompressed.select_bwt
    rw [hcc]
    dsimp only
    rw [if_pos h]
  · intro h h1 h2
    have e : ((lo + i) % U64 + U64 - 1) % U64 = lo + i - 1 := by
      unfold U64 at *
      omega
    unfold csa_bitcompressed.select_bwt
    rw [hcc]
    dsimp only
    rw [if_neg h, hlo, hhi]
    dsimp only
    rw [e, if_pos (by omega), getElem?_eq_some_getD _ _ (by omega)]
  · intro h h1 h2
    have e : ¬ ((lo + i) % U64 + U64 - 1) % U64 < hi := by
      unfold U64 at *
      omega
    unfold csa_bitcompressed.select_bwt
    rw [hcc]
    dsimp only
    rw [if_neg h, hlo, hhi]
    dsimp only
    rw [if_neg e]

set_option maxRecDepth 20000 in
/-- C27 fails on the code: in the index of the text `2, 1, 2, 0` the byte 2 has the interval
`[C[2], C[3]) = [2, 4)`, two occurrences; for `i = 2^64 - 1`, which exceeds 2, the sum
`C[cc]+i-1` wraps around to 0 and `select_bwt` returns `psi[0] = 3` where `size()` is 4. -/
theorem select_bwt_wraps :
    byte_alphabet_strategy.build false [2, 1, 2, 0] 1000000 [2, 1, 2, 0].length
      = Asserted.ok csa_2120.m_alphabet ∧
    csa_2120.m_alphabet.m_char2comp[2]? = some 2 ∧
    csa_2120.m_alphabet.m_C[2]? = some 2 ∧ csa_2120.m_alphabet.m_C[1 + 2]? = some 4 ∧
    4 - 2 < 2 ^ 64 - 1 ∧
    csa_bitcompressed.select_bwt csa_2120 (2 ^ 64 - 1) 2 = Built.ok 3 ∧
    csa_bitcompressed.size csa_2120 = 4 :=
  ⟨by decide!, rfl, rfl, rfl, by decide, by decide!, rfl⟩

theorem text_symbols_card (text : List Nat) (hb : ∀ x ∈ text, x < 256) :
    text.toFinset.card = (text_symbols text).length := by
  have hnd : (text_symbols text).Nodup := (List.nodup_range 256).filter _
  rw [← List.toFinset_card_of_nodup hnd]
  congr 1
  ext b
  unfold text_symbols
  simp only [List.mem_toFinset, List.mem_filter, List.mem_range, decide_eq_true_eq]
  exact ⟨fun h => ⟨hb b h, h⟩, fun h => h.2⟩

/-- C28: `byte_alphabet_strategy` built from a text of bytes in which the byte 0 occurs
exactly once, with `len` the length of the text (and a buffer that loads blocks of
`cap > 0` elements): no assertion fails, `sigma` is the number of distinct bytes of the
text, `comp2char` lists the occurring bytes in increasing order, `C` has `sigma+1` entries
with `C[0] = 0`, `C[k+1] = C[k] +` the number of occurrences of the `k`-th smallest
occurring byte for every `k < sigma`, and `C[sigma] == len`. -/
theorem alphabet_tables (NDEBUG : Bool) (text : List Nat) (cap : Nat) (hcap : 0 < cap)
    (hb : ∀ x ∈ text, x < 256) (hn : text.length < 2 ^ 64) (h0 : text.count 0 = 1) :
    ∃ al, byte_alphabet_strategy.build NDEBUG text cap text.length = Asserted.ok al ∧
      al.m_sigma = text.toFinset.card ∧
      al.m_comp2char.length = al.m_sigma ∧
      List.Pairwise (fun a b => a < b) al.m_comp2char ∧
      (∀ b, b ∈ al.m_comp2char ↔ b ∈ text) ∧
      al.m_C.length = al.m_sigma + 1 ∧
      al.m_C.getD 0 0 = 0 ∧
      (∀ k, k < al.m_sigma →
        al.m_C.getD (k + 1) 0 = al.m_C.getD k 0 + text.count (al.m_comp2char.getD k 0)) ∧
      al.m_C.getD al.m_sigma 0 = text.length := by
  have h0m := mem_of_count_eq_one text 0 h0
  have hne : text ≠ [] := List.ne_nil_of_mem h0m
  obtain ⟨al, hal, hs, hcomp, _, _, hCl, hC⟩ :=
    alphabet_build_spec NDEBUG text cap hcap hne hb hn (Or.inr h0)
  refine ⟨al, hal, ?_, ?_, ?_, ?_, ?_, ?_, ?_, ?_⟩
  · rw [hs, text_symbols_card text hb]
  · rw [hcomp, hs]
  · rw [hcomp]
    exact (List.pairwise_lt_range 256).filter _
  · intro b
    rw [hcomp]
    unfold text_symbols
    simp only [List.mem_filter, List.mem_range, decide_eq_true_eq]
    exact ⟨fun h => h.2, fun h => ⟨hb b h, h⟩⟩
  · rw [hCl, hs]
  · rw [hC 0 (Nat.zero_le _)]
    rfl
  · intro k hk
    rw [hC (k + 1) (by omega), hC k (by omega), hcomp, List.range_succ, List.map_append,
      List.sum_append]
    simp only [List.map_cons, List.map_nil, List.sum_cons, List.sum_nil, Nat.add_zero]
  · rw [hs, hC _ (Nat.le_refl _)]
    exact sum_count_symbols text hb (text_symbols_eq_count text)

/-- C28 at a concrete input: the text `2, 1, 2, 0` read in blocks of 3 bytes has 3 distinct
bytes and `C[3] = 4`. -/
theorem alphabet_tables_witness :
    ∃ al, byte_alphabet_strategy.build false [2, 1, 2, 0] 3 [2, 1, 2, 0].length
        = Asserted.ok al ∧
      al.m_sigma = 3 ∧ al.m_C.getD al.m_sigma 0 = 4 :=
  (alphabet_tables false [2, 1, 2, 0] 3 (by decide) (by decide) (by decide) (by decide)).imp
    fun _ h => ⟨h.1, h.2.1.trans (by decide), h.2.2.2.2.2.2.2.2.trans (by decide)⟩

set_option maxRecDepth 20000 in
/-- C29 fails on the code: for the text `1, 0, 2` and `len = 2`, which the assertion at entry
admits, the buffer loads the whole text as one block and the inner loop counts the 3 symbols
of the block, not the first 2: the final assertion `C[sigma]==len` aborts the program, and
a build with `NDEBUG` returns an alphabet with `C[sigma] = 3`. -/
theorem alphabet_counts_whole_block :
    0 < 2 ∧ 2 ≤ [1, 0, 2].length ∧
    count_loop [1, 0, 2] 1000000 2 2 0 0 (min 1000000 [1, 0, 2].length) 0
        (List.replicate 257 0)
      = some ([1, 1, 1] ++ List.replicate 254 0) ∧
    byte_alphabet_strategy.build false [1, 0, 2] 1000000 2
      = Asserted.assertion_failed "C[sigma]==len" ∧
    byte_alphabet_strategy.build true [1, 0, 2] 1000000 2
      = Asserted.ok ⟨[0, 1, 2] ++ List.replicate 253 0, [0, 1, 2], [0, 1, 2, 3], 3⟩ :=
  ⟨by decide, by decide, by decide!, by decide!, by decide!⟩

/-! ## The bounds of `top` -/

/-- C30 fails on the code: for the input `1, 2, 3, 4` with block size 2, whose length is a
multiple of the block size, `top` is `0, 2`. Block 1 holds `3, 4`, is sorted and
`top[1] = 2 < 3`, so `encode_block` takes the adaptive branch for `k = 1`; the entry
`top[k+1]` does not exist (`k+1 = 2 = top.size()`), the read has no defined value and the
constructor returns no container, whatever the list codecs are. -/
theorem top_entry_missing (junk : Nat → Nat) (lc : ListCodecs) :
    [1, 2, 3, 4].length % 2 = 0 ∧
    construct_top 2 [1, 2, 3, 4] = some [0, 2] ∧
    is_sorted [3, 4] = true ∧ ([0, 2] : List Nat)[1]? = some 2 ∧ 2 < 3 ∧
    ¬ (1 + 1 < ([0, 2] : List Nat).length) ∧
    (∀ os : List Bool, encode_block lc os [3, 4] 1 [0, 2] false = none) ∧
    ef_vector.build junk lc 2 [1, 2, 3, 4] = Built.undefined := by
  have he0 : ∀ os : List Bool, encode_block lc os [1, 2] 0 [0, 2] false
      = some (put_int os 3 2, os.length) := fun _ => rfl
  have he1 : ∀ os : List Bool, encode_block lc os [3, 4] 1 [0, 2] false = none :=
    fun _ => rfl
  refine ⟨rfl, rfl, rfl, rfl, by decide, by decide, he1, ?_⟩
  refine ef_build_undefined junk lc 2 [1, 2, 3, 4] [0, 2] rfl ?_
  have s1 := fill_blocks_block lc 2 [0, 2] [1, 2] [3, 4]
    ⟨[], [], resize_uninit junk (2 * [0, 2].length), 0⟩ (put_int [] 3 2) 0 rfl
    (List.cons_ne_nil 1 [2]) (he0 _)
  have s2 := fill_blocks_chunk lc 2 [0, 2] [3, 4] []
    ⟨put_int [] 3 2, [], (resize_uninit junk (2 * [0, 2].length)).set 0 0, 1⟩ rfl
    (List.cons_ne_nil 3 [4])
  have he : encode_block lc (put_int [] 3 2) ([] ++ List.map (· % U64) [3, 4]) 1 [0, 2] false
      = none := rfl
  rw [he] at s2
  exact s1.trans s2

/-! ## Reads of the sample table -/

/-- The cells of the sample table the accessors read for a valid index or block lie inside
the table a constructor leaves. -/
theorem layout_reads_in_bounds (cd : BlockCodec) (fc term : Bool) (dens : Nat)
    (c z0 : List Nat) (junk : Nat → Nat) (v : DeltaVector) (hdens : 0 < dens)
    (h : Layout cd fc term dens c z0 junk v) :
    (∀ i, i < v.m_size →
      2 * (i / dens) < v.m_sample_vals_and_pointer.length ∧
      2 * (i / dens) + 1 < v.m_sample_vals_and_pointer.length) ∧
    (∀ k, k < (v.m_size + dens - 1) / dens →
      2 * k < v.m_sample_vals_and_pointer.length ∧
      2 * k + 1 < v.m_sample_vals_and_pointer.length) := by
  rw [h.size_eq, h.len, ← num_blocks_eq_ceil dens c.length hdens]
  constructor
  · intro i hi
    have hb : i / dens < num_blocks dens c.length := by
      rw [num_blocks_spec dens _ hdens]
      exact Nat.lt_of_le_of_lt (Nat.div_mul_le_self i dens) hi
    omega
  · intro k hk
    omega

/-- C36: for every `bp_vector` or `optpfor_vector` built by one of its constructors from a
non-empty sequence (all values `<= 2^32-1`) and every `i < size()`, the indices `2*(i/dens)`
and `2*(i/dens)+1` that `operator[]` reads are smaller than the length of the sample table,
and for every block `k < ceil(size()/dens)` so are the index `2*k` read by `sample(k)` and
`2*k+1` read by `get_inter_sampled_values(k, out)`; the reads of the model return a cell. -/
theorem table_reads_in_bounds (pad : Nat) (junk : Nat → Nat) (cd : BlockCodec) (dens : Nat)
    (c : List Nat) (hdens : 0 < dens) (hne : c ≠ []) (hc : ∀ x ∈ c, x ≤ 2 ^ 32 - 1) :
    ∀ build ∈ [bp_vector.build pad junk cd dens c, bp_vector.build_from_buffer pad junk cd dens c,
        optpfor_vector.build junk cd dens c, optpfor_vector.build_from_buffer junk cd dens c],
      ∃ v, build = Built.ok v ∧ v.size = c.length ∧
        (∀ i, i < v.size →
          2 * (i / dens) < v.m_sample_vals_and_pointer.length ∧
          2 * (i / dens) + 1 < v.m_sample_vals_and_pointer.length ∧
          (v.m_sample_vals_and_pointer[2 * (i / dens)]?).isSome = true ∧
          (v.m_sample_vals_and_pointer[2 * (i / dens) + 1]?).isSome = true) ∧
        (∀ k, k < (v.size + dens - 1) / dens →
          2 * k < v.m_sample_vals_and_pointer.length ∧
          2 * k + 1 < v.m_sample_vals_and_pointer.length ∧
          (v.m_sample_vals_and_pointer[2 * k]?).isSome = true ∧
          (v.m_sample_vals_and_pointer[2 * k + 1]?).isSome = true) := by
  have hc2 : ∀ x ∈ c, x < U32 := fun x hx => by
    have := hc x hx
    unfold U32
    omega
  have key : ∀ (what : String) (z0 : List Nat) (fc term : Bool),
      ∃ v, delta_build what z0 fc term junk cd dens c = Built.ok v ∧ v.size = c.length ∧
        (∀ i, i < v.size →
          2 * (i / dens) < v.m_sample_vals_and_pointer.length ∧
          2 * (i / dens) + 1 < v.m_sample_vals_and_pointer.length ∧
          (v.m_sample_vals_and_pointer[2 * (i / dens)]?).isSome = true ∧
          (v.m_sample_vals_and_pointer[2 * (i / dens) + 1]?).isSome = true) ∧
        (∀ k, k < (v.size + dens - 1) / dens →
          2 * k < v.m_sample_vals_and_pointer.length ∧
          2 * k + 1 < v.m_sample_vals_and_pointer.length ∧
          (v.m_sample_vals_and_pointer[2 * k]?).isSome = true ∧
          (v.m_sample_vals_and_pointer[2 * k + 1]?).isSome = true) := by
    intro what z0 fc term
    obtain ⟨v, hv, hlay⟩ := delta_build_layout what z0 fc term junk cd dens c hne hc2 hdens
    obtain ⟨h1, h2⟩ := layout_reads_in_bounds cd fc term dens c z0 junk v hdens hlay
    refine ⟨v, hv, hlay.size_eq, ?_, ?_⟩
    · intro i hi
      obtain ⟨a, b⟩ := h1 i hi
      exact ⟨a, b, by rw [List.getElem?_eq_getElem a]; rfl,
        by rw [List.getElem?_eq_getElem b]; rfl⟩
    · intro k hk
      obtain ⟨a, b⟩ := h2 k hk
      exact ⟨a, b, by rw [List.getElem?_eq_getElem a]; rfl,
        by rw [List.getElem?_eq_getElem b]; rfl⟩
  intro build hb
  simp only [List.mem_cons, List.mem_singleton, List.not_mem_nil, or_false] at hb
  rcases hb with h | h | h | h <;> rw [h] <;> exact key _ _ _ _

/-- C36 at a concrete input: 3 elements with `dens = 2`; index 2 lies in block 1 and reads the
cells 2 and 3 of the 6 cells of the table. -/
theorem table_reads_in_bounds_witness :
    ∃ v, bp_vector.build 0 (fun _ => 0) (plainCodec 2) 2 [5, 3, 9] = Built.ok v ∧
      2 * (2 / 2) + 1 < v.m_sample_vals_and_pointer.length :=
  (table_reads_in_bounds 0 (fun _ => 0) (plainCodec 2) 2 [5, 3, 9] (by decide) (by decide)
    (by decide) _ (List.mem_cons_self _ _)).imp
    fun _ h => ⟨h.1, (h.2.2.1 2 (h.2.1.symm ▸ (by decide))).2.1⟩

/-! ## Containers with the same blocks -/

/-- The accessor `operator[]` reads the element count, the payload and the pair of the block
of `i`, and nothing else of the vector. -/
theorem delta_index_congr (has_full NDEBUG : Bool) (cd : BlockCodec) (dens : Nat)
    (v1 v2 : DeltaVector) (i : Nat) (hsz : v1.m_size = v2.m_size) (hz : v1.m_z = v2.m_z)
    (h0 : v1.m_sample_vals_and_pointer[2 * (i / dens)]?
      = v2.m_sample_vals_and_pointer[2 * (i / dens)]?)
    (h1 : v1.m_sample_vals_and_pointer[2 * (i / dens) + 1]?
      = v2.m_sample_vals_and_pointer[2 * (i / dens) + 1]?) :
    delta_index has_full NDEBUG cd dens v1 i = delta_index has_full NDEBUG cd dens v2 i := by
  unfold delta_index
  dsimp only
  rw [hsz, hz, h0, h1]

theorem delta_sample_congr (NDEBUG : Bool) (dens : Nat) (v1 v2 : DeltaVector) (k : Nat)
    (hsz : v1.m_size = v2.m_size)
    (h0 : v1.m_sample_vals_and_pointer[2 * k]? = v2.m_sample_vals_and_pointer[2 * k]?) :
    delta_sample NDEBUG dens v1 k = delta_sample NDEBUG dens v2 k := by
  unfold delta_sample
  rw [hsz, h0]

/-- Two vectors built from the same sequence by the two constructors of a variant. -/
theorem layouts_agree (cd : BlockCodec) (fc : Bool) (dens : Nat) (c z0 : List Nat)
    (junk1 junk2 : Nat → Nat) (v1 v2 : DeltaVector) (hdens : 0 < dens)
    (h1 : Layout cd fc false dens c z0 junk1 v1) (h2 : Layout cd fc true dens c z0 junk2 v2) :
    v1.size = v2.size ∧ v1.m_z = v2.m_z ∧
    v1.m_sample_vals_and_pointer.length = v2.m_sample_vals_and_pointer.length ∧
    (∀ k, k < (c.length + dens - 1) / dens →
      v1.m_sample_vals_and_pointer[2 * k]? = v2.m_sample_vals_and_pointer[2 * k]? ∧
      v1.m_sample_vals_and_pointer[2 * k + 1]? = v2.m_sample_vals_and_pointer[2 * k + 1]?) ∧
    v2.m_sample_vals_and_pointer[2 * ((c.length + dens - 1) / dens)]? = some 0 ∧
    v2.m_sample_vals_and_pointer[2 * ((c.length + dens - 1) / dens) + 1]? = some 0 ∧
    v1.m_sample_vals_and_pointer[2 * ((c.length + dens - 1) / dens)]?
      = some (junk1 (2 * ((c.length + dens - 1) / dens))) ∧
    v1.m_sample_vals_and_pointer[2 * ((c.length + dens - 1) / dens) + 1]?
      = some (junk1 (2 * ((c.length + dens - 1) / dens) + 1)) ∧
    (∀ (NDEBUG : Bool) (k : Nat), k < (c.length + dens - 1) / dens →
      delta_sample NDEBUG dens v1 k = delta_sample NDEBUG dens v2 k) ∧
    (∀ (NDEBUG : Bool) (i : Nat), i < c.length →
      delta_index fc NDEBUG cd dens v1 i = delta_index fc NDEBUG cd dens v2 i) := by
  obtain ⟨_, t1, s1a, s1b⟩ := layout_table cd fc false dens c z0 junk1 v1 hdens h1
  obtain ⟨_, t2, s2a, s2b⟩ := layout_table cd fc true dens c z0 junk2 v2 hdens h2
  have hsz : v1.m_size = v2.m_size := by rw [h1.size_eq, h2.size_eq]
  have hz : v1.m_z = v2.m_z := by rw [h1.zeq, h2.zeq]
  have hpair : ∀ k, k < (c.length + dens - 1) / dens →
      v1.m_sample_vals_and_pointer[2 * k]? = v2.m_sample_vals_and_pointer[2 * k]? ∧
      v1.m_sample_vals_and_pointer[2 * k + 1]? = v2.m_sample_vals_and_pointer[2 * k + 1]? :=
    fun k hk => ⟨by rw [(t1 k hk).1, (t2 k hk).1], by rw [(t1 k hk).2, (t2 k hk).2]⟩
  refine ⟨hsz, hz, by rw [h1.len, h2.len], hpair, s2a, s2b, s1a, s1b, ?_, ?_⟩
  · intro NDEBUG k hk
    exact delta_sample_congr NDEBUG dens v1 v2 k hsz (hpair k hk).1
  · intro NDEBUG i hi
    have hb : i / dens < (c.length + dens - 1) / dens := by
      rw [← num_blocks_eq_ceil dens c.length hdens, num_blocks_spec dens _ hdens]
      exact Nat.lt_of_le_of_lt (Nat.div_mul_le_self i dens) hi
    exact delta_index_congr fc NDEBUG cd dens v1 v2 i hsz hz (hpair _ hb).1 (hpair _ hb).2

/-- C35: the two constructors agree. For the same non-empty sequence of values (all
`<= 2^32-1`; for `bp_vector` the same alignment of `m_z`), the constructor from a container
and the constructor from an `int_vector_buffer` return containers with equal `size()`, equal
`m_z`, a sample table of the same length and equal (sample, pointer) pairs for every block,
hence equal `sample(k)` and `operator[](i)` for every valid `k` and `i`; the last pair is
`(0, 0)` after the constructor from a buffer and is what `resize` left after the other. For
an empty sequence both return the default-constructed container. -/
theorem constructors_agree (pad : Nat) (junk1 junk2 : Nat → Nat) (cd : BlockCodec)
    (dens : Nat) (c : List Nat) (hdens : 0 < dens) (hc : ∀ x ∈ c, x ≤ 2 ^ 32 - 1) :
    (c = [] →
      bp_vector.build pad junk1 cd dens c = Built.ok DeltaVector.default ∧
      bp_vector.build_from_buffer pad junk2 cd dens c = Built.ok DeltaVector.default ∧
      optpfor_vector.build junk1 cd dens c = Built.ok DeltaVector.default ∧
      optpfor_vector.build_from_buffer junk2 cd dens c = Built.ok DeltaVector.default) ∧
    (c ≠ [] →
      (∃ v1 v2, bp_vector.build pad junk1 cd dens c = Built.ok v1 ∧
        bp_vector.build_from_buffer pad junk2 cd dens c = Built.ok v2 ∧
        v1.size = v2.size ∧ v1.m_z = v2.m_z ∧
        v1.m_sample_vals_and_pointer.length = v2.m_sample_vals_and_pointer.length ∧
        (∀ k, k < (c.length + dens - 1) / dens →
          v1.m_sample_vals_and_pointer[2 * k]? = v2.m_sample_vals_and_pointer[2 * k]? ∧
          v1.m_sample_vals_and_pointer[2 * k + 1]?
            = v2.m_sample_vals_and_pointer[2 * k + 1]?) ∧
        v2.m_sample_vals_and_pointer[2 * ((c.length + dens - 1) / dens)]? = some 0 ∧
        v2.m_sample_vals_and_pointer[2 * ((c.length + dens - 1) / dens) + 1]? = some 0 ∧
        v1.m_sample_vals_and_pointer[2 * ((c.length + dens - 1) / dens)]?
          = some (junk1 (2 * ((c.length + dens - 1) / dens))) ∧
        v1.m_sample_vals_and_pointer[2 * ((c.length + dens - 1) / dens) + 1]?
          = some (junk1 (2 * ((c.length + dens - 1) / dens) + 1)) ∧
        (∀ (NDEBUG : Bool) (k : Nat), k < (c.length + dens - 1) / dens →
          bp_vector.sample NDEBUG dens v1 k = bp_vector.sample NDEBUG dens v2 k) ∧
        (∀ (NDEBUG : Bool) (i : Nat), i < c.length →
          bp_vector.index NDEBUG cd dens v1 i = bp_vector.index NDEBUG cd dens v2 i)) ∧
      (∃ v1 v2, optpfor_vector.build junk1 cd dens c = Built.ok v1 ∧
        optpfor_vector.build_from_buffer junk2 cd dens c = Built.ok v2 ∧
        v1.size = v2.size ∧ v1.m_z = v2.m_z ∧
        v1.m_sample_vals_and_pointer.length = v2.m_sample_vals_and_pointer.length ∧
        (∀ k, k < (c.length + dens - 1) / dens →
          v1.m_sample_vals_and_pointer[2 * k]? = v2.m_sample_vals_and_pointer[2 * k]? ∧
          v1.m_sample_vals_and_pointer[2 * k + 1]?
            = v2.m_sample_vals_and_pointer[2 * k + 1]?) ∧
        v2.m_sample_vals_and_pointer[2 * ((c.length + dens - 1) / dens)]? = some 0 ∧
        v2.m_sample_vals_and_pointer[2 * ((c.length + dens - 1) / dens) + 1]? = some 0 ∧
        v1.m_sample_vals_and_pointer[2 * ((c.length + dens - 1) / dens)]?
          = some (junk1 (2 * ((c.length + dens - 1) / dens))) ∧
        v1.m_sample_vals_and_pointer[2 * ((c.length + dens - 1) / dens) + 1]?
          = some (junk1 (2 * ((c.length + dens - 1) / dens) + 1)) ∧
        (∀ (NDEBUG : Bool) (k : Nat), k < (c.length + dens - 1) / dens →
          optpfor_vector.sample NDEBUG dens v1 k = optpfor_vector.sample NDEBUG dens v2 k) ∧
        (∀ (NDEBUG : Bool) (i : Nat), i < c.length →
          optpfor_vector.index NDEBUG cd dens v1 i
            = optpfor_vector.index NDEBUG cd dens v2 i))) := by
  constructor
  · intro he
    subst he
    exact ⟨rfl, rfl, rfl, rfl⟩
  · intro hne
    have hc2 : ∀ x ∈ c, x < U32 := fun x hx => by
      have := hc x hx
      unfold U32
      omega
    constructor
    · obtain ⟨v1, hv1, hl1⟩ := delta_build_layout "bp_vector: only supports 32bit integers."
        (List.replicate pad 0) false false junk1 cd dens c hne hc2 hdens
      obtain ⟨v2, hv2, hl2⟩ := delta_build_layout "bp_vector: only supports 32bit integers."
        (List.replicate pad 0) false true junk2 cd dens c hne hc2 hdens
      exact ⟨v1, v2, hv1, hv2, layouts_agree cd false dens c _ junk1 junk2 v1 v2 hdens hl1 hl2⟩
    · obtain ⟨v1, hv1, hl1⟩ := delta_build_layout
        "optpfor_vector: only supports 32bit integers." [0] true false junk1 cd dens c hne hc2
        hdens
      obtain ⟨v2, hv2, hl2⟩ := delta_build_layout
        "optpfor_vector: only supports 32bit integers." [0] true true junk2 cd dens c hne hc2
        hdens
      exact ⟨v1, v2, hv1, hv2, layouts_agree cd true dens c _ junk1 junk2 v1 v2 hdens hl1 hl2⟩

/-- C35 at a concrete input: the containers the two constructors of `bp_vector` build from
`5, 3, 9` with `dens = 2`, the table cells left by `resize` holding 7, have the same `m_z`. -/
theorem constructors_agree_witness :
    ∃ v1 v2, bp_vector.build 0 (fun _ => 7) (plainCodec 2) 2 [5, 3, 9] = Built.ok v1 ∧
      bp_vector.build_from_buffer 0 (fun _ => 7) (plainCodec 2) 2 [5, 3, 9] = Built.ok v2 ∧
      v1.size = v2.size ∧ v1.m_z = v2.m_z :=
  (((constructors_agree 0 (fun _ => 7) (fun _ => 7) (plainCodec 2) 2 [5, 3, 9] (by decide)
    (by decide)).2 (by decide)).1).imp fun _ h => h.imp fun _ h2 =>
      ⟨h2.1, h2.2.1, h2.2.2.1, h2.2.2.2.1⟩

/-! ## The accumulators of `get_inter_sampled_values` without the modulus -/

/-- The running sums with a 64-bit accumulator that never wraps around. -/
theorem running_sums_exact (l : List Nat) :
    ∀ acc j, j < l.length → acc + l.sum < U64 →
      (running_sums acc l).getD j 0 = acc + (l.take (j + 1)).sum := by
  induction l with
  | nil => intro acc j hj; simp at hj
  | cons t rest ih =>
    intro acc j hj hs
    rw [List.sum_cons] at hs
    have hm : (acc + t) % U64 = acc + t := Nat.mod_eq_of_lt (by unfold U64 at *; omega)
    cases j with
    | zero =>
      simp only [running_sums, List.getD_cons_zero, Nat.zero_add, List.take_succ_cons,
        List.take_zero, List.sum_cons, List.sum_nil, Nat.add_zero]
      exact hm
    | succ j =>
      have hj2 : j < rest.length := by simpa using hj
      simp only [running_sums, List.getD_cons_succ, List.take_succ_cons, List.sum_cons]
      rw [hm, ih _ j hj2 (by omega)]
      omega

theorem frame_sum_lt (frame : List Nat) (hf : ∀ x ∈ frame, x < U32) (hlen : frame.length < U32) :
    frame.sum < U64 := by
  have h := List.sum_le_card_nsmul frame (U32 - 1) (fun x hx => by
    have := hf x hx
    omega)
  rw [smul_eq_mul] at h
  have h2 : frame.length * (U32 - 1) ≤ (U32 - 1) * (U32 - 1) :=
    Nat.mul_le_mul_right _ (by omega)
  have h3 : (U32 - 1) * (U32 - 1) < U64 := by decide
  omega

/-- In a run every delta behind the first is 1: the first `j+1` entries of the delta frame add
up to `j`. -/
theorem full_frame_sum (vals : List Nat) (hv : ∀ x ∈ vals, x < U32)
    (hfull : is_full vals = true) (j : Nat) (hj : j < vals.length) :
    (((fastDelta vals).set 0 0).take (j + 1)).sum = j := by
  have hlen : ((fastDelta vals).set 0 0).length = vals.length := by
    rw [List.length_set, fastDelta_length]
  induction j with
  | zero =>
    have hb : 0 < ((fastDelta vals).set 0 0).length := by rw [hlen]; exact hj
    rw [List.sum_take_succ _ 0 hb]
    have h0 : ((fastDelta vals).set 0 0)[0] = 0 := by simp
    rw [h0]
    rfl
  | succ j ih =>
    have hb : j + 1 < ((fastDelta vals).set 0 0).length := by rw [hlen]; exact hj
    rw [List.sum_take_succ _ (j + 1) hb, ih (by omega)]
    have hf : ((fastDelta vals).set 0 0)[j + 1]
        = (vals.getD (j + 1) 0 + U32 - vals.getD j 0) % U32 := by
      have h1 := getD_set (fastDelta vals) 0 (j + 1) 0
      rw [if_neg (fun hh => by omega), fastDelta_getD vals (j + 1) hj (by omega)] at h1
      rw [List.getD_eq_getElem _ _ hb] at h1
      simpa using h1
    rw [hf]
    have hstep := (is_full_iff vals).mp hfull (j + 1) (by omega) hj
    rw [Nat.add_sub_cancel] at hstep
    have h2 := getD_lt_of_forall vals U32 j U32_pos hv
    rw [hstep]
    unfold U32 at *
    omega

/-- The sample plus the sum of the first `j+1` deltas, without the modulus: it is the value
at position `j` when no value up to `j` is smaller than its predecessor, and exceeds it by at
least `2^32` otherwise. -/
theorem frame_sum_exact (vals : List Nat) (hv : ∀ x ∈ vals, x < U32) (j : Nat)
    (hj : j < vals.length) :
    ((∀ i, 0 < i → i ≤ j → vals.getD (i - 1) 0 ≤ vals.getD i 0) →
      vals.getD 0 0 + (((fastDelta vals).set 0 0).take (j + 1)).sum = vals.getD j 0) ∧
    ((∃ i, 0 < i ∧ i ≤ j ∧ vals.getD i 0 < vals.getD (i - 1) 0) →
      vals.getD j 0 + U32 ≤ vals.getD 0 0 + (((fastDelta vals).set 0 0).take (j + 1)).sum) ∧
    vals.getD j 0 ≤ vals.getD 0 0 + (((fastDelta vals).set 0 0).take (j + 1)).sum := by
  have hlen : ((fastDelta vals).set 0 0).length = vals.length := by
    rw [List.length_set, fastDelta_length]
  induction j with
  | zero =>
    have hb : 0 < ((fastDelta vals).set 0 0).length := by rw [hlen]; exact hj
    have hsum : (((fastDelta vals).set 0 0).take (0 + 1)).sum = 0 := by
      rw [List.sum_take_succ _ 0 hb]
      have h0 : ((fastDelta vals).set 0 0)[0] = 0 := by simp
      rw [h0]
      rfl
    rw [hsum]
    refine ⟨fun _ => Nat.add_zero _, ?_, Nat.le_of_eq (Nat.add_zero _).symm⟩
    rintro ⟨i, h1, h2, _⟩
    omega
  | succ j ih =>
    obtain ⟨ih1, ih2, ih3⟩ := ih (by omega)
    have hb : j + 1 < ((fastDelta vals).set 0 0).length := by rw [hlen]; exact hj
    rw [List.sum_take_succ _ (j + 1) hb]
    have hf : ((fastDelta vals).set 0 0)[j + 1]
        = (vals.getD (j + 1) 0 + U32 - vals.getD j 0) % U32 := by
      have h1 := getD_set (fastDelta vals) 0 (j + 1) 0
      rw [if_neg (fun hh => by omega), fastDelta_getD vals (j + 1) hj (by omega)] at h1
      rw [List.getD_eq_getElem _ _ hb] at h1
      simpa using h1
    rw [hf]
    have h1 := getD_lt_of_forall vals U32 (j + 1) U32_pos hv
    have h2 := getD_lt_of_forall vals U32 j U32_pos hv
    refine ⟨?_, ?_, ?_⟩
    · intro hmono
      have hprev := ih1 (fun i a b => hmono i a (by omega))
      have hstep := hmono (j + 1) (by omega) (Nat.le_refl _)
      rw [Nat.add_sub_cancel] at hstep
      unfold U32 at *
      omega
    · rintro ⟨i, hi0, hij, hdesc⟩
      by_cases hlast : i = j + 1
      · subst hlast
        rw [Nat.add_sub_cancel] at hdesc
        unfold U32 at *
        omega
      · have hprev := ih2 ⟨i, hi0, by omega, hdesc⟩
        unfold U32 at *
        omega
    · unfold U32 at *
      omega

/-- Bulk decoding of a stored block, exactly: entry `j` of the output is the 64-bit sum of the
first `j+1` entries of the delta frame of the block. -/
theorem get_inter_exact (fc : Bool) (cd : BlockCodec) (dens : Nat) (v : DeltaVector)
    (b : Nat) (vals : List Nat) (hcd : CodecInverts cd dens)
    (hd32 : dens < U32) (hlen : vals.length = dens) (hv : ∀ x ∈ vals, x < U32)
    (hst : BlockStored cd fc v.m_sample_vals_and_pointer v.m_z b vals) :
    delta_get_inter_sampled_values fc cd dens v b
      = some ((List.range dens).map fun j => (((fastDelta vals).set 0 0).take (j + 1)).sum) := by
  obtain ⟨_, p, hp, hcase⟩ := hst
  unfold delta_get_inter_sampled_values
  rw [hp]
  rcases hcase with ⟨hf, hpf, hfull⟩ | ⟨hne, _, rest, hdrop⟩
  · have hcond : (fc && (p == BLOCK_FULL)) = true := by simp [hf, hpf]
    simp only [hcond, if_true]
    congr 1
    apply ext_getD
    · rw [List.length_range, List.length_map, List.length_range]
    · intro k hk
      rw [List.length_range] at hk
      rw [getD_range_map _ dens k hk, full_frame_sum vals hv hfull k (by omega)]
      have := getD_range_map id dens k hk
      simpa using this
  · have hcond : (fc && (p == BLOCK_FULL)) = false := by
      cases fc with
      | false => rfl
      | true => simp [hne rfl]
    have hflen : ((fastDelta vals).set 0 0).length = dens := by
      rw [List.length_set, fastDelta_length, hlen]
    have hframe : cd.decodeBlock (List.drop p v.m_z) = (fastDelta vals).set 0 0 := by
      rw [hdrop]
      exact hcd _ rest hflen (fastDelta_lt vals hv)
    simp only [hcond, Bool.false_eq_true, if_false, hframe]
    rw [List.take_of_length_le (by omega)]
    congr 1
    apply ext_getD
    · rw [running_sums_length, hflen, List.length_map, List.length_range]
    · intro k hk
      rw [running_sums_length, hflen] at hk
      rw [getD_range_map _ dens k hk,
        running_sums_exact _ 0 k (by omega)
          (by rw [Nat.zero_add]; exact frame_sum_lt _ (fastDelta_lt vals hv) (by omega)),
        Nat.zero_add]

/-- What the accessors return on a vector of the delta variants built from `c`: `sample(k)`
is `c[k*dens]`, `operator[](i)` is `c[i]`, and `get_inter_sampled_values(b, out)` writes the
sums of the delta frame of block `b`. -/
theorem delta_observables (what : String) (z0 : List Nat) (fc term : Bool) (junk : Nat → Nat)
    (cd : BlockCodec) (dens : Nat) (c : List Nat) (hne : c ≠ []) (hc : ∀ x ∈ c, x < U32)
    (hdens : 0 < dens) (hd32 : dens < U32) (hz0 : fc = true → 1 ≤ z0.length)
    (hcd : CodecInverts cd dens) (hsize : c.length < U64) :
    ∃ v, delta_build what z0 fc term junk cd dens c = Built.ok v ∧ v.size = c.length ∧
      (∀ (NDEBUG : Bool) (k : Nat), k * dens < c.length →
        delta_sample NDEBUG dens v k = (c)[k * dens]?) ∧
      (∀ (NDEBUG : Bool) (i : Nat), i < c.length →
        delta_index fc NDEBUG cd dens v i = (c)[i]?) ∧
      (∀ b, b * dens < c.length →
        delta_get_inter_sampled_values fc cd dens v b
          = some ((List.range dens).map fun j =>
              (((fastDelta (block_vals dens c b)).set 0 0).take (j + 1)).sum)) := by
  obtain ⟨v, hv, hlay⟩ := delta_build_layout what z0 fc term junk cd dens c hne hc hdens
  obtain ⟨v2, hv2, _, hidx⟩ := delta_index_build what z0 fc term junk cd dens c hne hc hdens
    hz0 hcd
  rw [hv] at hv2
  injection hv2 with hv2
  subst hv2
  refine ⟨v, hv, hlay.size_eq, ?_, ?_, ?_⟩
  · intro NDEBUG k hk
    exact (layout_block_start cd fc term NDEBUG dens c z0 junk v hc hdens hsize hlay k hk).1
  · intro NDEBUG i hi
    have hb : i / dens * dens < c.length :=
      Nat.lt_of_le_of_lt (Nat.div_mul_le_self i dens) hi
    rw [hidx NDEBUG i hb (Or.inr ⟨hi, by unfold U64 at *; omega⟩), if_pos hi,
      getElem?_eq_some_getD c i hi]
  · intro b hb
    exact get_inter_exact fc cd dens v b (block_vals dens c b) hcd hd32
      (block_vals_length dens c b) (block_vals_lt dens c b)
      (stored_of_layout cd fc term dens c z0 junk v hc hdens hz0 hlay b hb)

/-- The accumulators of a block in terms of the input: the reading modulo `2^32`, the reading
without the modulus for values that do not decrease up to `j`, and its failure behind a
decreasing step. -/
theorem accumulators_of_block (dens : Nat) (c : List Nat) (hc : ∀ x ∈ c, x < U32) (b j : Nat)
    (hj : j < dens) (hjn : b * dens + j < c.length) :
    (c.getD (b * dens) 0 + (((fastDelta (block_vals dens c b)).set 0 0).take (j + 1)).sum)
        % 2 ^ 32 = c.getD (b * dens + j) 0 ∧
    ((∀ i, 0 < i → i ≤ j → c.getD (b * dens + i - 1) 0 ≤ c.getD (b * dens + i) 0) →
      (((fastDelta (block_vals dens c b)).set 0 0).take (j + 1)).sum
          = c.getD (b * dens + j) 0 - c.getD (b * dens) 0 ∧
      c.getD (b * dens) 0 + (((fastDelta (block_vals dens c b)).set 0 0).take (j + 1)).sum
          = c.getD (b * dens + j) 0) ∧
    ((∃ i, 0 < i ∧ i ≤ j ∧ c.getD (b * dens + i) 0 < c.getD (b * dens + i - 1) 0) →
      c.getD (b * dens) 0 + (((fastDelta (block_vals dens c b)).set 0 0).take (j + 1)).sum
          ≠ c.getD (b * dens + j) 0 ∧
      c.getD (b * dens + j) 0 + 2 ^ 32
          ≤ c.getD (b * dens) 0
            + (((fastDelta (block_vals dens c b)).set 0 0).take (j + 1)).sum) := by
  have hb : b * dens < c.length := by omega
  have hval : ∀ i, i ≤ j → (block_vals dens c b).getD i 0 = c.getD (b * dens + i) 0 := by
    intro i hi
    rw [block_vals_getD dens c hc b i (by omega) hb, if_pos (by omega)]
  have hjl : j < (block_vals dens c b).length := by rw [block_vals_length]; exact hj
  have hmod := frame_sum (block_vals dens c b) (block_vals_lt dens c b) j hjl
  obtain ⟨e1, e2, _⟩ := frame_sum_exact (block_vals dens c b) (block_vals_lt dens c b) j hjl
  have h0 := hval 0 (Nat.zero_le _)
  rw [Nat.add_zero] at h0
  rw [h0, hval j (Nat.le_refl _)] at hmod e1 e2
  refine ⟨hmod, ?_, ?_⟩
  · intro hmono
    have := e1 (fun i hi0 hij => by
      rw [hval i hij, hval (i - 1) (by omega)]
      have e : b * dens + (i - 1) = b * dens + i - 1 := by omega
      rw [e]
      exact hmono i hi0 hij)
    exact ⟨by omega, this⟩
  · rintro ⟨i, hi0, hij, hdesc⟩
    have := e2 ⟨i, hi0, hij, by
      rw [hval i hij, hval (i - 1) (by omega)]
      have e : b * dens + (i - 1) = b * dens + i - 1 := by omega
      rw [e]
      exact hdesc⟩
    unfold U32 at this
    exact ⟨by omega, this⟩

/-- The accumulators `get_inter_sampled_values` writes for the blocks of a vector of the
delta variants built from `c`. -/
theorem delta_accumulators (what : String) (z0 : List Nat) (fc term : Bool) (junk : Nat → Nat)
    (cd : BlockCodec) (dens : Nat) (c : List Nat) (hne : c ≠ []) (hc : ∀ x ∈ c, x < U32)
    (hdens : 0 < dens) (hd32 : dens < U32) (hz0 : fc = true → 1 ≤ z0.length)
    (hcd : CodecInverts cd dens) (hsize : c.length < U64) :
    ∃ v, delta_build what z0 fc term junk cd dens c = Built.ok v ∧
      ∀ b, b * dens < c.length →
        (∀ NDEBUG : Bool, delta_sample NDEBUG dens v b = some (c.getD (b * dens) 0)) ∧
        ∃ out, delta_get_inter_sampled_values fc cd dens v b = some out ∧
          out.length = dens ∧ out.getD 0 0 = 0 ∧
          (∀ j, j < dens → out.getD j 0
            = (((fastDelta (block_vals dens c b)).set 0 0).take (j + 1)).sum) ∧
          ∀ j, j < dens → b * dens + j < c.length →
            (c.getD (b * dens) 0 + out.getD j 0) % 2 ^ 32 = c.getD (b * dens + j) 0 ∧
            ((∀ i, 0 < i → i ≤ j →
                c.getD (b * dens + i - 1) 0 ≤ c.getD (b * dens + i) 0) →
              out.getD j 0 = c.getD (b * dens + j) 0 - c.getD (b * dens) 0 ∧
              c.getD (b * dens) 0 + out.getD j 0 = c.getD (b * dens + j) 0) ∧
            ((∃ i, 0 < i ∧ i ≤ j ∧
                c.getD (b * dens + i) 0 < c.getD (b * dens + i - 1) 0) →
              c.getD (b * dens) 0 + out.getD j 0 ≠ c.getD (b * dens + j) 0) := by
  obtain ⟨v, hv, _, hs, _, hg⟩ := delta_observables what z0 fc term junk cd dens c hne hc hdens
    hd32 hz0 hcd hsize
  refine ⟨v, hv, fun b hb => ⟨fun NDEBUG => ?_, _, hg b hb, ?_, ?_, ?_, ?_⟩⟩
  · rw [hs NDEBUG b hb, getElem?_eq_some_getD c _ hb]
  · rw [List.length_map, List.length_range]
  · rw [getD_range_map _ dens 0 hdens]
    have hb0 : 0 < ((fastDelta (block_vals dens c b)).set 0 0).length := by
      rw [List.length_set, fastDelta_length, block_vals_length]
      exact hdens
    rw [List.sum_take_succ _ 0 hb0]
    have h0 : ((fastDelta (block_vals dens c b)).set 0 0)[0] = 0 := by simp
    rw [h0]
    rfl
  · intro j hj
    exact getD_range_map _ dens j hj
  · intro j hj hjn
    rw [getD_range_map _ dens j hj]
    obtain ⟨a1, a2, a3⟩ := accumulators_of_block dens c hc b j hj hjn
    exact ⟨a1, a2, fun h => (a3 h).1⟩

/-- C33: the accumulators of `get_inter_sampled_values` of `bp_vector` and `optpfor_vector`,
for an input within 32 bits and `dens < 2^32`. For every block `b` the call writes `dens`
values; `out[0] = 0` and `out[j]` is the sum, in 64 bits, of the first `j+1` entries of the
32-bit delta frame of the block; `sample(b)` is `c[b*dens]`, and for every `j < dens` with
`b*dens + j < size()`: `(sample(b) + out[j]) mod 2^32` is the element at index `b*dens + j`;
when no value of the block up to position `j` is smaller than its predecessor,
`out[j] = c[b*dens + j] - c[b*dens]` and the equality holds without the modulus; behind a
decreasing step it fails without the modulus. -/
theorem accumulators_64bit (pad : Nat) (junk : Nat → Nat) (cd : BlockCodec) (dens : Nat)
    (c : List Nat) (hdens : 0 < dens) (hd32 : dens < 2 ^ 32) (hcd : CodecInverts cd dens)
    (hne : c ≠ []) (hc : ∀ x ∈ c, x ≤ 2 ^ 32 - 1) (hsize : c.length < 2 ^ 64) :
    (∃ v, bp_vector.build pad junk cd dens c = Built.ok v ∧
      ∀ b, b * dens < c.length →
        (∀ NDEBUG : Bool, bp_vector.sample NDEBUG dens v b = some (c.getD (b * dens) 0)) ∧
        ∃ out, bp_vector.get_inter_sampled_values cd dens v b = some out ∧
          out.length = dens ∧ out.getD 0 0 = 0 ∧
          (∀ j, j < dens → out.getD j 0
            = (((fastDelta (block_vals dens c b)).set 0 0).take (j + 1)).sum) ∧
          ∀ j, j < dens → b * dens + j < c.length →
            (c.getD (b * dens) 0 + out.getD j 0) % 2 ^ 32 = c.getD (b * dens + j) 0 ∧
            ((∀ i, 0 < i → i ≤ j →
                c.getD (b * dens + i - 1) 0 ≤ c.getD (b * dens + i) 0) →
              out.getD j 0 = c.getD (b * dens + j) 0 - c.getD (b * dens) 0 ∧
              c.getD (b * dens) 0 + out.getD j 0 = c.getD (b * dens + j) 0) ∧
            ((∃ i, 0 < i ∧ i ≤ j ∧
                c.getD (b * dens + i) 0 < c.getD (b * dens + i - 1) 0) →
              c.getD (b * dens) 0 + out.getD j 0 ≠ c.getD (b * dens + j) 0)) ∧
    (∃ v, optpfor_vector.build junk cd dens c = Built.ok v ∧
      ∀ b, b * dens < c.length →
        (∀ NDEBUG : Bool,
          optpfor_vector.sample NDEBUG dens v b = some (c.getD (b * dens) 0)) ∧
        ∃ out, optpfor_vector.get_inter_sampled_values cd dens v b = some out ∧
          out.length = dens ∧ out.getD 0 0 = 0 ∧
          (∀ j, j < dens → out.getD j 0
            = (((fastDelta (block_vals dens c b)).set 0 0).take (j + 1)).sum) ∧
          ∀ j, j < dens → b * dens + j < c.length →
            (c.getD (b * dens) 0 + out.getD j 0) % 2 ^ 32 = c.getD (b * dens + j) 0 ∧
            ((∀ i, 0 < i → i ≤ j →
                c.getD (b * dens + i - 1) 0 ≤ c.getD (b * dens + i) 0) →
              out.getD j 0 = c.getD (b * dens + j) 0 - c.getD (b * dens) 0 ∧
              c.getD (b * dens) 0 + out.getD j 0 = c.getD (b * dens + j) 0) ∧
            ((∃ i, 0 < i ∧ i ≤ j ∧
                c.getD (b * dens + i) 0 < c.getD (b * dens + i - 1) 0) →
              c.getD (b * dens) 0 + out.getD j 0 ≠ c.getD (b * dens + j) 0)) := by
  have hc2 : ∀ x ∈ c, x < U32 := fun x hx => by
    have := hc x hx
    unfold U32
    omega
  exact ⟨delta_accumulators "bp_vector: only supports 32bit integers." (List.replicate pad 0)
      false false junk cd dens c hne hc2 hdens hd32 (fun h => absurd h Bool.false_ne_true) hcd
      hsize,
    delta_accumulators "optpfor_vector: only supports 32bit integers." [0] true false junk cd
      dens c hne hc2 hdens hd32 (fun _ => Nat.le_refl _) hcd hsize⟩

/-- C33 at a concrete input: `dens = 2` and the input `5, 3, 9`; block 0 holds the decreasing
step from 5 to 3, and `sample(0) + out[1]` is not the element 3. -/
theorem accumulators_64bit_witness :
    ∃ v, bp_vector.build 0 (fun _ => 0) (plainCodec 2) 2 [5, 3, 9] = Built.ok v ∧
      ∃ out, bp_vector.get_inter_sampled_values (plainCodec 2) 2 v 0 = some out ∧
        (5 + out.getD 1 0) % 2 ^ 32 = 3 ∧ 5 + out.getD 1 0 ≠ 3 :=
  (accumulators_64bit 0 (fun _ => 0) (plainCodec 2) 2 [5, 3, 9] (by decide) (by decide)
    (plainCodec_inverts 2) (by decide) (by decide) (by decide)).1.imp fun _ h =>
      ⟨h.1, (h.2 0 (by decide)).2.imp fun _ h2 =>
        ⟨h2.1, (h2.2.2.2.2 1 (by decide) (by decide)).1,
          (h2.2.2.2.2 1 (by decide) (by decide)).2.2 ⟨1, by decide, by decide, by decide⟩⟩⟩

/-- C34: `bp_vector` and `optpfor_vector` are observationally equal. For every sequence `c`
with values `<= 2^32-1` (each codec returning the frame it encoded, `dens < 2^32`), the two
containers have the same `size()`, the same `sample(k)` for every block `k`, the same
`operator[](i)` for every `i < size()`, and `get_inter_sampled_values` writes the same `dens`
accumulators for every block, also for the blocks `optpfor_vector` stores as full runs. Both
are the default-constructed container for an empty sequence. -/
theorem variants_observationally_equal (pad : Nat) (junk1 junk2 : Nat → Nat)
    (cd1 cd2 : BlockCodec) (dens : Nat) (c : List Nat) (hdens : 0 < dens)
    (hd32 : dens < 2 ^ 32) (hcd1 : CodecInverts cd1 dens) (hcd2 : CodecInverts cd2 dens)
    (hc : ∀ x ∈ c, x ≤ 2 ^ 32 - 1) (hsize : c.length < 2 ^ 64) :
    ∃ v1 v2, bp_vector.build pad junk1 cd1 dens c = Built.ok v1 ∧
      optpfor_vector.build junk2 cd2 dens c = Built.ok v2 ∧
      v1.size = v2.size ∧ v1.size = c.length ∧
      (∀ (NDEBUG : Bool) (k : Nat), k * dens < c.length →
        bp_vector.sample NDEBUG dens v1 k = optpfor_vector.sample NDEBUG dens v2 k) ∧
      (∀ (NDEBUG : Bool) (i : Nat), i < c.length →
        bp_vector.index NDEBUG cd1 dens v1 i = optpfor_vector.index NDEBUG cd2 dens v2 i) ∧
      (∀ b, b * dens < c.length →
        bp_vector.get_inter_sampled_values cd1 dens v1 b
          = optpfor_vector.get_inter_sampled_values cd2 dens v2 b ∧
        ∃ out, bp_vector.get_inter_sampled_values cd1 dens v1 b = some out ∧
          out.length = dens) := by
  by_cases hne : c = []
  · subst hne
    exact ⟨DeltaVector.default, DeltaVector.default, rfl, rfl, rfl, rfl,
      fun _ k hk => absurd hk (Nat.not_lt_zero _), fun _ i hi => absurd hi (Nat.not_lt_zero _),
      fun b hb => absurd hb (Nat.not_lt_zero _)⟩
  · have hc2 : ∀ x ∈ c, x < U32 := fun x hx => by
      have := hc x hx
      unfold U32
      omega
    obtain ⟨v1, hv1, s1, a1, i1, g1⟩ := delta_observables
      "bp_vector: only supports 32bit integers." (List.replicate pad 0) false false junk1 cd1
      dens c hne hc2 hdens hd32 (fun h => absurd h Bool.false_ne_true) hcd1 hsize
    obtain ⟨v2, hv2, s2, a2, i2, g2⟩ := delta_observables
      "optpfor_vector: only supports 32bit integers." [0] true false junk2 cd2 dens c hne hc2
      hdens hd32 (fun _ => Nat.le_refl _) hcd2 hsize
    refine ⟨v1, v2, hv1, hv2, by rw [s1, s2], s1, ?_, ?_, ?_⟩
    · intro NDEBUG k hk
      exact (a1 NDEBUG k hk).trans (a2 NDEBUG k hk).symm
    · intro NDEBUG i hi
      exact (i1 NDEBUG i hi).trans (i2 NDEBUG i hi).symm
    · intro b hb
      refine ⟨(g1 b hb).trans (g2 b hb).symm, _, g1 b hb, ?_⟩
      rw [List.length_map, List.length_range]

/-- C34 at a concrete input: `dens = 2` and the input `5, 3, 7, 8, 2`, whose block 1 is a run
that `optpfor_vector` stores with the full marker. -/
theorem variants_observationally_equal_witness :
    ∃ v1 v2, bp_vector.build 0 (fun _ => 0) (plainCodec 2) 2 [5, 3, 7, 8, 2] = Built.ok v1 ∧
      optpfor_vector.build (fun _ => 0) (plainCodec 2) 2 [5, 3, 7, 8, 2] = Built.ok v2 ∧
      v2.m_sample_vals_and_pointer[2 * 1 + 1]? = some BLOCK_FULL ∧
      bp_vector.index false (plainCodec 2) 2 v1 3
        = optpfor_vector.index false (plainCodec 2) 2 v2 3 ∧
      bp_vector.get_inter_sampled_values (plainCodec 2) 2 v1 1
        = optpfor_vector.get_inter_sampled_values (plainCodec 2) 2 v2 1 := by
  obtain ⟨v1, v2, h1, h2, _, _, _, hi, hg⟩ := variants_observationally_equal 0 (fun _ => 0)
    (fun _ => 0) (plainCodec 2) (plainCodec 2) 2 [5, 3, 7, 8, 2] (by decide) (by decide)
    (plainCodec_inverts 2) (plainCodec_inverts 2) (by decide) (by decide)
  refine ⟨v1, v2, h1, h2, ?_, hi false 3 (by decide), (hg 1 (by decide)).1⟩
  have e : optpfor_vector.build (fun _ => 0) (plainCodec 2) 2 [5, 3, 7, 8, 2]
      = Built.ok ⟨[5, 1, 7, 0, 2, 3, 0, 0], 5, [0, 0, 4294967294, 0, 0]⟩ := rfl
  rw [e] at h2
  injection h2 with h2
  rw [← h2]
  rfl

/-! ## The full marker of `optpfor_vector` -/

/-- The two ways `operator[]` of `optpfor_vector` answers an index with an offset other than
0: from the sample alone when the pointer of the block is the marker, from the decoded frame
otherwise. -/
theorem optpfor_index_branches (NDEBUG : Bool) (cd : BlockCodec) (dens : Nat)
    (v : DeltaVector) (i s p : Nat) (hoff : i % dens ≠ 0)
    (hs : v.m_sample_vals_and_pointer[2 * (i / dens)]? = some s)
    (hp : v.m_sample_vals_and_pointer[2 * (i / dens) + 1]? = some p)
    (hassert : NDEBUG = true ∨ (i < v.m_size ∧ (i + 1) % U64 ≠ 0)) :
    (p = BLOCK_FULL →
      delta_index true NDEBUG cd dens v i = some ((s + i % dens) % U32)) ∧
    (p ≠ BLOCK_FULL →
      delta_index true NDEBUG cd dens v i
        = (accumulate (i % dens)
            ((cd.decodeBlock (v.m_z.drop p)).set 0 (s % U32)))[i % dens]?) := by
  have hguard : (!NDEBUG && (decide ((i + 1) % U64 = 0) || decide (¬ i < v.m_size))) = false := by
    rcases hassert with h | ⟨h1, h2⟩
    · simp [h]
    · simp [h1, h2]
  constructor
  · intro hf
    unfold delta_index
    rw [hguard]
    simp [hs, hp, hf]
  · intro hf
    unfold delta_index
    rw [hguard]
    simp [hs, hp, hf, hoff]

/-- C32: marker disjointness in `optpfor_vector`. In every container built from a non-empty
sequence (all values `<= 2^32-1`), the pointer of block `b` is `BLOCK_FULL` (0) if and only
if the constructor detected the block as a full run (a complete block whose every value is
its predecessor plus one in 32-bit arithmetic); the pointer of every other block is the
offset of its encoded frame in `m_z` and is at least 1, the offsets starting at word 1. So
for an index with an offset other than 0 `operator[]` returns `sample + offset` without
decoding exactly in the blocks that are full runs, and returns the accumulated entry of the
frame decoded at the pointer in every other block. -/
theorem marker_disjoint (junk : Nat → Nat) (cd : BlockCodec) (dens : Nat) (c : List Nat)
    (hdens : 0 < dens) (hne : c ≠ []) (hc : ∀ x ∈ c, x ≤ 2 ^ 32 - 1)
    (hsize : c.length < 2 ^ 64) :
    ∃ v, optpfor_vector.build junk cd dens c = Built.ok v ∧
      ∀ b, b * dens < c.length →
        ∃ p, v.m_sample_vals_and_pointer[2 * b]? = some (c.getD (b * dens) 0) ∧
          v.m_sample_vals_and_pointer[2 * b + 1]? = some p ∧
          (p = BLOCK_FULL ↔
            (b * dens + dens ≤ c.length ∧ is_full (block_tmp dens c b) = true)) ∧
          (p = BLOCK_FULL ↔
            (b * dens + dens ≤ c.length ∧ ∀ j, 0 < j → j < dens →
              c.getD (b * dens + j) 0 = (c.getD (b * dens + j - 1) 0 + 1) % 2 ^ 32)) ∧
          (p ≠ BLOCK_FULL → 1 ≤ p ∧ p = (payload_upto cd true dens c [0] b).length ∧
            ∃ rest, v.m_z.drop p
              = cd.encodeBlock ((fastDelta (block_vals dens c b)).set 0 0) ++ rest) ∧
          ∀ (NDEBUG : Bool) (i : Nat), i / dens = b → i % dens ≠ 0 → i < c.length →
            (p = BLOCK_FULL →
              optpfor_vector.index NDEBUG cd dens v i
                = some ((c.getD (b * dens) 0 + i % dens) % 2 ^ 32)) ∧
            (p ≠ BLOCK_FULL →
              optpfor_vector.index NDEBUG cd dens v i
                = (accumulate (i % dens)
                    ((cd.decodeBlock (v.m_z.drop p)).set 0
                      (c.getD (b * dens) 0 % 2 ^ 32)))[i % dens]?) := by
  have hc2 : ∀ x ∈ c, x < U32 := fun x hx => by
    have := hc x hx
    unfold U32
    omega
  obtain ⟨v, hv, hlay⟩ := delta_build_layout "optpfor_vector: only supports 32bit integers."
    [0] true false junk cd dens c hne hc2 hdens
  have hz0 : ∀ k, 1 ≤ (payload_upto cd true dens c [0] k).length := by
    intro k
    have := payload_upto_length_le cd true dens c [0] 0 k (Nat.zero_le _)
    simpa [payload_upto] using this
  refine ⟨v, hv, ?_⟩
  intro b hb
  have hkn : b < num_blocks dens c.length := (num_blocks_spec dens _ hdens b).mpr hb
  have hsmp := hlay.smp b hkn
  have hptr := hlay.ptr b hkn
  have hiff : block_pointer cd true dens c [0] b = BLOCK_FULL ↔
      (b * dens + dens ≤ c.length ∧ is_full (block_tmp dens c b) = true) := by
    unfold block_pointer
    by_cases hf : b * dens + dens ≤ c.length ∧ is_full (block_tmp dens c b) = true
    · rw [if_pos ⟨hf.1, by rw [hf.2]; rfl⟩]
      exact ⟨fun _ => hf, fun _ => rfl⟩
    · rw [if_neg (fun hh => hf ⟨hh.1, by simpa using hh.2⟩)]
      constructor
      · intro h
        have := hz0 b
        unfold BLOCK_FULL at h
        omega
      · intro h
        exact absurd h hf
  have hrun : b * dens + dens ≤ c.length →
      (is_full (block_tmp dens c b) = true ↔
        ∀ j, 0 < j → j < dens →
          c.getD (b * dens + j) 0 = (c.getD (b * dens + j - 1) 0 + 1) % 2 ^ 32) := by
    intro hk
    rw [is_full_iff, block_tmp_length dens c b hk]
    constructor
    · intro h j h1 h2
      have := h j h1 h2
      rw [block_tmp_getD dens c hc2 b j h2 (by omega),
        block_tmp_getD dens c hc2 b (j - 1) (by omega) (by omega)] at this
      rw [this]
      have e : b * dens + (j - 1) = b * dens + j - 1 := by omega
      rw [e]
      rfl
    · intro h j h1 h2
      rw [block_tmp_getD dens c hc2 b j h2 (by omega),
        block_tmp_getD dens c hc2 b (j - 1) (by omega) (by omega), h j h1 h2]
      have e : b * dens + (j - 1) = b * dens + j - 1 := by omega
      rw [e]
      rfl
  have hst := stored_of_layout cd true false dens c [0] junk v hc2 hdens (fun _ => Nat.le_refl _)
    hlay b hb
  refine ⟨_, hsmp, hptr, hiff, ?_, ?_, ?_⟩
  · rw [hiff]
    constructor
    · intro h
      exact ⟨h.1, (hrun h.1).mp h.2⟩
    · intro h
      exact ⟨h.1, (hrun h.1).mpr h.2⟩
  · intro hnf
    have hnfull : ¬ (b * dens + dens ≤ c.length ∧ is_full (block_tmp dens c b) = true) :=
      fun h => hnf (hiff.mpr h)
    have hpv : block_pointer cd true dens c [0] b = (payload_upto cd true dens c [0] b).length := by
      unfold block_pointer
      rw [if_neg (fun hh => hnfull ⟨hh.1, by simpa using hh.2⟩)]
    refine ⟨by rw [hpv]; exact hz0 b, hpv, ?_⟩
    obtain ⟨_, p, hp, hcase⟩ := hst
    rw [hptr] at hp
    injection hp with hp
    rcases hcase with ⟨_, hpf, _⟩ | ⟨_, _, rest, hdrop⟩
    · exact absurd (hp.trans hpf) hnf
    · exact ⟨rest, by rw [hp]; exact hdrop⟩
  · intro NDEBUG i hib hoff hi
    have hassert : NDEBUG = true ∨ (i < v.m_size ∧ (i + 1) % U64 ≠ 0) :=
      Or.inr ⟨by rw [hlay.size_eq]; exact hi, by unfold U64; omega⟩
    have := optpfor_index_branches NDEBUG cd dens v i (c.getD (b * dens) 0)
      (block_pointer cd true dens c [0] b) hoff (by rw [hib]; exact hsmp)
      (by rw [hib]; exact hptr) hassert
    exact this

/-- C32 at a concrete input: of the blocks `[5, 3]`, `[7, 8]` and `[2]` of `5, 3, 7, 8, 2`
block 1 is a run; its pointer is the marker and `operator[](3)` returns `7 + 1`. -/
theorem marker_disjoint_witness :
    ∃ v, optpfor_vector.build (fun _ => 0) (plainCodec 2) 2 [5, 3, 7, 8, 2] = Built.ok v ∧
      v.m_sample_vals_and_pointer[2 * 1 + 1]? = some BLOCK_FULL ∧
      optpfor_vector.index false (plainCodec 2) 2 v 3 = some 8 := by
  obtain ⟨v, hv, h⟩ := marker_disjoint (fun _ => 0) (plainCodec 2) 2 [5, 3, 7, 8, 2] (by decide)
    (by decide) (by decide) (by decide)
  obtain ⟨p, _, hp, _, hiff, _, hidx⟩ := h 1 (by decide)
  have hpf : p = BLOCK_FULL := hiff.mpr ⟨by decide, fun j h1 h2 => by
    have : j = 1 := by omega
    subst this
    decide⟩
  exact ⟨v, hv, hpf ▸ hp, ((hidx false 3 (by decide) (by decide) (by decide)).1 hpf).trans
    (by decide)⟩

/-! ## `rank_bwt` and `select_bwt` are inverse to each other -/

/-- The two ranks around the position `select_bwt(i, c)` returns, for a non-empty interval
of `C` on which `m_psi` is strictly increasing. -/
theorem rank_of_select (csa : Csa) (i c cc lo hi : Nat)
    (hcc : csa.m_alphabet.m_char2comp[c]? = some cc) (hocc : ¬ (cc = 0 ∧ c ≠ 0))
    (hlo : csa.m_alphabet.m_C[cc]? = some lo) (hhi : csa.m_alphabet.m_C[1 + cc]? = some hi)
    (hsz : hi ≤ csa.m_psi.length) (hlen : csa.m_psi.length < 2 ^ 63)
    (hval : ∀ x ∈ csa.m_psi, x < csa.m_psi.length)
    (hmono : ∀ j k, lo ≤ j → j < k → k < hi → csa.m_psi.getD j 0 < csa.m_psi.getD k 0)
    (h1 : 1 ≤ i) (h2 : i ≤ hi - lo) :
    csa_bitcompressed.select_bwt csa i c = Built.ok (csa.m_psi.getD (lo + i - 1) 0) ∧
    csa_bitcompressed.rank_bwt csa ((csa.m_psi.getD (lo + i - 1) 0 + 1) % 2 ^ 64) c
      = Built.ok i ∧
    csa_bitcompressed.rank_bwt csa (csa.m_psi.getD (lo + i - 1) 0) c = Built.ok (i - 1) := by
  have hpl : csa.m_psi.getD (lo + i - 1) 0 < csa.m_psi.length := by
    rw [List.getD_eq_getElem _ _ (by omega)]
    exact hval _ (List.getElem_mem _)
  have hmonole : ∀ j k, lo ≤ j → j ≤ k → k < hi →
      csa.m_psi.getD j 0 ≤ csa.m_psi.getD k 0 := by
    intro j k a b d
    rcases Nat.eq_or_lt_of_le b with e | e
    · rw [e]
    · exact Nat.le_of_lt (hmono j k a e d)
  refine ⟨?_, ?_, ?_⟩
  · exact (select_bwt_in_range csa i c cc lo hi hcc hlo hhi (by omega) hsz
      (by unfold U64; omega)).2.1 hocc h1 h2
  · rw [Nat.mod_eq_of_lt (by omega),
      rank_bwt_search csa _ c cc lo hi hcc hocc hlo hhi (by omega) hsz hlen hmono,
      countP_threshold _ lo (lo + i) hi (by omega) (by omega)
        (fun j a b => decide_eq_true
          (Nat.lt_succ_of_le (hmonole j (lo + i - 1) a (by omega) (by omega))))
        (fun j a b => decide_eq_false (by
          have := hmono (lo + i - 1) j (by omega) (by omega) b
          omega))]
    congr 1
    omega
  · rw [rank_bwt_search csa _ c cc lo hi hcc hocc hlo hhi (by omega) hsz hlen hmono,
      countP_threshold _ lo (lo + i - 1) hi (by omega) (by omega)
        (fun j a b => decide_eq_true (hmono j (lo + i - 1) a b (by omega)))
        (fun j a b => decide_eq_false (by
          have := hmonole (lo + i - 1) j (by omega) a b
          omega))]
    congr 1
    omega

/-- C37: `rank_bwt` and `select_bwt` of `csa_bitcompressed` are inverse to each other. On an
index whose alphabet is the one `byte_alphabet_strategy` builds from a text of bytes with one
null byte and whose `psi` holds a position of the text for every position: for every byte `c`
that occurs in the text the interval `[C[cc], C[cc+1])` of `cc = char2comp[c]` has as many
positions as `c` has occurrences, and when `psi` is strictly increasing on it, then for every
`i` with `1 <= i <= C[cc+1] - C[cc]` the call `select_bwt(i, c)` returns a position `p` with
`rank_bwt(p + 1, c) == i` and `rank_bwt(p, c) == i - 1`. The same holds for every index in
which the cells of the alphabet pass the test of occurrence of the code. -/
theorem rank_select_inverse (NDEBUG : Bool) (text : List Nat) (cap : Nat) (csa : Csa) (c : Nat)
    (hcap : 0 < cap) (hb : ∀ x ∈ text, x < 256) (hn : text.length < 2 ^ 63)
    (h0 : text.count 0 = 1)
    (hal : byte_alphabet_strategy.build NDEBUG text cap text.length
      = Asserted.ok csa.m_alphabet)
    (hpsi : csa.m_psi.length = text.length) (hval : ∀ x ∈ csa.m_psi, x < csa.m_psi.length) :
    (c ∈ text → ∃ cc lo hi, csa.m_alphabet.m_char2comp[c]? = some cc ∧
      csa.m_alphabet.m_C[cc]? = some lo ∧ csa.m_alphabet.m_C[1 + cc]? = some hi ∧
      hi = lo + text.count c ∧ lo < hi ∧
      ((∀ j k, lo ≤ j → j < k → k < hi → csa.m_psi.getD j 0 < csa.m_psi.getD k 0) →
        ∀ i, 1 ≤ i → i ≤ hi - lo →
          ∃ p, csa_bitcompressed.select_bwt csa i c = Built.ok p ∧
            csa_bitcompressed.rank_bwt csa ((p + 1) % 2 ^ 64) c = Built.ok i ∧
            csa_bitcompressed.rank_bwt csa p c = Built.ok (i - 1))) ∧
    (∀ cc lo hi i, csa.m_alphabet.m_char2comp[c]? = some cc → ¬ (cc = 0 ∧ c ≠ 0) →
      csa.m_alphabet.m_C[cc]? = some lo → csa.m_alphabet.m_C[1 + cc]? = some hi →
      hi ≤ csa.m_psi.length →
      (∀ j k, lo ≤ j → j < k → k < hi → csa.m_psi.getD j 0 < csa.m_psi.getD k 0) →
      1 ≤ i → i ≤ hi - lo →
      ∃ p, csa_bitcompressed.select_bwt csa i c = Built.ok p ∧
        csa_bitcompressed.rank_bwt csa ((p + 1) % 2 ^ 64) c = Built.ok i ∧
        csa_bitcompressed.rank_bwt csa p c = Built.ok (i - 1)) := by
  have hn64 : text.length < U64 := by
    unfold U64
    omega
  have hlen : csa.m_psi.length < 2 ^ 63 := by rw [hpsi]; exact hn
  constructor
  · intro hm
    have hc : c < 256 := hb c hm
    obtain ⟨cc, lo, hi, h1, h2, h3, h4, h5, h6, h7⟩ :=
      (alphabet_cells NDEBUG text cap csa.m_alphabet hcap hb hn64 h0 hal c hc).2 hm
    refine ⟨cc, lo, hi, h1, h3, h4, h5, h6, ?_⟩
    intro hmono i hi1 hi2
    exact ⟨_, rank_of_select csa i c cc lo hi h1 h2 h3 h4 (by omega) hlen hval hmono hi1 hi2⟩
  · intro cc lo hi i h1 h2 h3 h4 hsz hmono hi1 hi2
    exact ⟨_, rank_of_select csa i c cc lo hi h1 h2 h3 h4 hsz hlen hval hmono hi1 hi2⟩

set_option maxRecDepth 20000 in
/-- C37 at a concrete input, the index of the text `2, 1, 2, 0` (BWT `2, 2, 1, 0`): the
second 2 of the BWT stands at position 1, with two occurrences of 2 up to it and one in
front of it. -/
theorem rank_select_inverse_witness :
    csa_bitcompressed.select_bwt csa_2120 2 2 = Built.ok 1 ∧
    csa_bitcompressed.rank_bwt csa_2120 ((1 + 1) % 2 ^ 64) 2 = Built.ok 2 ∧
    csa_bitcompressed.rank_bwt csa_2120 1 2 = Built.ok (2 - 1) := by
  obtain ⟨p, hp, h1, h2⟩ := (rank_select_inverse false [2, 1, 2, 0] 2 csa_2120 2 (by decide)
    (by decide) (by decide) (by decide) (by decide!) (by decide) (by decide)).2 2 2 4 2 rfl
    (by decide) rfl rfl (by decide)
    (fun j k h1 h2 h3 => by
      have hj : j = 2 := by omega
      have hk : k = 3 := by omega
      subst hj
      subst hk
      decide) (by decide) (by decide)
  have e : p = 1 := by
    have h : csa_bitcompressed.select_bwt csa_2120 2 2 = Built.ok 1 := by decide
    rw [h] at hp
    injection hp with hp
    exact hp.symm
  subst e
  exact ⟨hp, h1, h2⟩

/-! ## The mapping between bytes and their codes -/

/-- An occurring byte has more occurring bytes below it than every smaller byte has. -/
theorem symbols_below_lt (text : List Nat) (b1 b2 : Nat) (h : b1 < b2) (hm : b1 ∈ text) :
    ((List.range b1).filter fun a => decide (a ∈ text)).length
      < ((List.range b2).filter fun a => decide (a ∈ text)).length := by
  have hsplit : List.range b2 = List.range (b1 + 1) ++ List.range' (b1 + 1) (b2 - (b1 + 1)) := by
    have h1 := List.range'_append 0 (b1 + 1) (b2 - (b1 + 1)) 1
    rw [Nat.one_mul, Nat.zero_add] at h1
    have e : b2 - (b1 + 1) + (b1 + 1) = b2 := by omega
    rw [e] at h1
    rw [List.range_eq_range', List.range_eq_range', ← h1]
  rw [hsplit, List.filter_append, List.length_append, List.range_succ, List.filter_append,
    List.length_append, List.filter_cons_of_pos (by simpa using hm)]
  simp only [List.filter_nil, List.length_cons, List.length_nil]
  omega

theorem text_symbols_mem (text : List Nat) (x : Nat) (hx : x ∈ text_symbols text) :
    x < 256 ∧ x ∈ text := by
  unfold text_symbols at hx
  rw [List.mem_filter, List.mem_range] at hx
  exact ⟨hx.1, by simpa using hx.2⟩

/-- The `k`-th occurring byte has `k` occurring bytes below it. -/
theorem symbols_below_symbol (text : List Nat) (k : Nat) (hk : k < (text_symbols text).length) :
    ((List.range ((text_symbols text).getD k 0)).filter fun a => decide (a ∈ text)).length
      = k := by
  have hk2 : (text_symbols text).getD k 0 = (text_symbols text)[k] :=
    List.getD_eq_getElem _ _ hk
  have hmem : (text_symbols text).getD k 0 ∈ text_symbols text := by
    rw [hk2]
    exact List.getElem_mem _
  obtain ⟨hlt, hin⟩ := text_symbols_mem text _ hmem
  obtain ⟨hr1, hr2⟩ := text_symbols_rank text _ hlt hin
  have hnd : (text_symbols text).Nodup := (List.nodup_range 256).filter _
  generalize (text_symbols text).getD k 0 = b at hk2 hr1 hr2 ⊢
  rw [List.getD_eq_getElem _ _ hr1] at hr2
  exact hnd.getElem_inj_iff.mp (hr2.trans hk2)

/-- C38: the mapping of `byte_alphabet_strategy` after the construction from a non-empty text
of bytes with `len` the length of the text (for every block capacity of the buffer; in a
build without `NDEBUG` the text holds the null byte once, or no object is constructed):
`comp2char[char2comp[b]] == b` for every byte `b` that occurs in the text,
`char2comp[comp2char[k]] == k` for every `k < sigma`, `char2comp` is strictly increasing on
the occurring bytes, and every byte that does not occur is mapped to 0. -/
theorem alphabet_mapping (NDEBUG : Bool) (text : List Nat) (cap : Nat) (hcap : 0 < cap)
    (hne : text ≠ []) (hb : ∀ x ∈ text, x < 256) (hn : text.length < 2 ^ 64)
    (h0 : NDEBUG = true ∨ text.count 0 = 1) :
    ∃ al, byte_alphabet_strategy.build NDEBUG text cap text.length = Asserted.ok al ∧
      (∀ b, b ∈ text →
        ∃ k, al.m_char2comp[b]? = some k ∧ k < al.m_sigma ∧ al.m_comp2char[k]? = some b) ∧
      (∀ k, k < al.m_sigma →
        ∃ b, al.m_comp2char[k]? = some b ∧ b ∈ text ∧ al.m_char2comp[b]? = some k) ∧
      (∀ b1 b2 k1 k2, b1 ∈ text → b2 ∈ text → b1 < b2 → al.m_char2comp[b1]? = some k1 →
        al.m_char2comp[b2]? = some k2 → k1 < k2) ∧
      (∀ b, b < 256 → b ∉ text → al.m_char2comp[b]? = some 0) := by
  obtain ⟨al, hal, hs, hcomp, hc2l, hc2, _, _⟩ :=
    alphabet_build_spec NDEBUG text cap hcap hne hb hn h0
  have hcell : ∀ b, b ∈ text → al.m_char2comp[b]?
      = some ((List.range b).filter fun a => decide (a ∈ text)).length := by
    intro b hm
    rw [getElem?_eq_some_getD _ _ (by rw [hc2l]; exact hb b hm), hc2 b (hb b hm), if_pos hm]
  refine ⟨al, hal, ?_, ?_, ?_, ?_⟩
  · intro b hm
    obtain ⟨hr1, hr2⟩ := text_symbols_rank text b (hb b hm) hm
    refine ⟨_, hcell b hm, by rw [hs]; exact hr1, ?_⟩
    rw [hcomp, getElem?_eq_some_getD _ _ hr1, hr2]
  · intro k hk
    rw [hs] at hk
    have hmem : (text_symbols text).getD k 0 ∈ text_symbols text := by
      rw [List.getD_eq_getElem _ _ hk]
      exact List.getElem_mem _
    have hin : (text_symbols text).getD k 0 ∈ text := (text_symbols_mem text _ hmem).2
    refine ⟨(text_symbols text).getD k 0, ?_, hin, ?_⟩
    · rw [hcomp]
      exact getElem?_eq_some_getD _ _ hk
    · rw [hcell _ hin, symbols_below_symbol text k hk]
  · intro b1 b2 k1 k2 hm1 hm2 hlt hk1 hk2
    rw [hcell b1 hm1] at hk1
    rw [hcell b2 hm2] at hk2
    injection hk1 with hk1
    injection hk2 with hk2
    rw [← hk1, ← hk2]
    exact symbols_below_lt text b1 b2 hlt hm1
  · intro b hb256 hm
    rw [getElem?_eq_some_getD _ _ (by rw [hc2l]; exact hb256), hc2 b hb256, if_neg hm]

/-- C38 at a concrete input: in the text `2, 1, 2, 0` the byte 2 has the code 2 and the
code 2 stands for the byte 2. -/
theorem alphabet_mapping_witness :
    ∃ al, byte_alphabet_strategy.build false [2, 1, 2, 0] 3 [2, 1, 2, 0].length
        = Asserted.ok al ∧
      (∃ k, al.m_char2comp[2]? = some k ∧ k < al.m_sigma ∧ al.m_comp2char[k]? = some 2) ∧
      al.m_char2comp[7]? = some 0 :=
  (alphabet_mapping false [2, 1, 2, 0] 3 (by decide) (by decide) (by decide) (by decide)
    (Or.inr (by decide))).imp fun _ h =>
      ⟨h.1, h.2.1 2 (by decide), h.2.2.2.2 7 (by decide) (by decide)⟩

/-! ## `operator<<` for `uint128_t` -/

theorem put_hex_digit (d : Nat) (h : d < 16) : put_hex d = [Nat.digitChar d] := by
  unfold put_hex
  interval_cases d <;> rfl

theorem hex_digit_value_digitChar (d : Nat) (h : d < 16) :
    hex_digit_value (Nat.digitChar d) = d := by
  interval_cases d <;> rfl

theorem shifted_nibble (X p : Nat) (hp : p < 15) :
    X * 16 % U64 / 16 ^ (15 - p) % 16 = X / 16 ^ (15 - (p + 1)) % 16 := by
  unfold U64
  interval_cases p <;> norm_num <;> omega

/-- The characters the inner loop writes for a 64-bit word: its `n` upper hexadecimal digits,
the most significant first. -/
theorem hex_word_eq (n : Nat) : ∀ X, n ≤ 16 → X < 2 ^ 64 →
    hex_word n X = (List.range n).map fun p => Nat.digitChar (X / 16 ^ (15 - p) % 16) := by
  induction n with
  | zero => intro X _ _; rfl
  | succ n ih =>
    intro X hn hX
    have hX2 : X * 16 % U64 < 2 ^ 64 := Nat.mod_lt _ (by decide)
    rw [hex_word, ih _ (by omega) hX2, put_hex_digit _ (Nat.mod_lt _ (by decide)),
      List.range_succ_eq_map, List.map_cons, List.map_map]
    have e0 : X / 2 ^ 60 % 16 = X / 16 ^ (15 - 0) % 16 := by norm_num
    rw [e0]
    simp only [List.singleton_append, List.cons.injEq, true_and]
    apply List.map_congr_left
    intro p hp
    rw [List.mem_range] at hp
    simp only [Function.comp_apply, Nat.succ_eq_add_one]
    rw [shifted_nibble X p (by omega)]

theorem upper_nibble (x p : Nat) (hx : x < 2 ^ 128) (hp : p < 16) :
    x / 2 ^ 64 % U64 / 16 ^ (15 - p) % 16 = x / 16 ^ (31 - p) % 16 := by
  unfold U64
  interval_cases p <;> norm_num <;> omega

theorem lower_nibble (x p : Nat) (hp : p < 16) :
    x % U64 / 16 ^ (15 - p) % 16 = x / 16 ^ (31 - (16 + p)) % 16 := by
  unfold U64
  interval_cases p <;> norm_num <;> omega

/-- The characters `operator<<` writes for a 128-bit value: its 32 hexadecimal digits. -/
theorem uint128_write_eq (x : Nat) (hx : x < 2 ^ 128) :
    uint128_write x = (List.range 32).map fun p => Nat.digitChar (x / 16 ^ (31 - p) % 16) := by
  have h32 : List.range 32 = List.range 16 ++ (List.range 16).map (16 + ·) :=
    List.range_add 16 16
  unfold uint128_write
  have hu : ∀ y, y % U64 < 2 ^ 64 := fun y => Nat.mod_lt _ (by decide)
  rw [hex_word_eq 16 (x / 2 ^ 64 % U64) (Nat.le_refl _) (hu _),
    hex_word_eq 16 (x % U64) (Nat.le_refl _) (hu _), h32, List.map_append, List.map_map]
  congr 1
  · apply List.map_congr_left
    intro p hp
    rw [List.mem_range] at hp
    rw [upper_nibble x p hx hp]
  · apply List.map_congr_left
    intro p hp
    rw [List.mem_range] at hp
    simp only [Function.comp_apply]
    rw [lower_nibble x p hp]

/-- Reading the `k` leading digits of the 32-digit representation gives the value above the
remaining digits. -/
theorem hex_value_digits (x : Nat) (hx : x < 2 ^ 128) : ∀ k, k ≤ 32 →
    hex_value ((List.range k).map fun p => Nat.digitChar (x / 16 ^ (31 - p) % 16))
      = x / 16 ^ (32 - k) := by
  intro k
  induction k with
  | zero =>
    intro _
    have h0 : x / 16 ^ (32 - 0) = 0 := Nat.div_eq_of_lt (by norm_num; omega)
    rw [h0]
    rfl
  | succ k ih =>
    intro hk
    have ih2 := ih (by omega)
    unfold hex_value at ih2 ⊢
    rw [List.range_succ, List.map_append, List.foldl_append, ih2]
    simp only [List.map_cons, List.map_nil, List.foldl_cons, List.foldl_nil]
    rw [hex_digit_value_digitChar _ (Nat.mod_lt _ (by decide))]
    have e1 : 32 - k = (31 - k) + 1 := by omega
    have e2 : 32 - (k + 1) = 31 - k := by omega
    rw [e1, e2, pow_succ, ← Nat.div_div_eq_div_mul]
    omega

/-- Claim C39: for every 128-bit value `x`, `operator<<` writes exactly 32 characters, each a
hexadecimal digit; the character at position `p` is the digit of weight `16^(31-p)` of `x`, so
the most significant digit comes first and leading zeros are written; read as a base-16
number, the characters give `x`. -/
theorem uint128_write_hex (x : Nat) (hx : x < 2 ^ 128) :
    (uint128_write x).length = 32 ∧
    (∀ p, p < 32 →
      (uint128_write x)[p]? = some (Nat.digitChar (x / 16 ^ (31 - p) % 16))) ∧
    (∀ ch ∈ uint128_write x, ch ∈ "0123456789abcdef".toList) ∧
    hex_value (uint128_write x) = x := by
  rw [uint128_write_eq x hx]
  refine ⟨by simp, ?_, ?_, ?_⟩
  · intro p hp
    rw [List.getElem?_map, List.getElem?_range hp]
    rfl
  · intro ch hch
    rw [List.mem_map] at hch
    obtain ⟨p, _, rfl⟩ := hch
    have hd : x / 16 ^ (31 - p) % 16 < 16 := Nat.mod_lt _ (by decide)
    generalize x / 16 ^ (31 - p) % 16 = d at hd
    interval_cases d <;> decide
  · rw [hex_value_digits x hx 32 (Nat.le_refl _)]
    simp

theorem uint128_write_hex_witness :
    (2 ^ 64 + 255 < 2 ^ 128) ∧
    uint128_write (2 ^ 64 + 255) = "000000000000000100000000000000ff".toList ∧
    hex_value (uint128_write (2 ^ 64 + 255)) = 2 ^ 64 + 255 :=
  ⟨by norm_num, by decide, (uint128_write_hex (2 ^ 64 + 255) (by norm_num)).2.2.2⟩

/-! ## Encoder and decoder of `ef_vector` -/

/-- The bits `encode_block` appends: the tag 0 and the raw list, or, for sorted data above
`top[cur_block]` in a block that is not the last one, the tag and the list of the type that
`determine_block_type` chose for the universe `top[cur_block+1] - top[cur_block]`. -/
theorem encode_block_cases (lc : ListCodecs) (os : List Bool) (data : List Nat) (k : Nat)
    (top : List Nat) (last : Bool) (r : List Bool × Nat)
    (h : encode_block lc os data k top last = some r) :
    r.2 = os.length ∧
    (r.1 = os ++ (int_bits 0 2 ++ lc.raw_create data) ∨
     ∃ t0 t1, top[k]? = some t0 ∧ top[k + 1]? = some t1 ∧ last = false ∧
       is_sorted data = true ∧
       ((determine_block_type lc data.length ((t1 + U64 - t0) % U64) = efv_blocktype.BV ∧
          r.1 = os ++ (int_bits 1 2 ++
            lc.bv_create (data.map fun x => (x + U64 - t0) % U64) ((t1 + U64 - t0) % U64))) ∨
        (determine_block_type lc data.length ((t1 + U64 - t0) % U64) = efv_blocktype.EF ∧
          r.1 = os ++ (int_bits 2 2 ++
            lc.ef_create (data.map fun x => (x + U64 - t0) % U64) data.length
              ((t1 + U64 - t0) % U64))) ∨
        (determine_block_type lc data.length ((t1 + U64 - t0) % U64) = efv_blocktype.FULL ∧
          r.1 = os ++ int_bits 3 2))) := by
  refine ⟨encode_block_offset lc os data k top last r h, ?_⟩
  unfold encode_block at h
  dsimp only at h
  by_cases hs : is_sorted data = true
  · rw [if_pos hs] at h
    cases ht0 : top[k]? with
    | none => rw [ht0] at h; cases h
    | some t0 =>
      cases hd0 : data[0]? with
      | none => rw [ht0, hd0] at h; cases h
      | some d0 =>
        rw [ht0, hd0] at h
        dsimp only at h
        by_cases hc : (decide (t0 < d0) && !last) = true
        · rw [if_pos hc] at h
          have hl : last = false := by
            cases last with
            | false => rfl
            | true => simp at hc
          cases ht1 : top[k + 1]? with
          | none => rw [ht1] at h; cases h
          | some t1 =>
            rw [ht1] at h
            dsimp only at h
            right
            refine ⟨t0, t1, rfl, rfl, hl, hs, ?_⟩
            cases hty : determine_block_type lc data.length ((t1 + U64 - t0) % U64) with
            | BV =>
              rw [hty] at h
              injection h with h
              left
              refine ⟨rfl, ?_⟩
              rw [← h]
              unfold put_int
              rw [List.append_assoc]
            | EF =>
              rw [hty] at h
              injection h with h
              right; left
              refine ⟨rfl, ?_⟩
              rw [← h]
              unfold put_int
              rw [List.append_assoc]
            | FULL =>
              rw [hty] at h
              injection h with h
              right; right
              refine ⟨rfl, ?_⟩
              rw [← h]
              rfl
        · rw [if_neg hc] at h
          injection h with h
          left
          rw [← h]
          unfold put_int
          rw [List.append_assoc]
  · rw [if_neg hs] at h
    injection h with h
    left
    rw [← h]
    unfold put_int
    rw [List.append_assoc]

theorem encode_block_appends (lc : ListCodecs) (os : List Bool) (data : List Nat) (k : Nat)
    (top : List Nat) (last : Bool) (r : List Bool × Nat)
    (h : encode_block lc os data k top last = some r) : ∃ body, r = (os ++ body, os.length) := by
  obtain ⟨h2, h1⟩ := encode_block_cases lc os data k top last r h
  obtain ⟨r1, r2⟩ := r
  dsimp only at h1 h2
  subst h2
  rcases h1 with h1 | ⟨t0, t1, _, _, _, _, h1 | h1 | h1⟩
  · exact ⟨_, by rw [h1]⟩
  · exact ⟨_, by rw [h1.2]⟩
  · exact ⟨_, by rw [h1.2]⟩
  · exact ⟨_, by rw [h1.2]⟩

theorem ef_index_bv (lc : ListCodecs) (B : Nat) (v : EfVector) (i data_offset t0 t1 : Nat)
    (h1 : v.m_block_data[2 * (i / B)]? = some data_offset)
    (h2 : peek_int v.m_low_data data_offset 2 = some 1)
    (h3 : v.m_block_data[2 * (i / B) + 1]? = some t0)
    (h4 : v.m_block_data[2 * (i / B + 1) + 1]? = some t1) :
    ef_vector.index lc B v i =
      ((lc.bv_materialize v.m_low_data (data_offset + 2) B ((t1 + U64 - t0) % U64))[i % B]?).map
        fun x => (t0 + x) % U64 := by
  unfold ef_vector.index
  simp only [h1, h2, h3, h4]
  rfl

theorem ef_index_ef (lc : ListCodecs) (B : Nat) (v : EfVector) (i data_offset t0 t1 : Nat)
    (h1 : v.m_block_data[2 * (i / B)]? = some data_offset)
    (h2 : peek_int v.m_low_data data_offset 2 = some 2)
    (h3 : v.m_block_data[2 * (i / B) + 1]? = some t0)
    (h4 : v.m_block_data[2 * (i / B + 1) + 1]? = some t1) :
    ef_vector.index lc B v i =
      ((lc.ef_materialize v.m_low_data (data_offset + 2) B ((t1 + U64 - t0) % U64))[i % B]?).map
        fun x => (t0 + x) % U64 := by
  unfold ef_vector.index
  simp only [h1, h2, h3, h4]
  rfl

theorem encode_top_length (top : List Nat) (k : Nat) (table : List Nat) :
    (encode_top top k table).length = table.length := by
  induction k with
  | zero => rfl
  | succ k ih => rw [encode_top, List.length_set, ih]

theorem encode_top_even (top : List Nat) (k : Nat) (table : List Nat) (j : Nat) :
    (encode_top top k table)[2 * j]? = table[2 * j]? := by
  induction k with
  | zero => rfl
  | succ k ih =>
    rw [encode_top, List.getElem?_set_ne (by omega), ih]

theorem encode_top_odd (top : List Nat) (k : Nat) (table : List Nat) (i : Nat) (hi : i < k)
    (hlen : 2 * i + 1 < table.length) :
    (encode_top top k table)[2 * i + 1]? = some (top.getD i 0) := by
  induction k with
  | zero => omega
  | succ k ih =>
    rw [encode_top]
    by_cases hik : i = k
    · subst hik
      rw [List.getElem?_set_self (by rw [encode_top_length]; exact hlen)]
    · rw [List.getElem?_set_ne (by omega), ih (by omega)]

/-- The block loop on `m` complete blocks followed by a short tail, when it is defined: the
stream only grows, the cells below the first block written stay as they were, and every one
of the `m` blocks is stored at the position recorded for it. -/
theorem fill_blocks_layout (lc : ListCodecs) (B : Nat) (top : List Nat) (hB : 0 < B) (m : Nat) :
    ∀ (rest : List Nat) (st st2 : EfState), st.tmp = [] → m * B ≤ rest.length →
      rest.length < m * B + B → 2 * (st.cur_block + m) ≤ st.m_block_data.length →
      fill_blocks lc B top rest st = some st2 →
      (∃ post, st2.os = st.os ++ post) ∧ st2.cur_block = st.cur_block + m ∧
        st2.tmp = (rest.drop (m * B)).map (· % U64) ∧
        st2.m_block_data.length = st.m_block_data.length ∧
        (∀ x, x < 2 * st.cur_block → st2.m_block_data[x]? = st.m_block_data[x]?) ∧
        ∀ j, j < m → EfBlockStored lc top st2.os st2.m_block_data (st.cur_block + j)
          (((rest.drop (j * B)).take B).map (· % U64)) false := by
  induction m with
  | zero =>
    intro rest st st2 htmp _ h2 _ h
    rw [Nat.zero_mul, Nat.zero_add] at h2
    rw [fill_blocks_tail lc B top rest st (by rw [htmp]; simpa using h2)] at h
    injection h with h
    subst h
    refine ⟨⟨[], by simp⟩, rfl, by simp [htmp], rfl, fun _ _ => rfl, fun j hj => by omega⟩
  | succ m ih =>
    intro rest st st2 htmp h1 h2 h3 h
    have hsucc : (m + 1) * B = m * B + B := by rw [Nat.add_mul, Nat.one_mul]
    rw [hsucc] at h1 h2
    have hsplit : rest = rest.take B ++ rest.drop B := (List.take_append_drop B rest).symm
    have htake : (rest.take B).length = B := by
      rw [List.length_take]
      omega
    have hne : rest.take B ≠ [] := by
      intro h
      rw [h] at htake
      simp at htake
      omega
    have hc := fill_blocks_chunk lc B top (rest.take B) (rest.drop B) st
      (by rw [htmp, htake]; simp) hne
    rw [← hsplit] at hc
    rw [hc, htmp, List.nil_append] at h
    cases he : encode_block lc st.os ((rest.take B).map (· % U64)) st.cur_block top false with
    | none => rw [he] at h; cases h
    | some r =>
      obtain ⟨body, hr⟩ := encode_block_appends lc _ _ _ _ _ r he
      subst hr
      rw [he] at h
      dsimp only at h
      obtain ⟨⟨post, hos⟩, hc2, ht2, hl2, hkeep, hblocks⟩ := ih (rest.drop B)
        { os := st.os ++ body, tmp := [],
          m_block_data := st.m_block_data.set (2 * st.cur_block) st.os.length,
          cur_block := st.cur_block + 1 } st2 rfl
        (by rw [List.length_drop]; omega) (by rw [List.length_drop]; omega)
        (by show 2 * (st.cur_block + 1 + m) ≤ (st.m_block_data.set _ _).length
            rw [List.length_set]; omega) h
      dsimp only at hos hc2 hl2 hkeep hblocks
      refine ⟨⟨body ++ post, by rw [hos, List.append_assoc]⟩, by rw [hc2]; omega, ?_,
        by rw [hl2, List.length_set], ?_, ?_⟩
      · rw [ht2, List.drop_drop, hsucc]
        congr 2
        omega
      · intro x hx
        rw [hkeep x (by omega), List.getElem?_set_ne (by omega)]
      · intro j hj
        cases j with
        | zero =>
          refine ⟨st.os, body, post, hos, ?_, ?_⟩
          · rw [Nat.add_zero, hkeep _ (by omega), List.getElem?_set_self (by omega)]
          · rw [Nat.zero_mul, List.drop_zero, Nat.add_zero]
            exact he
        | succ j =>
          have hb := hblocks j (by omega)
          have e1 : st.cur_block + 1 + j = st.cur_block + (j + 1) := by omega
          have e2 : (rest.drop B).drop (j * B) = rest.drop ((j + 1) * B) := by
            rw [List.drop_drop]
            congr 1
            rw [Nat.add_mul, Nat.one_mul]
            omega
          rw [e1, e2] at hb
          exact hb

/-- The statement that encodes the short last block, when it is defined: the stream only
grows, the cells of the other blocks stay as they were, and a last block that is not empty is
stored at the position recorded for it. -/
theorem fill_last_layout (lc : ListCodecs) (top : List Nat) (st st2 : EfState)
    (h : fill_last lc top st = some st2) :
    (∃ extra, st2.os = st.os ++ extra) ∧
      st2.m_block_data.length = st.m_block_data.length ∧
      (∀ j, j ≠ st.cur_block → st2.m_block_data[2 * j]? = st.m_block_data[2 * j]?) ∧
      (st.tmp ≠ [] → 2 * st.cur_block < st.m_block_data.length →
        EfBlockStored lc top st2.os st2.m_block_data st.cur_block st.tmp true) := by
  unfold fill_last at h
  by_cases hne : st.tmp.length ≠ 0
  · rw [if_pos hne] at h
    cases he : encode_block lc st.os st.tmp st.cur_block top true with
    | none => rw [he] at h; cases h
    | some r =>
      obtain ⟨body, hr⟩ := encode_block_appends lc _ _ _ _ _ r he
      subst hr
      rw [he] at h
      dsimp only at h
      injection h with h
      subst h
      refine ⟨⟨body, rfl⟩, by simp, ?_, ?_⟩
      · intro j hj
        exact List.getElem?_set_ne (by omega)
      · intro _ hlen
        exact ⟨st.os, body, [], by simp, List.getElem?_set_self hlen, he⟩
  · rw [if_neg hne] at h
    injection h with h
    subst h
    refine ⟨⟨[], by simp⟩, rfl, fun _ _ => rfl, ?_⟩
    intro h0
    exfalso
    apply hne
    intro hl
    exact h0 (List.length_eq_zero.mp hl)

/-- Every block of the input has an entry of `top`. -/
theorem block_lt_top_length (B : Nat) (c : List Nat) (hB : 0 < B) (k : Nat)
    (hk : k * B < c.length) : k < (ef_top B c).length := by
  rw [ef_top_length]
  have hdm := Nat.div_add_mod c.length B
  have hq : B * (c.length / B) = c.length / B * B := Nat.mul_comm _ _
  have hkq : k ≤ c.length / B := (Nat.le_div_iff_mul_le hB).mpr (Nat.le_of_lt hk)
  by_cases hrem : c.length % B ≠ 0
  · rw [if_pos hrem]
    omega
  · rw [if_neg hrem]
    have hlt : k < c.length / B := by
      apply Nat.lt_of_le_of_ne hkq
      intro he
      rw [he] at hk
      omega
    omega

/-- The layout of a built `ef_vector`: every block of the input is stored in `m_low_data`
at the position that the cell `2*k` of `m_block_data` records, as `encode_block` wrote it for
the values of the block, and the cell `2*i+1` holds `top[i]`. -/
theorem ef_build_layout (junk : Nat → Nat) (lc : ListCodecs) (B : Nat) (c : List Nat)
    (v : EfVector) (k : Nat) (hB : 0 < B) (hbuild : ef_vector.build junk lc B c = Built.ok v)
    (hk : k * B < c.length) :
    EfBlockStored lc (ef_top B c) v.m_low_data v.m_block_data k
        (((c.drop (k * B)).take B).map (· % U64)) (decide (c.length < k * B + B)) ∧
      ∀ i, i < (ef_top B c).length → v.m_block_data[2 * i + 1]? = some ((ef_top B c).getD i 0) := by
  have hdm := Nat.div_add_mod c.length B
  have hq : B * (c.length / B) = c.length / B * B := Nat.mul_comm _ _
  have hmod := Nat.mod_lt c.length hB
  have hkq : k ≤ c.length / B := (Nat.le_div_iff_mul_le hB).mpr (Nat.le_of_lt hk)
  have hktop := block_lt_top_length B c hB k hk
  have hqtop : c.length / B ≤ (ef_top B c).length := by
    rw [ef_top_length]
    omega
  unfold ef_vector.build at hbuild
  rw [construct_top_eq B c hB] at hbuild
  dsimp only at hbuild
  cases h1 : fill_blocks lc B (ef_top B c) c
      { os := [], tmp := [], m_block_data := resize_uninit junk (2 * (ef_top B c).length),
        cur_block := 0 } with
  | none => rw [h1] at hbuild; cases hbuild
  | some st1 =>
    rw [h1] at hbuild
    dsimp only at hbuild
    cases h2 : fill_last lc (ef_top B c) st1 with
    | none => rw [h2] at hbuild; cases hbuild
    | some st2 =>
      rw [h2] at hbuild
      dsimp only at hbuild
      injection hbuild with hv
      subst hv
      unfold bit_compress
      dsimp only
      obtain ⟨_, hc1, ht1, hl1, _, hblocks⟩ := fill_blocks_layout lc B (ef_top B c) hB
        (c.length / B) c _ st1 rfl (by omega) (by omega)
        (by show 2 * (0 + c.length / B) ≤ (resize_uninit junk _).length
            rw [resize_uninit_length]; omega) h1
      dsimp only at hc1 hl1 hblocks
      rw [resize_uninit_length] at hl1
      rw [Nat.zero_add] at hc1
      obtain ⟨⟨extra, hos2⟩, hl2, hkeep2, hlast⟩ := fill_last_layout lc (ef_top B c) st1 st2 h2
      constructor
      · by_cases hfull : k < c.length / B
        · obtain ⟨pre, body, post, hos, hcell, henc⟩ := hblocks k hfull
          rw [Nat.zero_add] at hcell henc
          have hflag : decide (c.length < k * B + B) = false := by
            have : (k + 1) * B ≤ c.length / B * B := Nat.mul_le_mul_right B hfull
            rw [Nat.add_mul, Nat.one_mul] at this
            simp only [decide_eq_false_iff_not]
            omega
          rw [hflag]
          refine ⟨pre, body, post ++ extra, by rw [hos2, hos, List.append_assoc], ?_, henc⟩
          rw [encode_top_even, hkeep2 k (by omega), hcell]
        · have hkeq : k = c.length / B := by omega
          subst hkeq
          have hflag : decide (c.length < c.length / B * B + B) = true := by
            simp only [decide_eq_true_eq]
            omega
          have hdata : ((c.drop (c.length / B * B)).take B) = c.drop (c.length / B * B) :=
            List.take_of_length_le (by rw [List.length_drop]; omega)
          have hne : st1.tmp ≠ [] := by
            rw [ht1]
            intro h
            have := congrArg List.length h
            rw [List.length_map, List.length_drop] at this
            simp at this
            omega
          obtain ⟨pre, body, post, hos, hcell, henc⟩ := hlast hne (by rw [hl1, hc1]; omega)
          rw [hc1, ht1] at henc
          rw [hc1] at hcell
          rw [hflag, hdata]
          exact ⟨pre, body, post, hos, by rw [encode_top_even, hcell], henc⟩
      · intro i hi
        exact encode_top_odd _ _ _ i hi (by rw [hl2, hl1]; omega)

/-- Encoder and decoder on the inputs for which the constructor returns a container: in a
built `ef_vector`, for every block `k` of the input, the bits that
`encode_block` appended for the block (a 2-bit tag and the list) stand in `m_low_data` at the
position that the cell `2*k` records, and `operator[]` reads the tag there and decodes what
the encoder wrote: for tag 0 the raw list from position + 2, without an offset; for the tags
1 and 2 the bitvector list or the Elias-Fano list from position + 2 with `block_size`
elements and the universe `top[k+1] - top[k]` that `create` received, adding `top[k]`; for
tag 3 the formula `top[k] + in_block_offset + 1`. -/
theorem encoder_decoder_agree (junk : Nat → Nat) (lc : ListCodecs) (B : Nat) (c : List Nat)
    (v : EfVector) (k : Nat) (data : List Nat) (hB : 0 < B)
    (hbuild : ef_vector.build junk lc B c = Built.ok v) (hk : k * B < c.length)
    (hdata : data = ((c.drop (k * B)).take B).map (· % U64)) :
    ∃ (top : List Nat) (pre payload post : List Bool) (tag : Nat),
      construct_top B c = some top ∧
      encode_block lc pre data k top (decide (c.length < k * B + B))
        = some (pre ++ (int_bits tag 2 ++ payload), pre.length) ∧
      v.m_low_data = pre ++ (int_bits tag 2 ++ payload) ++ post ∧
      v.m_block_data[2 * k]? = some pre.length ∧
      peek_int v.m_low_data pre.length 2 = some tag ∧
      ((tag = 0 ∧ payload = lc.raw_create data ∧
          ∀ i, i / B = k → ef_vector.index lc B v i
            = (lc.raw_materialize v.m_low_data (pre.length + 2))[i % B]?) ∨
       ∃ t0 t1, top[k]? = some t0 ∧ top[k + 1]? = some t1 ∧
         v.m_block_data[2 * k + 1]? = some t0 ∧ v.m_block_data[2 * (k + 1) + 1]? = some t1 ∧
         data.length = B ∧
         ((tag = 1 ∧
            determine_block_type lc B ((t1 + U64 - t0) % U64) = efv_blocktype.BV ∧
            payload = lc.bv_create (data.map fun x => (x + U64 - t0) % U64)
              ((t1 + U64 - t0) % U64) ∧
            ∀ i, i / B = k → ef_vector.index lc B v i
              = ((lc.bv_materialize v.m_low_data (pre.length + 2) B
                  ((t1 + U64 - t0) % U64))[i % B]?).map fun x => (t0 + x) % U64) ∨
          (tag = 2 ∧
            determine_block_type lc B ((t1 + U64 - t0) % U64) = efv_blocktype.EF ∧
            payload = lc.ef_create (data.map fun x => (x + U64 - t0) % U64) B
              ((t1 + U64 - t0) % U64) ∧
            ∀ i, i / B = k → ef_vector.index lc B v i
              = ((lc.ef_materialize v.m_low_data (pre.length + 2) B
                  ((t1 + U64 - t0) % U64))[i % B]?).map fun x => (t0 + x) % U64) ∨
          (tag = 3 ∧
            determine_block_type lc B ((t1 + U64 - t0) % U64) = efv_blocktype.FULL ∧
            payload = [] ∧
            ∀ i, i / B = k → ef_vector.index lc B v i = some ((t0 + i % B + 1) % U64)))) := by
  subst hdata
  obtain ⟨⟨pre, body, post, hos, hcell, henc⟩, hodd⟩ :=
    ef_build_layout junk lc B c v k hB hbuild hk
  obtain ⟨_, hcases⟩ := encode_block_cases _ _ _ _ _ _ _ henc
  dsimp only at hcases
  have hpeek : ∀ (tag : Nat) (payload : List Bool), tag < 4 →
      body = int_bits tag 2 ++ payload → peek_int v.m_low_data pre.length 2 = some tag := by
    intro tag payload htag hb
    have := peek_tag pre (payload ++ post) tag htag
    unfold put_int at this
    rw [hos, hb, List.append_assoc, List.append_assoc, ← List.append_assoc pre]
    exact this
  rcases hcases with h0 | ⟨t0, t1, ht0, ht1, hl, _, hty⟩
  · have hb := List.append_cancel_left h0
    subst hb
    refine ⟨ef_top B c, pre, _, post, 0, construct_top_eq B c hB, henc, hos, hcell,
      hpeek 0 _ (by omega) rfl, Or.inl ⟨rfl, rfl, ?_⟩⟩
    intro i hi
    exact ef_index_raw lc B v i pre.length (by rw [hi]; exact hcell) (hpeek 0 _ (by omega) rfl)
  · have hk0 : k < (ef_top B c).length := by
      by_contra hge
      rw [List.getElem?_eq_none (Nat.le_of_not_lt hge)] at ht0
      cases ht0
    have hk1 : k + 1 < (ef_top B c).length := by
      by_contra hge
      rw [List.getElem?_eq_none (Nat.le_of_not_lt hge)] at ht1
      cases ht1
    have hc0 : v.m_block_data[2 * k + 1]? = some t0 := by
      rw [hodd k hk0, List.getD_eq_getElem?_getD, ht0]
      rfl
    have hc1 : v.m_block_data[2 * (k + 1) + 1]? = some t1 := by
      rw [hodd (k + 1) hk1, List.getD_eq_getElem?_getD, ht1]
      rfl
    have hfull : k * B + B ≤ c.length := by
      simp only [decide_eq_false_iff_not] at hl
      omega
    have hlen : (((c.drop (k * B)).take B).map (· % U64)).length = B := by
      rw [List.length_map, List.length_take, List.length_drop]
      omega
    rw [hlen] at hty
    rcases hty with ⟨hty, h1⟩ | ⟨hty, h2⟩ | ⟨hty, h3⟩
    · have hb := List.append_cancel_left h1
      subst hb
      refine ⟨ef_top B c, pre, _, post, 1, construct_top_eq B c hB, henc, hos, hcell,
        hpeek 1 _ (by omega) rfl, Or.inr ⟨t0, t1, ht0, ht1, hc0, hc1, hlen,
          Or.inl ⟨rfl, hty, rfl, ?_⟩⟩⟩
      intro i hi
      exact ef_index_bv lc B v i pre.length t0 t1 (by rw [hi]; exact hcell)
        (hpeek 1 _ (by omega) rfl) (by rw [hi]; exact hc0) (by rw [hi]; exact hc1)
    · have hb := List.append_cancel_left h2
      subst hb
      refine ⟨ef_top B c, pre, _, post, 2, construct_top_eq B c hB, henc, hos, hcell,
        hpeek 2 _ (by omega) rfl, Or.inr ⟨t0, t1, ht0, ht1, hc0, hc1, hlen,
          Or.inr (Or.inl ⟨rfl, hty, rfl, ?_⟩)⟩⟩
      intro i hi
      exact ef_index_ef lc B v i pre.length t0 t1 (by rw [hi]; exact hcell)
        (hpeek 2 _ (by omega) rfl) (by rw [hi]; exact hc0) (by rw [hi]; exact hc1)
    · have hb : body = int_bits 3 2 ++ [] := by
        rw [List.append_nil]
        exact List.append_cancel_left h3
      subst hb
      refine ⟨ef_top B c, pre, [], post, 3, construct_top_eq B c hB, henc, hos, hcell,
        hpeek 3 _ (by omega) rfl, Or.inr ⟨t0, t1, ht0, ht1, hc0, hc1, hlen,
          Or.inr (Or.inr ⟨rfl, hty, rfl, ?_⟩)⟩⟩
      intro i hi
      exact ef_index_full lc B v i pre.length t0 (by rw [hi]; exact hcell)
        (hpeek 3 _ (by omega) rfl) (by rw [hi]; exact hc0)

theorem encoder_decoder_agree_witness :
    0 < 2 ∧
    ef_vector.build (fun _ => 0) nullLists 2 [1, 2, 5, 9, 3]
      = Built.ok ⟨5, [true, true, false, true, false, false], [0, 0, 2, 2, 4, 3]⟩ ∧
    1 * 2 < [1, 2, 5, 9, 3].length ∧
    [5, 9] = ((([1, 2, 5, 9, 3] : List Nat).drop (1 * 2)).take 2).map (· % U64) ∧
    ∃ (top : List Nat) (pre payload post : List Bool) (tag : Nat),
      construct_top 2 [1, 2, 5, 9, 3] = some top ∧
      encode_block nullLists pre [5, 9] 1 top (decide ([1, 2, 5, 9, 3].length < 1 * 2 + 2))
        = some (pre ++ (int_bits tag 2 ++ payload), pre.length) ∧
      ([true, true, false, true, false, false] : List Bool)
        = pre ++ (int_bits tag 2 ++ payload) ++ post ∧
      ([0, 0, 2, 2, 4, 3] : List Nat)[2 * 1]? = some pre.length ∧
      peek_int [true, true, false, true, false, false] pre.length 2 = some tag := by
  obtain ⟨top, pre, payload, post, tag, h1, h2, h3, h4, h5, _⟩ :=
    encoder_decoder_agree (fun _ => 0) nullLists 2 [1, 2, 5, 9, 3]
      ⟨5, [true, true, false, true, false, false], [0, 0, 2, 2, 4, 3]⟩ 1 [5, 9]
      (by decide) rfl (by decide) (by decide)
  exact ⟨by decide, rfl, by decide, by decide, top, pre, payload, post, tag, h1, h2, h3, h4, h5⟩

/-- C31 fails on the code: for the input `1, 2, 3, 4` with block size 2 `top` is `0, 2` and
the table `m_block_data` gets `2*top.size() = 4` cells. Block 1 holds `3, 4` and takes the
adaptive branch of `encode_block`, whose universe `top[2] - top[1]` is read outside `top`: the
call has no defined result and the constructor returns no container. On the decoding side,
with the tag 1 or 2 at the recorded offset of block 1, `operator[]` takes its universe from
the cell `2*(1+1)+1 = 5` of the 4-cell table, outside the table as well: for the indices 2 and
3 no universe is passed on from the encoder to the decoder, whatever the list codecs, the
bits in front of the block and the bits of the list are. -/
theorem universe_read_outside_top (junk : Nat → Nat) (lc : ListCodecs)
    (pre payload : List Bool) :
    construct_top 2 [1, 2, 3, 4] = some [0, 2] ∧
    encode_block lc pre [3, 4] 1 [0, 2] false = none ∧
    ef_vector.build junk lc 2 [1, 2, 3, 4] = Built.undefined ∧
    ([0, 0, pre.length, 2] : List Nat)[2 * (1 + 1) + 1]? = none ∧
    ef_vector.index lc 2 ⟨4, put_int pre 1 2 ++ payload, [0, 0, pre.length, 2]⟩ 2 = none ∧
    ef_vector.index lc 2 ⟨4, put_int pre 1 2 ++ payload, [0, 0, pre.length, 2]⟩ 3 = none ∧
    ef_vector.index lc 2 ⟨4, put_int pre 2 2 ++ payload, [0, 0, pre.length, 2]⟩ 2 = none ∧
    ef_vector.index lc 2 ⟨4, put_int pre 2 2 ++ payload, [0, 0, pre.length, 2]⟩ 3 = none := by
  have he0 : ∀ os : List Bool, encode_block lc os [1, 2] 0 [0, 2] false
      = some (put_int os 3 2, os.length) := fun _ => rfl
  have hbuild : ef_vector.build junk lc 2 [1, 2, 3, 4] = Built.undefined := by
    refine ef_build_undefined junk lc 2 [1, 2, 3, 4] [0, 2] rfl ?_
    have s1 := fill_blocks_block lc 2 [0, 2] [1, 2] [3, 4]
      ⟨[], [], resize_uninit junk (2 * [0, 2].length), 0⟩ (put_int [] 3 2) 0 rfl
      (List.cons_ne_nil 1 [2]) (he0 _)
    have s2 := fill_blocks_chunk lc 2 [0, 2] [3, 4] []
      ⟨put_int [] 3 2, [], (resize_uninit junk (2 * [0, 2].length)).set 0 0, 1⟩ rfl
      (List.cons_ne_nil 3 [4])
    have he : encode_block lc (put_int [] 3 2) ([] ++ List.map (· % U64) [3, 4]) 1 [0, 2]
        false = none := rfl
    rw [he] at s2
    exact s1.trans s2
  have hidx : ∀ (t i : Nat), (t = 1 ∨ t = 2) → i / 2 = 1 →
      ef_vector.index lc 2 ⟨4, put_int pre t 2 ++ payload, [0, 0, pre.length, 2]⟩ i
        = none := by
    intro t i ht hi
    have hp := peek_tag pre payload t (by omega)
    unfold ef_vector.index
    dsimp only
    rw [hi]
    have h1 : ([0, 0, pre.length, 2] : List Nat)[2 * 1]? = some pre.length := rfl
    rw [h1]
    dsimp only
    rw [hp]
    dsimp only
    rcases ht with ht | ht
    · subst ht
      rfl
    · subst ht
      rfl
  exact ⟨rfl, rfl, hbuild, rfl, hidx 1 2 (Or.inl rfl) rfl, hidx 1 3 (Or.inl rfl) rfl,
    hidx 2 2 (Or.inr rfl) rfl, hidx 2 3 (Or.inr rfl) rfl⟩

end sdsl
